import Mathlib

/-!
Keyhole: slow-operation log analyzer and FTDC frame reader

A shallow embedding of `sim/util/loginfo.go` and of the frame loop of
`core/diagnostic.go`, followed by theorems about them.

Conventions of the embedding.

* A Go `string` is a sequence of bytes.  It is modelled by `GoString`, a list with
  one `Char` per byte (the code of the `Char` is the value of the byte).  String
  constants of the program are ASCII, so the characters of the Lean literal are
  its bytes.
* `for _, r := range s` decodes UTF-8: it yields one rune per iteration and an
  invalid byte yields one rune of width 1.  `runes` performs this decoding.  The
  program compares runes only with ASCII characters, so a rune is modelled by
  `some c` for the ASCII character `c` and by `none` for any other rune.
* A Go `int` is a 64-bit two's complement integer: it is modelled by `Int`, and
  `wrapInt` is applied where the program adds.
* `regexp` (leftmost-first matching) is modelled by a backtracking matcher over a
  small pattern type; every pattern of the program is written out as a term.
-/

namespace Keyhole

/-! ## Go strings -/

/-- A Go string: its bytes, one `Char` per byte. -/
abbrev GoString := List Char

/-- A rune as far as the program can tell runes apart: `some c` is the ASCII
character `c`, `none` is any rune outside ASCII (the replacement rune included). -/
abbrev Rune := Option Char

/-- Continuation byte of UTF-8, `0x80..0xBF`. -/
def isCont (c : Char) : Bool := 0x80 ≤ c.toNat && c.toNat ≤ 0xBF

/-- Width in bytes of the first rune of a non-empty string, as `utf8.DecodeRuneInString`
computes it: an ill-formed or truncated sequence has width 1. -/
def runeWidth : GoString → Nat
  | [] => 0
  | b0 :: rest =>
    let n := b0.toNat
    if n < 0x80 then 1
    else if 0xC2 ≤ n && n ≤ 0xDF then
      match rest with
      | b1 :: _ => if isCont b1 then 2 else 1
      | _ => 1
    else if 0xE0 ≤ n && n ≤ 0xEF then
      match rest with
      | b1 :: b2 :: _ =>
        let lo := if n = 0xE0 then 0xA0 else 0x80
        let hi := if n = 0xED then 0x9F else 0xBF
        if lo ≤ b1.toNat && b1.toNat ≤ hi && isCont b2 then 3 else 1
      | _ => 1
    else if 0xF0 ≤ n && n ≤ 0xF4 then
      match rest with
      | b1 :: b2 :: b3 :: _ =>
        let lo := if n = 0xF0 then 0x90 else 0x80
        let hi := if n = 0xF4 then 0x8F else 0xBF
        if lo ≤ b1.toNat && b1.toNat ≤ hi && isCont b2 && isCont b3 then 4 else 1
      | _ => 1
    else 1

/-- The first rune of a non-empty string. -/
def firstRune : GoString → Rune
  | [] => none
  | b0 :: _ => if b0.toNat < 0x80 then some b0 else none

/-- Runes of a string from a position `skip` bytes before the next rune boundary. -/
def runesAux : Nat → GoString → List Rune
  | _, [] => []
  | 0, c :: cs => firstRune (c :: cs) :: runesAux (runeWidth (c :: cs) - 1) cs
  | n + 1, _ :: cs => runesAux n cs

/-- The runes that `for _, r := range s` iterates over. -/
def runes (s : GoString) : List Rune := runesAux 0 s

/-- Byte slice `s[lo:hi]`. -/
def slice (s : GoString) (lo hi : Nat) : GoString := (s.take hi).drop lo

/-- Result of `strings.Index`: byte offset of the first occurrence, `none` for `-1`. -/
def Index : GoString → GoString → Option Nat
  | [], sub => if sub.isEmpty then some 0 else none
  | c :: cs, sub =>
    if sub.isPrefixOf (c :: cs) then some 0 else (Index cs sub).map (· + 1)

/-- Test `strings.Index(s, sub) >= 0`. -/
def contains (s sub : GoString) : Bool := (Index s sub).isSome

/-- Result of `strings.HasSuffix`. -/
def HasSuffix (s suffix : GoString) : Bool := suffix.isSuffixOf s

/-- Result of `strings.Trim(s, " ")`. -/
def TrimSpaces (s : GoString) : GoString :=
  ((s.dropWhile (· == ' ')).reverse.dropWhile (· == ' ')).reverse

/-- Result of `strings.Replace(s, old, new, -1)` for a non-empty `old`. The counter
is the number of bytes of the current occurrence of `old` still to be dropped. -/
def ReplaceAux (old new : GoString) : Nat → GoString → GoString
  | _, [] => []
  | n + 1, _ :: cs => ReplaceAux old new n cs
  | 0, c :: cs =>
    if old.isPrefixOf (c :: cs) then new ++ ReplaceAux old new (old.length - 1) cs
    else c :: ReplaceAux old new 0 cs

/-- Result of `strings.Replace(s, old, new, -1)` for a non-empty `old`. -/
def Replace (s old new : GoString) : GoString := ReplaceAux old new 0 s

/-- Largest value of a Go `int`. -/
def maxInt : Int := 2 ^ 63 - 1

/-- Two's complement wrap-around of a 64-bit `int`. -/
def wrapInt (x : Int) : Int := (x + 2 ^ 63) % 2 ^ 64 - 2 ^ 63

/-- Value of a string of decimal digits. -/
def digitsValue (s : GoString) : Nat := s.foldl (fun acc c => 10 * acc + (c.toNat - 48)) 0

/-- First result of `strconv.Atoi`: an optional sign and decimal digits; a value out
of range is clamped to the nearest bound and a malformed string gives 0 (the
error, second result, is discarded by the caller). -/
def Atoi (s : GoString) : Int :=
  let (neg, ds) := match s with
    | '-' :: t => (true, t)
    | '+' :: t => (false, t)
    | t => (false, t)
  if ds.isEmpty || !ds.all Char.isDigit then 0
  else if neg then max (-(digitsValue ds : Int)) (-(2 ^ 63))
  else min (digitsValue ds : Int) maxInt

/-! ## Regular expressions -/

/-- Patterns of the `regexp` syntax that the program uses. -/
inductive Re where
  /-- The empty pattern. -/
  | eps : Re
  /-- One ASCII character. -/
  | chr : Char → Re
  /-- One rune of a class. -/
  | cls : (Rune → Bool) → Re
  /-- Concatenation. -/
  | seq : Re → Re → Re
  /-- Alternation `x|y`, preferring `x`. -/
  | alt : Re → Re → Re
  /-- Greedy repetition `x*`. -/
  | star : Re → Re
  /-- Non-greedy repetition `x*?`. -/
  | lazyStar : Re → Re
  /-- Capturing group with its number. -/
  | grp : Nat → Re → Re
  /-- End of text `$`. -/
  | eot : Re

/-- Captured groups, latest first. -/
abbrev Caps := List (Nat × GoString)

/-- Text of group `n`, empty when the group did not take part in the match. -/
def group (caps : Caps) (n : Nat) : GoString :=
  match caps.find? (fun p => p.1 == n) with
  | some p => p.2
  | none => []

/-- Greedy loop: one more iteration of the body first, then the continuation. An
iteration has to consume input. -/
def starLoop {R : Type} (body : GoString → Caps → (GoString → Caps → Option R) → Option R) :
    Nat → GoString → Caps → (GoString → Caps → Option R) → Option R
  | 0, s, c, k => k s c
  | n + 1, s, c, k =>
    match body s c (fun s1 c1 => if s1.length < s.length then starLoop body n s1 c1 k else none) with
    | some r => some r
    | none => k s c

/-- Non-greedy loop: the continuation first, then one more iteration of the body. -/
def lazyLoop {R : Type} (body : GoString → Caps → (GoString → Caps → Option R) → Option R) :
    Nat → GoString → Caps → (GoString → Caps → Option R) → Option R
  | 0, s, c, k => k s c
  | n + 1, s, c, k =>
    match k s c with
    | some r => some r
    | none => body s c (fun s1 c1 => if s1.length < s.length then lazyLoop body n s1 c1 k else none)

/-- Backtracking matcher: match `re` at the head of `s`, then run the continuation
on the rest; the first success in the order of a backtracking search wins. -/
def Re.run {R : Type} : Re → GoString → Caps → (GoString → Caps → Option R) → Option R
  | .eps, s, c, k => k s c
  | .chr a, s, c, k =>
    match s with
    | b :: t => if a = b then k t c else none
    | [] => none
  | .cls p, s, c, k =>
    match s with
    | [] => none
    | b :: t => if p (firstRune (b :: t)) then k ((b :: t).drop (runeWidth (b :: t))) c else none
  | .seq x y, s, c, k => x.run s c (fun s1 c1 => y.run s1 c1 k)
  | .alt x y, s, c, k =>
    match x.run s c k with
    | some r => some r
    | none => y.run s c k
  | .star x, s, c, k => starLoop (fun s1 c1 k1 => x.run s1 c1 k1) s.length s c k
  | .lazyStar x, s, c, k => lazyLoop (fun s1 c1 k1 => x.run s1 c1 k1) s.length s c k
  | .grp n x, s, c, k =>
    x.run s c (fun s1 c1 => k s1 ((n, s.take (s.length - s1.length)) :: c1))
  | .eot, s, c, k => if s.isEmpty then k s c else none

/-- Match at the head of `s`: the rest of the text after the match and the groups. -/
def matchAt (re : Re) (s : GoString) : Option (GoString × Caps) :=
  re.run s [] (fun rest caps => some (rest, caps))

/-- The pattern for a literal text. -/
def Re.lits : GoString → Re
  | [] => .eps
  | c :: cs => .seq (.chr c) (Re.lits cs)

/-- Repetition `x+`. -/
def Re.plus (x : Re) : Re := .seq x (.star x)

/-- Non-greedy repetition `x+?`. -/
def Re.lazyPlus (x : Re) : Re := .seq x (.lazyStar x)

/-- Option `x?`. -/
def Re.opt (x : Re) : Re := .alt x .eps

/-- Concatenation of a list of patterns. -/
def Re.cat : List Re → Re
  | [] => .eps
  | x :: xs => .seq x (Re.cat xs)

/-- Class `\s`: `[\t\n\f\r ]`. -/
def isSpaceRune (r : Rune) : Bool :=
  r == some '\t' || r == some '\n' || r == some (Char.ofNat 12) || r == some '\r' || r == some ' '

/-- Class `\S`. -/
def isNonSpaceRune (r : Rune) : Bool := !isSpaceRune r

/-- Class `\d`: `[0-9]`. -/
def isDigitRune : Rune → Bool
  | some c => c.isDigit
  | none => false

/-- Class `\w`: `[0-9A-Za-z_]`. -/
def isWordRune : Rune → Bool
  | some c => c.isAlphanum || c == '_'
  | none => false

/-- Class `.`: every rune but the newline. -/
def isAnyRune (r : Rune) : Bool := r != some '\n'

/-- Class `[^"]`. -/
def isNotQuoteRune (r : Rune) : Bool := r != some '"'

/-- Result of `ReplaceAllString` for a pattern that matches no empty text: the
non-overlapping matches are found from the left, each is replaced by `repl` of
its groups, and text outside the matches is copied rune by rune. -/
def replaceAllAux (re : Re) (repl : Caps → GoString) : Nat → GoString → GoString
  | 0, s => s
  | fuel + 1, s =>
    match s with
    | [] => []
    | c :: cs =>
      match matchAt re (c :: cs) with
      | some (rest, caps) =>
        if rest.length < (c :: cs).length then repl caps ++ replaceAllAux re repl fuel rest
        else (c :: cs).take (runeWidth (c :: cs)) ++
          replaceAllAux re repl fuel ((c :: cs).drop (runeWidth (c :: cs)))
      | none =>
        (c :: cs).take (runeWidth (c :: cs)) ++
          replaceAllAux re repl fuel ((c :: cs).drop (runeWidth (c :: cs)))

/-- Result of `re.ReplaceAllString(s, repl)`. -/
def ReplaceAllString (re : Re) (repl : Caps → GoString) (s : GoString) : GoString :=
  replaceAllAux re repl s.length s

/-- Result of `re.FindStringSubmatch(s)` for a pattern anchored with `^`: the groups
of the match at the start of the text, `none` when there is no match. -/
def FindStringSubmatch (re : Re) (s : GoString) : Option Caps :=
  (matchAt re s).map (·.2)

/-! ## `sort.Slice` -/

/-- The inner loop of the insertion sort on the sorted part read from its end: `x` moves
towards the front past every `y` with `less x y`, and stops at the first `y` without. -/
def insertRev {α : Type} (less : α → α → Bool) (x : α) : List α → List α
  | [] => [x]
  | y :: ys => if less x y then y :: insertRev less x ys else x :: y :: ys

/-- One step of the insertion sort: `x`, which arrives after the sorted part `l`, is
swapped with the element before it as long as `less` says so. -/
def insertBy {α : Type} (less : α → α → Bool) (x : α) (l : List α) : List α :=
  (insertRev less x l.reverse).reverse

/-- Result of `sort.Slice(l, less)`: the insertion sort that the library runs on a slice
of at most 12 elements, which keeps the elements that compare equal in their order of
arrival. On a longer slice the library does not fix the order of such elements. -/
def sortSlice {α : Type} (less : α → α → Bool) (l : List α) : List α :=
  l.foldl (fun sorted x => insertBy less x sorted) []

/-! ## `sim/util/loginfo.go` -/

/-- The constant `COLLSCAN`. -/
def COLLSCAN : GoString := "COLLSCAN".data

/-- OpPerformanceDoc stores performance data. -/
structure OpPerformanceDoc where
  Command : GoString
  Count : Int
  Filter : GoString
  MaxMilli : Int
  Namespace : GoString
  Scan : GoString
  TotalMilli : Int
  Index : GoString
  deriving DecidableEq, Repr

/-- SlowOps holds slow ops log and time. -/
structure SlowOps where
  Milli : Int
  Log : GoString
  deriving DecidableEq, Repr

/-- LogInfo keeps loginfo struct (the fields that `Parse` reads or writes). -/
structure LogInfo where
  OpsPatterns : List OpPerformanceDoc
  SlowOps : List SlowOps
  collscan : Bool
  deriving DecidableEq, Repr

/-- State of `NewLogInfo`: nothing parsed, `collscan` off. -/
def NewLogInfo : LogInfo := { OpsPatterns := [], SlowOps := [], collscan := false }

/-- SetCollscan. -/
def LogInfo.SetCollscan (li : LogInfo) (collscan : Bool) : LogInfo := { li with collscan := collscan }

/-- The loop of `GetDocByField` and of `Parse` over the runes of the text: `bpos`
counts the open braces once the first `{` is found, `epos` counts the runes read;
the loop stops when the count of open braces returns to 0. Result `(bpos, epos)`.
(`bpos` is decremented only while it is positive.) -/
def braceLoop : List Rune → Bool → Nat → Nat → Nat × Nat
  | [], _, bpos, epos => (bpos, epos)
  | r :: rs, isFound, bpos, epos =>
    let epos := epos + 1
    let st : Bool × Nat :=
      if isFound == false && r == some '{' then (true, bpos + 1)
      else if isFound == true then
        if r == some '{' then (isFound, bpos + 1)
        else if r == some '}' then (isFound, bpos - 1)
        else (isFound, bpos)
      else (isFound, bpos)
    if st.1 == true && st.2 == 0 then (st.2, epos) else braceLoop rs st.1 st.2 epos

/-- GetDocByField get JSON string by a field. -/
def GetDocByField (str field : GoString) : GoString :=
  match Index str field with
  | none => []
  | some i =>
    let str := TrimSpaces (str.drop (i + field.length))
    let (bpos, epos) := braceLoop (runes str) false 0 0
    slice str bpos epos

/-- The loop of `removeInElements`: `cnt` is the counter, the result is `epos`
(`-1` when no `]` is met after the runes that are passed over). -/
def removeInLoop (idx : Int) : List Rune → Int → Int
  | [], _ => -1
  | r :: rs, cnt =>
    if cnt < idx then removeInLoop idx rs (cnt + 1)
    else if r == some ']' then cnt
    else removeInLoop idx rs (cnt + 1)

/-- Function `removeInElements`: convert `$in: [...]` to `$in: [ ]`. -/
def removeInElements (str instr : GoString) : GoString :=
  match Index str instr with
  | none => str
  | some i =>
    let idx : Nat := i + (instr.length - 1)
    let epos := removeInLoop idx (runes str) (-1)
    if epos == -1 then str.take idx ++ "...]".data
    else str.take idx ++ "...".data ++ str.drop epos.toNat

/-- The variable `filters`. -/
def filters : List GoString :=
  ["count".data, "delete".data, "find".data, "remove".data, "update".data,
   "aggregate".data, "getMore".data, "getmore".data]

/-- Function `hasFilter`. -/
def hasFilter (op : GoString) : Bool := filters.any (fun f => f == op)

/-- Pattern `^\S+ \S+\s+(\w+)\s+\[\w+\] (\w+) (\S+) \S+: (.*) (\d+)ms$` of `Parse`
(the anchor `^` is the use of `matchAt`). -/
def reSlowOp : Re :=
  Re.cat [
    Re.plus (.cls isNonSpaceRune), .chr ' ', Re.plus (.cls isNonSpaceRune),
    Re.plus (.cls isSpaceRune),
    .grp 1 (Re.plus (.cls isWordRune)),
    Re.plus (.cls isSpaceRune),
    .chr '[', Re.plus (.cls isWordRune), .chr ']', .chr ' ',
    .grp 2 (Re.plus (.cls isWordRune)), .chr ' ',
    .grp 3 (Re.plus (.cls isNonSpaceRune)), .chr ' ',
    Re.plus (.cls isNonSpaceRune), .chr ':', .chr ' ',
    .grp 4 (.star (.cls isAnyRune)), .chr ' ',
    .grp 5 (Re.plus (.cls isDigitRune)), .chr 'm', .chr 's', .eot]

/-- Pattern `^(\w+) ({.*})$` of `Parse`. -/
def reCommand : Re :=
  Re.cat [
    .grp 1 (Re.plus (.cls isWordRune)), .chr ' ',
    .grp 2 (Re.cat [.chr '{', .star (.cls isAnyRune), .chr '}']), .eot]

/-- Pattern `(: "[^"]*"|: -?\d+(\.\d+)?|: new Date\(\d+?\)|: true|: false)`. -/
def reLiteral : Re :=
  .grp 1 (.alt (Re.cat [Re.lits ": \"".data, .star (.cls isNotQuoteRune), .chr '"'])
    (.alt (Re.cat [Re.lits ": ".data, Re.opt (.chr '-'), Re.plus (.cls isDigitRune),
        Re.opt (.grp 2 (Re.cat [.chr '.', Re.plus (.cls isDigitRune)]))])
    (.alt (Re.cat [Re.lits ": new Date(".data, Re.lazyPlus (.cls isDigitRune), .chr ')'])
    (.alt (Re.lits ": true".data) (Re.lits ": false".data)))))

/-- Pattern `, shardVersion: \[.*\]`. -/
def reShardVersion : Re :=
  Re.cat [Re.lits ", shardVersion: [".data, .star (.cls isAnyRune), .chr ']']

/-- Pattern
`( ObjectId\('\S+'\))|(UUID\("\S+"\))|( Timestamp\(\d+, \d+\))|(BinData\(\d+, \S+\))`. -/
def reObjectId : Re :=
  .alt (.grp 1 (Re.cat [Re.lits " ObjectId('".data, Re.plus (.cls isNonSpaceRune),
      Re.lits "')".data]))
    (.alt (.grp 2 (Re.cat [Re.lits "UUID(\"".data, Re.plus (.cls isNonSpaceRune),
      Re.lits "\")".data]))
    (.alt (.grp 3 (Re.cat [Re.lits " Timestamp(".data, Re.plus (.cls isDigitRune),
      Re.lits ", ".data, Re.plus (.cls isDigitRune), .chr ')']))
    (.grp 4 (Re.cat [Re.lits "BinData(".data, Re.plus (.cls isDigitRune),
      Re.lits ", ".data, Re.plus (.cls isNonSpaceRune), .chr ')']))))

/-- Pattern `(: \/.*\/(.?) })`. -/
def reRegexLiteral : Re :=
  .grp 1 (Re.cat [Re.lits ": /".data, .star (.cls isAnyRune), .chr '/',
    .grp 2 (Re.opt (.cls isAnyRune)), Re.lits " \x7d".data])

/-- Number of runes before the first `}`: the loop over `filter[isRegex:]`. -/
def regexCount : List Rune → Nat → Nat
  | [], cnt => cnt
  | r :: rs, cnt => if r == some '}' then cnt else regexCount rs (cnt + 1)

/-- The `$regex` step of `Parse`: the text between `{ $regex: ` and the `}` that
follows is replaced by `/.../.../`. -/
def collapseRegex (filter : GoString) : GoString :=
  match Index filter "\x7b $regex: ".data with
  | none => filter
  | some isRegex =>
    let cnt := regexCount (runes (filter.drop isRegex)) 0
    filter.take (isRegex + 10) ++ "/.../.../".data ++ filter.drop (isRegex + cnt)

/-- The value-elision cascade of `Parse` (from the first `removeInElements` to the
two calls of `strings.Replace`), applied to the extracted filter. -/
def canonicalize (filter : GoString) : GoString :=
  let filter := removeInElements filter "$in: [ ".data
  let filter := removeInElements filter "$nin: [ ".data
  let filter := removeInElements filter "$in: [ ".data
  let filter := removeInElements filter "$nin: [ ".data
  let filter := collapseRegex filter
  let filter := ReplaceAllString reLiteral (fun _ => ":1".data) filter
  let filter := ReplaceAllString reShardVersion (fun _ => []) filter
  let filter := ReplaceAllString reObjectId (fun _ => "1".data) filter
  let filter := ReplaceAllString reRegexLiteral
    (fun caps => ": /regex/".data ++ group caps 2 ++ "\x7d".data) filter
  Replace (Replace filter "\x7b ".data "\x7b".data) " \x7d".data "\x7d".data

/-- What a line hands to the aggregation step of `Parse`: the values of `op`, `ns`,
`filter`, `scan`, `index` and `milli` at that point, and the line `str` itself. -/
structure OpLine where
  op : GoString
  ns : GoString
  filter : GoString
  scan : GoString
  index : GoString
  milli : Int
  str : GoString
  deriving DecidableEq, Repr

/-- First non-empty result of `GetDocByField(body, mstr)` over the fields `mstrs`, in
order; the empty string when every result is empty. -/
def firstDocByFields (body : GoString) : List GoString → GoString
  | [] => []
  | mstr :: rest =>
    let s := GetDocByField body mstr
    if s != [] then s else firstDocByFields body rest

/-- The chain of `if op == ...` of `Parse` that picks the filter document of the
operation: `filter` is the text up to the closing brace, `body` is `result[4]`.
`none` stands for `continue`. -/
def opFilter (op filter body scan : GoString) : Option GoString :=
  if op == "delete".data && contains filter "writeConcern:".data then none
  else if op == "find".data then
    let nstr := "\x7b \x7d".data
    let s := GetDocByField filter "filter: ".data
    let nstr := if s != [] then s else nstr
    let s := GetDocByField filter "sort: ".data
    let nstr := if s != [] then nstr ++ ", sort: ".data ++ s else nstr
    some nstr
  else if op == "count".data || op == "distinct".data then
    let nstr : GoString := []
    let s := GetDocByField filter "query: ".data
    let nstr := if s != [] then s else nstr
    some nstr
  else if op == "delete".data || op == "update".data || op == "remove".data then
    let s :=
      if contains filter "query: ".data then GetDocByField filter "query: ".data
      else GetDocByField filter "q: ".data
    if s != [] then some s else some filter
  else if op == "aggregate".data ||
      (op == "getmore".data &&
        (match Index filter "pipeline:".data with | some i => decide (i > 0) | none => false)) then
    let s := firstDocByFields body ["pipeline: [ \x7b $match: ".data, "pipeline: [ \x7b $sort: ".data]
    if s == [] then
      if scan == COLLSCAN then some "\x7b\x7d".data else none
    else some s
  else if op == "getMore".data || op == "getmore".data then
    let s := GetDocByField body "originatingCommand: ".data
    if s != [] then
      let s := firstDocByFields body
        ["filter: ".data, "pipeline: [ \x7b $match: ".data, "pipeline: [ \x7b $sort: ".data]
      if s == [] then none else some s
    else none
  else some filter

/-- The index label of a line: the statements of `Parse` that set `index`. -/
def indexLabel (str scan : GoString) : GoString :=
  let index := GetDocByField str "planSummary: IXSCAN".data
  let index := if index == [] && contains str "planSummary: EOF".data then "EOF".data else index
  let index :=
    if index == [] && contains str "planSummary: IDHACK".data then "IDHACK".data else index
  let index :=
    if scan == [] && contains str "planSummary: COUNT_SCAN".data then "COUNT_SCAN".data
    else index
  index

/-- The body of the loop of `Parse` for one line, up to the aggregation step; `none`
when the line is passed over (no match of the pattern, or a `continue`). -/
def parseLine (collscan : Bool) (str : GoString) : Option OpLine :=
  match FindStringSubmatch reSlowOp str with
  | none => none
  | some result =>
    let scan := if contains str "COLLSCAN".data then COLLSCAN else []
    if collscan == true && scan != COLLSCAN then none
    else
      let body := group result 4
      let epos := (braceLoop (runes body) false 0 0).2
      let op := group result 2
      let ns := group result 3
      if ns == "local.oplog.rs".data || HasSuffix ns ".$cmd".data == true then none
      else
        let filter := body.take epos
        let ms := group result 5
        let cmd : Option (GoString × GoString) :=
          if op == "command".data then
            let filter :=
              match Index filter "command: ".data with
              | some idx => if idx > 0 then filter.drop (idx + "command: ".data.length) else filter
              | none => filter
            match FindStringSubmatch reCommand filter with
            | none => none
            | some res => some (group res 1, group res 2)
          else some (op, filter)
        match cmd with
        | none => none
        | some (op, filter) =>
          if hasFilter op == false then none
          else
            match opFilter op filter body scan with
            | none => none
            | some filter =>
              some { op := op, ns := ns, filter := canonicalize filter, scan := scan,
                     index := indexLabel str scan, milli := Atoi ms, str := str }

/-- The key of the per-pattern map: `op + "." + filter + "." + scan`. -/
def OpLine.key (l : OpLine) : GoString := l.op ++ ".".data ++ l.filter ++ ".".data ++ l.scan

/-- The per-pattern map `opsMap`: keys with their entries. The order of the list is
the order in which the keys were first inserted. -/
abbrev OpsMap := List (GoString × OpPerformanceDoc)

/-- Lookup `opsMap[key]` with its `ok` flag. -/
def OpsMap.get (m : OpsMap) (key : GoString) : Option OpPerformanceDoc :=
  (m.find? (fun p => p.1 == key)).map (·.2)

/-- Assignment `opsMap[key] = doc`. -/
def OpsMap.set : OpsMap → GoString → OpPerformanceDoc → OpsMap
  | [], key, doc => [(key, doc)]
  | (k, d) :: rest, key, doc =>
    if k == key then (k, doc) :: rest else (k, d) :: OpsMap.set rest key doc

/-- The slow-operation step of `Parse`: a line of at least 10 seconds is appended, and
a list of more than 10 records is sorted by decreasing `Milli` and cut to 10. -/
def addSlowOp (slowOps : List SlowOps) (milli : Int) (str : GoString) : List SlowOps :=
  if milli ≥ 10000 then
    let slowOps := slowOps ++ [{ Milli := milli, Log := str }]
    if slowOps.length > 10 then
      (sortSlice (fun a b => decide (a.Milli > b.Milli)) slowOps).take 10
    else slowOps
  else slowOps

/-- The map step of `Parse`: a new entry for a new key, an update of the entry of a
known key. -/
def updateOps (opsMap : OpsMap) (l : OpLine) : OpsMap :=
  match opsMap.get l.key with
  | some old =>
    let max := if l.milli > old.MaxMilli then l.milli else old.MaxMilli
    let x := wrapInt (old.TotalMilli + l.milli)
    let y := wrapInt (old.Count + 1)
    opsMap.set l.key { Command := old.Command, Namespace := l.ns, Filter := old.Filter,
                       MaxMilli := max, TotalMilli := x, Count := y, Scan := l.scan,
                       Index := l.index }
  | none =>
    opsMap.set l.key { Command := l.op, Namespace := l.ns, Filter := l.filter,
                       TotalMilli := l.milli, MaxMilli := l.milli, Count := 1,
                       Scan := l.scan, Index := l.index }

/-- State of the loop of `Parse`: the per-pattern map and `li.SlowOps`. -/
structure ParseState where
  opsMap : OpsMap
  slowOps : List SlowOps
  deriving DecidableEq, Repr

/-- The aggregation step of `Parse` for a line that reaches it. -/
def aggregate (st : ParseState) (l : OpLine) : ParseState :=
  { slowOps := addSlowOp st.slowOps l.milli l.str, opsMap := updateOps st.opsMap l }

/-- One iteration of the loop of `Parse`. -/
def parseStep (collscan : Bool) (st : ParseState) (str : GoString) : ParseState :=
  match parseLine collscan str with
  | some l => aggregate st l
  | none => st

/-- The loop of `Parse` over the lines of the file. -/
def parseLoop (li : LogInfo) (lines : List GoString) : ParseState :=
  lines.foldl (parseStep li.collscan) { opsMap := [], slowOps := li.SlowOps }

/-- The `float64` arithmetic of `Parse`: the type of the quotients, the quotient
`float64(total) / float64(count)` and the comparison `>` of two quotients. -/
structure FloatOps where
  F : Type
  avg : Int → Int → F
  gt : F → F → Bool

/-- The comparison function given to `sort.Slice` for `li.OpsPatterns`. -/
def avgLess (fl : FloatOps) (a b : OpPerformanceDoc) : Bool :=
  fl.gt (fl.avg a.TotalMilli a.Count) (fl.avg b.TotalMilli b.Count)

/-- Function `Parse` on the lines of the file (long lines reassembled): `li` after the
call. The values of the map are taken in the order of first insertion, one of the
orders in which `range opsMap` may yield them. -/
def Parse (fl : FloatOps) (li : LogInfo) (lines : List GoString) : LogInfo :=
  let st := parseLoop li lines
  { li with SlowOps := st.slowOps,
            OpsPatterns := sortSlice (avgLess fl) (st.opsMap.map (·.2)) }

/-- The lines that reach the aggregation step, in order. -/
def acceptedLines (collscan : Bool) (lines : List GoString) : List OpLine :=
  lines.filterMap (parseLine collscan)

/-- Exact quotients in place of `float64`. -/
def ratOps : FloatOps := { F := Rat, avg := fun t c => (t : Rat) / (c : Rat), gt := fun a b => decide (a > b) }

/-! ## `core/diagnostic.go` -/

/-- DiagnosticData (the fields that the frame loop writes): `ServerInfo` is `none`
for the `nil` interface. -/
structure DiagnosticData (Doc SS RS SM : Type) where
  ServerInfo : Option Doc
  ServerStatusList : List SS
  ReplSetStatusList : List RS
  SystemMetricsList : List SM

/-- What the body of the frame loop does with the bytes `bs` of a frame, after
`bson.Unmarshal`, `zlib` and `getDiagnosticData` (none of them part of this
file) have run. -/
inductive FrameOutcome (Doc SS RS SM : Type) where
  /-- `bson.Unmarshal` fails: logged, `continue`. -/
  | unmarshalError
  /-- `out["type"] == 0`: `diagData.ServerInfo = out["doc"]`. -/
  | serverInfo (doc : Option Doc)
  /-- `out["type"] == 1`, and `zlib.NewReader` or `ioutil.ReadAll` fails: logged,
  `continue`. -/
  | readerError
  /-- `out["type"] == 1` and `getDiagnosticData` returns `dd`: its three lists are
  appended. -/
  | chunk (dd : DiagnosticData Doc SS RS SM)
  /-- `out["type"] == 1` and `getDiagnosticData` fails: `return diagData, err`. -/
  | chunkError
  /-- `out["type"] == 1` and `out["data"].([]byte)[4:]` panics (no byte string, or one
  of fewer than 4 bytes). -/
  | dataPanic
  /-- Any other `out["type"]`: logged. -/
  | otherType

/-- The buffer `ioutil.ReadFile` returns, a slice: `arr` holds the bytes of its
backing array up to the capacity, the first `len` of them are the content of the
file. -/
structure Buffer where
  arr : List Nat
  len : Nat
  len_le : len ≤ arr.length

/-- Capacity `cap(buffer)`. -/
def Buffer.cap (b : Buffer) : Nat := b.arr.length

/-- Modelled from the spec: `ftdc.GetUint32`, whose source is not in this file's
scope; it reads the "unsigned 32-bit little-endian prefix" from the four bytes. -/
def GetUint32 (bs : List Nat) : Nat :=
  (bs.getD 0 0) % 256 + (bs.getD 1 0) % 256 * 2 ^ 8 + (bs.getD 2 0) % 256 * 2 ^ 16 +
    (bs.getD 3 0) % 256 * 2 ^ 24

/-- How the frame loop ends. -/
inductive LoopExit where
  /-- The `break` at `pos >= uint32(len(buffer))`. -/
  | done
  /-- The `return diagData, err` after `getDiagnosticData` fails. -/
  | failed
  /-- A run-time panic: a slice expression out of range, or `dataPanic`. -/
  | panic
  /-- The iterations allowed to the model are used up and the loop is still running. -/
  | running
  deriving DecidableEq, Repr

/-- State of the frame loop: the cursor `pos` (a `uint32`), `diagData`, whether `err`
is non-nil, and the frames `(pos, pos + length)` visited so far. -/
structure LoopState (Doc SS RS SM : Type) where
  pos : Nat
  diagData : DiagnosticData Doc SS RS SM
  err : Bool
  visited : List (Nat × Nat)

/-- State at the entry of the loop. -/
def LoopState.init {Doc SS RS SM : Type} : LoopState Doc SS RS SM :=
  { pos := 0
    diagData :=
      { ServerInfo := none
        ServerStatusList := []
        ReplSetStatusList := []
        SystemMetricsList := [] }
    err := false
    visited := [] }

/-- What the loop body does to `diagData` and `err` for an outcome that lets the loop
go on. -/
def applyOutcome {Doc SS RS SM : Type} (st : LoopState Doc SS RS SM) :
    FrameOutcome Doc SS RS SM → LoopState Doc SS RS SM
  | .unmarshalError => { st with err := true }
  | .serverInfo doc => { st with err := false, diagData := { st.diagData with ServerInfo := doc } }
  | .readerError => { st with err := true }
  | .chunk dd =>
    { st with
      err := false
      diagData :=
        { st.diagData with
          ServerStatusList := st.diagData.ServerStatusList ++ dd.ServerStatusList
          SystemMetricsList := st.diagData.SystemMetricsList ++ dd.SystemMetricsList
          ReplSetStatusList := st.diagData.ReplSetStatusList ++ dd.ReplSetStatusList } }
  | .chunkError => { st with err := true }
  | .dataPanic => { st with err := false }
  | .otherType => { st with err := false }

/-- The frame loop of `readDiagnosticFile`, run for at most `fuel` iterations.
Arithmetic on `pos` and `length` is that of `uint32`; a slice expression
`buffer[lo:hi]` panics unless `lo ≤ hi ≤ cap(buffer)`. -/
def frameLoop {Doc SS RS SM : Type} (dec : List Nat → FrameOutcome Doc SS RS SM)
    (buffer : Buffer) : Nat → LoopState Doc SS RS SM → LoopState Doc SS RS SM × LoopExit
  | 0, st => (st, .running)
  | fuel + 1, st =>
    if st.pos ≥ buffer.len % 2 ^ 32 then (st, .done)
    else
      let hi4 := (st.pos + 4) % 2 ^ 32
      if ¬ (st.pos ≤ hi4 ∧ hi4 ≤ buffer.cap) then (st, .panic)
      else
        let length := GetUint32 (slice2 buffer.arr st.pos hi4)
        let hi := (st.pos + length) % 2 ^ 32
        if ¬ (st.pos ≤ hi ∧ hi ≤ buffer.cap) then (st, .panic)
        else
          let bs := slice2 buffer.arr st.pos hi
          let st := { st with pos := hi, visited := st.visited ++ [(st.pos, hi)] }
          match dec bs with
          | .chunkError => (applyOutcome st .chunkError, .failed)
          | .dataPanic => (applyOutcome st .dataPanic, .panic)
          | o => frameLoop dec buffer fuel (applyOutcome st o)
where
  /-- Byte slice `arr[lo:hi]`. -/
  slice2 (arr : List Nat) (lo hi : Nat) : List Nat := (arr.take hi).drop lo

/-! ## Notions used to state the properties of `Parse` -/

/-- The ten largest of a list of durations, largest first (all of them when there
are fewer than ten). -/
def top10 (l : List Int) : List Int := (l.insertionSort (· ≥ ·)).take 10

/-- The durations of at least 10000 ms among the lines, in the order of the lines. -/
def slowMillis (ls : List OpLine) : List Int := (ls.map (·.milli)).filter (· ≥ 10000)

/-- The slow-operation list after the lines `ls` have gone through the aggregation
step, starting from `slowOps`. -/
def slowFold (slowOps : List SlowOps) (ls : List OpLine) : List SlowOps :=
  ls.foldl (fun s l => addSlowOp s l.milli l.str) slowOps

/-- The per-pattern map after the lines `ls` have gone through the aggregation step,
starting from `opsMap`. -/
def opsFold (opsMap : OpsMap) (ls : List OpLine) : OpsMap :=
  ls.foldl updateOps opsMap

/-! ## Concrete log lines -/

/-- A slow-operation line of the log: a `find` on `db.c` with the filter
`{ id: <id> }` that took `<ms>` milliseconds. -/
def findLine (id ms : GoString) : GoString :=
  "2019-01-01T00:00:00.000+0000 I COMMAND  [conn1] command db.c command: find \x7b find: \"c\", filter: \x7b id: ".data
    ++ id ++ " \x7d \x7d planSummary: COLLSCAN ".data ++ ms ++ "ms".data

/-- Two slow operations, the faster one first. -/
def twoSlowLines : List GoString :=
  [findLine "1".data "11000".data, findLine "2".data "12000".data]

/-- Twelve slow operations of 11000, 12000, ..., 22000 ms. -/
def twelveSlowLines : List GoString :=
  ["11000", "12000", "13000", "14000", "15000", "16000", "17000", "18000", "19000",
   "20000", "21000", "22000"].map (fun ms => findLine "1".data ms.data)

/-- The lines with the pattern key `k`, in order. -/
def linesOf (k : GoString) (ls : List OpLine) : List OpLine :=
  ls.filter (fun l => decide (l.key = k))

/-- The entry `d` aggregates the lines `f`: there is at least one line, `MaxMilli` is
the largest of their durations and, as long as the number of lines and the sum of
the durations stay below `2 ^ 63`, `Count` is the number of lines and `TotalMilli`
the sum of their durations. -/
def EntryOk (d : OpPerformanceDoc) (f : List OpLine) : Prop :=
  f ≠ [] ∧ d.MaxMilli ∈ f.map (·.milli) ∧ (∀ x ∈ f.map (·.milli), x ≤ d.MaxMilli) ∧
    ((f.length : Int) < 2 ^ 63 → (f.map (·.milli)).sum < 2 ^ 63 →
      d.Count = f.length ∧ d.TotalMilli = (f.map (·.milli)).sum)

/-- Two lines of the same pattern whose durations are the largest `int`. -/
def overflowLines : List GoString :=
  [findLine "1".data "9223372036854775807".data, findLine "2".data "9223372036854775807".data]

/-- Two `find` lines of the same pattern: `{ id: 1 }` in 50 ms and `{ id: 999999 }` in
150 ms. -/
def twoFindLines : List GoString :=
  [findLine "1".data "50".data, findLine "999999".data "150".data]

/-- The entry that `twoFindLines` produce. -/
def twoFindEntry : OpPerformanceDoc :=
  { Command := "find".data, Count := 2, Filter := "\x7bid:1\x7d".data, MaxMilli := 150,
    Namespace := "db.c".data, Scan := COLLSCAN, TotalMilli := 200, Index := [] }

/-! ## Notions used to state the properties of the frame loop -/

/-- The buffer with the bytes `content` and the spare capacity `spare`. -/
def mkBuffer (content spare : List Nat) : Buffer :=
  { arr := content ++ spare, len := content.length, len_le := by simp }

/-- The byte ranges of consecutive frames, the first of which starts at `start`. -/
def frameBounds : Nat → List (List Nat) → List (Nat × Nat)
  | _, [] => []
  | start, f :: fs => (start, start + f.length) :: frameBounds (start + f.length) fs

/-- One iteration of the frame loop over the frame `f` that goes on: the cursor
moves to the end of the frame and the outcome of the frame is applied. -/
def frameStep {Doc SS RS SM : Type} (dec : List Nat → FrameOutcome Doc SS RS SM)
    (st : LoopState Doc SS RS SM) (f : List Nat) : LoopState Doc SS RS SM :=
  applyOutcome { st with pos := st.pos + f.length,
                         visited := st.visited ++ [(st.pos, st.pos + f.length)] } (dec f)

/-- A decoder for which no frame is a document: `bson.Unmarshal` always fails. -/
def rejectAll : List Nat → FrameOutcome Unit Unit Unit Unit := fun _ => .unmarshalError

/-- The buffer `04 00 00 00`. -/
def emptyFrameBuffer : Buffer := mkBuffer [4, 0, 0, 0] []

/-- The buffer `00 00 00 00`: a length prefix of 0. -/
def zeroLengthBuffer : Buffer := mkBuffer [0, 0, 0, 0] []

/-- The buffer `FF FF FF 7F` with 512 bytes of spare capacity: a length prefix that
points past the end. -/
def overrunBuffer : Buffer := mkBuffer [0xFF, 0xFF, 0xFF, 0x7F] (List.replicate 512 0)

/-- A frame of 5 bytes followed by 2 trailing bytes, in a buffer without spare
capacity. -/
def truncatedBuffer : Buffer := mkBuffer [5, 0, 0, 0, 0, 1, 0] []

/-- The length prefix that the loop reads at the cursor `p`. -/
def lengthAt (buffer : Buffer) (p : Nat) : Nat :=
  GetUint32 (frameLoop.slice2 buffer.arr p ((p + 4) % 2 ^ 32))

/-- The slice expressions of an iteration at the cursor `p` are in range: the window
`buffer[p:p+4]` of the length prefix and the frame `buffer[p:p+length]`, in `uint32`
arithmetic. -/
def InRange (buffer : Buffer) (p : Nat) : Prop :=
  (p ≤ (p + 4) % 2 ^ 32 ∧ (p + 4) % 2 ^ 32 ≤ buffer.cap) ∧
  (p ≤ (p + lengthAt buffer p) % 2 ^ 32 ∧ (p + lengthAt buffer p) % 2 ^ 32 ≤ buffer.cap)

/-- The state after the cursor has moved over the frame that ends at `hi`. -/
def LoopState.advance {Doc SS RS SM : Type} (st : LoopState Doc SS RS SM) (hi : Nat) :
    LoopState Doc SS RS SM :=
  { st with pos := hi, visited := st.visited ++ [(st.pos, hi)] }

/-- The cursor has moved along the visited frames and stands at `pos`: each frame
starts where the one before ends, the last one ends at `pos`, a frame ends at its
start plus the length prefix read there (in `uint32` arithmetic), never before its
start, and after its start when the length prefix is not 0. -/
def CursorAdvances (buffer : Buffer) (visited : List (Nat × Nat)) (pos : Nat) : Prop :=
  List.Chain' (fun a b => a.2 = b.1) visited ∧
  (∀ fr ∈ visited.getLast?, fr.2 = pos) ∧
  ∀ fr ∈ visited, fr.2 = (fr.1 + lengthAt buffer fr.1) % 2 ^ 32 ∧ fr.1 ≤ fr.2 ∧
    (lengthAt buffer fr.1 ≠ 0 → fr.1 < fr.2)

/-! ## Notions used to state the properties of the canonicalizer -/

/-- Number of `{` minus number of `}` in a text. -/
def braceDepth : GoString → Int
  | [] => 0
  | c :: cs => (if c = '{' then 1 else if c = '}' then -1 else 0) + braceDepth cs

/-- The text `doc` is a brace-delimited document: it starts with `{`, and its last
character is the `}` that matches this first `{` (the depth of nesting is positive
inside the text and returns to 0 at its end, not before). -/
def IsDocument (doc : GoString) : Prop :=
  doc.head? = some '{' ∧ braceDepth doc = 0 ∧
    ∀ n, 0 < n → n < doc.length → 0 < braceDepth (doc.take n)

/-- The filter `{ id: <v> }` with the value `v`. -/
def leafFilter (v : GoString) : GoString := "\x7b id: ".data ++ v ++ " \x7d".data

/-! ## Notions used to state the properties of one line of `Parse` -/

/-- The text `result[4][:epos]` of `Parse`: the fourth group of the line up to the
closing brace of its first document. -/
def lineFilter (result : Caps) : GoString :=
  (group result 4).take (braceLoop (runes (group result 4)) false 0 0).2

/-- The block `if op == "command"` of `Parse`: the operation and the text of its
document when `hasFilter` is called. `none` stands for `continue`. -/
def commandOf (op filter : GoString) : Option (GoString × GoString) :=
  if op == "command".data then
    let filter :=
      match Index filter "command: ".data with
      | some idx => if idx > 0 then filter.drop (idx + "command: ".data.length) else filter
      | none => filter
    match FindStringSubmatch reCommand filter with
    | none => none
    | some res => some (group res 1, group res 2)
  else some (op, filter)

/-- The test `ns == "local.oplog.rs" || strings.HasSuffix(ns, ".$cmd")` of `Parse`. -/
def discardedNs (ns : GoString) : Bool :=
  ns == "local.oplog.rs".data || HasSuffix ns ".$cmd".data == true

/-- A slow-operation line of the log: a `find` on the collection `db.<coll>` with the
filter `{ id: <id> }` that took `<ms>` milliseconds. -/
def findLineOn (coll id ms : GoString) : GoString :=
  "2019-01-01T00:00:00.000+0000 I COMMAND  [conn1] command db.".data ++ coll
    ++ " command: find \x7b find: \"".data ++ coll ++ "\", filter: \x7b id: ".data
    ++ id ++ " \x7d \x7d planSummary: COLLSCAN ".data ++ ms ++ "ms".data

/-- Two `find` lines with the same filter on two collections, `db.a` and `db.b`. -/
def twoNamespaceLines : List GoString :=
  [findLineOn "a".data "1".data "50".data, findLineOn "b".data "2".data "150".data]

/-- The second line of `twoNamespaceLines` as `Parse` reads it. -/
def secondNamespaceLine : OpLine :=
  { op := "find".data, ns := "db.b".data, filter := "\x7bid:1\x7d".data, scan := COLLSCAN,
    index := [], milli := 150, str := findLineOn "b".data "2".data "150".data }

/-- The entry that the first line of `twoNamespaceLines` produces. -/
def firstNamespaceEntry : OpPerformanceDoc :=
  { Command := "find".data, Count := 1, Filter := "\x7bid:1\x7d".data, MaxMilli := 50,
    Namespace := "db.a".data, Scan := COLLSCAN, TotalMilli := 50, Index := [] }

/-- A `find` line whose filter holds the text `planSummary: COUNT_SCAN` in a string and
whose plan is `IXSCAN { msg: 1 }`. -/
def bothPlansLine : GoString :=
  "2019-01-01T00:00:00.000+0000 I COMMAND  [conn1] command db.c command: find \x7b find: \"c\", filter: \x7b msg: \"planSummary: COUNT_SCAN\" \x7d \x7d planSummary: IXSCAN \x7b msg: 1 \x7d keysExamined:1 docsExamined:1 50ms".data

/-- A `find` line whose plan is `IXSCAN { id: 1 }`. -/
def ixscanLine : GoString :=
  "2019-01-01T00:00:00.000+0000 I COMMAND  [conn1] command db.c command: find \x7b find: \"c\", filter: \x7b id: 5 \x7d \x7d planSummary: IXSCAN \x7b id: 1 \x7d keysExamined:1 docsExamined:1 50ms".data

/-- The line `ixscanLine` as `Parse` reads it. -/
def ixscanOpLine : OpLine :=
  { op := "find".data, ns := "db.c".data, filter := "\x7bid:1\x7d".data, scan := [],
    index := "\x7b id: 1 \x7d".data, milli := 50, str := ixscanLine }

/-- The operation of a line that matches the slow-operation pattern and the text of its
document, as they stand when `Parse` calls `hasFilter`. -/
def lineOp (str : GoString) : Option (GoString × GoString) :=
  match FindStringSubmatch reSlowOp str with
  | none => none
  | some result => commandOf (group result 2) (lineFilter result)

/-- The namespace `result[3]` of a line that matches the slow-operation pattern. -/
def lineNs (str : GoString) : Option GoString :=
  match FindStringSubmatch reSlowOp str with
  | none => none
  | some result => some (group result 3)

/-- The line matches the slow-operation pattern and its namespace is `local.oplog.rs`
or ends in `.$cmd`. -/
def hasDiscardedNs (str : GoString) : Bool :=
  match lineNs str with
  | none => false
  | some ns => discardedNs ns

/-- A slow `distinct` command with the query `{ b: 1 }`. -/
def distinctLine : GoString :=
  "2019-01-01T00:00:00.000+0000 I COMMAND  [conn1] command db.c command: distinct \x7b distinct: \"c\", key: \"a\", query: \x7b b: 1 \x7d \x7d planSummary: COLLSCAN keysExamined:0 docsExamined:9 50ms".data

/-- A slow `count` command with the query `{ b: 1 }`. -/
def countLine : GoString :=
  "2019-01-01T00:00:00.000+0000 I COMMAND  [conn1] command db.c command: count \x7b count: \"c\", query: \x7b b: 1 \x7d \x7d planSummary: COLLSCAN keysExamined:0 docsExamined:9 50ms".data

/-- A slow `delete` command with `writeConcern:` inside its document. -/
def deleteConcernLine : GoString :=
  "2019-01-01T00:00:00.000+0000 I COMMAND  [conn1] command db.c command: delete \x7b delete: \"c\", deletes: [ \x7b q: \x7b a: 1 \x7d, limit: 0 \x7d ], writeConcern: \x7b w: 1 \x7d \x7d keysExamined:0 docsExamined:9 50ms".data

/-- A slow `delete` command with `writeConcern:` after its document. -/
def deleteConcernAfterLine : GoString :=
  "2019-01-01T00:00:00.000+0000 I COMMAND  [conn1] command db.c command: delete \x7b delete: \"c\", deletes: [ \x7b q: \x7b a: 1 \x7d, limit: 0 \x7d ] \x7d writeConcern: \x7b w: 1 \x7d keysExamined:0 docsExamined:9 10050ms".data

/-- A slow `find` on the namespace `db.$cmd`. -/
def cmdNamespaceLine : GoString :=
  "2019-01-01T00:00:00.000+0000 I COMMAND  [conn1] command db.$cmd command: find \x7b find: \"c\", filter: \x7b id: 5 \x7d \x7d planSummary: COLLSCAN 10050ms".data

/-! ## The merge of the files in `readDiagnosticFiles` -/

/-- Result of `strconv.Itoa` on a number that is not negative. -/
def Itoa (n : Nat) : GoString := Nat.toDigits 10 n

/-- The zero value of `DiagnosticData`, which a map gives for a key that it does not
hold. -/
def DiagnosticData.zero {Doc SS RS SM : Type} : DiagnosticData Doc SS RS SM :=
  { ServerInfo := none, ServerStatusList := [], ReplSetStatusList := [],
    SystemMetricsList := [] }

/-- The map `diagDataMap` of `readDiagnosticFiles`. -/
abbrev DiagDataMap (Doc SS RS SM : Type) := List (GoString × DiagnosticData Doc SS RS SM)

/-- Lookup `diagDataMap[key]`. -/
def DiagDataMap.get {Doc SS RS SM : Type} (m : DiagDataMap Doc SS RS SM) (key : GoString) :
    DiagnosticData Doc SS RS SM :=
  match m.find? (fun p => p.1 == key) with
  | some p => p.2
  | none => DiagnosticData.zero

/-- The body of the last loop of `readDiagnosticFiles`, for the file `threadNum`. -/
def mergeStep {Doc SS RS SM : Type} (diagDataMap : DiagDataMap Doc SS RS SM)
    (d : DiagnosticData Doc SS RS SM) (threadNum : Nat) : DiagnosticData Doc SS RS SM :=
  let r := diagDataMap.get (Itoa threadNum)
  { ServerInfo := if r.ServerInfo.isSome then r.ServerInfo else d.ServerInfo,
    ServerStatusList := d.ServerStatusList ++ r.ServerStatusList,
    SystemMetricsList := d.SystemMetricsList ++ r.SystemMetricsList,
    ReplSetStatusList := d.ReplSetStatusList ++ r.ReplSetStatusList }

/-- The last loop of `readDiagnosticFiles`, over `threadNum = 0, ..., n - 1` where `n`
is `len(filenames)`: `d` after the loop. -/
def mergeFiles {Doc SS RS SM : Type} (diagDataMap : DiagDataMap Doc SS RS SM) (n : Nat)
    (d : DiagnosticData Doc SS RS SM) : DiagnosticData Doc SS RS SM :=
  (List.range n).foldl (mergeStep diagDataMap) d

/-- The series of the files `0, ..., n - 1` of the map, one after the other. -/
def seriesOf {Doc SS RS SM α : Type} (diagDataMap : DiagDataMap Doc SS RS SM)
    (series : DiagnosticData Doc SS RS SM → List α) (n : Nat) : List α :=
  ((List.range n).map (fun i => series (diagDataMap.get (Itoa i)))).flatten

/-- The map `diagDataMap` when the goroutines are done, each of them having run to its
end without the others in between: the file `k + i` has the result `results[i]` of
`readDiagnosticFile` under the key `Itoa (k + i)` when the call returned no error
(`some`), and no key otherwise (`none`). -/
def diagDataMapFrom {Doc SS RS SM : Type} (k : Nat) :
    List (Option (DiagnosticData Doc SS RS SM)) → DiagDataMap Doc SS RS SM
  | [] => []
  | none :: rs => diagDataMapFrom (k + 1) rs
  | some dd :: rs => (Itoa k, dd) :: diagDataMapFrom (k + 1) rs

/-- What file `i` contributes: its result, or the zero value when it failed. -/
def resultOf {Doc SS RS SM : Type} (results : List (Option (DiagnosticData Doc SS RS SM)))
    (i : Nat) : DiagnosticData Doc SS RS SM :=
  (results.getD i none).getD DiagnosticData.zero

/-- The scenario of three files: `metrics.A` with two chunks, a file that fails, and
`metrics.B` with a document of type 0 and one chunk. -/
def threeFilesResults : List (Option (DiagnosticData String Nat Nat Nat)) :=
  [some { ServerInfo := none, ServerStatusList := [1, 2], ReplSetStatusList := [10, 20],
          SystemMetricsList := [100, 200] },
   none,
   some { ServerInfo := some "B", ServerStatusList := [3], ReplSetStatusList := [30],
          SystemMetricsList := [300] }]

/-! ## The choice of the analyzer in `readDiagnosticFiles` -/

/-- What `readDiagnosticFiles` does with its files: `textual` for the loop that gives
each of them to `analyzeServerStatus`, `binary` for the goroutines that give each of
them to `readDiagnosticFile`. -/
inductive Route where
  | textual (filenames : List GoString)
  | binary (filenames : List GoString)
  deriving DecidableEq, Repr

/-- The test at the head of `readDiagnosticFiles`. `none` stands for the panic of
`filenames[0]` on an empty list. -/
def readDiagnosticFilesRoute (filenames : List GoString) : Option Route :=
  match filenames with
  | [] => none
  | f :: _ =>
    if contains f "keyhole_stats.".data then some (Route.textual filenames)
    else some (Route.binary filenames)

/-- Test `strings.Index(s, prefix) == 0`. -/
def startsWith (s pre : GoString) : Bool :=
  match Index s pre with
  | some i => i == 0
  | none => false

/-- The comparison `a < b` of two strings: byte by byte. -/
def stringLess : GoString → GoString → Bool
  | [], [] => false
  | [], _ :: _ => true
  | _ :: _, [] => false
  | a :: as, b :: bs =>
    if a.toNat < b.toNat then true
    else if b.toNat < a.toNat then false
    else stringLess as bs

/-- The entries of a directory as `ioutil.ReadDir` gives them: sorted by name. -/
def SortedByName (names : List GoString) : Prop :=
  names.Pairwise (fun a b => stringLess b a = false)

/-- The loop of `readDiagnosticDir` over the entries `names` of the directory, which
`ioutil.ReadDir` gives sorted by name: the paths handed to `readDiagnosticFiles`. -/
def readDiagnosticDirNames (dirname : GoString) (names : List GoString) : List GoString :=
  (names.filter (fun name =>
    !(!startsWith name "metrics.".data && !startsWith name "keyhole_stats.".data))).map
      (fun name => dirname ++ "/".data ++ name)

/-! ## `NewLogInfo` and the name of the output file -/

/-- Result of `filepath.Base` on a system whose separator is `/`: the last element of
the path, after the trailing separators are removed; `.` for the empty path, `/` for
a path of separators only. -/
def Base (path : GoString) : GoString :=
  if path == [] then ".".data
  else
    let path := (path.reverse.dropWhile (fun c => c == '/')).reverse
    let path := (path.reverse.takeWhile (fun c => c != '/')).reverse
    if path == [] then "/".data else path

/-- The field `OutputFilename` of the result of `NewLogInfo(filename)`. -/
def OutputFilename (filename : GoString) : GoString :=
  let out := Base filename
  let out := if HasSuffix out ".gz".data then out.take (out.length - 3) else out
  out ++ ".enc".data

/-! ## `MilliToTimeString` -/

/-- A `float64` that is finite and not negative: the number `num / 2 ^ exp`. -/
structure Float64 where
  num : Nat
  exp : Nat
  deriving DecidableEq, Repr

/-- The integer nearest to `a / b`, the even one of the two when `a / b` lies halfway
between two integers (`b > 0`). -/
def roundHalfEven (a b : Nat) : Nat :=
  let q := a / b
  let r := a % b
  if 2 * r > b || (2 * r == b && q % 2 == 1) then q + 1 else q

/-- The loop of `log2`, with `fuel` for the number of steps. -/
def log2Aux : Nat → Nat → Nat
  | 0, _ => 0
  | fuel + 1, n => if n ≥ 2 then log2Aux fuel (n / 2) + 1 else 0

/-- The position of the highest bit of `n`: the largest `k` with `2 ^ k ≤ n`, and 0 for
`n = 0`. -/
def log2 (n : Nat) : Nat := log2Aux n n

/-- The `float64` nearest to `a / b`, the one with an even significand when `a / b` lies
halfway between two of them: 53 significant bits (`b > 0`, and the quotient in the
range of the normal numbers). With `s` the least number such that
`2 ^ 52 ≤ a * 2 ^ s / b`, the significand is `a * 2 ^ s / b` rounded; a quotient of
`2 ^ 53` or more is rounded to a multiple of `2 ^ t`. -/
def Float64.nearest (a b : Nat) : Float64 :=
  if a = 0 then { num := 0, exp := 0 }
  else if a < b * 2 ^ 53 then
    let s := (log2 b + 53) - log2 a
    let s := if 1 ≤ s && b * 2 ^ 52 ≤ a * 2 ^ (s - 1) then s - 1 else s
    { num := roundHalfEven (a * 2 ^ s) b, exp := s }
  else
    let t := log2 (a / b) - 52
    { num := roundHalfEven a (b * 2 ^ t) * 2 ^ t, exp := 0 }

/-- Conversion `float64(m)` of an integer that is not negative. -/
def Float64.ofNat (m : Nat) : Float64 := Float64.nearest m 1

/-- A constant of the program text, such as `3600000`, as a `float64`. -/
def Float64.const (c : Nat) : Float64 := { num := c, exp := 0 }

/-- Comparison `x >= y`. -/
def Float64.ge (x y : Float64) : Bool := decide (y.num * 2 ^ x.exp ≤ x.num * 2 ^ y.exp)

/-- Quotient `x / y` (`y > 0`). -/
def Float64.div (x y : Float64) : Float64 :=
  Float64.nearest (x.num * 2 ^ y.exp) (y.num * 2 ^ x.exp)

/-- Result of `strconv.FormatFloat(x, 'f', prec, 64)`: the decimal digits of `x` rounded
to `prec` digits after the point, to the even digit when `x` lies halfway. -/
def FormatFloat (x : Float64) (prec : Nat) : GoString :=
  let t := roundHalfEven (x.num * 10 ^ prec) (2 ^ x.exp)
  if prec = 0 then Itoa t
  else
    let frac := Itoa (t % 10 ^ prec)
    Itoa (t / 10 ^ prec) ++ ".".data ++ List.replicate (prec - frac.length) '0' ++ frac

/-- Result of `fmt.Sprintf` for the verb `%<width>.<prec>f`: the text is padded with
spaces on the left up to `width`. -/
def SprintfFloat (width prec : Nat) (x : Float64) : GoString :=
  let s := FormatFloat x prec
  List.replicate (width - s.length) ' ' ++ s

/-- MilliToTimeString converts milliseconds to time string, e.g. 1.5m. -/
def MilliToTimeString (milli : Float64) : GoString :=
  let avgstr := SprintfFloat 6 0 milli
  if milli.ge (Float64.const 3600000) then
    let milli := milli.div (Float64.const 3600000)
    SprintfFloat 4 1 milli ++ "h".data
  else if milli.ge (Float64.const 60000) then
    let milli := milli.div (Float64.const 60000)
    SprintfFloat 3 1 milli ++ "m".data
  else if milli.ge (Float64.const 1000) then
    let milli := milli.div (Float64.const 1000)
    SprintfFloat 3 1 milli ++ "s".data
  else avgstr

/-- The number of tenths that `FormatFloat x 1` shows. -/
def tenths (x : Float64) : Nat := roundHalfEven (x.num * 10) (2 ^ x.exp)

/-- The text `s` padded with spaces on the left up to the width `width`. -/
def padLeft (width : Nat) (s : GoString) : GoString :=
  List.replicate (width - s.length) ' ' ++ s

/-- A `find` line cut short in its plan: the document after `planSummary: IXSCAN` has
no closing brace. -/
def truncatedPlanLine : GoString :=
  "2019-01-01T00:00:00.000+0000 I COMMAND  [conn1] command db.c command: find \x7b find: \"c\", filter: \x7b id: 5 \x7d \x7d planSummary: IXSCAN \x7b id: 1, name: 1 ... 50ms".data

/-! ## `printLogsSummary` -/

/-- Result of `strings.LastIndex`: byte offset of the last occurrence, `none` for `-1`. -/
def LastIndex (s sub : GoString) : Option Nat :=
  (List.range (s.length + 1)).reverse.find? (fun i => sub.isPrefixOf (s.drop i))

/-- Result of `fmt.Sprintf` for the verbs `%<width>s` and `%-<width>s` (`left`): the text
is padded with spaces up to `width` runes. -/
def SprintfString (width : Nat) (left : Bool) (s : GoString) : GoString :=
  let pad := List.replicate (width - (runes s).length) ' '
  if left then s ++ pad else pad ++ s

/-- Result of `strconv.Itoa`. -/
def ItoaInt (i : Int) : GoString :=
  if i < 0 then '-' :: Itoa (-i).toNat else Itoa i.toNat

/-- Result of `fmt.Sprintf` for the verb `%<width>d`. -/
def SprintfInt (width : Nat) (i : Int) : GoString := SprintfString width false (ItoaInt i)

/-- The first half of the body of the inner loop of `printLogsSummary`, at the index
`i < len(remaining)`: the text `pstr` and the index `i` after the body. -/
def remainingStep (remaining : GoString) (i : Int) : GoString × Int :=
  let epos := i + 60
  if epos > remaining.length then
    (slice remaining i.toNat remaining.length, i)
  else
    let str := TrimSpaces (slice remaining i.toNat epos.toNat)
    match LastIndex str " ".data with
    | some idx => if idx > 0 then (str.take idx, i - (60 - idx)) else ([], i)
    | none => ([], i)

/-- The loop `for i := 0; i < len(remaining); i += 60` of `printLogsSummary` over
`remaining`, the rest of a filter of more than 60 bytes: the text written to the buffer
from the index `i` on (`output` is written twice at each step). `fuel` bounds the
number of steps. -/
def printRemaining (scan remaining : GoString) : Nat → Int → GoString
  | 0, _ => []
  | fuel + 1, i =>
    if i < remaining.length then
      let st := remainingStep remaining i
      let pstr := st.1
      let output :=
        if scan == COLLSCAN then
          "|".data ++ SprintfString 73 false " ".data ++ "   \x1b[31;1m".data
            ++ SprintfString 62 true pstr ++ "\x1b[0m|\n".data
        else
          "|".data ++ SprintfString 73 false " ".data ++ "   ".data
            ++ SprintfString 62 true pstr ++ "|\n".data
      output ++ output ++ printRemaining scan remaining fuel (st.2 + 60)
    else []

/-- The body of the loop of `printLogsSummary` for the entry `value`: the text written
to the buffer. `avgstr` gives the text of
`MilliToTimeString(float64(value.TotalMilli) / float64(value.Count))`. `none` stands
for the panic of `value.Filter[:idx]` with `idx = -1`. -/
def printEntry (avgstr : Int → Int → GoString) (value : OpPerformanceDoc) : Option GoString :=
  let command := if value.Command.length > 13 then value.Command.take 13 else value.Command
  let ns :=
    if value.Namespace.length > 33 then
      value.Namespace.take 1 ++ "*".data ++ value.Namespace.drop (value.Namespace.length - 31)
    else value.Namespace
  let cut : Option GoString :=
    if value.Filter.length > 60 then
      match LastIndex (value.Filter.take 60) " ".data with
      | some idx => some (value.Filter.take idx)
      | none => none
    else some value.Filter
  match cut with
  | none => none
  | some str =>
    let avg := avgstr value.TotalMilli value.Count
    let output :=
      if value.Scan == COLLSCAN then
        "|".data ++ SprintfString 9 true command ++ " \x1b[31;1m".data
          ++ SprintfString 8 false value.Scan ++ "\x1b[0m ".data ++ SprintfString 6 false avg
          ++ " ".data ++ SprintfInt 8 value.MaxMilli ++ " ".data ++ SprintfInt 6 value.Count
          ++ " ".data ++ SprintfString 33 true ns ++ " \x1b[31;1m".data
          ++ SprintfString 62 true str ++ "\x1b[0m|\n".data
      else
        "|".data ++ SprintfString 9 true command ++ " \x1b[31;1m".data
          ++ SprintfString 8 false value.Scan ++ "\x1b[0m ".data ++ SprintfString 6 false avg
          ++ " ".data ++ SprintfInt 8 value.MaxMilli ++ " ".data ++ SprintfInt 6 value.Count
          ++ " ".data ++ SprintfString 33 true ns ++ " ".data
          ++ SprintfString 62 true str ++ "|\n".data
    let rest :=
      if value.Filter.length > 60 then
        let remaining := value.Filter.drop str.length
        printRemaining value.Scan remaining (remaining.length + 1) 0
      else []
    let index :=
      if value.Index != [] then
        "|...index: \x1b[32;1m".data ++ SprintfString 128 true value.Index ++ "\x1b[0m|\n".data
      else []
    some (output ++ rest ++ index)

/-- The loop of `printLogsSummary` over `arr`. -/
def printEntries (avgstr : Int → Int → GoString) : List OpPerformanceDoc → Option GoString
  | [] => some []
  | value :: arr =>
    match printEntry avgstr value with
    | none => none
    | some out =>
      match printEntries avgstr arr with
      | none => none
      | some rest => some (out ++ rest)

/-- Function `printLogsSummary`. `none` stands for a panic. -/
def printLogsSummary (avgstr : Int → Int → GoString) (arr : List OpPerformanceDoc) :
    Option GoString :=
  match printEntries avgstr arr with
  | none => none
  | some body =>
    some ("\r+---------+--------+------+--------+------+---------------------------------+--------------------------------------------------------------+\n".data
      ++ "| Command |COLLSCAN|avg ms| max ms | Count| ".data
      ++ SprintfString 32 true "Namespace".data ++ "| ".data
      ++ SprintfString 60 true "Query Pattern".data ++ " |\n".data
      ++ "|---------+--------+------+--------+------+---------------------------------+--------------------------------------------------------------|\n".data
      ++ body
      ++ "+---------+--------+------+--------+------+---------------------------------+--------------------------------------------------------------+\n".data)

/-! ## `float64` with a sign, the infinities and NaN -/

/-- A `float64`: a finite number with its sign bit and its magnitude, an infinity with its
sign bit, or NaN. -/
inductive GoFloat64 where
  | finite (neg : Bool) (mag : Float64)
  | inf (neg : Bool)
  | nan
  deriving DecidableEq, Repr

/-- Conversion `float64(i)` of an `int`. -/
def GoFloat64.ofInt (i : Int) : GoFloat64 :=
  .finite (decide (i < 0)) (Float64.ofNat i.natAbs)

/-- Quotient `x / y`: a number that is not zero over zero is an infinity, zero over zero
and an infinity over an infinity are NaN, and the sign bit of the quotient is set when the
sign bits differ. -/
def GoFloat64.div : GoFloat64 → GoFloat64 → GoFloat64
  | .finite s x, .finite t y =>
    if y.num = 0 then (if x.num = 0 then .nan else .inf (s != t))
    else .finite (s != t) (Float64.div x y)
  | .finite s _, .inf t => .finite (s != t) (Float64.const 0)
  | .inf s, .finite t _ => .inf (s != t)
  | .inf _, .inf _ => .nan
  | .nan, _ => .nan
  | .finite _ _, .nan => .nan
  | .inf _, .nan => .nan

/-- The numerator of a finite `float64` with its sign: the number is
`signedNum neg mag / 2 ^ mag.exp`. -/
def signedNum (neg : Bool) (mag : Float64) : Int :=
  if neg then -(mag.num : Int) else (mag.num : Int)

/-- Comparison `x > y`: false when `x` or `y` is NaN. -/
def GoFloat64.gt : GoFloat64 → GoFloat64 → Bool
  | .finite s x, .finite t y =>
    decide (signedNum t y * 2 ^ x.exp < signedNum s x * 2 ^ y.exp)
  | .finite _ _, .inf t => t
  | .inf s, .finite _ _ => !s
  | .inf s, .inf t => !s && t
  | .nan, _ => false
  | .finite _ _, .nan => false
  | .inf _, .nan => false

/-- The quotient `float64(total) / float64(count)` of two `int`. -/
def avgFloat64 (total count : Int) : GoFloat64 :=
  (GoFloat64.ofInt total).div (GoFloat64.ofInt count)

/-- The `float64` arithmetic of the program. -/
def float64Ops : FloatOps := { F := GoFloat64, avg := avgFloat64, gt := GoFloat64.gt }

/-- The rational number that a finite `float64` stands for (0 for the other values). -/
def GoFloat64.toRat : GoFloat64 → Rat
  | .finite s x => (signedNum s x : Rat) / 2 ^ x.exp
  | .inf _ => 0
  | .nan => 0

/-- Function `MilliToTimeString` on any `float64`: a number with the sign bit set, the
infinity below zero and NaN fail the three tests `>=` and are printed by `%6.0f`; the
infinity above zero passes the first test and, divided by 3600000, is printed by
`%4.1f` before the `h`. -/
def GoFloat64.timeString : GoFloat64 → GoString
  | .finite false mag => MilliToTimeString mag
  | .finite true mag => SprintfString 6 false ('-' :: FormatFloat mag 0)
  | .inf false => SprintfString 4 false "+Inf".data ++ "h".data
  | .inf true => SprintfString 6 false "-Inf".data
  | .nan => SprintfString 6 false "NaN".data

/-- The text of `MilliToTimeString(float64(total) / float64(count))`. -/
def avgText (total count : Int) : GoString := (avgFloat64 total count).timeString

/-- An entry whose filter `{aaa...a:1}` has 64 bytes and no space. -/
def longFilterEntry : OpPerformanceDoc :=
  { Command := "find".data, Count := 1,
    Filter := "\x7b".data ++ List.replicate 60 'a' ++ ":1\x7d".data, MaxMilli := 50,
    Namespace := "db.c".data, Scan := [], TotalMilli := 50, Index := [] }

/-- An entry whose namespace has 40 bytes. -/
def longNamespaceEntry : OpPerformanceDoc :=
  { Command := "find".data, Count := 2, Filter := "\x7bid:1\x7d".data, MaxMilli := 150,
    Namespace := "database.".data ++ List.replicate 31 'c', Scan := COLLSCAN,
    TotalMilli := 200, Index := [] }

/-- An entry whose filter has 78 bytes and spaces. -/
def wrappedFilterEntry : OpPerformanceDoc :=
  { Command := "find".data, Count := 2,
    Filter := "\x7balpha:1, beta:1, gamma:1, delta:1, epsilon:1, zeta:1, eta:1, theta:1, iota:1\x7d".data,
    MaxMilli := 150, Namespace := "db.c".data, Scan := [], TotalMilli := 200,
    Index := "\x7b alpha: 1 \x7d".data }

/-! ## `PrintDiagnosticData` and `readDiagnosticDir` -/

/-- What `os.Stat` tells of a path: `fi.Mode().IsDir()`, `fi.Mode().IsRegular()`, or
neither. -/
inductive FileMode where
  | dir
  | regular
  | other
  deriving DecidableEq, Repr

/-- What `PrintDiagnosticData` has around it: the file system, the analyzers that
`readDiagnosticFiles` hands the files to, and the printing of the statistics. -/
structure DiagEnv (Doc SS RS SM : Type) where
  /-- Result of `os.Stat(filename)`: `none` for an error. -/
  stat : GoString → Option FileMode
  /-- Result of `ioutil.ReadDir(dirname)`: the names of the entries, sorted; `none`
  for an error. -/
  readDir : GoString → Option (List GoString)
  /-- The analyzers on the files of a route: `d` after them, `none` when
  `readDiagnosticFiles` returns an error. -/
  load : Route → DiagnosticData Doc SS RS SM → Option (DiagnosticData Doc SS RS SM)
  /-- The text that `PrintDiagnosticData` returns when `d.ServerStatusList` is not
  empty. -/
  render : Bool → DiagnosticData Doc SS RS SM → GoString

/-- How a call ends: a panic, a returned error, or a value. -/
inductive Outcome (α : Type) where
  | panic
  | error
  | ok (a : α)
  deriving DecidableEq, Repr

/-- Function `readDiagnosticFiles`: `d` after the call. -/
def readDiagnosticFiles {Doc SS RS SM : Type} (env : DiagEnv Doc SS RS SM)
    (filenames : List GoString) (d : DiagnosticData Doc SS RS SM) :
    Outcome (DiagnosticData Doc SS RS SM) :=
  match readDiagnosticFilesRoute filenames with
  | none => Outcome.panic
  | some route =>
    match env.load route d with
    | none => Outcome.error
    | some d => Outcome.ok d

/-- Function `readDiagnosticDir`: `d` after the call. -/
def readDiagnosticDir {Doc SS RS SM : Type} (env : DiagEnv Doc SS RS SM)
    (dirname : GoString) (d : DiagnosticData Doc SS RS SM) :
    Outcome (DiagnosticData Doc SS RS SM) :=
  match env.readDir dirname with
  | none => Outcome.error
  | some names => readDiagnosticFiles env (readDiagnosticDirNames dirname names) d

/-- The loop of `PrintDiagnosticData` over `filenames`: `d` after the loop. -/
def ingest {Doc SS RS SM : Type} (env : DiagEnv Doc SS RS SM) :
    List GoString → DiagnosticData Doc SS RS SM → Outcome (DiagnosticData Doc SS RS SM)
  | [], d => Outcome.ok d
  | filename :: rest, d =>
    match env.stat filename with
    | none => Outcome.error
    | some FileMode.dir =>
      match readDiagnosticDir env filename d with
      | Outcome.ok d => ingest env rest d
      | Outcome.error => Outcome.error
      | Outcome.panic => Outcome.panic
    | some FileMode.regular =>
      match readDiagnosticFiles env [filename] d with
      | Outcome.ok d => ingest env rest d
      | Outcome.error => Outcome.error
      | Outcome.panic => Outcome.panic
    | some FileMode.other => ingest env rest d

/-- PrintDiagnosticData prints diagnostic data of MongoD: the text returned. -/
def PrintDiagnosticData {Doc SS RS SM : Type} (env : DiagEnv Doc SS RS SM)
    (filenames : List GoString) (isWeb : Bool) (d : DiagnosticData Doc SS RS SM) :
    Outcome GoString :=
  match ingest env filenames d with
  | Outcome.panic => Outcome.panic
  | Outcome.error => Outcome.error
  | Outcome.ok d =>
    if d.ServerStatusList.length == 0 then Outcome.ok "No FTDC data found.".data
    else Outcome.ok (env.render isWeb d)

/-- A file system with two directories: `empty`, whose only entry is `README`, and
`quiet`, whose only entry is `metrics.1`. The analyzers find no sample in any file. -/
def quietEnv : DiagEnv String Nat Nat Nat :=
  { stat := fun path =>
      if path == "empty".data || path == "quiet".data then some FileMode.dir else none,
    readDir := fun path =>
      if path == "empty".data then some ["README".data]
      else if path == "quiet".data then some ["metrics.1".data]
      else none,
    load := fun _ d => some d,
    render := fun _ _ => "stats".data }

/-- The first line of `twoNamespaceLines` as `Parse` reads it. -/
def firstNamespaceLine : OpLine :=
  { op := "find".data, ns := "db.a".data, filter := "\x7bid:1\x7d".data, scan := COLLSCAN,
    index := [], milli := 50, str := findLineOn "a".data "1".data "50".data }

/-- A `find` line whose filter is `{ aaa...a: 5 }` with a field name of 60 bytes. -/
def longFieldLine : GoString :=
  "2019-01-01T00:00:00.000+0000 I COMMAND  [conn1] command db.c command: find \x7b find: \"c\", filter: \x7b ".data
    ++ List.replicate 60 'a' ++ ": 5 \x7d \x7d planSummary: COLLSCAN 50ms".data

/-- A slow-operation line of the log: a `find` on `db.c` with the filter
`{ <field>: 1 }` that took `<ms>` milliseconds. -/
def findFieldLine (field ms : GoString) : GoString :=
  "2019-01-01T00:00:00.000+0000 I COMMAND  [conn1] command db.c command: find \x7b find: \"c\", filter: \x7b ".data
    ++ field ++ ": 1 \x7d \x7d planSummary: COLLSCAN ".data ++ ms ++ "ms".data

/-- Two `find` lines of two patterns, of 9007199254740992 ms and 9007199254740993 ms:
the two durations have the same nearest `float64`. -/
def roundedLines : List GoString :=
  [findFieldLine "a".data "9007199254740992".data, findFieldLine "b".data "9007199254740993".data]

/-- Two `find` lines of two patterns, of 50 ms and 150 ms. -/
def twoPatternLines : List GoString :=
  [findFieldLine "a".data "50".data, findFieldLine "b".data "150".data]

/-- The two entries that `roundedLines` produce, in the order of the lines. -/
def roundedEntries : List OpPerformanceDoc :=
  [{ Command := "find".data, Count := 1, Filter := "\x7ba:1\x7d".data,
     MaxMilli := 9007199254740992, Namespace := "db.c".data, Scan := COLLSCAN,
     TotalMilli := 9007199254740992, Index := [] },
   { Command := "find".data, Count := 1, Filter := "\x7bb:1\x7d".data,
     MaxMilli := 9007199254740993, Namespace := "db.c".data, Scan := COLLSCAN,
     TotalMilli := 9007199254740993, Index := [] }]

/-! ## Filters that differ in the values of their literal leaves -/

/-- The text starts with a decimal digit. -/
def digitHead : GoString → Bool
  | [] => false
  | c :: _ => c.isDigit

/-- The text after the digits of a decimal integer does not continue the number: it
does not start with a digit, nor with `.` and a digit. -/
def intEnds : GoString → Bool
  | [] => true
  | c :: t => !c.isDigit && !(c == '.' && digitHead t)

/-- Modelled from the spec: the text `u` is a literal leaf ("quoted strings, signed
decimals, `new Date(n)`, `true`, `false`") written before the text `x`. A quoted string
holds no `"` between its quotes, and the text `x` after a number does not continue the
number. -/
inductive LeafAt : GoString → GoString → Prop where
  | quoted (s x : GoString) (hs : '"' ∉ s) : LeafAt ('"' :: (s ++ "\"".data)) x
  | int (neg : Bool) (digits x : GoString) (hne : digits ≠ [])
      (hd : ∀ c ∈ digits, c.isDigit = true) (hx : intEnds x = true) :
      LeafAt ((if neg then "-".data else []) ++ digits) x
  | decimal (neg : Bool) (digits frac x : GoString) (hne : digits ≠ []) (hfne : frac ≠ [])
      (hd : ∀ c ∈ digits, c.isDigit = true) (hf : ∀ c ∈ frac, c.isDigit = true)
      (hx : digitHead x = false) :
      LeafAt ((if neg then "-".data else []) ++ digits ++ ".".data ++ frac) x
  | date (digits x : GoString) (hne : digits ≠ []) (hd : ∀ c ∈ digits, c.isDigit = true) :
      LeafAt ("new Date(".data ++ digits ++ ")".data) x
  | true (x : GoString) : LeafAt "true".data x
  | false (x : GoString) : LeafAt "false".data x

/-- A literal may start after a `:`: the text after the colon begins with a space that
is followed by `"`, by a digit, by `-` and a digit, or by `new Date(`, `true` or
`false`. -/
def literalAhead : GoString → Bool
  | [] => false
  | c :: r =>
    c == ' ' &&
      ("\"".data.isPrefixOf r || digitHead r || ("-".data.isPrefixOf r && digitHead (r.drop 1)) ||
        "new Date(".data.isPrefixOf r || "true".data.isPrefixOf r || "false".data.isPrefixOf r)

/-- Modelled from the spec: the filters `x` and `y` "differ only in the values of their
literal leaves at the same positions". A leaf is a literal written after `: `; outside
the leaves the two texts have the same bytes, and no literal starts after a `:` that is
outside the leaves. -/
inductive SameShape : GoString → GoString → Prop where
  | nil : SameShape [] []
  | byte (c : Char) (x y : GoString) (hc : c ≠ ':') (h : SameShape x y) :
      SameShape (c :: x) (c :: y)
  | colon (x y : GoString) (hx : literalAhead x = false) (hy : literalAhead y = false)
      (h : SameShape x y) : SameShape (':' :: x) (':' :: y)
  | leaf (u v x y : GoString) (hu : LeafAt u x) (hv : LeafAt v y) (h : SameShape x y) :
      SameShape (": ".data ++ u ++ x) (": ".data ++ v ++ y)

/-- The first five steps of the value-elision cascade of `Parse`: the four calls of
`removeInElements` and the `$regex` step. -/
def elideLists (filter : GoString) : GoString :=
  let filter := removeInElements filter "$in: [ ".data
  let filter := removeInElements filter "$nin: [ ".data
  let filter := removeInElements filter "$in: [ ".data
  let filter := removeInElements filter "$nin: [ ".data
  collapseRegex filter

/-- The filter of a line as `Parse` has extracted it when the value-elision cascade
starts: the result of the chain of `if op == ...` on the text of the command. `none`
when the line does not match the slow-operation pattern or the chain ends in
`continue`. -/
def extractedFilter (str : GoString) : Option GoString :=
  match FindStringSubmatch reSlowOp str with
  | none => none
  | some result =>
    match commandOf (group result 2) (lineFilter result) with
    | none => none
    | some (op, filter) =>
      opFilter op filter (group result 4) (if contains str "COLLSCAN".data then COLLSCAN else [])

/-- A slow-operation line of the log: a `find` on `db.c` with the filter `<filter>` that
took `<ms>` milliseconds. -/
def findFilterLine (filter ms : GoString) : GoString :=
  "2019-01-01T00:00:00.000+0000 I COMMAND  [conn1] command db.c command: find \x7b find: \"c\", filter: ".data
    ++ filter ++ " \x7d planSummary: COLLSCAN ".data ++ ms ++ "ms".data

/-- A filter with three fields, one of them a document. -/
def firstShapeFilter : GoString :=
  "\x7b name: \"alice\", age: 30, tags: \x7b $exists: true \x7d \x7d".data

/-- The filter `firstShapeFilter` with other values in its literal leaves. -/
def secondShapeFilter : GoString :=
  "\x7b name: \"bob\", age: -4.5, tags: \x7b $exists: false \x7d \x7d".data

/-! ## Filters whose canonical form is settled -/

/-- The byte is an ASCII character that the class `\S` matches. -/
def isNonSpaceByte (c : Char) : Bool := decide (c.toNat < 0x80) && isNonSpaceRune (some c)

/-- The text after an `ObjectId('...')` ends the value: it is empty, or starts with a
space, or starts with a comma that is followed by a space or by nothing. -/
def valueEnds : GoString → Bool
  | [] => true
  | c :: r => c == ' ' || (c == ',' && (r.head? == none || r.head? == some ' '))

/-- The text does not start with `ObjectId('` nor with `Timestamp(`. -/
def noSpecialAhead (x : GoString) : Bool :=
  !"ObjectId('".data.isPrefixOf x && !"Timestamp(".data.isPrefixOf x

/-- The filter `x` goes through the cascade token by token: `z` is its text after the
literal step, `o` after the step of `ObjectId` and `Timestamp`, `y` after the replacement
of `{ ` by `{`, and `w` after the replacement of ` }` by `}`. A space of `x` is followed
by neither a space nor, unless it is removed with it, a `}`; a `{` is followed by at
most one space; after a `: ` comes a literal leaf, an `ObjectId('...')` or a
`Timestamp(n, n)`, which become `:1`, or a text that cannot start a literal; and
`ObjectId('` and `Timestamp(` follow a space only there. -/
inductive CanonForm : GoString → GoString → GoString → GoString → GoString → Prop where
  | nil : CanonForm [] [] [] [] []
  | byte (c : Char) (x z o y w : GoString) (hc : c ≠ ':' ∧ c ≠ ' ' ∧ c ≠ '{')
      (h : CanonForm x z o y w) : CanonForm (c :: x) (c :: z) (c :: o) (c :: y) (c :: w)
  | space (x z o y w : GoString) (hx : x.head? ≠ some ' ' ∧ x.head? ≠ some '}')
      (hs : noSpecialAhead x = true) (h : CanonForm x z o y w) :
      CanonForm (' ' :: x) (' ' :: z) (' ' :: o) (' ' :: y) (' ' :: w)
  | spaceBrace (x z o y w : GoString) (h : CanonForm x z o y w) :
      CanonForm (' ' :: '}' :: x) (' ' :: '}' :: z) (' ' :: '}' :: o) (' ' :: '}' :: y)
        ('}' :: w)
  | brace (x z o y w : GoString) (hx : x.head? ≠ some ' ') (h : CanonForm x z o y w) :
      CanonForm ('{' :: x) ('{' :: z) ('{' :: o) ('{' :: y) ('{' :: w)
  | braceSpace (x z o y w : GoString) (hx : x.head? ≠ some ' ')
      (hs : noSpecialAhead x = true) (h : CanonForm x z o y w) :
      CanonForm ('{' :: ' ' :: x) ('{' :: ' ' :: z) ('{' :: ' ' :: o) ('{' :: y) ('{' :: w)
  | colon (x z o y w : GoString) (hx : literalAhead x = false) (h : CanonForm x z o y w) :
      CanonForm (':' :: x) (':' :: z) (':' :: o) (':' :: y) (':' :: w)
  | leaf (u x z o y w : GoString) (hu : LeafAt u x) (h : CanonForm x z o y w) :
      CanonForm (": ".data ++ u ++ x) (":1".data ++ z) (":1".data ++ o) (":1".data ++ y)
        (":1".data ++ w)
  | objectId (s x z o y w : GoString) (hne : s ≠ [])
      (hs : ∀ c ∈ s, isNonSpaceByte c = true ∧ c ≠ ':') (hx : valueEnds x = true)
      (h : CanonForm x z o y w) :
      CanonForm (':' :: (" ObjectId('".data ++ s ++ "')".data ++ x))
        (':' :: (" ObjectId('".data ++ s ++ "')".data ++ z))
        (":1".data ++ o) (":1".data ++ y) (":1".data ++ w)
  | timestamp (a b x z o y w : GoString) (hane : a ≠ []) (hbne : b ≠ [])
      (ha : ∀ c ∈ a, c.isDigit = true) (hb : ∀ c ∈ b, c.isDigit = true)
      (h : CanonForm x z o y w) :
      CanonForm (':' :: (" Timestamp(".data ++ a ++ ", ".data ++ b ++ ")".data ++ x))
        (':' :: (" Timestamp(".data ++ a ++ ", ".data ++ b ++ ")".data ++ z))
        (":1".data ++ o) (":1".data ++ y) (":1".data ++ w)

/-- A text that the cascade can neither create nor break up: it holds no brace, and a
`:` in it is its last byte or is followed by a space. -/
def rigid : GoString → Bool
  | [] => true
  | c :: m => c != '\x7b' && c != '\x7d' && (c != ':' || m.isEmpty || m.head? == some ' ') && rigid m

/-- The markers of the `$in` and `$nin` lists and the texts with which a match of one of
the later patterns of the cascade starts, other than ` ObjectId('` and ` Timestamp(`. -/
def specialTexts : List GoString :=
  ["$in: [ ".data, "$nin: [ ".data, ", shardVersion: [".data, "UUID(\"".data,
   "BinData(".data, ": /".data]

/-- A filter with an `ObjectId`, a `Timestamp` and a string. -/
def objectIdFilter : GoString :=
  "\x7b _id: ObjectId('5f1a'), ts: Timestamp(1, 2), name: \"alice\" \x7d".data

/-! ## Facts about `sortSlice` -/

theorem insertRev_perm {α : Type} (less : α → α → Bool) (x : α) (l : List α) :
    (insertRev less x l).Perm (x :: l) := by
  induction l with
  | nil => exact List.Perm.refl _
  | cons y ys ih =>
    unfold insertRev
    split
    · exact (ih.cons y).trans (List.Perm.swap x y ys)
    · exact List.Perm.refl _

theorem insertBy_perm {α : Type} (less : α → α → Bool) (x : α) (l : List α) :
    (insertBy less x l).Perm (x :: l) := by
  unfold insertBy
  exact (List.reverse_perm _).trans
    ((insertRev_perm less x l.reverse).trans ((List.reverse_perm l).cons x))

theorem foldl_insertBy_perm {α : Type} (less : α → α → Bool) (l acc : List α) :
    (l.foldl (fun sorted x => insertBy less x sorted) acc).Perm (acc ++ l) := by
  induction l generalizing acc with
  | nil => simp
  | cons x xs ih =>
    rw [List.foldl_cons]
    refine (ih _).trans ?_
    have h : (insertBy less x acc).Perm (acc ++ [x]) :=
      (insertBy_perm less x acc).trans (List.perm_append_singleton x acc).symm
    have := h.append_right xs
    simpa using this

theorem sortSlice_perm {α : Type} (less : α → α → Bool) (l : List α) :
    (sortSlice less l).Perm l := by
  unfold sortSlice
  simpa using foldl_insertBy_perm less l []

theorem insertRev_pairwise {α : Type} (less : α → α → Bool)
    (hasym : ∀ a b, less a b = true → less b a = false)
    (htrans : ∀ a b c, less a b = false → less b c = false → less a c = false)
    (x : α) (l : List α) (h : l.Pairwise (fun a b => less a b = false)) :
    (insertRev less x l).Pairwise (fun a b => less a b = false) := by
  induction l with
  | nil => simp [insertRev]
  | cons y ys ih =>
    rw [List.pairwise_cons] at h
    unfold insertRev
    split
    · rename_i hxy
      rw [List.pairwise_cons]
      refine ⟨?_, ih h.2⟩
      intro z hz
      have hz2 := (insertRev_perm less x ys).mem_iff.mp hz
      rcases List.mem_cons.mp hz2 with rfl | hz3
      · exact hasym _ _ hxy
      · exact h.1 z hz3
    · rename_i hxy
      have hxy : less x y = false := by simpa using hxy
      rw [List.pairwise_cons]
      refine ⟨?_, List.pairwise_cons.mpr h⟩
      intro z hz
      rcases List.mem_cons.mp hz with rfl | hz
      · exact hxy
      · exact htrans _ _ _ hxy (h.1 z hz)

theorem insertBy_pairwise {α : Type} (less : α → α → Bool)
    (hasym : ∀ a b, less a b = true → less b a = false)
    (htrans : ∀ a b c, less a b = false → less b c = false → less a c = false)
    (x : α) (l : List α) (h : l.Pairwise (fun a b => less b a = false)) :
    (insertBy less x l).Pairwise (fun a b => less b a = false) := by
  unfold insertBy
  rw [List.pairwise_reverse]
  apply insertRev_pairwise less hasym htrans
  rw [List.pairwise_reverse]
  exact h

theorem sortSlice_pairwise {α : Type} (less : α → α → Bool)
    (hasym : ∀ a b, less a b = true → less b a = false)
    (htrans : ∀ a b c, less a b = false → less b c = false → less a c = false)
    (l : List α) : (sortSlice less l).Pairwise (fun a b => less b a = false) := by
  unfold sortSlice
  have h : ∀ acc : List α, acc.Pairwise (fun a b => less b a = false) →
      (l.foldl (fun sorted x => insertBy less x sorted) acc).Pairwise
        (fun a b => less b a = false) := by
    induction l with
    | nil => intro acc hacc; exact hacc
    | cons x xs ih =>
      intro acc hacc
      rw [List.foldl_cons]
      exact ih _ (insertBy_pairwise less hasym htrans x acc hacc)
  exact h [] List.Pairwise.nil

/-! ## The loop of `Parse` as a fold over the accepted lines -/

theorem foldl_parseStep (collscan : Bool) (lines : List GoString) (st : ParseState) :
    lines.foldl (parseStep collscan) st =
      (acceptedLines collscan lines).foldl aggregate st := by
  induction lines generalizing st with
  | nil => rfl
  | cons x xs ih =>
    simp only [List.foldl_cons, acceptedLines, List.filterMap_cons]
    cases h : parseLine collscan x with
    | none =>
      have : parseStep collscan st x = st := by simp [parseStep, h]
      rw [this]
      exact ih st
    | some l =>
      have : parseStep collscan st x = aggregate st l := by simp [parseStep, h]
      rw [this]
      simpa [acceptedLines] using ih (aggregate st l)

theorem foldl_aggregate (ls : List OpLine) (st : ParseState) :
    ls.foldl aggregate st =
      { opsMap := opsFold st.opsMap ls, slowOps := slowFold st.slowOps ls } := by
  induction ls generalizing st with
  | nil => rfl
  | cons l ls ih =>
    simp only [List.foldl_cons, opsFold, slowFold]
    rw [ih]
    rfl

theorem parseLoop_eq (li : LogInfo) (lines : List GoString) :
    parseLoop li lines =
      { opsMap := opsFold [] (acceptedLines li.collscan lines),
        slowOps := slowFold li.SlowOps (acceptedLines li.collscan lines) } := by
  unfold parseLoop
  rw [foldl_parseStep, foldl_aggregate]

/-! ## The ten largest durations -/

theorem take_orderedInsert (m : Int) (S : List Int) (k : Nat) :
    (List.orderedInsert (· ≥ ·) m S).take k =
      (List.orderedInsert (· ≥ ·) m (S.take k)).take k := by
  induction S generalizing k with
  | nil => simp
  | cons b S ih =>
    cases k with
    | zero => simp
    | succ k =>
      simp only [List.take_succ_cons, List.orderedInsert]
      split
      · cases k with
        | zero => simp
        | succ k => simp [List.take_take]
      · simp only [List.take_succ_cons]
        rw [ih k]

theorem sorted_insertionSort_ge (l : List Int) :
    (l.insertionSort (· ≥ ·)).Sorted (· ≥ ·) :=
  List.sorted_insertionSort (· ≥ ·) l

theorem insertionSort_ge_congr {l1 l2 : List Int} (h : l1.Perm l2) :
    l1.insertionSort (· ≥ ·) = l2.insertionSort (· ≥ ·) := by
  apply List.eq_of_perm_of_sorted _ (sorted_insertionSort_ge l1) (sorted_insertionSort_ge l2)
  exact (List.perm_insertionSort _ l1).trans (h.trans (List.perm_insertionSort _ l2).symm)

theorem top10_congr {l1 l2 : List Int} (h : l1.Perm l2) : top10 l1 = top10 l2 := by
  unfold top10
  rw [insertionSort_ge_congr h]

theorem top10_sorted (l : List Int) : (top10 l).Sorted (· ≥ ·) :=
  (sorted_insertionSort_ge l).sublist (List.take_sublist _ _)

theorem top10_length_le (l : List Int) : (top10 l).length ≤ 10 := by
  simp [top10, List.length_take]

theorem top10_mem {l : List Int} {x : Int} (h : x ∈ top10 l) : x ∈ l :=
  (List.perm_insertionSort _ l).mem_iff.mp (List.mem_of_mem_take h)

theorem top10_of_length_le {l : List Int} (h : l.length ≤ 10) :
    top10 l = l.insertionSort (· ≥ ·) := by
  unfold top10
  apply List.take_of_length_le
  rw [List.length_insertionSort]
  exact h

theorem top10_length (l : List Int) : (top10 l).length = min 10 l.length := by
  simp [top10, List.length_take, List.length_insertionSort]

/-- Adding a duration to the ten largest and keeping the ten largest of the result
gives the ten largest of the longer list. -/
theorem top10_snoc (seen : List Int) (m : Int) :
    ((top10 seen ++ [m]).insertionSort (· ≥ ·)).take 10 = top10 (seen ++ [m]) := by
  have h1 : (top10 seen ++ [m]).Perm (m :: top10 seen) := List.perm_append_comm
  have h2 : (seen ++ [m]).Perm (m :: seen) := List.perm_append_comm
  rw [insertionSort_ge_congr h1, top10_congr h2]
  simp only [List.insertionSort]
  rw [(top10_sorted seen).insertionSort_eq]
  unfold top10
  simp only [List.insertionSort]
  rw [take_orderedInsert m (List.insertionSort _ seen) 10]

/-! ## The slow-operation list -/

theorem map_sortSlice_milli (l : List SlowOps) :
    (sortSlice (fun a b => decide (a.Milli > b.Milli)) l).map (·.Milli) =
      (l.map (·.Milli)).insertionSort (· ≥ ·) := by
  apply List.eq_of_perm_of_sorted (r := (· ≥ ·))
  · exact ((sortSlice_perm _ l).map _).trans (List.perm_insertionSort _ _).symm
  · have h := sortSlice_pairwise (fun a b : SlowOps => decide (a.Milli > b.Milli))
      (by intro a b h; simp only [decide_eq_true_eq, decide_eq_false_iff_not] at *; omega)
      (by intro a b c h1 h2; simp only [decide_eq_false_iff_not] at *; omega) l
    unfold List.Sorted
    rw [List.pairwise_map]
    refine h.imp ?_
    intro a b hab
    simp only [decide_eq_false_iff_not] at hab
    omega
  · exact sorted_insertionSort_ge _

/-- The invariant of the slow-operation list: with the durations `seen` of at least
10 seconds met so far, the list holds them in order of arrival while they are at
most ten, and the ten largest, largest first, afterwards. -/
theorem addSlowOp_spec (slow : List SlowOps) (seen : List Int) (m : Int) (str : GoString)
    (h : slow.map (·.Milli) = if seen.length ≤ 10 then seen else top10 seen) :
    (addSlowOp slow m str).map (·.Milli) =
      if (seen ++ (if m ≥ 10000 then [m] else [])).length ≤ 10
      then seen ++ (if m ≥ 10000 then [m] else [])
      else top10 (seen ++ (if m ≥ 10000 then [m] else [])) := by
  unfold addSlowOp
  by_cases hm : m ≥ 10000
  · simp only [hm, if_true]
    have hlen : (slow ++ [({ Milli := m, Log := str } : SlowOps)]).length = slow.length + 1 := by simp
    have hslow : slow.length = (slow.map (·.Milli)).length := by simp
    by_cases h10 : seen.length ≤ 10
    · rw [if_pos h10] at h
      have hsl : slow.length = seen.length := by rw [hslow, h]
      by_cases h9 : seen.length + 1 ≤ 10
      · have : ¬ (slow ++ [({ Milli := m, Log := str } : SlowOps)]).length > 10 := by rw [hlen]; omega
        rw [if_neg this, if_pos (by simpa using h9)]
        simp [h]
      · have : (slow ++ [({ Milli := m, Log := str } : SlowOps)]).length > 10 := by rw [hlen]; omega
        rw [if_pos this, if_neg (by simpa using h9)]
        rw [List.map_take, map_sortSlice_milli]
        simp only [List.map_append, List.map_cons, List.map_nil, h]
        rfl
    · rw [if_neg h10] at h
      have hsl : slow.length = 10 := by
        rw [hslow, h, top10_length]; omega
      have : (slow ++ [({ Milli := m, Log := str } : SlowOps)]).length > 10 := by rw [hlen]; omega
      rw [if_pos this, if_neg (by simp; omega)]
      rw [List.map_take, map_sortSlice_milli]
      simp only [List.map_append, List.map_cons, List.map_nil, h]
      exact top10_snoc seen m
  · simp only [hm, if_false, List.append_nil]
    exact h

theorem slowFold_spec (ls : List OpLine) (slow : List SlowOps) (seen : List Int)
    (h : slow.map (·.Milli) = if seen.length ≤ 10 then seen else top10 seen) :
    (slowFold slow ls).map (·.Milli) =
      if (seen ++ slowMillis ls).length ≤ 10 then seen ++ slowMillis ls
      else top10 (seen ++ slowMillis ls) := by
  induction ls generalizing slow seen with
  | nil => simpa [slowFold, slowMillis] using h
  | cons l ls ih =>
    have hstep := addSlowOp_spec slow seen l.milli l.str h
    have := ih _ _ hstep
    have hsm : slowMillis (l :: ls) = (if l.milli ≥ 10000 then [l.milli] else []) ++ slowMillis ls := by
      unfold slowMillis
      by_cases hm : l.milli ≥ 10000 <;> simp [hm, List.filter_cons]
    rw [hsm, ← List.append_assoc]
    exact this

theorem parse_slowOps (fl : FloatOps) (collscan : Bool) (lines : List GoString) :
    (Parse fl (NewLogInfo.SetCollscan collscan) lines).SlowOps.map (·.Milli) =
      if (slowMillis (acceptedLines collscan lines)).length ≤ 10
      then slowMillis (acceptedLines collscan lines)
      else top10 (slowMillis (acceptedLines collscan lines)) := by
  have h := slowFold_spec (acceptedLines collscan lines) [] [] (by simp)
  simp only [List.nil_append] at h
  simp only [Parse, parseLoop_eq, NewLogInfo, LogInfo.SetCollscan]
  exact h

/-- C2. After `Parse` on a fresh `LogInfo`, `SlowOps` has at most 10 records, every
record has `Milli ≥ 10000`, and the `Milli` values are, as a multiset, the 10
largest durations among the accepted lines of at least 10000 ms (all of them when
there are fewer than 10). -/
theorem C2_slowOps_top10 (fl : FloatOps) (collscan : Bool) (lines : List GoString) :
    (Parse fl (NewLogInfo.SetCollscan collscan) lines).SlowOps.length ≤ 10 ∧
    (∀ s ∈ (Parse fl (NewLogInfo.SetCollscan collscan) lines).SlowOps, s.Milli ≥ 10000) ∧
    ((Parse fl (NewLogInfo.SetCollscan collscan) lines).SlowOps.map (·.Milli)).Perm
      (top10 (slowMillis (acceptedLines collscan lines))) := by
  have h := parse_slowOps fl collscan lines
  have hperm : ((Parse fl (NewLogInfo.SetCollscan collscan) lines).SlowOps.map (·.Milli)).Perm
      (top10 (slowMillis (acceptedLines collscan lines))) := by
    rw [h]
    split
    · rename_i hle
      rw [top10_of_length_le hle]
      exact (List.perm_insertionSort _ _).symm
    · exact List.Perm.refl _
  refine ⟨?_, ?_, hperm⟩
  · have := hperm.length_eq
    rw [List.length_map] at this
    rw [this]
    exact top10_length_le _
  · intro s hs
    have h1 : s.Milli ∈ (Parse fl (NewLogInfo.SetCollscan collscan) lines).SlowOps.map (·.Milli) :=
      List.mem_map_of_mem _ hs
    have h2 := top10_mem (hperm.mem_iff.mp h1)
    unfold slowMillis at h2
    have h3 := (List.mem_filter.mp h2).2
    simpa using h3

/-- C3, amended. After `Parse` on a fresh `LogInfo`: when more than 10 accepted lines
took at least 10000 ms, the `Milli` values of `SlowOps` are the ten largest of their
durations in descending order; when at most 10 did, they are the durations of these
lines in the order of the lines. -/
theorem C3_slowOps_order (fl : FloatOps) (collscan : Bool) (lines : List GoString) :
    ((slowMillis (acceptedLines collscan lines)).length > 10 →
      (Parse fl (NewLogInfo.SetCollscan collscan) lines).SlowOps.map (·.Milli) =
          top10 (slowMillis (acceptedLines collscan lines)) ∧
        List.Pairwise (fun a b : SlowOps => a.Milli ≥ b.Milli)
          (Parse fl (NewLogInfo.SetCollscan collscan) lines).SlowOps) ∧
    ((slowMillis (acceptedLines collscan lines)).length ≤ 10 →
      (Parse fl (NewLogInfo.SetCollscan collscan) lines).SlowOps.map (·.Milli) =
        slowMillis (acceptedLines collscan lines)) := by
  have h := parse_slowOps fl collscan lines
  constructor
  · intro hgt
    rw [if_neg (by omega)] at h
    refine ⟨h, ?_⟩
    have hs := top10_sorted (slowMillis (acceptedLines collscan lines))
    rw [← h] at hs
    unfold List.Sorted at hs
    rw [List.pairwise_map] at hs
    exact hs
  · intro hle
    rw [if_pos hle] at h
    exact h

/-! ## The per-pattern map -/

theorem wrapInt_eq {x : Int} (h1 : -(2 : Int) ^ 63 ≤ x) (h2 : x < (2 : Int) ^ 63) : wrapInt x = x := by
  unfold wrapInt
  norm_num at h1 h2 ⊢
  omega

theorem OpsMap.get_set (m : OpsMap) (k k2 : GoString) (d : OpPerformanceDoc) :
    OpsMap.get (OpsMap.set m k d) k2 = if k2 = k then some d else OpsMap.get m k2 := by
  induction m with
  | nil =>
    by_cases h : k2 = k
    · subst h; simp [OpsMap.get, OpsMap.set]
    · have h2 : ¬ k = k2 := fun e => h e.symm
      simp [OpsMap.get, OpsMap.set, h, h2]
  | cons p rest ih =>
    obtain ⟨k1, d1⟩ := p
    unfold OpsMap.set
    by_cases h1 : k1 = k
    · subst h1
      by_cases h : k2 = k1
      · subst h; simp [OpsMap.get]
      · have h2 : ¬ k1 = k2 := fun e => h e.symm
        simp [OpsMap.get, h, h2]
    · have hb : (k1 == k) = false := by simpa using h1
      simp only [hb, Bool.false_eq_true, if_false]
      by_cases h : k2 = k
      · subst h
        have : OpsMap.get ((k1, d1) :: OpsMap.set rest k2 d) k2 = OpsMap.get (OpsMap.set rest k2 d) k2 := by
          simp [OpsMap.get, List.find?, hb]
        rw [this, ih]
        simp
      · by_cases h3 : k1 = k2
        · subst h3; simp [OpsMap.get, h]
        · have hb3 : (k1 == k2) = false := by simpa using h3
          have e1 : OpsMap.get ((k1, d1) :: OpsMap.set rest k d) k2 = OpsMap.get (OpsMap.set rest k d) k2 := by
            simp [OpsMap.get, List.find?, hb3]
          have e2 : OpsMap.get ((k1, d1) :: rest) k2 = OpsMap.get rest k2 := by
            simp [OpsMap.get, List.find?, hb3]
          rw [e1, e2, ih]

theorem OpsMap.keys_set (m : OpsMap) (k : GoString) (d : OpPerformanceDoc) :
    (OpsMap.set m k d).map (·.1) =
      if k ∈ m.map (·.1) then m.map (·.1) else m.map (·.1) ++ [k] := by
  induction m with
  | nil => simp [OpsMap.set]
  | cons p rest ih =>
    obtain ⟨k1, d1⟩ := p
    unfold OpsMap.set
    by_cases h1 : k1 = k
    · subst h1
      simp only [beq_self_eq_true, if_true, List.map_cons, List.mem_cons, true_or]
    · have hb : (k1 == k) = false := by simpa using h1
      have h2 : ¬ k = k1 := fun e => h1 e.symm
      simp only [hb, Bool.false_eq_true, if_false, List.map_cons, List.mem_cons, h2, false_or]
      rw [ih]
      split
      · rfl
      · rfl

theorem OpsMap.nodup_set (m : OpsMap) (k : GoString) (d : OpPerformanceDoc)
    (h : (m.map (·.1)).Nodup) : ((OpsMap.set m k d).map (·.1)).Nodup := by
  rw [OpsMap.keys_set]
  split
  · exact h
  · rename_i hk
    rw [List.nodup_append]
    refine ⟨h, List.nodup_singleton k, ?_⟩
    intro a ha hb
    simp only [List.mem_singleton] at hb
    subst hb
    exact hk ha

theorem OpsMap.get_of_mem (m : OpsMap) (k : GoString) (d : OpPerformanceDoc)
    (hn : (m.map (·.1)).Nodup) (h : (k, d) ∈ m) : OpsMap.get m k = some d := by
  induction m with
  | nil => simp at h
  | cons p rest ih =>
    obtain ⟨k1, d1⟩ := p
    simp only [List.map_cons, List.nodup_cons] at hn
    rcases List.mem_cons.mp h with e | e
    · cases e; simp [OpsMap.get]
    · have hk : k ∈ rest.map (·.1) := List.mem_map_of_mem (·.1) e
      have h1 : ¬ k1 = k := by
        intro e2; subst e2; exact hn.1 hk
      have hb : (k1 == k) = false := by simpa using h1
      have : OpsMap.get ((k1, d1) :: rest) k = OpsMap.get rest k := by
        simp [OpsMap.get, List.find?, hb]
      rw [this]
      exact ih hn.2 e

theorem OpsMap.mem_of_get (m : OpsMap) (k : GoString) (d : OpPerformanceDoc)
    (h : OpsMap.get m k = some d) : (k, d) ∈ m := by
  induction m with
  | nil => simp [OpsMap.get] at h
  | cons p rest ih =>
    obtain ⟨k1, d1⟩ := p
    by_cases h1 : k1 = k
    · subst h1
      simp [OpsMap.get] at h
      subst h
      exact List.mem_cons_self _ _
    · have hb : (k1 == k) = false := by simpa using h1
      have : OpsMap.get ((k1, d1) :: rest) k = OpsMap.get rest k := by
        simp [OpsMap.get, List.find?, hb]
      rw [this] at h
      exact List.mem_cons_of_mem _ (ih h)

theorem opsFold_snoc (m : OpsMap) (ls : List OpLine) (l : OpLine) :
    opsFold m (ls ++ [l]) = updateOps (opsFold m ls) l := by
  simp [opsFold, List.foldl_append]

theorem updateOps_keys_nodup (m : OpsMap) (l : OpLine) (h : (m.map (·.1)).Nodup) :
    ((updateOps m l).map (·.1)).Nodup := by
  unfold updateOps
  split <;> exact OpsMap.nodup_set _ _ _ h

theorem opsFold_keys_nodup (ls : List OpLine) : ((opsFold [] ls).map (·.1)).Nodup := by
  induction ls using List.reverseRecOn with
  | nil => simp [opsFold]
  | append_singleton ls l ih =>
    rw [opsFold_snoc]
    exact updateOps_keys_nodup _ _ ih

theorem linesOf_snoc (k : GoString) (ls : List OpLine) (l : OpLine) :
    linesOf k (ls ++ [l]) = if l.key = k then linesOf k ls ++ [l] else linesOf k ls := by
  unfold linesOf
  rw [List.filter_append]
  by_cases h : l.key = k <;> simp [h, List.filter_cons]

theorem sum_milli_nonneg (f : List OpLine) (h : ∀ l ∈ f, 0 ≤ l.milli) :
    0 ≤ (f.map (·.milli)).sum := by
  apply List.sum_nonneg
  intro x hx
  obtain ⟨l, hl, rfl⟩ := List.mem_map.mp hx
  exact h l hl

theorem entryOk_new (l : OpLine) :
    EntryOk { Command := l.op, Namespace := l.ns, Filter := l.filter, TotalMilli := l.milli,
              MaxMilli := l.milli, Count := 1, Scan := l.scan, Index := l.index } [l] := by
  refine ⟨by simp, by simp, by simp, ?_⟩
  intro _ _
  simp

theorem entryOk_update (old : OpPerformanceDoc) (f : List OpLine) (l : OpLine)
    (hf : ∀ x ∈ f, 0 ≤ x.milli) (hl : 0 ≤ l.milli) (h : EntryOk old f) :
    EntryOk { Command := old.Command, Namespace := l.ns, Filter := old.Filter,
              MaxMilli := if l.milli > old.MaxMilli then l.milli else old.MaxMilli,
              TotalMilli := wrapInt (old.TotalMilli + l.milli),
              Count := wrapInt (old.Count + 1), Scan := l.scan, Index := l.index }
      (f ++ [l]) := by
  obtain ⟨_, hmem, hmax, hcnt⟩ := h
  refine ⟨by simp, ?_, ?_, ?_⟩
  · simp only [List.map_append, List.map_cons, List.map_nil, List.mem_append,
      List.mem_singleton]
    split
    · exact Or.inr rfl
    · exact Or.inl hmem
  · intro x hx
    simp only [List.map_append, List.map_cons, List.map_nil, List.mem_append,
      List.mem_singleton] at hx
    dsimp only
    rcases hx with hx | hx
    · have := hmax x hx
      split <;> omega
    · subst hx
      split <;> omega
  · intro h1 h2
    simp only [List.length_append, List.length_singleton, List.map_append, List.map_cons,
      List.map_nil, List.sum_append, List.sum_cons, List.sum_nil, add_zero] at h1 h2 ⊢
    have hs := sum_milli_nonneg f hf
    push_cast at h1 ⊢
    have hc := hcnt (by omega) (by omega)
    simp only [hc.1, hc.2]
    constructor
    · exact wrapInt_eq (by norm_num; omega) (by omega)
    · exact wrapInt_eq (by norm_num; omega) (by omega)

/-- The invariant of the per-pattern map: a key is in the map exactly when a line
has it, and its entry aggregates the lines that have it. -/
theorem opsFold_spec (ls : List OpLine) (hnn : ∀ l ∈ ls, 0 ≤ l.milli) (k : GoString) :
    match OpsMap.get (opsFold [] ls) k with
    | none => linesOf k ls = []
    | some d => EntryOk d (linesOf k ls) := by
  induction ls using List.reverseRecOn with
  | nil => simp [opsFold, OpsMap.get, linesOf]
  | append_singleton ls l ih =>
    have hnn1 : ∀ x ∈ ls, 0 ≤ x.milli := fun x hx => hnn x (List.mem_append_left _ hx)
    have hl : 0 ≤ l.milli := hnn l (by simp)
    have ih := ih hnn1
    rw [opsFold_snoc, linesOf_snoc]
    by_cases hk : l.key = k
    · subst hk
      rw [if_pos rfl]
      unfold updateOps
      cases hg : OpsMap.get (opsFold [] ls) l.key with
      | none =>
        rw [hg] at ih
        simp only [OpsMap.get_set, if_true]
        simp only at ih
        rw [ih]
        exact entryOk_new l
      | some old =>
        rw [hg] at ih
        simp only [OpsMap.get_set, if_true]
        have hf : ∀ x ∈ linesOf l.key ls, 0 ≤ x.milli :=
          fun x hx => hnn1 x (List.mem_of_mem_filter hx)
        exact entryOk_update old _ l hf hl ih
    · rw [if_neg hk]
      have hk2 : ¬ k = l.key := fun e => hk e.symm
      have : OpsMap.get (updateOps (opsFold [] ls) l) k = OpsMap.get (opsFold [] ls) k := by
        unfold updateOps
        split <;> simp [OpsMap.get_set, hk2]
      rw [this]
      exact ih

/-! ## The matcher: a result comes from the continuation -/

theorem starLoop_some {R : Type}
    (body : GoString → Caps → (GoString → Caps → Option R) → Option R)
    (hbody : ∀ s c k r, body s c k = some r → ∃ s1 c1, s1.length ≤ s.length ∧ k s1 c1 = some r)
    (n : Nat) (s : GoString) (c : Caps) (k : GoString → Caps → Option R) (r : R)
    (h : starLoop body n s c k = some r) :
    ∃ s1 c1, s1.length ≤ s.length ∧ k s1 c1 = some r := by
  induction n generalizing s c with
  | zero => exact ⟨s, c, le_refl _, h⟩
  | succ n ih =>
    unfold starLoop at h
    split at h
    · rename_i r1 hb
      cases h
      obtain ⟨s1, c1, hlen, hk⟩ := hbody _ _ _ _ hb
      split at hk
      · obtain ⟨s2, c2, hlen2, hk2⟩ := ih _ _ hk
        exact ⟨s2, c2, by omega, hk2⟩
      · cases hk
    · exact ⟨s, c, le_refl _, h⟩

theorem lazyLoop_some {R : Type}
    (body : GoString → Caps → (GoString → Caps → Option R) → Option R)
    (hbody : ∀ s c k r, body s c k = some r → ∃ s1 c1, s1.length ≤ s.length ∧ k s1 c1 = some r)
    (n : Nat) (s : GoString) (c : Caps) (k : GoString → Caps → Option R) (r : R)
    (h : lazyLoop body n s c k = some r) :
    ∃ s1 c1, s1.length ≤ s.length ∧ k s1 c1 = some r := by
  induction n generalizing s c with
  | zero => exact ⟨s, c, le_refl _, h⟩
  | succ n ih =>
    unfold lazyLoop at h
    split at h
    · rename_i r1 hb
      cases h
      exact ⟨s, c, le_refl _, hb⟩
    · obtain ⟨s1, c1, hlen, hk⟩ := hbody _ _ _ _ h
      split at hk
      · obtain ⟨s2, c2, hlen2, hk2⟩ := ih _ _ hk
        exact ⟨s2, c2, by omega, hk2⟩
      · cases hk

/-- A successful run of a pattern ends in a successful call of the continuation, on a
rest of the text that is not longer. -/
theorem Re.run_some {R : Type} (re : Re) (s : GoString) (c : Caps)
    (k : GoString → Caps → Option R) (r : R) (h : re.run s c k = some r) :
    ∃ s1 c1, s1.length ≤ s.length ∧ k s1 c1 = some r := by
  induction re generalizing s c k r with
  | eps => exact ⟨s, c, le_refl _, h⟩
  | chr a =>
    cases s with
    | nil => simp [Re.run] at h
    | cons b t =>
      simp only [Re.run] at h
      split at h
      · exact ⟨t, c, by simp, h⟩
      · cases h
  | cls p =>
    cases s with
    | nil => simp [Re.run] at h
    | cons b t =>
      simp only [Re.run] at h
      split at h
      · exact ⟨_, c, by simp [List.length_drop], h⟩
      · cases h
  | seq x y ihx ihy =>
    simp only [Re.run] at h
    obtain ⟨s1, c1, hl1, h1⟩ := ihx _ _ _ _ h
    obtain ⟨s2, c2, hl2, h2⟩ := ihy _ _ _ _ h1
    exact ⟨s2, c2, by omega, h2⟩
  | alt x y ihx ihy =>
    simp only [Re.run] at h
    split at h
    · rename_i r1 hb
      cases h
      exact ihx _ _ _ _ hb
    · exact ihy _ _ _ _ h
  | star x ih =>
    simp only [Re.run] at h
    exact starLoop_some _ (fun s c k r hb => ih s c k r hb) _ _ _ _ _ h
  | lazyStar x ih =>
    simp only [Re.run] at h
    exact lazyLoop_some _ (fun s c k r hb => ih s c k r hb) _ _ _ _ _ h
  | grp n x ih =>
    simp only [Re.run] at h
    obtain ⟨s1, c1, hl1, h1⟩ := ih _ _ _ _ h
    exact ⟨s1, _, hl1, h1⟩
  | eot =>
    simp only [Re.run] at h
    split at h
    · exact ⟨s, c, le_refl _, h⟩
    · cases h

theorem Re.run_cat_drop {R : Type} (n : Nat) (xs : List Re) (s : GoString) (c : Caps)
    (k : GoString → Caps → Option R) (r : R) (h : (Re.cat xs).run s c k = some r) :
    ∃ s1 c1, (Re.cat (xs.drop n)).run s1 c1 k = some r := by
  induction n generalizing xs s c with
  | zero => exact ⟨s, c, h⟩
  | succ n ih =>
    cases xs with
    | nil => exact ⟨s, c, h⟩
    | cons x xs =>
      simp only [Re.cat, Re.run] at h
      obtain ⟨s1, c1, _, h1⟩ := Re.run_some x _ _ _ _ h
      exact ih xs s1 c1 h1

/-! ## Durations are not negative -/

theorem Atoi_nonneg_of_digit (b : Char) (t : GoString) (hb : b.isDigit = true) :
    0 ≤ Atoi (b :: t) := by
  unfold Atoi
  split
  · rename_i neg ds heq
    split at heq
    · rename_i t1 h1
      cases h1
      simp [Char.isDigit] at hb
    · rename_i t1 h1
      cases heq
      split
      · exact le_refl _
      · simp only [Bool.false_eq_true, if_false]
        apply le_min
        · exact Int.natCast_nonneg _
        · unfold maxInt; norm_num
    · cases heq
      split
      · exact le_refl _
      · simp only [Bool.false_eq_true, if_false]
        apply le_min
        · exact Int.natCast_nonneg _
        · unfold maxInt; norm_num

theorem runeWidth_ascii (b : Char) (t : GoString) (h : b.toNat < 0x80) :
    runeWidth (b :: t) = 1 := by
  simp [runeWidth, h]

theorem isDigitRune_firstRune (b : Char) (t : GoString)
    (h : isDigitRune (firstRune (b :: t)) = true) : b.toNat < 0x80 ∧ b.isDigit = true := by
  simp only [firstRune] at h
  by_cases hb : b.toNat < 0x80
  · simp only [hb, if_true, isDigitRune] at h
    exact ⟨hb, h⟩
  · simp [hb, isDigitRune] at h

/-- A group `(\d+)` captures a text that starts with a digit. -/
theorem run_grp_digits {R : Type} (n : Nat) (T : Re) (s : GoString) (c : Caps)
    (k : GoString → Caps → Option R) (r : R)
    (h : (Re.seq (.grp n (Re.plus (.cls isDigitRune))) T).run s c k = some r) :
    ∃ b t s3 c3, s = b :: t ∧ b.isDigit = true ∧ s3.length ≤ t.length ∧
      T.run s3 ((n, b :: t.take (t.length - s3.length)) :: c3) k = some r := by
  cases s with
  | nil => simp [Re.run, Re.plus] at h
  | cons b t =>
    simp only [Re.run, Re.plus] at h
    split at h
    · rename_i hd
      have hb := isDigitRune_firstRune b t hd
      rw [runeWidth_ascii b t hb.1] at h
      simp only [List.drop_succ_cons, List.drop_zero] at h
      obtain ⟨s3, c3, hlen, h3⟩ := starLoop_some _
        (fun s c k r hb => Re.run_some (.cls isDigitRune) s c k r hb) _ _ _ _ _ h
      refine ⟨b, t, s3, c3, rfl, hb.2, hlen, ?_⟩
      have e : (b :: t).length - s3.length = (t.length - s3.length) + 1 := by
        simp only [List.length_cons]; omega
      rw [e, List.take_succ_cons] at h3
      exact h3
    · cases h

/-- Group 5 of a match of the slow-operation pattern starts with a digit. -/
theorem reSlowOp_group5 (s rest : GoString) (caps : Caps)
    (h : matchAt reSlowOp s = some (rest, caps)) :
    ∃ b t, b.isDigit = true ∧ group caps 5 = b :: t := by
  unfold matchAt reSlowOp at h
  obtain ⟨s1, c1, h1⟩ := Re.run_cat_drop 19 _ _ _ _ _ h
  simp only [List.drop_succ_cons, List.drop_zero] at h1
  rw [Re.cat] at h1
  obtain ⟨b, t, s3, c3, _, hb, _, h3⟩ := run_grp_digits _ _ _ _ _ _ h1
  refine ⟨b, t.take (t.length - s3.length), hb, ?_⟩
  simp only [Re.cat, Re.run] at h3
  split at h3
  · split at h3
    · split at h3
      · split at h3
        · split at h3
          · simp only [Option.some.injEq, Prod.mk.injEq] at h3
            rw [← h3.2]
            simp [group]
          · cases h3
        · cases h3
      · cases h3
    · cases h3
  · cases h3

theorem parseLine_milli_nonneg (collscan : Bool) (str : GoString) (l : OpLine)
    (h : parseLine collscan str = some l) : 0 ≤ l.milli := by
  unfold parseLine at h
  cases hm : FindStringSubmatch reSlowOp str with
  | none => simp [hm] at h
  | some result =>
    have hg : ∃ b t, b.isDigit = true ∧ group result 5 = b :: t := by
      unfold FindStringSubmatch at hm
      cases hma : matchAt reSlowOp str with
      | none => simp [hma] at hm
      | some p =>
        obtain ⟨rest, caps⟩ := p
        simp [hma] at hm
        subst hm
        exact reSlowOp_group5 _ _ _ hma
    obtain ⟨b, t, hb, hg⟩ := hg
    have hat : 0 ≤ Atoi (group result 5) := by rw [hg]; exact Atoi_nonneg_of_digit b t hb
    simp only [hm] at h
    repeat' split at h
    all_goals first | (cases h; done) | (cases h; exact hat)

theorem acceptedLines_nonneg (collscan : Bool) (lines : List GoString) :
    ∀ l ∈ acceptedLines collscan lines, 0 ≤ l.milli := by
  intro l hl
  unfold acceptedLines at hl
  obtain ⟨str, _, h⟩ := List.mem_filterMap.mp hl
  exact parseLine_milli_nonneg collscan str l h

theorem OpsMap.get_eq_none_iff (m : OpsMap) (k : GoString) :
    OpsMap.get m k = none ↔ k ∉ m.map (·.1) := by
  constructor
  · intro h hk
    obtain ⟨p, hp, rfl⟩ := List.mem_map.mp hk
    induction m with
    | nil => simp at hp
    | cons q rest ih =>
      obtain ⟨k1, d1⟩ := q
      by_cases h1 : k1 = p.1
      · simp [OpsMap.get, h1] at h
      · have hb : (k1 == p.1) = false := by simpa using h1
        have e : OpsMap.get ((k1, d1) :: rest) p.1 = OpsMap.get rest p.1 := by
          simp [OpsMap.get, List.find?, hb]
        rw [e] at h
        rcases List.mem_cons.mp hp with e2 | e2
        · subst e2; exact h1 rfl
        · exact ih e2 h (List.mem_map_of_mem (·.1) e2)
  · intro h
    cases hg : OpsMap.get m k with
    | none => rfl
    | some d =>
      exact absurd (List.mem_map_of_mem (·.1) (OpsMap.mem_of_get m k d hg)) h

/-- The list `OpsPatterns` is a rearrangement of the values of the map. -/
theorem parse_opsPatterns_perm (fl : FloatOps) (li : LogInfo) (lines : List GoString) :
    (Parse fl li lines).OpsPatterns.Perm ((parseLoop li lines).opsMap.map (·.2)) := by
  simp only [Parse]
  exact sortSlice_perm _ _

/-- C1, amended. Every entry `d` of `OpsPatterns` after `Parse` is the entry of a key `k`
of the per-pattern map, at least one accepted line has the key `k`, `MaxMilli` is the
largest duration of the accepted lines with the key `k`, and, provided these lines
are fewer than `2 ^ 63` and their durations sum to less than `2 ^ 63`, `Count` is
their number and `TotalMilli` the sum of their durations. -/
theorem C1_aggregate (fl : FloatOps) (li : LogInfo) (lines : List GoString)
    (d : OpPerformanceDoc) (hd : d ∈ (Parse fl li lines).OpsPatterns) :
    ∃ k, OpsMap.get (parseLoop li lines).opsMap k = some d ∧
      linesOf k (acceptedLines li.collscan lines) ≠ [] ∧
      d.MaxMilli ∈ (linesOf k (acceptedLines li.collscan lines)).map (·.milli) ∧
      (∀ x ∈ (linesOf k (acceptedLines li.collscan lines)).map (·.milli), x ≤ d.MaxMilli) ∧
      (((linesOf k (acceptedLines li.collscan lines)).length : Int) < 2 ^ 63 →
        ((linesOf k (acceptedLines li.collscan lines)).map (·.milli)).sum < 2 ^ 63 →
        d.Count = (linesOf k (acceptedLines li.collscan lines)).length ∧
        d.TotalMilli = ((linesOf k (acceptedLines li.collscan lines)).map (·.milli)).sum) := by
  have hmem := (parse_opsPatterns_perm fl li lines).mem_iff.mp hd
  obtain ⟨p, hp, rfl⟩ := List.mem_map.mp hmem
  obtain ⟨k, d⟩ := p
  rw [parseLoop_eq] at hp ⊢
  simp only at hp ⊢
  have hget := OpsMap.get_of_mem _ k d (opsFold_keys_nodup _) hp
  have hspec := opsFold_spec (acceptedLines li.collscan lines)
    (acceptedLines_nonneg li.collscan lines) k
  rw [hget] at hspec
  exact ⟨k, hget, hspec⟩

/-- After `Parse`, `OpsPatterns` is a rearrangement of the values of the per-pattern map,
the map has one entry per distinct key of the accepted lines, and, for an arithmetic
`fl` whose comparison `>` is a strict weak order, `OpsPatterns` is in descending order
of the quotients of `fl`. -/
theorem opsPatterns_sorted_of_order (fl : FloatOps)
    (hasym : ∀ a b, fl.gt a b = true → fl.gt b a = false)
    (htrans : ∀ a b c, fl.gt a b = false → fl.gt b c = false → fl.gt a c = false)
    (li : LogInfo) (lines : List GoString) :
    (Parse fl li lines).OpsPatterns.Perm ((parseLoop li lines).opsMap.map (·.2)) ∧
    ((parseLoop li lines).opsMap.map (·.1)).Nodup ∧
    (∀ k, k ∈ (parseLoop li lines).opsMap.map (·.1) ↔
      ∃ l ∈ acceptedLines li.collscan lines, l.key = k) ∧
    (Parse fl li lines).OpsPatterns.Pairwise (fun a b =>
      fl.gt (fl.avg b.TotalMilli b.Count) (fl.avg a.TotalMilli a.Count) = false) := by
  refine ⟨parse_opsPatterns_perm fl li lines, ?_, ?_, ?_⟩
  · rw [parseLoop_eq]
    exact opsFold_keys_nodup _
  · intro k
    rw [parseLoop_eq]
    simp only
    have hspec := opsFold_spec (acceptedLines li.collscan lines)
      (acceptedLines_nonneg li.collscan lines) k
    constructor
    · intro hk
      cases hg : OpsMap.get (opsFold [] (acceptedLines li.collscan lines)) k with
      | none => exact absurd hk ((OpsMap.get_eq_none_iff _ k).mp hg)
      | some d =>
        rw [hg] at hspec
        obtain ⟨l, hl⟩ := List.exists_mem_of_ne_nil _ hspec.1
        unfold linesOf at hl
        have := List.mem_filter.mp hl
        exact ⟨l, this.1, by simpa using this.2⟩
    · rintro ⟨l, hl, rfl⟩
      by_contra hk
      have hg := (OpsMap.get_eq_none_iff _ l.key).mpr hk
      rw [hg] at hspec
      simp only at hspec
      have : l ∈ linesOf l.key (acceptedLines li.collscan lines) := by
        unfold linesOf
        exact List.mem_filter.mpr ⟨hl, by simp⟩
      rw [hspec] at this
      simp at this
  · simp only [Parse]
    exact sortSlice_pairwise (avgLess fl)
      (fun a b h => hasym _ _ h) (fun a b c h1 h2 => htrans _ _ _ h1 h2) _

/-! ## The frame loop over well-formed frames -/

theorem GetUint32_take4 (f : List Nat) (h : 4 ≤ f.length) : GetUint32 (f.take 4) = GetUint32 f := by
  match f, h with
  | a :: b :: c :: d :: rest, _ => simp [GetUint32]

theorem slice2_frame (pre f post : List Nat) (n : Nat) (hn : n ≤ f.length) :
    frameLoop.slice2 (pre ++ f ++ post) pre.length (pre.length + n) = f.take n := by
  unfold frameLoop.slice2
  rw [List.append_assoc, List.take_append, List.drop_append_of_le_length (by simp)]
  simp [List.take_append_of_le_length hn]

theorem frameLoop_frames {Doc SS RS SM : Type} (dec : List Nat → FrameOutcome Doc SS RS SM)
    (buffer : Buffer) (frames : List (List Nat)) (spare : List Nat) :
    ∀ (pre : List Nat) (st : LoopState Doc SS RS SM) (fuel : Nat),
      buffer.arr = pre ++ frames.flatten ++ spare →
      buffer.len = (pre ++ frames.flatten).length →
      buffer.len < 2 ^ 32 →
      st.pos = pre.length →
      (∀ f ∈ frames, 4 ≤ f.length ∧ GetUint32 f = f.length) →
      (∀ f ∈ frames, dec f ≠ .chunkError ∧ dec f ≠ .dataPanic) →
      frames.length < fuel →
      frameLoop dec buffer fuel st = (frames.foldl (frameStep dec) st, .done) := by
  induction frames with
  | nil =>
    intro pre st fuel harr hlen hlt hpos _ _ hfuel
    cases fuel with
    | zero => omega
    | succ fuel =>
      simp only [List.flatten_nil, List.append_nil] at hlen
      have : st.pos ≥ buffer.len % 2 ^ 32 := by
        rw [Nat.mod_eq_of_lt hlt]; omega
      unfold frameLoop
      rw [if_pos this]
      rfl
  | cons f fs ih =>
    intro pre st fuel harr hlen hlt hpos hf hok hfuel
    cases fuel with
    | zero => omega
    | succ fuel =>
      have hf1 := hf f (List.mem_cons_self _ _)
      have hok1 := hok f (List.mem_cons_self _ _)
      simp only [List.flatten_cons, List.length_append] at hlen
      have harr2 : buffer.arr = pre ++ f ++ (fs.flatten ++ spare) := by
        rw [harr]; simp [List.append_assoc]
      have hcap : buffer.cap = pre.length + f.length + (fs.flatten.length + spare.length) := by
        unfold Buffer.cap; rw [harr2]; simp only [List.length_append]
      have h1 : ¬ st.pos ≥ buffer.len % 2 ^ 32 := by
        rw [Nat.mod_eq_of_lt hlt]; omega
      have h4 : (st.pos + 4) % 2 ^ 32 = pre.length + 4 := by
        rw [hpos, Nat.mod_eq_of_lt]; omega
      have hlenf : GetUint32 (frameLoop.slice2 buffer.arr st.pos (pre.length + 4)) = f.length := by
        rw [harr2, hpos, slice2_frame pre f _ 4 hf1.1, GetUint32_take4 f hf1.1, hf1.2]
      have hhi : (st.pos + f.length) % 2 ^ 32 = pre.length + f.length := by
        rw [hpos, Nat.mod_eq_of_lt]; omega
      have hbs : frameLoop.slice2 buffer.arr st.pos (pre.length + f.length) = f := by
        rw [harr2, hpos, slice2_frame pre f _ f.length (le_refl _)]
        simp
      have hrec := ih (pre ++ f) (frameStep dec st f) fuel
        (by rw [harr]; simp [List.append_assoc])
        (by simp only [List.length_append]; omega) hlt
        (by
          unfold frameStep
          cases dec f <;> simp [applyOutcome, hpos])
        (fun g hg => hf g (List.mem_cons_of_mem _ hg))
        (fun g hg => hok g (List.mem_cons_of_mem _ hg))
        (by simp only [List.length_cons] at hfuel; omega)
      have e : frameStep dec st f = applyOutcome
          { st with pos := pre.length + f.length,
                    visited := st.visited ++ [(pre.length, pre.length + f.length)] } (dec f) := by
        unfold frameStep; rw [hpos]
      rw [List.foldl_cons]
      unfold frameLoop
      rw [if_neg h1]
      simp only [h4, hlenf, hhi, hbs]
      have hr1 : ¬ ¬ (st.pos ≤ pre.length + 4 ∧ pre.length + 4 ≤ buffer.cap) := by
        rw [hcap]; omega
      have hr2 : ¬ ¬ (st.pos ≤ pre.length + f.length ∧ pre.length + f.length ≤ buffer.cap) := by
        rw [hcap]; omega
      rw [if_neg hr1, if_neg hr2, hpos]
      cases hd : dec f with
      | chunkError => exact absurd hd hok1.1
      | dataPanic => exact absurd hd hok1.2
      | unmarshalError => rw [hd] at e; dsimp only; rw [← e]; exact hrec
      | serverInfo doc => rw [hd] at e; dsimp only; rw [← e]; exact hrec
      | readerError => rw [hd] at e; dsimp only; rw [← e]; exact hrec
      | chunk dd => rw [hd] at e; dsimp only; rw [← e]; exact hrec
      | otherType => rw [hd] at e; dsimp only; rw [← e]; exact hrec

theorem applyOutcome_pos {Doc SS RS SM : Type} (st : LoopState Doc SS RS SM)
    (o : FrameOutcome Doc SS RS SM) : (applyOutcome st o).pos = st.pos := by
  cases o <;> rfl

theorem applyOutcome_visited {Doc SS RS SM : Type} (st : LoopState Doc SS RS SM)
    (o : FrameOutcome Doc SS RS SM) : (applyOutcome st o).visited = st.visited := by
  cases o <;> rfl

theorem foldl_frameStep_pos {Doc SS RS SM : Type} (dec : List Nat → FrameOutcome Doc SS RS SM)
    (frames : List (List Nat)) (st : LoopState Doc SS RS SM) :
    (frames.foldl (frameStep dec) st).pos = st.pos + frames.flatten.length := by
  induction frames generalizing st with
  | nil => simp
  | cons f fs ih =>
    rw [List.foldl_cons, ih]
    simp only [frameStep, applyOutcome_pos, List.flatten_cons, List.length_append]
    omega

theorem foldl_frameStep_visited {Doc SS RS SM : Type}
    (dec : List Nat → FrameOutcome Doc SS RS SM)
    (frames : List (List Nat)) (st : LoopState Doc SS RS SM) :
    (frames.foldl (frameStep dec) st).visited = st.visited ++ frameBounds st.pos frames := by
  induction frames generalizing st with
  | nil => simp [frameBounds]
  | cons f fs ih =>
    rw [List.foldl_cons, ih]
    simp only [frameStep, applyOutcome_pos, applyOutcome_visited, frameBounds,
      List.append_assoc, List.singleton_append]

theorem frameBounds_length (start : Nat) (frames : List (List Nat)) :
    (frameBounds start frames).length = frames.length := by
  induction frames generalizing start with
  | nil => rfl
  | cons f fs ih => simp [frameBounds, ih]

/-- C8. Frame length closure. For a buffer that is the concatenation of `N` frames, each
of at least 4 bytes and starting with its own size as a 32-bit little-endian
prefix, of a total size below `2 ^ 32`, and none of which makes the loop body leave
the loop (no `getDiagnosticData` error, no malformed `data` field), the frame loop
ends at its `break` after exactly `N` iterations, the i-th over the bytes of the
i-th frame, with the cursor at `len(buffer)`; the final state is the one obtained by
applying the outcome of each frame in turn, and a frame that fails to decode leaves
`diagData` as it was. This holds for every spare capacity of the buffer and every
number of allowed iterations greater than `N`. -/
theorem C8_frame_closure {Doc SS RS SM : Type} (dec : List Nat → FrameOutcome Doc SS RS SM)
    (frames : List (List Nat)) (spare : List Nat) (fuel : Nat)
    (hf : ∀ f ∈ frames, 4 ≤ f.length ∧ GetUint32 f = f.length)
    (htotal : frames.flatten.length < 2 ^ 32)
    (hok : ∀ f ∈ frames, dec f ≠ .chunkError ∧ dec f ≠ .dataPanic)
    (hfuel : frames.length < fuel) :
    (frameLoop dec (mkBuffer frames.flatten spare) fuel .init).2 = .done ∧
    (frameLoop dec (mkBuffer frames.flatten spare) fuel .init).1.pos = frames.flatten.length ∧
    (frameLoop dec (mkBuffer frames.flatten spare) fuel .init).1.visited = frameBounds 0 frames ∧
    (frameLoop dec (mkBuffer frames.flatten spare) fuel .init).1.visited.length = frames.length ∧
    (frameLoop dec (mkBuffer frames.flatten spare) fuel .init).1 =
      frames.foldl (frameStep dec) .init ∧
    (∀ (st : LoopState Doc SS RS SM) (f : List Nat), dec f = .unmarshalError →
      (frameStep dec st f).diagData = st.diagData) := by
  have h := frameLoop_frames dec (mkBuffer frames.flatten spare) frames spare []
    (LoopState.init) fuel (by simp [mkBuffer]) (by simp [mkBuffer])
    (by simpa [mkBuffer] using htotal) rfl hf hok hfuel
  rw [h]
  refine ⟨rfl, ?_, ?_, ?_, rfl, ?_⟩
  · simp only [foldl_frameStep_pos]
    simp [LoopState.init]
  · simp only [foldl_frameStep_visited]
    simp [LoopState.init]
  · simp only [foldl_frameStep_visited]
    simp [LoopState.init, frameBounds_length]
  · intro st f hd
    simp [frameStep, hd, applyOutcome]

/-- C8 at the buffer `04 00 00 00` with a decoder that rejects the frame: one iteration
over the bytes 0 to 4, the cursor ends at 4, and no document is kept. -/
theorem C8_frame_closure_witness :
    (frameLoop rejectAll emptyFrameBuffer 2 .init).2 = .done ∧
    (frameLoop rejectAll emptyFrameBuffer 2 .init).1.pos = 4 ∧
    (frameLoop rejectAll emptyFrameBuffer 2 .init).1.visited = [(0, 4)] ∧
    (frameLoop rejectAll emptyFrameBuffer 2 .init).1.diagData.ServerInfo = none ∧
    (frameLoop rejectAll emptyFrameBuffer 2 .init).1.diagData.ServerStatusList = [] := by
  have h := C8_frame_closure rejectAll [[4, 0, 0, 0]] [] 2
    (by intro f hf; simp only [List.mem_singleton] at hf; subst hf; decide)
    (by decide)
    (by intro f _; simp [rejectAll])
    (by decide)
  obtain ⟨h1, h2, h3, _, h5, _⟩ := h
  have e : mkBuffer [[4, 0, 0, 0]].flatten [] = emptyFrameBuffer := rfl
  rw [e] at h1 h2 h3 h5
  refine ⟨h1, h2, h3, ?_, ?_⟩
  · rw [h5]; rfl
  · rw [h5]; rfl

/-! ## Progress of the frame loop -/

/-- One iteration of the frame loop, case by case. -/
theorem frameLoop_succ {Doc SS RS SM : Type} (dec : List Nat → FrameOutcome Doc SS RS SM)
    (buffer : Buffer) (fuel : Nat) (st : LoopState Doc SS RS SM) :
    frameLoop dec buffer (fuel + 1) st =
      if st.pos ≥ buffer.len % 2 ^ 32 then (st, .done)
      else if ¬ (st.pos ≤ (st.pos + 4) % 2 ^ 32 ∧ (st.pos + 4) % 2 ^ 32 ≤ buffer.cap) then
        (st, .panic)
      else if ¬ (st.pos ≤ (st.pos + lengthAt buffer st.pos) % 2 ^ 32 ∧
          (st.pos + lengthAt buffer st.pos) % 2 ^ 32 ≤ buffer.cap) then (st, .panic)
      else
        match dec (frameLoop.slice2 buffer.arr st.pos
            ((st.pos + lengthAt buffer st.pos) % 2 ^ 32)) with
        | .chunkError =>
          (applyOutcome (st.advance ((st.pos + lengthAt buffer st.pos) % 2 ^ 32))
            .chunkError, .failed)
        | .dataPanic =>
          (applyOutcome (st.advance ((st.pos + lengthAt buffer st.pos) % 2 ^ 32))
            .dataPanic, .panic)
        | o => frameLoop dec buffer fuel
            (applyOutcome (st.advance ((st.pos + lengthAt buffer st.pos) % 2 ^ 32))
              o) := by
  rfl

/-- An invariant of the states of the loop holds of the state in which it ends, when
it holds at the start and every iteration keeps it. -/
theorem frameLoop_invariant {Doc SS RS SM : Type} (dec : List Nat → FrameOutcome Doc SS RS SM)
    (buffer : Buffer) (P : LoopState Doc SS RS SM → Prop)
    (hstep : ∀ st o, P st → st.pos < buffer.len % 2 ^ 32 →
      (st.pos ≤ (st.pos + 4) % 2 ^ 32 ∧ (st.pos + 4) % 2 ^ 32 ≤ buffer.cap) →
      (st.pos ≤ (st.pos + lengthAt buffer st.pos) % 2 ^ 32 ∧
        (st.pos + lengthAt buffer st.pos) % 2 ^ 32 ≤ buffer.cap) →
      o = dec (frameLoop.slice2 buffer.arr st.pos ((st.pos + lengthAt buffer st.pos) % 2 ^ 32)) →
      P (applyOutcome (st.advance ((st.pos + lengthAt buffer st.pos) % 2 ^ 32)) o))
    (fuel : Nat) (st : LoopState Doc SS RS SM) (h : P st) :
    P (frameLoop dec buffer fuel st).1 := by
  induction fuel generalizing st with
  | zero => exact h
  | succ fuel ih =>
    rw [frameLoop_succ]
    split
    · exact h
    · rename_i h1
      split
      · exact h
      · rename_i h2
        split
        · exact h
        · rename_i h3
          have hs := hstep st _ h (by omega) (not_not.mp h2) (not_not.mp h3) rfl
          split
          · rename_i hd; rw [hd] at hs; exact hs
          · rename_i hd; rw [hd] at hs; exact hs
          · exact ih _ hs

theorem advance_visited {Doc SS RS SM : Type} (st : LoopState Doc SS RS SM) (hi : Nat) :
    (st.advance hi).visited = st.visited ++ [(st.pos, hi)] := rfl

theorem advance_pos {Doc SS RS SM : Type} (st : LoopState Doc SS RS SM) (hi : Nat) :
    (st.advance hi).pos = hi := rfl

theorem frameLoop_visited_mem {Doc SS RS SM : Type} (dec : List Nat → FrameOutcome Doc SS RS SM)
    (buffer : Buffer) (fuel : Nat) (st : LoopState Doc SS RS SM) (fr : Nat × Nat)
    (h : fr ∈ st.visited) : fr ∈ (frameLoop dec buffer fuel st).1.visited := by
  apply frameLoop_invariant dec buffer (fun s => fr ∈ s.visited) _ fuel st h
  intro s o hs _ _ _ _
  simp only [applyOutcome_visited, advance_visited]
  exact List.mem_append_left _ hs

theorem frameLoop_cursorAdvances {Doc SS RS SM : Type}
    (dec : List Nat → FrameOutcome Doc SS RS SM) (buffer : Buffer) (fuel : Nat)
    (st : LoopState Doc SS RS SM) (h : CursorAdvances buffer st.visited st.pos) :
    CursorAdvances buffer (frameLoop dec buffer fuel st).1.visited
      (frameLoop dec buffer fuel st).1.pos := by
  apply frameLoop_invariant dec buffer (fun s => CursorAdvances buffer s.visited s.pos) _ fuel st h
  intro s o hs _ _ h3 _
  simp only [applyOutcome_visited, applyOutcome_pos, advance_visited, advance_pos]
  obtain ⟨hc, hl, hall⟩ := hs
  refine ⟨?_, ?_, ?_⟩
  · apply List.Chain'.append hc (List.chain'_singleton _)
    intro x hx y hy
    simp only [List.head?_cons, Option.mem_def, Option.some.injEq] at hy
    subst hy
    exact hl x hx
  · intro fr hfr
    simp at hfr
    subst hfr
    rfl
  · intro fr hfr
    rcases List.mem_append.mp hfr with hfr | hfr
    · exact hall fr hfr
    · simp only [List.mem_singleton] at hfr
      subst hfr
      refine ⟨rfl, h3.1, ?_⟩
      intro hne
      have hlt : lengthAt buffer s.pos < 2 ^ 32 := by
        unfold lengthAt GetUint32
        omega
      dsimp only at hne ⊢
      omega

theorem frameLoop_ends_or_zero {Doc SS RS SM : Type}
    (dec : List Nat → FrameOutcome Doc SS RS SM) (buffer : Buffer) (fuel : Nat)
    (st : LoopState Doc SS RS SM) (h : buffer.len % 2 ^ 32 - st.pos < fuel) :
    (frameLoop dec buffer fuel st).2 ≠ .running ∨
      ∃ fr ∈ (frameLoop dec buffer fuel st).1.visited, fr.1 = fr.2 := by
  induction fuel generalizing st with
  | zero => omega
  | succ fuel ih =>
    rw [frameLoop_succ]
    split
    · left; simp
    · rename_i h1
      split
      · left; simp
      · split
        · left; simp
        · rename_i h3
          have h3 := not_not.mp h3
          split
          · left; simp
          · left; simp
          · rename_i o _ _
            by_cases hz : (st.pos + lengthAt buffer st.pos) % 2 ^ 32 = st.pos
            · right
              refine ⟨(st.pos, (st.pos + lengthAt buffer st.pos) % 2 ^ 32), ?_, hz.symm⟩
              apply frameLoop_visited_mem
              simp [applyOutcome_visited, advance_visited]
            · apply ih
              simp only [applyOutcome_pos, advance_pos]
              omega

/-! ## Slices of the frame loop -/

theorem frameLoop_panic_of_not_inRange {Doc SS RS SM : Type}
    (dec : List Nat → FrameOutcome Doc SS RS SM) (buffer : Buffer) (fuel : Nat)
    (st : LoopState Doc SS RS SM) (hpos : st.pos < buffer.len % 2 ^ 32)
    (h : ¬ InRange buffer st.pos) :
    frameLoop dec buffer (fuel + 1) st = (st, .panic) := by
  rw [frameLoop_succ, if_neg (by omega)]
  by_cases h4 : st.pos ≤ (st.pos + 4) % 2 ^ 32 ∧ (st.pos + 4) % 2 ^ 32 ≤ buffer.cap
  · rw [if_neg (not_not.mpr h4)]
    have : ¬ (st.pos ≤ (st.pos + lengthAt buffer st.pos) % 2 ^ 32 ∧
        (st.pos + lengthAt buffer st.pos) % 2 ^ 32 ≤ buffer.cap) := fun h5 => h ⟨h4, h5⟩
    rw [if_pos this]
  · rw [if_pos h4]

theorem frameLoop_visited_inRange {Doc SS RS SM : Type}
    (dec : List Nat → FrameOutcome Doc SS RS SM) (buffer : Buffer) (fuel : Nat)
    (st : LoopState Doc SS RS SM)
    (h : ∀ fr ∈ st.visited, fr.1 ≤ fr.2 ∧ fr.2 ≤ buffer.cap) :
    ∀ fr ∈ (frameLoop dec buffer fuel st).1.visited, fr.1 ≤ fr.2 ∧ fr.2 ≤ buffer.cap := by
  apply frameLoop_invariant dec buffer
    (fun s => ∀ fr ∈ s.visited, fr.1 ≤ fr.2 ∧ fr.2 ≤ buffer.cap) _ fuel st h
  intro s o hs _ _ h3 _ fr hfr
  simp only [applyOutcome_visited, advance_visited] at hfr
  rcases List.mem_append.mp hfr with hfr | hfr
  · exact hs fr hfr
  · simp only [List.mem_singleton] at hfr
    subst hfr
    exact h3

theorem frameLoop_panic_cause {Doc SS RS SM : Type}
    (dec : List Nat → FrameOutcome Doc SS RS SM) (buffer : Buffer) (fuel : Nat)
    (st : LoopState Doc SS RS SM) (h : (frameLoop dec buffer fuel st).2 = .panic) :
    ((frameLoop dec buffer fuel st).1.pos < buffer.len % 2 ^ 32 ∧
        ¬ InRange buffer (frameLoop dec buffer fuel st).1.pos) ∨
      ∃ fr, (frameLoop dec buffer fuel st).1.visited.getLast? = some fr ∧
        dec (frameLoop.slice2 buffer.arr fr.1 fr.2) = .dataPanic := by
  induction fuel generalizing st with
  | zero => simp [frameLoop] at h
  | succ fuel ih =>
    rw [frameLoop_succ] at h ⊢
    split at h
    · simp at h
    · rename_i h1
      rw [if_neg h1]
      split at h
      · rename_i h2
        rw [if_pos h2]
        left
        exact ⟨by simp only; omega, fun hr => h2 hr.1⟩
      · rename_i h2
        rw [if_neg h2]
        split at h
        · rename_i h3
          rw [if_pos h3]
          left
          exact ⟨by simp only; omega, fun hr => h3 hr.2⟩
        · rename_i h3
          rw [if_neg h3]
          split at h
          · simp at h
          · rename_i hd
            right
            refine ⟨(st.pos, (st.pos + lengthAt buffer st.pos) % 2 ^ 32), ?_, hd⟩
            simp [applyOutcome_visited, advance_visited]
          · exact ih _ h

theorem frameLoop_done_pos {Doc SS RS SM : Type}
    (dec : List Nat → FrameOutcome Doc SS RS SM) (buffer : Buffer) (fuel : Nat)
    (st : LoopState Doc SS RS SM) (h : (frameLoop dec buffer fuel st).2 = .done) :
    buffer.len % 2 ^ 32 ≤ (frameLoop dec buffer fuel st).1.pos := by
  induction fuel generalizing st with
  | zero => simp [frameLoop] at h
  | succ fuel ih =>
    rw [frameLoop_succ] at h ⊢
    split at h
    · rename_i h1
      rw [if_pos h1]
      exact h1
    · rename_i h1
      rw [if_neg h1]
      split at h
      · simp at h
      · rename_i h2
        rw [if_neg h2]
        split at h
        · simp at h
        · rename_i h3
          rw [if_neg h3]
          split at h
          · simp at h
          · simp at h
          · exact ih _ h

theorem zeroLength_running (fuel : Nat) (st : LoopState Unit Unit Unit Unit) (hpos : st.pos = 0) :
    (frameLoop rejectAll zeroLengthBuffer fuel st).2 = .running := by
  induction fuel generalizing st with
  | zero => rfl
  | succ fuel ih =>
    have hl : lengthAt zeroLengthBuffer 0 = 0 := by decide
    rw [frameLoop_succ, hpos, hl]
    have h1 : ¬ (0 ≥ zeroLengthBuffer.len % 2 ^ 32) := by decide
    have h2 : ¬ ¬ (0 ≤ (0 + 4) % 2 ^ 32 ∧ (0 + 4) % 2 ^ 32 ≤ zeroLengthBuffer.cap) := by decide
    have h3 : ¬ ¬ (0 ≤ (0 + 0) % 2 ^ 32 ∧ (0 + 0) % 2 ^ 32 ≤ zeroLengthBuffer.cap) := by decide
    rw [if_neg h1, if_neg h2, if_neg h3]
    exact ih _ rfl

/-- C9, counterexample. On the buffer `00 00 00 00`, whose length prefix is 0, with a
decoder that rejects the (empty) frame, the frame loop is still running after any
number of iterations: the cursor stays at 0. -/
theorem C9_counterexample :
    ¬ ∃ fuel, (frameLoop rejectAll zeroLengthBuffer fuel .init).2 ≠ .running := by
  rintro ⟨fuel, h⟩
  exact h (zeroLength_running fuel _ rfl)

/-- C9, amended. For every byte buffer and every decoder, the frame loop run for
`len(buffer) + 1` iterations has ended, unless it has visited a frame of length 0
(a frame that starts and ends at the same cursor). Whatever the number of
iterations, the cursor moves along the visited frames: each frame starts where the
one before ends, the cursor stands at the end of the last one, no frame ends before
its start, and a frame whose length prefix is not 0 ends after its start, whether or
not the frame decodes. -/
theorem C9_progress {Doc SS RS SM : Type} (dec : List Nat → FrameOutcome Doc SS RS SM)
    (buffer : Buffer) :
    ((frameLoop dec buffer (buffer.len % 2 ^ 32 + 1) .init).2 ≠ .running ∨
      ∃ fr ∈ (frameLoop dec buffer (buffer.len % 2 ^ 32 + 1) .init).1.visited, fr.1 = fr.2) ∧
    ∀ fuel, CursorAdvances buffer (frameLoop dec buffer fuel .init).1.visited
      (frameLoop dec buffer fuel .init).1.pos := by
  constructor
  · apply frameLoop_ends_or_zero
    simp [LoopState.init]
  · intro fuel
    apply frameLoop_cursorAdvances
    refine ⟨?_, ?_, ?_⟩ <;> simp [LoopState.init]

theorem overrun_not_inRange : ¬ InRange overrunBuffer 0 := by
  unfold InRange
  have hl : lengthAt overrunBuffer 0 = 0x7FFFFFFF := by rfl
  rw [hl]
  have hc : overrunBuffer.cap = 516 := by
    show ([0xFF, 0xFF, 0xFF, 0x7F] ++ List.replicate 512 0).length = 516
    rw [List.length_append, List.length_replicate]
    rfl
  rw [hc]
  omega

theorem truncated_not_inRange : ¬ InRange truncatedBuffer 5 := by
  unfold InRange
  have hc : truncatedBuffer.cap = 7 := by decide
  rw [hc]
  omega

/-- C10, counterexample. The frame loop never reaches its `break` on the buffer
`FF FF FF 7F` (512 bytes of spare capacity), whose length prefix points past the
end, nor on a buffer without spare capacity that ends with 2 trailing bytes after a
frame of 5 bytes: in both it panics on an out-of-range slice. -/
theorem C10_counterexample :
    (¬ ∃ fuel, (frameLoop rejectAll overrunBuffer fuel .init).2 = .done) ∧
    (frameLoop rejectAll overrunBuffer 1 .init).2 = .panic ∧
    (¬ ∃ fuel, (frameLoop rejectAll truncatedBuffer fuel .init).2 = .done) ∧
    (frameLoop rejectAll truncatedBuffer 2 .init).2 = .panic := by
  have h1 : ∀ fuel, frameLoop rejectAll overrunBuffer (fuel + 1) .init = (.init, .panic) :=
    fun fuel => frameLoop_panic_of_not_inRange rejectAll overrunBuffer fuel .init
      (by show 0 < 4 % 2 ^ 32; decide) overrun_not_inRange
  have h2 : ∀ fuel, (frameLoop rejectAll truncatedBuffer (fuel + 2) .init).2 = .panic := by
    intro fuel
    have hl : lengthAt truncatedBuffer 0 = 5 := by decide
    rw [frameLoop_succ]
    simp only [LoopState.init, hl]
    have c1 : ¬ (0 ≥ truncatedBuffer.len % 2 ^ 32) := by decide
    have c2 : ¬ ¬ (0 ≤ (0 + 4) % 2 ^ 32 ∧ (0 + 4) % 2 ^ 32 ≤ truncatedBuffer.cap) := by decide
    have c3 : ¬ ¬ (0 ≤ (0 + 5) % 2 ^ 32 ∧ (0 + 5) % 2 ^ 32 ≤ truncatedBuffer.cap) := by decide
    rw [if_neg c1, if_neg c2, if_neg c3]
    simp only [rejectAll]
    rw [frameLoop_panic_of_not_inRange _ _ _ _ (by decide) truncated_not_inRange]
  refine ⟨?_, ?_, ?_, ?_⟩
  · rintro ⟨fuel, h⟩
    cases fuel with
    | zero => simp [frameLoop] at h
    | succ fuel => rw [h1] at h; simp at h
  · rw [h1]
  · rintro ⟨fuel, h⟩
    match fuel, h with
    | 0, h => simp [frameLoop] at h
    | 1, h => revert h; decide
    | fuel + 2, h => rw [h2] at h; simp at h
  · exact h2 0

/-- C10, amended. For every byte buffer, every slice that the frame loop takes for a
frame lies within the capacity of the buffer; the loop ends at its `break` only with
the cursor at or past `len(buffer)`; it panics only when, at a cursor below
`len(buffer)`, the window of the length prefix or the frame that the prefix
announces leaves the capacity (in `uint32` arithmetic), or when a decoded document
of type 1 has a malformed `data` field; and at every such cursor it does panic. -/
theorem C10_slices_in_range {Doc SS RS SM : Type}
    (dec : List Nat → FrameOutcome Doc SS RS SM) (buffer : Buffer) (fuel : Nat) :
    (∀ fr ∈ (frameLoop dec buffer fuel .init).1.visited, fr.1 ≤ fr.2 ∧ fr.2 ≤ buffer.cap) ∧
    ((frameLoop dec buffer fuel .init).2 = .done →
      buffer.len % 2 ^ 32 ≤ (frameLoop dec buffer fuel .init).1.pos) ∧
    ((frameLoop dec buffer fuel .init).2 = .panic →
      ((frameLoop dec buffer fuel .init).1.pos < buffer.len % 2 ^ 32 ∧
          ¬ InRange buffer (frameLoop dec buffer fuel .init).1.pos) ∨
        ∃ fr, (frameLoop dec buffer fuel .init).1.visited.getLast? = some fr ∧
          dec (frameLoop.slice2 buffer.arr fr.1 fr.2) = .dataPanic) ∧
    (∀ (st : LoopState Doc SS RS SM) (n : Nat), st.pos < buffer.len % 2 ^ 32 →
      ¬ InRange buffer st.pos → frameLoop dec buffer (n + 1) st = (st, .panic)) := by
  refine ⟨?_, ?_, ?_, ?_⟩
  · apply frameLoop_visited_inRange
    simp [LoopState.init]
  · exact frameLoop_done_pos dec buffer fuel _
  · exact frameLoop_panic_cause dec buffer fuel _
  · intro st n h1 h2
    exact frameLoop_panic_of_not_inRange dec buffer n st h1 h2

/-! ## `GetDocByField` -/

theorem firstRune_ascii (c : Char) (cs : GoString) (h : c.toNat < 0x80) :
    firstRune (c :: cs) = some c := by
  simp [firstRune, h]

theorem runesAux_ascii_cons (c : Char) (cs : GoString) (h : c.toNat < 0x80) :
    runesAux 0 (c :: cs) = some c :: runesAux 0 cs := by
  rw [runesAux, firstRune_ascii c _ h, runeWidth_ascii c _ h]

theorem runes_ascii_append (a b : GoString) (h : ∀ c ∈ a, c.toNat < 0x80) :
    runes (a ++ b) = a.map some ++ runes b := by
  induction a with
  | nil => rfl
  | cons c cs ih =>
    have hc : c.toNat < 0x80 := h c (List.mem_cons_self _ _)
    have ih := ih (fun x hx => h x (List.mem_cons_of_mem _ hx))
    unfold runes at ih ⊢
    rw [List.cons_append, runesAux_ascii_cons c _ hc, ih]
    rfl

theorem braceLoop_skip (r : Rune) (rs : List Rune) (b e : Nat) (h : r ≠ some '{') :
    braceLoop (r :: rs) false b e = braceLoop rs false b (e + 1) := by
  have e1 : (r == some '{') = false := by simpa using h
  simp [braceLoop, e1]

theorem braceLoop_open (rs : List Rune) (b e : Nat) :
    braceLoop (some '{' :: rs) false b e = braceLoop rs true (b + 1) (e + 1) := by
  simp [braceLoop]

theorem braceLoop_found (r : Rune) (rs : List Rune) (b e : Nat) :
    braceLoop (r :: rs) true b e =
      if (if r = some '{' then b + 1 else if r = some '}' then b - 1 else b) = 0
      then (0, e + 1)
      else braceLoop rs true (if r = some '{' then b + 1 else if r = some '}' then b - 1 else b)
        (e + 1) := by
  by_cases h1 : r = some '{'
  · subst h1; simp [braceLoop]
  · have e1 : (r == some '{') = false := by simpa using h1
    by_cases h2 : r = some '}'
    · subst h2
      by_cases hb : b - 1 = 0 <;> simp [braceLoop, hb]
    · have e2 : (r == some '}') = false := by simpa using h2
      by_cases hb : b = 0 <;> simp [braceLoop, e1, e2, h1, h2, hb]

theorem braceLoop_before (pre : GoString) (rest : List Rune) (e : Nat)
    (h : '{' ∉ pre) :
    braceLoop (pre.map some ++ rest) false 0 e = braceLoop rest false 0 (e + pre.length) := by
  induction pre generalizing e with
  | nil => rfl
  | cons c cs ih =>
    have hc : some c ≠ some '{' := fun hc => h (by cases hc; exact List.mem_cons_self _ _)
    have hcs : '{' ∉ cs := fun hx => h (List.mem_cons_of_mem _ hx)
    rw [List.map_cons, List.cons_append, braceLoop_skip _ _ _ _ hc, ih (e + 1) hcs]
    simp only [List.length_cons]
    congr 1
    omega

theorem braceLoop_inside (d : GoString) (rest : List Rune) (b e : Nat)
    (hb : 0 < b) (hend : (b : Int) + braceDepth d = 0)
    (hin : ∀ n, 0 < n → n < d.length → 0 < (b : Int) + braceDepth (d.take n)) :
    braceLoop (d.map some ++ rest) true b e = (0, e + d.length) := by
  induction d generalizing b e with
  | nil =>
    simp only [braceDepth, add_zero] at hend
    omega
  | cons c cs ih =>
    rw [List.map_cons, List.cons_append, braceLoop_found]
    have key : ∀ b2 : Nat, (b2 : Int) = (b : Int) + (if c = '{' then 1 else if c = '}' then -1 else 0) →
        (if b2 = 0 then ((0 : Nat), e + 1) else braceLoop (cs.map some ++ rest) true b2 (e + 1)) =
          (0, e + (c :: cs).length) := by
      intro b2 hb2
      have hend2 : (b2 : Int) + braceDepth cs = 0 := by
        simp only [braceDepth] at hend; omega
      by_cases hz : b2 = 0
      · rw [if_pos hz]
        have hcs : cs = [] := by
          by_contra hne
          have hlen : 1 < (c :: cs).length := by
            cases cs with
            | nil => exact absurd rfl hne
            | cons _ _ => simp
          have := hin 1 (by omega) hlen
          simp only [List.take_succ_cons, List.take_zero, braceDepth, add_zero] at this
          omega
        subst hcs
        simp
      · rw [if_neg hz]
        rw [ih b2 (e + 1) (by omega) hend2]
        · simp only [List.length_cons]; congr 1; omega
        · intro n hn0 hn
          have := hin (n + 1) (by omega) (by simpa using hn)
          simp only [List.take_succ_cons, braceDepth] at this
          omega
    by_cases ho : c = '{'
    · subst ho
      simp only [if_true]
      exact key (b + 1) (by simp)
    · have ho2 : ¬ (some c = some '{') := by simpa using ho
      by_cases hcl : c = '}'
      · subst hcl
        simp only [ho2, if_false, if_true]
        have h1 : (1 : Int) ≤ b := by omega
        exact key (b - 1) (by simp only [ho, if_false, if_true]; omega)
      · have hcl2 : ¬ (some c = some '}') := by simpa using hcl
        simp only [ho2, hcl2, if_false]
        exact key b (by simp [ho, hcl])

/-- C7, counterexample. In `x: foo {a}` the text that follows the field `x:` contains
the document `{a}`, but `GetDocByField` returns `foo {a}`: the result starts where
the text after the field starts, not at the first `{`. And in `q: {é}` (the bytes
`C3 A9` between the braces) the result is cut one byte short, `{é`: the end of the
result is a count of runes used as a count of bytes. -/
theorem C7_counterexample :
    GetDocByField "x: foo \x7ba\x7d".data "x:".data = "foo \x7ba\x7d".data ∧
    GetDocByField "x: foo \x7ba\x7d".data "x:".data ≠ "\x7ba\x7d".data ∧
    GetDocByField ['q', ':', ' ', '{', Char.ofNat 0xC3, Char.ofNat 0xA9, '}'] "q: ".data =
      ['{', Char.ofNat 0xC3, Char.ofNat 0xA9] := by
  decide

/-- C7, amended. Let the field `f` occur in `s`, first at the byte `i`, and let the text
that follows it, without the spaces at its two ends, be `pre ++ doc ++ post`, where
`pre` has no `{`, `doc` starts with `{` and ends at the `}` that matches it, and
`pre` and `doc` are ASCII. Then `GetDocByField(s, f)` is `pre ++ doc`: the text
from the end of the field through the matching `}`. -/
theorem C7_getDocByField (s f pre doc post : GoString) (i : Nat)
    (hidx : Index s f = some i)
    (hrest : TrimSpaces (s.drop (i + f.length)) = pre ++ doc ++ post)
    (hpre : '{' ∉ pre) (hdoc : IsDocument doc)
    (hascii : ∀ c ∈ pre ++ doc, c.toNat < 0x80) :
    GetDocByField s f = pre ++ doc := by
  obtain ⟨hhead, hzero, hpos⟩ := hdoc
  cases doc with
  | nil => simp at hhead
  | cons c d =>
    simp only [List.head?_cons, Option.some.injEq] at hhead
    subst hhead
    unfold GetDocByField
    simp only [hidx, hrest]
    have hrunes : runes (pre ++ '{' :: d ++ post) =
        pre.map some ++ (some '{' :: (d.map some ++ runes post)) := by
      rw [runes_ascii_append _ _ hascii]
      simp
    have hloop : braceLoop (runes (pre ++ '{' :: d ++ post)) false 0 0 =
        (0, (pre ++ '{' :: d).length) := by
      rw [hrunes, braceLoop_before pre _ 0 hpre, braceLoop_open]
      rw [braceLoop_inside d _ 1 _ (by omega)]
      · simp only [List.length_append, List.length_cons]; congr 1; omega
      · simp only [braceDepth, if_true] at hzero
        push_cast; omega
      · intro n hn0 hn
        have := hpos (n + 1) (by omega) (by simpa using hn)
        simp only [List.take_succ_cons, braceDepth, if_true] at this
        push_cast; omega
    rw [hloop]
    simp only [slice, List.drop_zero]
    rw [List.take_append_of_le_length (le_refl _), List.take_length]

/-- C7, amended, at a `find` line: the `filter: ` document of
`find: "c", filter: { x: { y: 1 } }, sort: { t: 1 }`. -/
theorem C7_getDocByField_witness :
    GetDocByField "find: \"c\", filter: \x7b x: \x7b y: 1 \x7d \x7d, sort: \x7b t: 1 \x7d".data
        "filter: ".data =
      "\x7b x: \x7b y: 1 \x7d \x7d".data := by
  have h := C7_getDocByField
    "find: \"c\", filter: \x7b x: \x7b y: 1 \x7d \x7d, sort: \x7b t: 1 \x7d".data
    "filter: ".data [] "\x7b x: \x7b y: 1 \x7d \x7d".data ", sort: \x7b t: 1 \x7d".data 11
    (by decide) (by decide) (by simp)
    ⟨by decide, by decide, by
      intro n hn0 hn
      have hn' : n < 15 := by simpa using hn
      interval_cases n <;> decide⟩
    (by decide)
  simpa using h

/-! ## Texts on which the cascade has nothing to do -/

theorem Index_cons_none (c : Char) (cs sub : GoString) (h : Index (c :: cs) sub = none) :
    sub.isPrefixOf (c :: cs) = false ∧ Index cs sub = none := by
  unfold Index at h
  split at h
  · cases h
  · rename_i hp
    refine ⟨(Bool.not_eq_true _).mp hp, ?_⟩
    cases hi : Index cs sub with
    | none => rfl
    | some j => simp [hi] at h

theorem Index_of_not_contains (s sub : GoString) (h : contains s sub = false) :
    Index s sub = none := by
  unfold contains at h
  cases hi : Index s sub with
  | none => rfl
  | some j => simp [hi] at h

theorem removeInElements_of_none (s marker : GoString) (h : Index s marker = none) :
    removeInElements s marker = s := by
  unfold removeInElements
  rw [h]

theorem collapseRegex_of_none (s : GoString) (h : Index s "\x7b $regex: ".data = none) :
    collapseRegex s = s := by
  unfold collapseRegex
  rw [h]

theorem replaceAllAux_of_noMatch (re : Re) (repl : Caps → GoString) (fuel : Nat) (s : GoString)
    (h : ∀ t, t <:+ s → matchAt re t = none) : replaceAllAux re repl fuel s = s := by
  induction fuel generalizing s with
  | zero => rfl
  | succ fuel ih =>
    cases s with
    | nil => rfl
    | cons c cs =>
      unfold replaceAllAux
      simp only [h (c :: cs) (List.suffix_refl _)]
      rw [ih]
      · exact List.take_append_drop _ _
      · intro t ht
        exact h t (ht.trans (List.drop_suffix _ _))

theorem ReplaceAux_of_none (old new s : GoString) (h : Index s old = none) :
    ReplaceAux old new 0 s = s := by
  induction s with
  | nil => rfl
  | cons c cs ih =>
    obtain ⟨h1, h2⟩ := Index_cons_none c cs old h
    unfold ReplaceAux
    simp only [h1, Bool.false_eq_true, if_false]
    rw [ih h2]

theorem Replace_of_none (s old new : GoString) (h : Index s old = none) :
    Replace s old new = s := by
  unfold Replace
  exact ReplaceAux_of_none old new s h

/-! ## `ReplaceAllString`, step by step -/

theorem runeWidth_pos (c : Char) (cs : GoString) : 1 ≤ runeWidth (c :: cs) := by
  unfold runeWidth
  simp only
  repeat' split
  all_goals omega

theorem replaceAllAux_fuel (re : Re) (repl : Caps → GoString) (fuel fuel2 : Nat) (s : GoString)
    (h1 : s.length ≤ fuel) (h2 : s.length ≤ fuel2) :
    replaceAllAux re repl fuel s = replaceAllAux re repl fuel2 s := by
  induction fuel generalizing fuel2 s with
  | zero =>
    have : s = [] := List.length_eq_zero.mp (by omega)
    subst this
    cases fuel2 <;> rfl
  | succ fuel ih =>
    cases s with
    | nil => cases fuel2 <;> rfl
    | cons c cs =>
      cases fuel2 with
      | zero => simp at h2
      | succ fuel2 =>
        have hw := runeWidth_pos c cs
        simp only [List.length_cons] at h1 h2
        cases hm : matchAt re (c :: cs) with
        | none =>
          simp only [replaceAllAux, hm]
          rw [ih fuel2 _ (by simp only [List.length_drop, List.length_cons]; omega)
            (by simp only [List.length_drop, List.length_cons]; omega)]
        | some p =>
          obtain ⟨rest, caps⟩ := p
          simp only [replaceAllAux, hm]
          split
          · rename_i hlt
            simp only [List.length_cons] at hlt
            rw [ih fuel2 _ (by omega) (by omega)]
          · rw [ih fuel2 _ (by simp only [List.length_drop, List.length_cons]; omega)
              (by simp only [List.length_drop, List.length_cons]; omega)]

theorem ReplaceAllString_cons_none (re : Re) (repl : Caps → GoString) (c : Char) (cs : GoString)
    (hc : c.toNat < 0x80) (h : matchAt re (c :: cs) = none) :
    ReplaceAllString re repl (c :: cs) = c :: ReplaceAllString re repl cs := by
  unfold ReplaceAllString
  simp only [List.length_cons, replaceAllAux, h, runeWidth_ascii c cs hc, List.take_succ_cons,
    List.take_zero, List.drop_succ_cons, List.drop_zero, List.singleton_append]

theorem ReplaceAllString_match (re : Re) (repl : Caps → GoString) (c : Char) (cs rest : GoString)
    (caps : Caps) (h : matchAt re (c :: cs) = some (rest, caps))
    (hlen : rest.length < (c :: cs).length) :
    ReplaceAllString re repl (c :: cs) = repl caps ++ ReplaceAllString re repl rest := by
  unfold ReplaceAllString
  simp only [List.length_cons, replaceAllAux, h]
  rw [if_pos (by simpa using hlen)]
  rw [replaceAllAux_fuel re repl cs.length rest.length rest
    (by simp only [List.length_cons] at hlen; omega) (le_refl _)]

theorem Index_none_of_not_mem (s sub : GoString) (c : Char) (hc : c ∈ sub) (hs : c ∉ s) :
    Index s sub = none := by
  induction s with
  | nil =>
    unfold Index
    cases sub with
    | nil => simp at hc
    | cons _ _ => rfl
  | cons a s ih =>
    unfold Index
    have hp : sub.isPrefixOf (a :: s) = false := by
      cases hpp : sub.isPrefixOf (a :: s) with
      | false => rfl
      | true =>
        have := List.isPrefixOf_iff_prefix.mp hpp
        exact absurd (this.subset hc) hs
    simp only [hp, Bool.false_eq_true, if_false]
    rw [ih (fun h => hs (List.mem_cons_of_mem _ h))]
    rfl

/-! ## The literal pattern on a decimal integer -/

theorem isDigit_toNat_lt (d : Char) (h : d.isDigit = true) : d.toNat < 0x80 := by
  simp only [Char.isDigit, Bool.and_eq_true, decide_eq_true_eq] at h
  have := h.2
  simp only [Char.toNat]
  have h2 : d.val.toNat ≤ 57 := by
    have := UInt32.le_def.mp this
    simpa using this
  omega

theorem run_cls_digit {R : Type} (d : Char) (t : GoString) (c : Caps)
    (k : GoString → Caps → Option R) (hd : d.isDigit = true) :
    (Re.cls isDigitRune).run (d :: t) c k = k t c := by
  have hlt := isDigit_toNat_lt d hd
  simp only [Re.run, firstRune_ascii d t hlt, runeWidth_ascii d t hlt, isDigitRune, hd, if_true,
    List.drop_succ_cons, List.drop_zero]

/-- The greedy loop `\d*` takes all the digits in front of a text that does not start
with a digit, when the continuation accepts there. -/
theorem starLoop_digits {R : Type} (ds rest : GoString) (c : Caps)
    (K : GoString → Caps → Option R) (r : R) (n : Nat)
    (hds : ∀ x ∈ ds, x.isDigit = true)
    (hrest : ∀ k : GoString → Caps → Option R, (Re.cls isDigitRune).run rest c k = none)
    (hn : ds.length ≤ n) (hK : K rest c = some r) :
    starLoop (fun s1 c1 k1 => (Re.cls isDigitRune).run s1 c1 k1) n (ds ++ rest) c K = some r := by
  induction ds generalizing n with
  | nil =>
    cases n with
    | zero => exact hK
    | succ n =>
      simp only [List.nil_append, starLoop]
      rw [hrest]
      exact hK
  | cons d ds ih =>
    cases n with
    | zero => simp at hn
    | succ n =>
      have hd := hds d (List.mem_cons_self _ _)
      have ih := ih n (fun x hx => hds x (List.mem_cons_of_mem _ hx)) (by simpa using hn)
      simp only [List.cons_append, starLoop]
      rw [run_cls_digit d _ c _ hd]
      simp only [List.length_cons, Nat.lt_succ_self, if_true]
      rw [ih]

theorem run_plus_digits {R : Type} (d : Char) (ds rest : GoString) (c : Caps)
    (K : GoString → Caps → Option R) (r : R)
    (hd : d.isDigit = true) (hds : ∀ x ∈ ds, x.isDigit = true)
    (hrest : ∀ k : GoString → Caps → Option R, (Re.cls isDigitRune).run rest c k = none)
    (hK : K rest c = some r) :
    (Re.plus (.cls isDigitRune)).run (d :: (ds ++ rest)) c K = some r := by
  unfold Re.plus
  rw [Re.run, run_cls_digit d _ c _ hd, Re.run]
  exact starLoop_digits ds rest c K r _ hds hrest (by simp) hK

theorem digit_ne_of_not_digit (d x : Char) (hd : d.isDigit = true) (hx : x.isDigit = false) :
    ¬ x = d := by
  intro h
  rw [h, hd] at hx
  cases hx

theorem run_alt_of_some {R : Type} (x y : Re) (s : GoString) (c : Caps)
    (k : GoString → Caps → Option R) (r : R) (h : x.run s c k = some r) :
    (Re.alt x y).run s c k = some r := by
  rw [Re.run, h]

theorem run_alt_of_none {R : Type} (x y : Re) (s : GoString) (c : Caps)
    (k : GoString → Caps → Option R) (h : x.run s c k = none) :
    (Re.alt x y).run s c k = y.run s c k := by
  rw [Re.run, h]

theorem run_cls_digit_none {R : Type} (b : Char) (t : GoString) (c : Caps)
    (k : GoString → Caps → Option R) (hb : b.isDigit = false) :
    (Re.cls isDigitRune).run (b :: t) c k = none := by
  simp only [Re.run, firstRune]
  split
  · simp [isDigitRune, hb]
  · rfl

theorem matchAt_reLiteral_of_ne_colon (c : Char) (t : GoString) (h : ¬ ':' = c) :
    matchAt reLiteral (c :: t) = none := by
  simp [matchAt, reLiteral, Re.run, Re.cat, Re.lits, h]

/-! ## The literal pattern on the literal leaves -/

theorem run_cls_ascii {R : Type} (p : Rune → Bool) (x : Char) (t : GoString) (c : Caps)
    (k : GoString → Caps → Option R) (hx : x.toNat < 0x80) (hp : p (some x) = true) :
    (Re.cls p).run (x :: t) c k = k t c := by
  simp only [Re.run, firstRune_ascii x t hx, runeWidth_ascii x t hx, hp, if_true,
    List.drop_succ_cons, List.drop_zero]

theorem run_cls_none {R : Type} (p : Rune → Bool) (x : Char) (t : GoString) (c : Caps)
    (k : GoString → Caps → Option R) (hx : x.toNat < 0x80) (hp : p (some x) = false) :
    (Re.cls p).run (x :: t) c k = none := by
  simp only [Re.run, firstRune_ascii x t hx, hp, Bool.false_eq_true, if_false]

/-- The non-greedy loop over a class takes the ASCII characters of the class one by
one as long as the continuation rejects, and stops where it accepts. -/
theorem lazyLoop_class {R : Type} (p : Rune → Bool) (xs rest : GoString) (c : Caps)
    (K : GoString → Caps → Option R) (r : R) (n : Nat)
    (hxs : ∀ x ∈ xs, x.toNat < 0x80 ∧ p (some x) = true)
    (hfail : ∀ x ∈ xs, ∀ t, K (x :: t) c = none)
    (hn : xs.length ≤ n) (hK : K rest c = some r) :
    lazyLoop (fun s1 c1 k1 => (Re.cls p).run s1 c1 k1) n (xs ++ rest) c K = some r := by
  induction xs generalizing n with
  | nil =>
    cases n with
    | zero => exact hK
    | succ n =>
      simp only [List.nil_append, lazyLoop]
      rw [hK]
  | cons x xs ih =>
    cases n with
    | zero => simp at hn
    | succ n =>
      have hx := hxs x (List.mem_cons_self _ _)
      have ih := ih n (fun y hy => hxs y (List.mem_cons_of_mem _ hy))
        (fun y hy => hfail y (List.mem_cons_of_mem _ hy)) (by simpa using hn)
      simp only [List.cons_append, lazyLoop]
      rw [hfail x (List.mem_cons_self _ _)]
      simp only
      rw [run_cls_ascii p x _ c _ hx.1 hx.2]
      simp only [List.length_cons, Nat.lt_succ_self, if_true]
      rw [ih]

theorem digits_class (ds : GoString) (h : ∀ x ∈ ds, x.isDigit = true) :
    ∀ x ∈ ds, x.toNat < 0x80 ∧ isDigitRune (some x) = true :=
  fun x hx => ⟨isDigit_toNat_lt x (h x hx), h x hx⟩

/-- What the cascade does to `{ id: v }` when the literal pattern matches exactly the
value `v` after `id` and `v` has no `$`. -/
theorem canonicalize_leafFilter (v : GoString) (hdollar : '$' ∉ v)
    (hmatch : ∃ caps, matchAt reLiteral (':' :: ' ' :: (v ++ " \x7d".data)) =
      some (" \x7d".data, caps)) :
    canonicalize (leafFilter v) = "\x7bid:1\x7d".data := by
  obtain ⟨caps, hm⟩ := hmatch
  have hd : '$' ∉ leafFilter v := by
    intro h
    unfold leafFilter at h
    simp only [List.mem_append] at h
    rcases h with (h | h) | h
    · revert h; decide
    · exact hdollar h
    · revert h; decide
  have h1 : Index (leafFilter v) "$in: [ ".data = none :=
    Index_none_of_not_mem _ _ '$' (by decide) hd
  have h2 : Index (leafFilter v) "$nin: [ ".data = none :=
    Index_none_of_not_mem _ _ '$' (by decide) hd
  have h3 : Index (leafFilter v) "\x7b $regex: ".data = none :=
    Index_none_of_not_mem _ _ '$' (by decide) hd
  have hrepl : ReplaceAllString reLiteral (fun _ => ":1".data) (leafFilter v) =
      "\x7b id:1 \x7d".data := by
    have e : leafFilter v = '{' :: ' ' :: 'i' :: 'd' :: ':' :: ' ' :: (v ++ " \x7d".data) := by
      simp [leafFilter]
    rw [e]
    rw [ReplaceAllString_cons_none _ _ '{' _ (by decide)
      (matchAt_reLiteral_of_ne_colon _ _ (by decide))]
    rw [ReplaceAllString_cons_none _ _ ' ' _ (by decide)
      (matchAt_reLiteral_of_ne_colon _ _ (by decide))]
    rw [ReplaceAllString_cons_none _ _ 'i' _ (by decide)
      (matchAt_reLiteral_of_ne_colon _ _ (by decide))]
    rw [ReplaceAllString_cons_none _ _ 'd' _ (by decide)
      (matchAt_reLiteral_of_ne_colon _ _ (by decide))]
    rw [ReplaceAllString_match _ _ _ _ _ _ hm (by simp)]
    have hlast : ReplaceAllString reLiteral (fun _ => ":1".data) " \x7d".data = " \x7d".data := by
      decide
    rw [hlast]
    rfl
  unfold canonicalize
  simp only [removeInElements_of_none _ _ h1, removeInElements_of_none _ _ h2,
    collapseRegex_of_none _ h3, hrepl]
  decide

theorem run_cat_cons {R : Type} (x : Re) (xs : List Re) (s : GoString) (c : Caps)
    (k : GoString → Caps → Option R) :
    (Re.cat (x :: xs)).run s c k = x.run s c (fun s1 c1 => (Re.cat xs).run s1 c1 k) := rfl

theorem run_lits {R : Type} (p t : GoString) (c : Caps) (k : GoString → Caps → Option R) :
    (Re.lits p).run (p ++ t) c k = k t c := by
  induction p with
  | nil => rfl
  | cons a p ih =>
    show (if a = a then (Re.lits p).run (p ++ t) c k else none) = k t c
    rw [if_pos rfl, ih]

theorem run_plus {R : Type} (x : Re) (s : GoString) (c : Caps)
    (k : GoString → Caps → Option R) :
    (Re.plus x).run s c k =
      x.run s c (fun s1 c1 => starLoop (fun s2 c2 k2 => x.run s2 c2 k2) s1.length s1 c1 k) := rfl

theorem run_lazyPlus {R : Type} (x : Re) (s : GoString) (c : Caps)
    (k : GoString → Caps → Option R) :
    (Re.lazyPlus x).run s c k =
      x.run s c (fun s1 c1 => lazyLoop (fun s2 c2 k2 => x.run s2 c2 k2) s1.length s1 c1 k) := rfl

/-! ## One line of `Parse` -/

/-- Function `parseLine` written with `lineFilter`, `commandOf` and `discardedNs`. -/
theorem parseLine_eq (collscan : Bool) (str : GoString) :
    parseLine collscan str =
      match FindStringSubmatch reSlowOp str with
      | none => none
      | some result =>
        let scan := if contains str "COLLSCAN".data then COLLSCAN else []
        if collscan == true && scan != COLLSCAN then none
        else if discardedNs (group result 3) then none
        else
          match commandOf (group result 2) (lineFilter result) with
          | none => none
          | some (op, filter) =>
            if hasFilter op == false then none
            else
              match opFilter op filter (group result 4) scan with
              | none => none
              | some filter =>
                some { op := op, ns := group result 3, filter := canonicalize filter,
                       scan := scan, index := indexLabel str scan,
                       milli := Atoi (group result 5), str := str } := rfl

/-- What an accepted line is made of. -/
theorem parseLine_some (collscan : Bool) (str : GoString) (l : OpLine)
    (h : parseLine collscan str = some l) :
    ∃ result op filter f,
      FindStringSubmatch reSlowOp str = some result ∧
      discardedNs (group result 3) = false ∧
      commandOf (group result 2) (lineFilter result) = some (op, filter) ∧
      hasFilter op = true ∧
      opFilter op filter (group result 4) l.scan = some f ∧
      l = { op := op, ns := group result 3, filter := canonicalize f,
            scan := if contains str "COLLSCAN".data then COLLSCAN else [],
            index := indexLabel str (if contains str "COLLSCAN".data then COLLSCAN else []),
            milli := Atoi (group result 5), str := str } := by
  rw [parseLine_eq] at h
  cases hm : FindStringSubmatch reSlowOp str with
  | none => simp only [hm] at h; cases h
  | some result =>
    simp only [hm] at h
    generalize (if contains str "COLLSCAN".data then COLLSCAN else []) = scan at h ⊢
    by_cases h1 : (collscan == true && scan != COLLSCAN) = true
    · rw [if_pos h1] at h; cases h
    · rw [if_neg h1] at h
      by_cases h2 : discardedNs (group result 3) = true
      · rw [if_pos h2] at h; cases h
      · rw [if_neg h2] at h
        cases hc : commandOf (group result 2) (lineFilter result) with
        | none => simp only [hc] at h; cases h
        | some p =>
          obtain ⟨op, filter⟩ := p
          simp only [hc] at h
          by_cases h3 : (hasFilter op == false) = true
          · rw [if_pos h3] at h; cases h
          · rw [if_neg h3] at h
            cases ho : opFilter op filter (group result 4) scan with
            | none => simp only [ho] at h; cases h
            | some f =>
              simp only [ho] at h
              cases h
              refine ⟨result, op, filter, f, rfl, ?_, hc, ?_, ho, rfl⟩
              · simpa using h2
              · simpa using h3

/-! ## The entries of the per-pattern map -/

/-- The entry of a key comes from the lines with this key: `Command` and `Filter` from
the first of them, `Namespace`, `Scan` and `Index` from the last of them. -/
theorem opsFold_entry (ls : List OpLine) (k : GoString) :
    match OpsMap.get (opsFold [] ls) k with
    | none => linesOf k ls = []
    | some d =>
      ∃ l0 l1, (linesOf k ls).head? = some l0 ∧ (linesOf k ls).getLast? = some l1 ∧
        d.Command = l0.op ∧ d.Filter = l0.filter ∧ d.Namespace = l1.ns ∧
        d.Scan = l1.scan ∧ d.Index = l1.index := by
  induction ls using List.reverseRecOn with
  | nil => simp [opsFold, OpsMap.get, linesOf]
  | append_singleton ls l ih =>
    rw [opsFold_snoc, linesOf_snoc]
    by_cases hk : l.key = k
    · subst hk
      rw [if_pos rfl]
      unfold updateOps
      cases hg : OpsMap.get (opsFold [] ls) l.key with
      | none =>
        rw [hg] at ih
        simp only [OpsMap.get_set, if_true, ih, List.nil_append]
        exact ⟨l, l, rfl, rfl, rfl, rfl, rfl, rfl, rfl⟩
      | some old =>
        rw [hg] at ih
        obtain ⟨l0, l1, h0, _, hc, hf, _⟩ := ih
        simp only [OpsMap.get_set, if_true]
        refine ⟨l0, l, ?_, by simp, hc, hf, rfl, rfl, rfl⟩
        cases hl : linesOf l.key ls with
        | nil => rw [hl] at h0; cases h0
        | cons a as => rw [hl] at h0; simpa using h0
    · rw [if_neg hk]
      have hk2 : ¬ k = l.key := fun e => hk e.symm
      have e : OpsMap.get (updateOps (opsFold [] ls) l) k = OpsMap.get (opsFold [] ls) k := by
        unfold updateOps
        split <;> simp only [OpsMap.get_set, if_neg hk2]
      rw [e]
      exact ih

/-- The key of an accepted line tells its scan kind. -/
theorem scan_of_key (l l2 : OpLine) (h : l.scan = [] ∨ l.scan = COLLSCAN)
    (h2 : l2.scan = [] ∨ l2.scan = COLLSCAN) (hk : l.key = l2.key) : l.scan = l2.scan := by
  have hk := congrArg (fun s => s.reverse.head?) hk
  unfold OpLine.key at hk
  rcases h with e | e <;> rcases h2 with e2 | e2
  · rw [e, e2]
  · rw [e, e2] at hk; simp [COLLSCAN] at hk
  · rw [e, e2] at hk; simp [COLLSCAN] at hk
  · rw [e, e2]

theorem parseLine_scan (collscan : Bool) (str : GoString) (l : OpLine)
    (h : parseLine collscan str = some l) : l.scan = [] ∨ l.scan = COLLSCAN := by
  obtain ⟨result, op, filter, f, _, _, _, _, _, rfl⟩ := parseLine_some collscan str l h
  by_cases hc : contains str "COLLSCAN".data = true
  · right; simp [hc]
  · left; simp [hc]

theorem mem_linesOf (k : GoString) (ls : List OpLine) (l : OpLine) (h : l ∈ linesOf k ls) :
    l ∈ ls ∧ l.key = k := by
  unfold linesOf at h
  simpa using List.mem_filter.mp h

/-! ## The update of an entry on a hit -/

/-- C12, amended. When the key of an accepted line is already in the per-pattern map,
`Parse` sets `Count` to `Count + 1` and `TotalMilli` to `TotalMilli + milli` (in the
arithmetic of `int`), `MaxMilli` to the larger of the old value and `milli`, and `Index`
and `Namespace` to those of the new line; `Command`, `Filter` and `Scan` of the entry
stay as they were, and so does the entry of every other key. -/
theorem C12_hit_update (li : LogInfo) (lines : List GoString) (str : GoString) (l : OpLine)
    (old : OpPerformanceDoc) (hl : parseLine li.collscan str = some l)
    (hhit : OpsMap.get (parseLoop li lines).opsMap l.key = some old) :
    OpsMap.get (parseLoop li (lines ++ [str])).opsMap l.key =
        some { Command := old.Command, Namespace := l.ns, Filter := old.Filter,
               MaxMilli := max old.MaxMilli l.milli,
               TotalMilli := wrapInt (old.TotalMilli + l.milli),
               Count := wrapInt (old.Count + 1), Scan := old.Scan, Index := l.index } ∧
      ∀ k, k ≠ l.key →
        OpsMap.get (parseLoop li (lines ++ [str])).opsMap k =
          OpsMap.get (parseLoop li lines).opsMap k := by
  have hacc : acceptedLines li.collscan (lines ++ [str]) =
      acceptedLines li.collscan lines ++ [l] := by
    simp [acceptedLines, List.filterMap_append, hl]
  rw [parseLoop_eq, parseLoop_eq, hacc, opsFold_snoc]
  rw [parseLoop_eq] at hhit
  simp only at hhit ⊢
  have hscan : old.Scan = l.scan := by
    have h := opsFold_entry (acceptedLines li.collscan lines) l.key
    rw [hhit] at h
    obtain ⟨l0, l1, _, h1, _, _, _, hs, _⟩ := h
    have hm := mem_linesOf _ _ _ (List.mem_of_getLast?_eq_some h1)
    obtain ⟨s1, _, hp⟩ := List.mem_filterMap.mp hm.1
    rw [hs]
    exact scan_of_key l1 l (parseLine_scan _ _ _ hp) (parseLine_scan _ _ _ hl) hm.2
  constructor
  · unfold updateOps
    rw [hhit]
    simp only [OpsMap.get_set, if_true, hscan]
    congr 2
    by_cases hlt : l.milli > old.MaxMilli
    · rw [if_pos hlt]; exact (max_eq_right (le_of_lt hlt)).symm
    · rw [if_neg hlt]; exact (max_eq_left (not_lt.mp hlt)).symm
  · intro k hk
    unfold updateOps
    split <;> simp only [OpsMap.get_set, if_neg hk]

/-! ## The index label -/

/-- What the statements of `Parse` give for the index label of an accepted line:
`COUNT_SCAN` when the line contains `planSummary: COUNT_SCAN` and the scan kind is
empty; otherwise the text that `GetDocByField` returns after `planSummary: IXSCAN` when
this text is not empty, else `EOF` when the line contains `planSummary: EOF`, else
`IDHACK` when it contains `planSummary: IDHACK`, else the empty string. -/
theorem indexLabel_spec (collscan : Bool) (str : GoString) (l : OpLine)
    (hl : parseLine collscan str = some l) :
    l.index =
      if l.scan = [] ∧ contains str "planSummary: COUNT_SCAN".data = true then
        "COUNT_SCAN".data
      else if GetDocByField str "planSummary: IXSCAN".data ≠ [] then
        GetDocByField str "planSummary: IXSCAN".data
      else if contains str "planSummary: EOF".data = true then "EOF".data
      else if contains str "planSummary: IDHACK".data = true then "IDHACK".data
      else [] := by
  obtain ⟨result, op, filter, f, _, _, _, _, _, rfl⟩ := parseLine_some collscan str l hl
  simp only []
  generalize (if contains str "COLLSCAN".data then COLLSCAN else []) = scan
  unfold indexLabel
  by_cases h1 : scan = [] ∧ contains str "planSummary: COUNT_SCAN".data = true
  · rw [if_pos h1]
    simp [h1.1, h1.2]
  · rw [if_neg h1]
    have e : (scan == [] && contains str "planSummary: COUNT_SCAN".data) = false := by
      cases hs : (scan == [] && contains str "planSummary: COUNT_SCAN".data) with
      | false => rfl
      | true =>
        exfalso
        apply h1
        simpa using hs
    simp only [e, Bool.false_eq_true, if_false]
    by_cases h2 : GetDocByField str "planSummary: IXSCAN".data = []
    · simp only [h2, ne_eq, not_true_eq_false, if_false, beq_self_eq_true, Bool.true_and]
      by_cases h3 : contains str "planSummary: EOF".data = true
      · simp [h3]
      · simp only [h3, Bool.false_eq_true, if_false, beq_self_eq_true, Bool.true_and]
    · have hb : (GetDocByField str "planSummary: IXSCAN".data == []) = false := by
        simpa using h2
      simp [h2, hb]

/-! ## Lines that `Parse` skips -/

theorem parseLine_of_discardedNs (collscan : Bool) (str ns : GoString)
    (hns : lineNs str = some ns) (hd : discardedNs ns = true) :
    parseLine collscan str = none := by
  rw [parseLine_eq]
  unfold lineNs at hns
  cases hm : FindStringSubmatch reSlowOp str with
  | none => rfl
  | some result =>
    rw [hm] at hns
    cases hns
    simp only [hd, if_true, ite_self]

theorem parseLine_of_delete (collscan : Bool) (str filter : GoString)
    (hop : lineOp str = some ("delete".data, filter))
    (hw : contains filter "writeConcern:".data = true) :
    parseLine collscan str = none := by
  rw [parseLine_eq]
  unfold lineOp at hop
  cases hm : FindStringSubmatch reSlowOp str with
  | none => rfl
  | some result =>
    rw [hm] at hop
    have hop : commandOf (group result 2) (lineFilter result) =
        some ("delete".data, filter) := hop
    have ho : ∀ body scan, opFilter "delete".data filter body scan = none := by
      intro body scan
      unfold opFilter
      simp [hw]
    simp only [hop, ho]
    simp

theorem parseLine_hasFilter (collscan : Bool) (str : GoString) (l : OpLine)
    (h : parseLine collscan str = some l) : hasFilter l.op = true := by
  obtain ⟨result, op, filter, f, _, _, _, hf, _, rfl⟩ := parseLine_some collscan str l h
  exact hf

theorem parseLine_ns (collscan : Bool) (str : GoString) (l : OpLine)
    (h : parseLine collscan str = some l) : discardedNs l.ns = false := by
  obtain ⟨result, op, filter, f, _, hns, _, _, _, rfl⟩ := parseLine_some collscan str l h
  exact hns

theorem parseStep_of_none (collscan : Bool) (st : ParseState) (str : GoString)
    (h : parseLine collscan str = none) : parseStep collscan st str = st := by
  simp [parseStep, h]

/-- Lines that `parseLine` skips can be left out of the input of the loop. -/
theorem foldl_parseStep_filter (collscan : Bool) (p : GoString → Bool)
    (hp : ∀ str, p str = false → parseLine collscan str = none)
    (lines : List GoString) (st : ParseState) :
    lines.foldl (parseStep collscan) st = (lines.filter p).foldl (parseStep collscan) st := by
  induction lines generalizing st with
  | nil => rfl
  | cons x xs ih =>
    cases hx : p x with
    | false =>
      rw [List.filter_cons_of_neg (by simp [hx]), List.foldl_cons,
        parseStep_of_none collscan st x (hp x hx)]
      exact ih st
    | true =>
      rw [List.filter_cons_of_pos hx, List.foldl_cons, List.foldl_cons]
      exact ih _

/-- The namespace of an entry of the per-pattern map is the namespace of an accepted
line. -/
theorem opsFold_namespace (ls : List OpLine) (p : GoString × OpPerformanceDoc)
    (h : p ∈ opsFold [] ls) : ∃ l ∈ ls, p.2.Namespace = l.ns := by
  obtain ⟨k, d⟩ := p
  have hg := OpsMap.get_of_mem _ k d (opsFold_keys_nodup ls) h
  have he := opsFold_entry ls k
  rw [hg] at he
  obtain ⟨l0, l1, _, h1, _, _, hn, _⟩ := he
  exact ⟨l1, (mem_linesOf _ _ _ (List.mem_of_getLast?_eq_some h1)).1, hn⟩

/-- C14. No accepted line has the operation `distinct`, because `filters` does not list
it: the `distinct` command `distinctLine` with the query `{ b: 1 }` is skipped and leaves
no entry, although the chain of `Parse` would extract `{ b: 1 }` for it, while the same
command as `count` gives an entry with the filter `{b:1}`. -/
theorem C14_distinct_skipped :
    (∀ collscan str l, parseLine collscan str = some l → l.op ≠ "distinct".data) ∧
      lineOp distinctLine = some ("distinct".data,
        "\x7b distinct: \"c\", key: \"a\", query: \x7b b: 1 \x7d \x7d".data) ∧
      hasFilter "distinct".data = false ∧
      opFilter "distinct".data
        "\x7b distinct: \"c\", key: \"a\", query: \x7b b: 1 \x7d \x7d".data [] COLLSCAN =
          some "\x7b b: 1 \x7d".data ∧
      parseLine false distinctLine = none ∧
      (Parse ratOps NewLogInfo [distinctLine]).OpsPatterns = [] ∧
      (Parse ratOps NewLogInfo [countLine]).OpsPatterns.map
        (fun d => (d.Command, d.Filter, d.Count)) =
          [("count".data, "\x7bb:1\x7d".data, 1)] := by
  refine ⟨?_, ?_⟩
  · intro collscan str l h e
    have hf := parseLine_hasFilter collscan str l h
    rw [e] at hf
    revert hf
    decide
  · set_option maxRecDepth 100000 in decide

/-- C15, amended. A line that matches the slow-operation pattern, whose operation (that
of the command when the line has the `command` form) is `delete` and whose document text,
up to its closing brace, contains `writeConcern:` is skipped: the per-pattern map and
`SlowOps` are what they were before the line. -/
theorem C15_delete_writeConcern (collscan : Bool) (st : ParseState) (str filter : GoString)
    (hop : lineOp str = some ("delete".data, filter))
    (hw : contains filter "writeConcern:".data = true) :
    parseLine collscan str = none ∧ parseStep collscan st str = st :=
  ⟨parseLine_of_delete collscan str filter hop hw,
    parseStep_of_none collscan st str (parseLine_of_delete collscan str filter hop hw)⟩

/-- C16. After `Parse`, no entry of `OpsPatterns` has the namespace `local.oplog.rs` or
a namespace that ends in `.$cmd`; a line with such a namespace leaves the per-pattern
map and `SlowOps` as they were, and `Parse` gives the same result when these lines are
taken out of its input. -/
theorem C16_namespace_discarded (fl : FloatOps) (li : LogInfo) (lines : List GoString) :
    (∀ d ∈ (Parse fl li lines).OpsPatterns,
        d.Namespace ≠ "local.oplog.rs".data ∧ HasSuffix d.Namespace ".$cmd".data = false) ∧
      (∀ st str, hasDiscardedNs str = true → parseStep li.collscan st str = st) ∧
      Parse fl li lines = Parse fl li (lines.filter (fun str => !hasDiscardedNs str)) := by
  have hskip : ∀ str, hasDiscardedNs str = true → parseLine li.collscan str = none := by
    intro str h
    unfold hasDiscardedNs at h
    cases hn : lineNs str with
    | none => rw [hn] at h; cases h
    | some ns => rw [hn] at h; exact parseLine_of_discardedNs _ str ns hn h
  refine ⟨?_, ?_, ?_⟩
  · intro d hd
    have hd2 := (parse_opsPatterns_perm fl li lines).mem_iff.mp hd
    obtain ⟨p, hp, rfl⟩ := List.mem_map.mp hd2
    rw [parseLoop_eq] at hp
    obtain ⟨l, hl, hn⟩ := opsFold_namespace _ p hp
    obtain ⟨str, _, hs⟩ := List.mem_filterMap.mp hl
    have h := parseLine_ns _ str l hs
    rw [hn]
    unfold discardedNs at h
    simpa using h
  · intro st str h
    exact parseStep_of_none _ st str (hskip str h)
  · have e : parseLoop li lines =
        parseLoop li (lines.filter (fun str => !hasDiscardedNs str)) := by
      unfold parseLoop
      apply foldl_parseStep_filter
      intro str h
      apply hskip
      simpa using h
    simp only [Parse, e]

/-! ## The merge of the files -/

theorem mergeFiles_succ {Doc SS RS SM : Type} (m : DiagDataMap Doc SS RS SM) (n : Nat)
    (d : DiagnosticData Doc SS RS SM) :
    mergeFiles m (n + 1) d = mergeStep m (mergeFiles m n d) n := by
  simp [mergeFiles, List.range_succ, List.foldl_append]

theorem seriesOf_succ {Doc SS RS SM α : Type} (m : DiagDataMap Doc SS RS SM)
    (series : DiagnosticData Doc SS RS SM → List α) (n : Nat) :
    seriesOf m series (n + 1) = seriesOf m series n ++ series (m.get (Itoa n)) := by
  simp [seriesOf, List.range_succ]

/-- The last loop of `readDiagnosticFiles` over the files `0, ..., n - 1`, where file
`i` has its result under the key `Itoa i` of the map and a file without a key counts as
the zero value: each of the three series is what it was before, followed by the series
of file 0, of file 1, ..., of file `n - 1`; `ServerInfo` is unchanged when no file has
one, and is that of file `i` when file `i` has one and no file after `i` has. -/
theorem mergeFiles_spec {Doc SS RS SM : Type} (m : DiagDataMap Doc SS RS SM) (n : Nat)
    (d : DiagnosticData Doc SS RS SM) :
    (mergeFiles m n d).ServerStatusList =
        d.ServerStatusList ++ seriesOf m (·.ServerStatusList) n ∧
      (mergeFiles m n d).SystemMetricsList =
        d.SystemMetricsList ++ seriesOf m (·.SystemMetricsList) n ∧
      (mergeFiles m n d).ReplSetStatusList =
        d.ReplSetStatusList ++ seriesOf m (·.ReplSetStatusList) n ∧
      ((∀ i, i < n → (m.get (Itoa i)).ServerInfo = none) →
        (mergeFiles m n d).ServerInfo = d.ServerInfo) ∧
      (∀ i, i < n → (m.get (Itoa i)).ServerInfo ≠ none →
        (∀ j, i < j → j < n → (m.get (Itoa j)).ServerInfo = none) →
        (mergeFiles m n d).ServerInfo = (m.get (Itoa i)).ServerInfo) := by
  induction n with
  | zero =>
    refine ⟨by simp [mergeFiles, seriesOf], by simp [mergeFiles, seriesOf],
      by simp [mergeFiles, seriesOf], fun _ => rfl, ?_⟩
    intro i hi
    exact absurd hi (Nat.not_lt_zero i)
  | succ n ih =>
    obtain ⟨h1, h2, h3, h4, h5⟩ := ih
    rw [mergeFiles_succ]
    refine ⟨?_, ?_, ?_, ?_, ?_⟩
    · rw [seriesOf_succ, ← List.append_assoc, ← h1]; rfl
    · rw [seriesOf_succ, ← List.append_assoc, ← h2]; rfl
    · rw [seriesOf_succ, ← List.append_assoc, ← h3]; rfl
    · intro hnone
      have hn := hnone n (Nat.lt_succ_self n)
      simp only [mergeStep, hn, Option.isSome_none, Bool.false_eq_true, if_false]
      exact h4 (fun i hi => hnone i (Nat.lt_succ_of_lt hi))
    · intro i hi hsome hafter
      rcases Nat.lt_succ_iff_lt_or_eq.mp hi with hlt | heq
      · have hn := hafter n hlt (Nat.lt_succ_self n)
        simp only [mergeStep, hn, Option.isSome_none, Bool.false_eq_true, if_false]
        exact h5 i hlt hsome (fun j hij hj => hafter j hij (Nat.lt_succ_of_lt hj))
      · subst heq
        have hs : (m.get (Itoa i)).ServerInfo.isSome = true :=
          Option.isSome_iff_ne_none.mpr hsome
        simp only [mergeStep, hs, if_true]

/-! ## The choice of the analyzer -/

theorem Index_eq_zero_iff (s sub : GoString) :
    Index s sub = some 0 ↔ sub.isPrefixOf s = true := by
  cases s with
  | nil =>
    cases sub with
    | nil => simp [Index]
    | cons a as => simp [Index, List.isPrefixOf]
  | cons c cs =>
    unfold Index
    by_cases h : sub.isPrefixOf (c :: cs) = true
    · simp [h]
    · simp only [h, Bool.false_eq_true, if_false, iff_false]
      cases Index cs sub <;> simp

theorem startsWith_iff (s pre : GoString) :
    startsWith s pre = true ↔ pre.isPrefixOf s = true := by
  rw [← Index_eq_zero_iff]
  unfold startsWith
  cases h : Index s pre with
  | none => simp
  | some i => simp

theorem contains_append_of_prefix (pre s sub : GoString) (h : sub.isPrefixOf s = true) :
    contains (pre ++ s) sub = true := by
  induction pre with
  | nil =>
    have := (Index_eq_zero_iff s sub).mpr h
    simp [contains, this]
  | cons c cs ih =>
    unfold contains at ih ⊢
    rw [List.cons_append]
    unfold Index
    by_cases hp : sub.isPrefixOf (c :: (cs ++ s)) = true
    · simp [hp]
    · simp only [hp, Bool.false_eq_true, if_false, Option.isSome_map']
      exact ih

theorem keyhole_lt_metrics (a b : GoString) (ha : startsWith a "keyhole_stats.".data = true)
    (hb : startsWith b "metrics.".data = true) : stringLess a b = true := by
  rw [startsWith_iff] at ha hb
  obtain ⟨ta, rfl⟩ := List.isPrefixOf_iff_prefix.mp ha
  obtain ⟨tb, rfl⟩ := List.isPrefixOf_iff_prefix.mp hb
  rfl

/-- C18, amended. `readDiagnosticFiles` gives all the files to the textual analyzer
when the first file name contains `keyhole_stats.`, anywhere in the path, and gives all
of them to the binary reader otherwise. For the files that `readDiagnosticDir` selects
in a directory whose entries are sorted by name, the first case is the case where the
name of some entry begins with `keyhole_stats.`, provided that no path of an entry
whose name begins with `metrics.` contains `keyhole_stats.`. -/
theorem C18_route :
    (∀ f fs, readDiagnosticFilesRoute (f :: fs) =
        some (if contains f "keyhole_stats.".data then Route.textual (f :: fs)
          else Route.binary (f :: fs))) ∧
      (∀ dirname names, SortedByName names →
        readDiagnosticDirNames dirname names ≠ [] →
        (∀ name ∈ names, startsWith name "metrics.".data = true →
          contains (dirname ++ "/".data ++ name) "keyhole_stats.".data = false) →
        (readDiagnosticFilesRoute (readDiagnosticDirNames dirname names) =
            some (Route.textual (readDiagnosticDirNames dirname names)) ↔
          ∃ name ∈ names, startsWith name "keyhole_stats.".data = true)) := by
  constructor
  · intro f fs
    simp only [readDiagnosticFilesRoute]
    by_cases h : contains f "keyhole_stats.".data = true
    · rw [if_pos h, if_pos h]
    · rw [if_neg h, if_neg h]
  · intro dirname names hsorted hne hmetrics
    unfold readDiagnosticDirNames at hne ⊢
    have hsub : (names.filter (fun name =>
        !(!startsWith name "metrics.".data && !startsWith name "keyhole_stats.".data))).Pairwise
        (fun a b => stringLess b a = false) :=
      List.Pairwise.sublist (List.filter_sublist _) hsorted
    have hmem : ∀ x, x ∈ names.filter (fun name =>
        !(!startsWith name "metrics.".data && !startsWith name "keyhole_stats.".data)) ↔
        x ∈ names ∧ (startsWith x "metrics.".data = true ∨
          startsWith x "keyhole_stats.".data = true) := by
      intro x
      rw [List.mem_filter]
      cases startsWith x "metrics.".data <;> cases startsWith x "keyhole_stats.".data <;> simp
    generalize names.filter (fun name =>
        !(!startsWith name "metrics.".data && !startsWith name "keyhole_stats.".data)) = L
      at hne hsub hmem ⊢
    cases L with
    | nil => simp at hne
    | cons x xs =>
      have hx := (hmem x).mp (List.mem_cons_self _ _)
      simp only [List.map_cons, readDiagnosticFilesRoute]
      constructor
      · intro h
        have hc : contains (dirname ++ "/".data ++ x) "keyhole_stats.".data = true := by
          by_contra hc
          simp only [hc, Bool.false_eq_true, if_false] at h
          cases h
        rcases hx.2 with hm | hk
        · have := hmetrics x hx.1 hm
          rw [this] at hc
          cases hc
        · exact ⟨x, hx.1, hk⟩
      · rintro ⟨name, hn, hk⟩
        have hc : contains (dirname ++ "/".data ++ x) "keyhole_stats.".data = true := by
          rcases hx.2 with hm | hk2
          · exfalso
            have hin : name ∈ x :: xs := (hmem name).mpr ⟨hn, Or.inr hk⟩
            rcases List.mem_cons.mp hin with e | e
            · subst e
              have h1 := keyhole_lt_metrics name name hk hm
              have h2 : ∀ s : GoString, stringLess s s = false := by
                intro s
                induction s with
                | nil => rfl
                | cons c cs ih => simp [stringLess, ih]
              rw [h2] at h1
              cases h1
            · have h1 := keyhole_lt_metrics name x hk hm
              have h2 := (List.pairwise_cons.mp hsub).1 name e
              rw [h1] at h2
              cases h2
          · exact contains_append_of_prefix _ x _ ((startsWith_iff _ _).mp hk2)
        simp only [hc, if_true]

/-- C18, counterexample. The one file `keyhole_stats.d/metrics.2019`, whose base name
begins with `metrics.`, goes to the textual analyzer; of the two files
`dump/metrics.2019` and `dump/keyhole_stats.2019`, the second of which has a base name
that begins with `keyhole_stats.`, both go to the binary reader. -/
theorem C18_counterexample :
    readDiagnosticFilesRoute ["keyhole_stats.d/metrics.2019".data] =
        some (Route.textual ["keyhole_stats.d/metrics.2019".data]) ∧
      startsWith (Base "keyhole_stats.d/metrics.2019".data) "keyhole_stats.".data = false ∧
      readDiagnosticFilesRoute ["dump/metrics.2019".data, "dump/keyhole_stats.2019".data] =
        some (Route.binary ["dump/metrics.2019".data, "dump/keyhole_stats.2019".data]) ∧
      startsWith (Base "dump/keyhole_stats.2019".data) "keyhole_stats.".data = true := by
  decide

/-! ## The contents of `$in` -/

/-- C17. On `{ a: { $in: [ 1, 2 ] } }` with the marker `$in: [ `, `removeInElements`
returns `{ a: { $in: [... ] } }`: the character before `]` stays. On
`{ a: { $in: [ 1, 2] } }` it returns `{ a: { $in: [...2] } }`. The canonical form of
the first text is `{a: {$in: [... ]}}`. -/
theorem C17_removeInElements_keeps_one :
    removeInElements "\x7b a: \x7b $in: [ 1, 2 ] \x7d \x7d".data "$in: [ ".data =
        "\x7b a: \x7b $in: [... ] \x7d \x7d".data ∧
      removeInElements "\x7b a: \x7b $in: [ 1, 2] \x7d \x7d".data "$in: [ ".data =
        "\x7b a: \x7b $in: [...2] \x7d \x7d".data ∧
      canonicalize "\x7b a: \x7b $in: [ 1, 2 ] \x7d \x7d".data =
        "\x7ba: \x7b$in: [... ]\x7d\x7d".data := by
  set_option maxRecDepth 100000 in decide

/-! ## The name of the output file -/

/-- The last element that `Base` looks for: the text after the last separator, once the
trailing separators are removed. -/
theorem Base_eq (path : GoString) :
    Base path =
      if path = [] then ".".data
      else if ((path.reverse.dropWhile (fun c => c == '/')).takeWhile (fun c => c != '/')) = []
        then "/".data
      else ((path.reverse.dropWhile (fun c => c == '/')).takeWhile (fun c => c != '/')).reverse := by
  unfold Base
  by_cases h : path = []
  · simp [h]
  · simp [h]

theorem takeWhile_ne_nil_of_dropWhile (rs : List Char) (p q : Char → Bool)
    (hpq : ∀ c, p c = false → q c = true) (h : rs.dropWhile p ≠ []) :
    (rs.dropWhile p).takeWhile q ≠ [] := by
  induction rs with
  | nil => simp at h
  | cons c cs ih =>
    by_cases hc : p c = true
    · rw [List.dropWhile_cons_of_pos hc] at h ⊢
      exact ih h
    · rw [List.dropWhile_cons_of_neg hc]
      have := hpq c (by simpa using hc)
      simp [List.takeWhile_cons, this]

theorem dropWhile_head (rs : List Char) (q : Char → Bool) :
    rs.dropWhile q = [] ∨ ∃ c t, rs.dropWhile q = c :: t ∧ q c = false := by
  induction rs with
  | nil => left; rfl
  | cons c cs ih =>
    by_cases hc : q c = true
    · rw [List.dropWhile_cons_of_pos hc]; exact ih
    · right
      rw [List.dropWhile_cons_of_neg hc]
      exact ⟨c, cs, rfl, by simpa using hc⟩

/-- A path with a character that is not a separator splits into a directory part that
is empty or ends in a separator, the base name, and trailing separators; the base name
is not empty and holds no separator. -/
theorem Base_spec (path : GoString) (h : ∃ c ∈ path, c ≠ '/') :
    ∃ dir tail, path = dir ++ Base path ++ tail ∧ (∀ c ∈ tail, c = '/') ∧
      (dir = [] ∨ dir.getLast? = some '/') ∧ '/' ∉ Base path ∧ Base path ≠ [] := by
  obtain ⟨c0, hc0, hne0⟩ := h
  have hp : path ≠ [] := by
    intro e; rw [e] at hc0; cases hc0
  have hrest : path.reverse.dropWhile (fun c => c == '/') ≠ [] := by
    intro e
    have := List.dropWhile_eq_nil_iff.mp e c0 (List.mem_reverse.mpr hc0)
    exact hne0 (by simpa using this)
  have hlast := takeWhile_ne_nil_of_dropWhile path.reverse (fun c => c == '/')
    (fun c => c != '/') (by intro c hc; simpa using hc) hrest
  rw [Base_eq, if_neg hp, if_neg hlast]
  refine ⟨((path.reverse.dropWhile (fun c => c == '/')).dropWhile (fun c => c != '/')).reverse,
    (path.reverse.takeWhile (fun c => c == '/')).reverse, ?_, ?_, ?_, ?_, ?_⟩
  · rw [← List.reverse_append, ← List.reverse_append,
      List.takeWhile_append_dropWhile, List.takeWhile_append_dropWhile, List.reverse_reverse]
  · intro c hc
    have := List.mem_takeWhile_imp (List.mem_reverse.mp hc)
    simpa using this
  · rcases dropWhile_head (path.reverse.dropWhile (fun c => c == '/')) (fun c => c != '/')
      with e | ⟨c, t, e, hq⟩
    · left; rw [e]; rfl
    · right
      rw [e]
      have hc : c = '/' := by simpa using hq
      simp [hc]
  · intro hmem
    have := List.mem_takeWhile_imp (List.mem_reverse.mp hmem)
    simp at this
  · simpa using hlast

theorem Base_of_separators (path : GoString) (hp : path ≠ []) (h : ∀ c ∈ path, c = '/') :
    Base path = "/".data := by
  have hrest : path.reverse.dropWhile (fun c => c == '/') = [] := by
    apply List.dropWhile_eq_nil_iff.mpr
    intro c hc
    simpa using h c (List.mem_reverse.mp hc)
  rw [Base_eq, if_neg hp, hrest]
  rfl

theorem hasSuffix_append (x suffix : GoString) : HasSuffix (x ++ suffix) suffix = true := by
  unfold HasSuffix
  simp

/-- C20, amended. `OutputFilename` is the base name of `filename` as `filepath.Base`
gives it, without its last `.gz` when it ends in `.gz`, followed by `.enc`. When
`filename` has a character that is not a separator, the base name is the last element
of the path, it is not empty and holds no separator. `OutputFilename` holds a separator
exactly when `filename` is not empty and made of separators only: it is then `/.enc`;
for the empty `filename` it is `..enc`. -/
theorem C20_output_filename (filename : GoString) :
    (∀ x, Base filename = x ++ ".gz".data → OutputFilename filename = x ++ ".enc".data) ∧
      (HasSuffix (Base filename) ".gz".data = false →
        OutputFilename filename = Base filename ++ ".enc".data) ∧
      ((∃ c ∈ filename, c ≠ '/') →
        ∃ dir tail, filename = dir ++ Base filename ++ tail ∧ (∀ c ∈ tail, c = '/') ∧
          (dir = [] ∨ dir.getLast? = some '/') ∧ '/' ∉ Base filename ∧ Base filename ≠ []) ∧
      ('/' ∈ OutputFilename filename ↔ filename ≠ [] ∧ ∀ c ∈ filename, c = '/') ∧
      (filename ≠ [] → (∀ c ∈ filename, c = '/') → OutputFilename filename = "/.enc".data) ∧
      (filename = [] → OutputFilename filename = "..enc".data) := by
  refine ⟨?_, ?_, Base_spec filename, ?_, ?_, ?_⟩
  · intro x hx
    unfold OutputFilename
    simp only [hx, hasSuffix_append, if_true]
    congr 1
    apply List.take_left'
    simp
  · intro h
    unfold OutputFilename
    simp only [h, Bool.false_eq_true, if_false]
  · by_cases hall : ∀ c ∈ filename, c = '/'
    · by_cases hp : filename = []
      · subst hp
        have : ¬ '/' ∈ OutputFilename [] := by decide
        simp [this]
      · have hb := Base_of_separators filename hp hall
        have : '/' ∈ OutputFilename filename := by
          unfold OutputFilename
          rw [hb]
          decide
        exact ⟨fun _ => ⟨hp, hall⟩, fun _ => this⟩
    · have hex : ∃ c ∈ filename, c ≠ '/' := by
        by_contra hc
        apply hall
        intro c hcm
        by_contra hne
        exact hc ⟨c, hcm, hne⟩
      obtain ⟨_, _, _, _, _, hno, _⟩ := Base_spec filename hex
      have : ¬ '/' ∈ OutputFilename filename := by
        unfold OutputFilename
        intro hm
        rcases List.mem_append.mp hm with h1 | h1
        · split at h1
          · exact hno (List.mem_of_mem_take h1)
          · exact hno h1
        · revert h1
          decide
      simp only [this, false_iff, not_and]
      intro _
      exact hall
  · intro hp hall
    unfold OutputFilename
    rw [Base_of_separators filename hp hall]
    decide
  · intro hp
    subst hp
    decide

/-- C20, counterexample. For the file name `/`, `OutputFilename` is `/.enc`, which holds
a separator. -/
theorem C20_counterexample :
    OutputFilename "/".data = "/.enc".data ∧ '/' ∈ OutputFilename "/".data := by
  decide

/-- The name of the output file for `/var/log/mongod.log.gz` and for `mongod.log`. -/
theorem OutputFilename_example :
    OutputFilename "/var/log/mongod.log.gz".data = "mongod.log.enc".data ∧
      OutputFilename "mongod.log".data = "mongod.log.enc".data := by
  decide

/-! ## `MilliToTimeString` -/

theorem log2Aux_eq (fuel n : Nat) (h : n ≤ fuel) : log2Aux fuel n = Nat.log2 n := by
  induction fuel generalizing n with
  | zero =>
    have : n = 0 := Nat.le_zero.mp h
    subst this
    rw [Nat.log2]
    rfl
  | succ fuel ih =>
    unfold log2Aux
    rw [Nat.log2]
    by_cases h2 : n ≥ 2
    · rw [if_pos h2, if_pos h2, ih (n / 2) (by omega)]
    · rw [if_neg h2, if_neg h2]

theorem log2_eq (n : Nat) : log2 n = Nat.log2 n := log2Aux_eq n n (Nat.le_refl n)

theorem roundHalfEven_one (a : Nat) : roundHalfEven a 1 = a := by
  simp [roundHalfEven, Nat.mod_one]

theorem le_roundHalfEven (a b : Nat) : a / b ≤ roundHalfEven a b := by
  unfold roundHalfEven
  simp only
  split
  · exact Nat.le_succ _
  · exact Nat.le_refl _

/-- The distance from `roundHalfEven a b` to `a / b` is at most one half. -/
theorem roundHalfEven_near (a b : Nat) (hb : 0 < b) :
    2 * (b * roundHalfEven a b) ≤ 2 * a + b ∧ 2 * a ≤ 2 * (b * roundHalfEven a b) + b := by
  have hdiv : b * (a / b) + a % b = a := Nat.div_add_mod a b
  have hmod : a % b < b := Nat.mod_lt a hb
  unfold roundHalfEven
  simp only
  split
  · rename_i h
    have h2 : b ≤ 2 * (a % b) := by
      simp only [Bool.or_eq_true, decide_eq_true_eq, Bool.and_eq_true, beq_iff_eq] at h
      rcases h with h | h
      · exact Nat.le_of_lt h
      · exact Nat.le_of_eq h.1.symm
    rw [Nat.mul_add, Nat.mul_one]
    constructor <;> omega
  · rename_i h
    have h2 : 2 * (a % b) ≤ b := by
      simp only [Bool.or_eq_true, decide_eq_true_eq, Bool.and_eq_true, beq_iff_eq, not_or] at h
      exact Nat.le_of_not_lt h.1
    constructor <;> omega

/-- An integer below `2 ^ 53` is a `float64`: the conversion is exact. -/
theorem ofNat_exact (m : Nat) (h : m < 2 ^ 53) :
    ∃ s, Float64.ofNat m = { num := m * 2 ^ s, exp := s } := by
  unfold Float64.ofNat Float64.nearest
  by_cases h0 : m = 0
  · exact ⟨0, by simp [h0]⟩
  · rw [if_neg h0, if_pos (by omega)]
    simp only [roundHalfEven_one]
    exact ⟨_, rfl⟩

/-- An integer of `2 ^ 53` or more is converted to a `float64` of `2 ^ 52` or more. -/
theorem ofNat_large (m : Nat) (h : 2 ^ 53 ≤ m) :
    ∃ n, Float64.ofNat m = { num := n, exp := 0 } ∧ 2 ^ 52 ≤ n := by
  unfold Float64.ofNat Float64.nearest
  have h0 : m ≠ 0 := by
    intro e; rw [e] at h; exact absurd h (by decide)
  rw [if_neg h0, if_neg (by omega)]
  refine ⟨_, rfl, ?_⟩
  simp only [Nat.div_one, Nat.one_mul, log2_eq]
  have hl : 53 ≤ m.log2 := (Nat.le_log2 h0).mpr h
  have hle : 2 ^ m.log2 ≤ m := Nat.log2_self_le h0
  have hpow : 2 ^ m.log2 = 2 ^ 52 * 2 ^ (m.log2 - 52) := by
    rw [← Nat.pow_add]; congr 1; omega
  have hq : 2 ^ 52 ≤ m / 2 ^ (m.log2 - 52) := by
    rw [Nat.le_div_iff_mul_le (Nat.pos_pow_of_pos _ (by decide))]
    rw [← hpow]; exact hle
  have hr := le_roundHalfEven m (2 ^ (m.log2 - 52))
  calc 2 ^ 52 ≤ roundHalfEven m (2 ^ (m.log2 - 52)) := Nat.le_trans hq hr
    _ = roundHalfEven m (2 ^ (m.log2 - 52)) * 1 := (Nat.mul_one _).symm
    _ ≤ roundHalfEven m (2 ^ (m.log2 - 52)) * 2 ^ (m.log2 - 52) :=
        Nat.mul_le_mul_left _ (Nat.pos_pow_of_pos _ (by decide))

/-- The comparison of `float64(m)` with a constant of at most `2 ^ 52` is the
comparison of the integers. -/
theorem ofNat_ge_const (m c : Nat) (hc : c ≤ 2 ^ 52) :
    (Float64.ofNat m).ge (Float64.const c) = decide (c ≤ m) := by
  by_cases h : m < 2 ^ 53
  · obtain ⟨s, hs⟩ := ofNat_exact m h
    rw [hs]
    simp only [Float64.ge, Float64.const, Nat.pow_zero, Nat.mul_one]
    congr 1
    apply propext
    exact ⟨fun h => Nat.le_of_mul_le_mul_right h (Nat.pos_pow_of_pos _ (by decide)),
      fun h => Nat.mul_le_mul_right _ h⟩
  · obtain ⟨n, hn, hle⟩ := ofNat_large m (Nat.le_of_not_lt h)
    rw [hn]
    simp only [Float64.ge, Float64.const, Nat.pow_zero, Nat.mul_one]
    have h1 : c ≤ n := Nat.le_trans hc hle
    have h2 : c ≤ m := by
      have : (2:Nat) ^ 52 ≤ 2 ^ 53 := by decide
      omega
    simp [h1, h2]

theorem roundHalfEven_mul (m b : Nat) (hb : 0 < b) : roundHalfEven (m * b) b = m := by
  unfold roundHalfEven
  simp only [Nat.mul_mod_left, Nat.mul_zero]
  rw [Nat.mul_div_cancel _ hb]
  have h1 : ¬ (0 > b) := Nat.not_lt_zero b
  have h2 : ¬ (0 = b) := fun e => absurd (e ▸ hb) (Nat.lt_irrefl 0)
  simp [h2]

/-- The significand of the quotient `a / b` below `2 ^ 53`: `a * 2 ^ s / b` rounded, with
a scale `s` for which `2 ^ 52 ≤ a * 2 ^ s / b`. -/
theorem nearest_spec (a b : Nat) (ha : 0 < a) (hlt : a < b * 2 ^ 53) :
    ∃ s, Float64.nearest a b = { num := roundHalfEven (a * 2 ^ s) b, exp := s } ∧
      b * 2 ^ 52 ≤ a * 2 ^ s := by
  have h0 : a ≠ 0 := Nat.pos_iff_ne_zero.mp ha
  unfold Float64.nearest
  rw [if_neg h0, if_pos hlt]
  simp only [log2_eq]
  split
  · rename_i h
    simp only [Bool.and_eq_true, decide_eq_true_eq] at h
    exact ⟨_, rfl, h.2⟩
  · refine ⟨_, rfl, ?_⟩
    have hla : 2 ^ a.log2 ≤ a := Nat.log2_self_le h0
    have hlb : b < 2 ^ (b.log2 + 1) := Nat.lt_log2_self
    have hpow : 2 ^ (b.log2 + 1) * 2 ^ 52 ≤ 2 ^ a.log2 * 2 ^ (b.log2 + 53 - a.log2) := by
      rw [← Nat.pow_add, ← Nat.pow_add]
      apply Nat.pow_le_pow_right (by decide)
      omega
    calc b * 2 ^ 52 ≤ 2 ^ (b.log2 + 1) * 2 ^ 52 := Nat.mul_le_mul_right _ (Nat.le_of_lt hlb)
      _ ≤ 2 ^ a.log2 * 2 ^ (b.log2 + 53 - a.log2) := hpow
      _ ≤ a * 2 ^ (b.log2 + 53 - a.log2) := Nat.mul_le_mul_right _ hla

theorem Itoa_digit_length (d : Nat) (h : d < 10) : (Itoa d).length = 1 := by
  interval_cases d <;> rfl

/-- The text of a `float64` with one digit after the point. -/
theorem SprintfFloat_one (width : Nat) (x : Float64) :
    SprintfFloat width 1 x =
      padLeft width (Itoa (tenths x / 10) ++ ".".data ++ Itoa (tenths x % 10)) := by
  have hl := Itoa_digit_length (tenths x % 10) (Nat.mod_lt _ (by decide))
  unfold SprintfFloat FormatFloat padLeft
  simp only [Nat.pow_one, Nat.one_ne_zero, if_false]
  unfold tenths at hl ⊢
  rw [hl]
  simp

/-- The text of `float64(m)` without digits after the point, for `m` below `2 ^ 53`. -/
theorem SprintfFloat_zero (width m : Nat) (h : m < 2 ^ 53) :
    SprintfFloat width 0 (Float64.ofNat m) = padLeft width (Itoa m) := by
  obtain ⟨s, hs⟩ := ofNat_exact m h
  unfold SprintfFloat FormatFloat padLeft
  rw [hs]
  simp only [Nat.pow_zero, Nat.mul_one, if_true]
  rw [roundHalfEven_mul m (2 ^ s) (Nat.pos_pow_of_pos _ (by decide))]

/-- The tenths shown for the quotient `float64(m) / c`, with `m` below `2 ^ 53`, are within
`1 / 2 + 10 * (m / c) / 2 ^ 53` of `10 * m / c`. -/
theorem tenths_div_near (m c : Nat) (hm : 0 < m) (hc : 0 < c) (h : m < 2 ^ 53) :
    2 ^ 53 * (c * tenths ((Float64.ofNat m).div (Float64.const c))) ≤
        2 ^ 53 * (10 * m) + 2 ^ 52 * c + 10 * m ∧
      2 ^ 53 * (10 * m) ≤
        2 ^ 53 * (c * tenths ((Float64.ofNat m).div (Float64.const c))) + 2 ^ 52 * c + 10 * m := by
  obtain ⟨s0, hs0⟩ := ofNat_exact m h
  have hA : 0 < 2 ^ s0 := Nat.pos_pow_of_pos _ (by decide)
  have hdiv : (Float64.ofNat m).div (Float64.const c) =
      Float64.nearest (m * 2 ^ s0) (c * 2 ^ s0) := by
    rw [hs0]
    simp [Float64.div, Float64.const]
  have ha : 0 < m * 2 ^ s0 := Nat.mul_pos hm hA
  have hlt : m * 2 ^ s0 < c * 2 ^ s0 * 2 ^ 53 := by
    have h1 : m < c * 2 ^ 53 := Nat.lt_of_lt_of_le h (Nat.le_mul_of_pos_left _ hc)
    calc m * 2 ^ s0 < c * 2 ^ 53 * 2 ^ s0 := Nat.mul_lt_mul_of_pos_right h1 hA
      _ = c * 2 ^ s0 * 2 ^ 53 := by ring
  obtain ⟨s, hs, h5⟩ := nearest_spec _ _ ha hlt
  have hB : 0 < 2 ^ s := Nat.pos_pow_of_pos _ (by decide)
  have hb : 0 < c * 2 ^ s0 := Nat.mul_pos hc hA
  obtain ⟨h1, h2⟩ := roundHalfEven_near (m * 2 ^ s0 * 2 ^ s) (c * 2 ^ s0) hb
  rw [hdiv, hs]
  simp only [tenths]
  obtain ⟨h3, h4⟩ := roundHalfEven_near
    (roundHalfEven (m * 2 ^ s0 * 2 ^ s) (c * 2 ^ s0) * 10) (2 ^ s) hB
  generalize roundHalfEven (roundHalfEven (m * 2 ^ s0 * 2 ^ s) (c * 2 ^ s0) * 10) (2 ^ s) = t
    at h3 h4 ⊢
  generalize roundHalfEven (m * 2 ^ s0 * 2 ^ s) (c * 2 ^ s0) = n at h1 h2 h3 h4
  generalize 2 ^ s0 = A at *
  generalize 2 ^ s = B at *
  have hAB : 0 < A * B := Nat.mul_pos hA hB
  have e53 : (2 : Nat) ^ 53 = 9007199254740992 := by norm_num
  have e52 : (2 : Nat) ^ 52 = 4503599627370496 := by norm_num
  rw [e53, e52] at *
  have k3 := Nat.mul_le_mul_left (c * A) h3
  have k4 := Nat.mul_le_mul_left (c * A) h4
  constructor
  · apply Nat.le_of_mul_le_mul_right _ hAB
    nlinarith [k3, h1, h5]
  · apply Nat.le_of_mul_le_mul_right _ hAB
    nlinarith [k4, h2, h5]

/-- C19. For every integer `m` of milliseconds that is not negative,
`MilliToTimeString(float64(m))` is: below 1000, the digits of `m` in a field of 6, with
no unit; from 1000 and below 60000, the quotient by 1000 with one digit after the point
and `s`; from 60000 and below 3600000, the quotient by 60000 and `m`; from 3600000, the
quotient by 3600000 and `h`. The text with one digit shows the tenths `t` of the
quotient, and for `m` below `2 ^ 53` the tenths of the quotient by `c` are within
`1 / 2 + 10 * (m / c) / 2 ^ 53` of `10 * m / c`. 90000 gives `1.5m`. -/
theorem C19_milliToTimeString (m : Nat) :
    (m < 1000 → MilliToTimeString (Float64.ofNat m) = padLeft 6 (Itoa m)) ∧
      (1000 ≤ m → m < 60000 →
        MilliToTimeString (Float64.ofNat m) =
          SprintfFloat 3 1 ((Float64.ofNat m).div (Float64.const 1000)) ++ "s".data) ∧
      (60000 ≤ m → m < 3600000 →
        MilliToTimeString (Float64.ofNat m) =
          SprintfFloat 3 1 ((Float64.ofNat m).div (Float64.const 60000)) ++ "m".data) ∧
      (3600000 ≤ m →
        MilliToTimeString (Float64.ofNat m) =
          SprintfFloat 4 1 ((Float64.ofNat m).div (Float64.const 3600000)) ++ "h".data) ∧
      (∀ width x, SprintfFloat width 1 x =
        padLeft width (Itoa (tenths x / 10) ++ ".".data ++ Itoa (tenths x % 10))) ∧
      (∀ c, 0 < c → 0 < m → m < 2 ^ 53 →
        2 ^ 53 * (c * tenths ((Float64.ofNat m).div (Float64.const c))) ≤
            2 ^ 53 * (10 * m) + 2 ^ 52 * c + 10 * m ∧
          2 ^ 53 * (10 * m) ≤
            2 ^ 53 * (c * tenths ((Float64.ofNat m).div (Float64.const c))) + 2 ^ 52 * c +
              10 * m) ∧
      MilliToTimeString (Float64.ofNat 90000) = "1.5m".data := by
  have g1 := ofNat_ge_const m 1000 (by decide)
  have g2 := ofNat_ge_const m 60000 (by decide)
  have g3 := ofNat_ge_const m 3600000 (by decide)
  refine ⟨?_, ?_, ?_, ?_, SprintfFloat_one, ?_, by decide⟩
  · intro h
    unfold MilliToTimeString
    rw [g1, g2, g3]
    have h1 : ¬ 1000 ≤ m := by omega
    have h2 : ¬ 60000 ≤ m := by omega
    have h3 : ¬ 3600000 ≤ m := by omega
    simp only [h1, h2, h3, decide_False, Bool.false_eq_true, if_false]
    exact SprintfFloat_zero 6 m (Nat.lt_trans h (by decide))
  · intro h h'
    unfold MilliToTimeString
    rw [g1, g2, g3]
    have h2 : ¬ 60000 ≤ m := by omega
    have h3 : ¬ 3600000 ≤ m := by omega
    simp only [h, h2, h3, decide_False, decide_True, Bool.false_eq_true, if_false, if_true]
  · intro h h'
    unfold MilliToTimeString
    rw [g2, g3]
    have h3 : ¬ 3600000 ≤ m := by omega
    simp only [h, h3, decide_False, decide_True, Bool.false_eq_true, if_false, if_true]
  · intro h
    unfold MilliToTimeString
    rw [g3]
    simp only [h, decide_True, if_true]
  · intro c hc hm h
    exact tenths_div_near m c hm hc h

/-! ## The keys of the files -/

/-- The number that a text of decimal digits stands for. -/
theorem digitChar_value (k : Nat) (h : k < 10) : (Nat.digitChar k).toNat - 48 = k := by
  interval_cases k <;> rfl

theorem toDigitsCore_value (fuel n : Nat) (ds : List Char) (h : n < fuel) :
    (Nat.toDigitsCore 10 fuel n ds).foldl (fun v c => 10 * v + (c.toNat - 48)) 0 =
      ds.foldl (fun v c => 10 * v + (c.toNat - 48)) n := by
  induction fuel generalizing n ds with
  | zero => exact absurd h (Nat.not_lt_zero n)
  | succ fuel ih =>
    unfold Nat.toDigitsCore
    simp only
    have hd := digitChar_value (n % 10) (Nat.mod_lt _ (by decide))
    by_cases h0 : n / 10 = 0
    · rw [if_pos h0, List.foldl_cons, hd]
      congr 1
      omega
    · rw [if_neg h0, ih (n / 10) _ (by omega), List.foldl_cons, hd]
      congr 1
      omega

theorem Itoa_injective (i j : Nat) (h : Itoa i = Itoa j) : i = j := by
  have hi := toDigitsCore_value (i + 1) i [] (Nat.lt_succ_self i)
  have hj := toDigitsCore_value (j + 1) j [] (Nat.lt_succ_self j)
  unfold Itoa Nat.toDigits at h
  rw [h, hj] at hi
  exact hi.symm

theorem diagDataMapFrom_keys {Doc SS RS SM : Type} (k : Nat)
    (results : List (Option (DiagnosticData Doc SS RS SM))) (p) (hp : p ∈ diagDataMapFrom k results) :
    ∃ j, k ≤ j ∧ p.1 = Itoa j := by
  induction results generalizing k with
  | nil => cases hp
  | cons r rs ih =>
    cases r with
    | none =>
      obtain ⟨j, hj, e⟩ := ih (k + 1) hp
      exact ⟨j, by omega, e⟩
    | some dd =>
      rcases List.mem_cons.mp hp with e | e
      · exact ⟨k, Nat.le_refl k, by rw [e]⟩
      · obtain ⟨j, hj, e⟩ := ih (k + 1) e
        exact ⟨j, by omega, e⟩

theorem DiagDataMap.get_of_not_mem {Doc SS RS SM : Type} (m : DiagDataMap Doc SS RS SM)
    (key : GoString) (h : ∀ p ∈ m, p.1 ≠ key) : m.get key = DiagnosticData.zero := by
  unfold DiagDataMap.get
  have : m.find? (fun p => p.1 == key) = none := by
    apply List.find?_eq_none.mpr
    intro p hp
    simpa using h p hp
  rw [this]

/-- The map holds the result of file `i` under the key `Itoa i`. -/
theorem diagDataMapFrom_get {Doc SS RS SM : Type} (k i : Nat)
    (results : List (Option (DiagnosticData Doc SS RS SM))) :
    (diagDataMapFrom k results).get (Itoa (k + i)) = resultOf results i := by
  induction results generalizing k i with
  | nil =>
    simp [diagDataMapFrom, DiagDataMap.get, resultOf]
  | cons r rs ih =>
    cases i with
    | zero =>
      cases r with
      | none =>
        simp only [diagDataMapFrom, resultOf, List.getD_cons_zero, Option.getD_none]
        apply DiagDataMap.get_of_not_mem
        intro p hp e
        obtain ⟨j, hj, e2⟩ := diagDataMapFrom_keys (k + 1) rs p hp
        rw [e2] at e
        have := Itoa_injective _ _ e
        omega
      | some dd =>
        simp [diagDataMapFrom, DiagDataMap.get, resultOf]
    | succ i =>
      have e : k + (i + 1) = (k + 1) + i := by omega
      cases r with
      | none =>
        simp only [diagDataMapFrom, resultOf, List.getD_cons_succ]
        rw [e]
        exact ih (k + 1) i
      | some dd =>
        have hne : (Itoa k == Itoa (k + (i + 1))) = false := by
          apply beq_false_of_ne
          intro e2
          have := Itoa_injective _ _ e2
          omega
        have : (diagDataMapFrom k (some dd :: rs)).get (Itoa (k + (i + 1))) =
            (diagDataMapFrom (k + 1) rs).get (Itoa (k + (i + 1))) := by
          simp only [diagDataMapFrom, DiagDataMap.get, List.find?_cons, hne]
        rw [this, e]
        simp only [resultOf, List.getD_cons_succ]
        exact ih (k + 1) i

theorem map_range_resultOf {Doc SS RS SM α : Type}
    (results : List (Option (DiagnosticData Doc SS RS SM)))
    (g : DiagnosticData Doc SS RS SM → α) :
    (List.range results.length).map (fun i => g (resultOf results i)) =
      results.map (fun r => g (r.getD DiagnosticData.zero)) := by
  apply List.ext_getElem
  · simp
  · intro i h1 h2
    have hi : i < results.length := by simpa using h1
    simp [resultOf, List.getD_eq_getElem?_getD, List.getElem?_eq_getElem hi]

theorem seriesOf_results {Doc SS RS SM α : Type}
    (results : List (Option (DiagnosticData Doc SS RS SM)))
    (series : DiagnosticData Doc SS RS SM → List α) :
    seriesOf (diagDataMapFrom 0 results) series results.length =
      (results.map (fun r => series (r.getD DiagnosticData.zero))).flatten := by
  unfold seriesOf
  rw [← map_range_resultOf]
  congr 1
  apply List.map_congr_left
  intro i _
  have := diagDataMapFrom_get 0 i results
  rw [Nat.zero_add] at this
  rw [this]

/-- C11. With the results `r_0, ..., r_(n-1)` of the files in the map, a file that
failed counting as the zero value, the last loop of `readDiagnosticFiles` leaves each
of the three series equal to what it was before followed by the series of `r_0`, of
`r_1`, ..., of `r_(n-1)`; `ServerInfo` is unchanged when no file has one, and is that of
file `i` when file `i` has one and no file after `i` has. -/
theorem C11_merge {Doc SS RS SM : Type}
    (results : List (Option (DiagnosticData Doc SS RS SM)))
    (d : DiagnosticData Doc SS RS SM) :
    (mergeFiles (diagDataMapFrom 0 results) results.length d).ServerStatusList =
        d.ServerStatusList ++
          (results.map (fun r => (r.getD DiagnosticData.zero).ServerStatusList)).flatten ∧
      (mergeFiles (diagDataMapFrom 0 results) results.length d).SystemMetricsList =
        d.SystemMetricsList ++
          (results.map (fun r => (r.getD DiagnosticData.zero).SystemMetricsList)).flatten ∧
      (mergeFiles (diagDataMapFrom 0 results) results.length d).ReplSetStatusList =
        d.ReplSetStatusList ++
          (results.map (fun r => (r.getD DiagnosticData.zero).ReplSetStatusList)).flatten ∧
      ((∀ i, i < results.length → (resultOf results i).ServerInfo = none) →
        (mergeFiles (diagDataMapFrom 0 results) results.length d).ServerInfo = d.ServerInfo) ∧
      (∀ i, i < results.length → (resultOf results i).ServerInfo ≠ none →
        (∀ j, i < j → j < results.length → (resultOf results j).ServerInfo = none) →
        (mergeFiles (diagDataMapFrom 0 results) results.length d).ServerInfo =
          (resultOf results i).ServerInfo) := by
  have hget : ∀ i, (diagDataMapFrom 0 results).get (Itoa i) = resultOf results i := by
    intro i
    have := diagDataMapFrom_get 0 i results
    rw [Nat.zero_add] at this
    exact this
  obtain ⟨h1, h2, h3, h4, h5⟩ := mergeFiles_spec (diagDataMapFrom 0 results) results.length d
  simp only [hget] at h4 h5
  rw [seriesOf_results] at h1 h2 h3
  exact ⟨h1, h2, h3, h4, h5⟩

/-- C11, the scenario of the three files: `metrics.A` gives two samples and no
`ServerInfo`, the second file fails, `metrics.B` gives `ServerInfo` and one sample.
After the loop the series has the three samples in the order of the files and
`ServerInfo` is that of `metrics.B`. -/
theorem C11_merge_witness :
    (mergeFiles (diagDataMapFrom 0 threeFilesResults) 3 DiagnosticData.zero).ServerStatusList =
        [1, 2, 3] ∧
      (mergeFiles (diagDataMapFrom 0 threeFilesResults) 3 DiagnosticData.zero).ServerInfo =
        some "B" := by
  have h := C11_merge threeFilesResults DiagnosticData.zero
  refine ⟨h.1.trans (by decide), ?_⟩
  exact (h.2.2.2.2 2 (by decide) (by decide) (by intro j h1 h2; exact absurd h2 (by
    have : threeFilesResults.length = 3 := rfl
    omega))).trans (by decide)

/-! ## The key of the per-pattern map -/

theorem append_dot_cancel (a b r1 r2 : GoString) (ha : '.' ∉ a) (hb : '.' ∉ b)
    (h : a ++ '.' :: r1 = b ++ '.' :: r2) : a = b ∧ r1 = r2 := by
  induction a generalizing b with
  | nil =>
    cases b with
    | nil => simpa using h
    | cons c cs =>
      simp only [List.nil_append, List.cons_append, List.cons.injEq] at h
      exact absurd (h.1 ▸ List.mem_cons_self _ _) hb
  | cons x xs ih =>
    cases b with
    | nil =>
      simp only [List.nil_append, List.cons_append, List.cons.injEq] at h
      exact absurd (h.1 ▸ List.mem_cons_self _ _) ha
    | cons c cs =>
      simp only [List.cons_append, List.cons.injEq] at h
      obtain ⟨e, r⟩ := ih cs (fun m => ha (List.mem_cons_of_mem _ m))
        (fun m => hb (List.mem_cons_of_mem _ m)) h.2
      exact ⟨by rw [h.1, e], r⟩

theorem hasFilter_no_dot (op : GoString) (h : hasFilter op = true) : '.' ∉ op := by
  unfold hasFilter at h
  obtain ⟨f, hf, e⟩ := List.any_eq_true.mp h
  have e : f = op := by simpa using e
  subst e
  revert f
  decide

/-- The key tells the operation, the filter and the scan kind. -/
theorem key_injective (op1 op2 f1 f2 s1 s2 : GoString) (h1 : '.' ∉ op1) (h2 : '.' ∉ op2)
    (hs1 : s1 = [] ∨ s1 = COLLSCAN) (hs2 : s2 = [] ∨ s2 = COLLSCAN)
    (hk : op1 ++ ".".data ++ f1 ++ ".".data ++ s1 = op2 ++ ".".data ++ f2 ++ ".".data ++ s2) :
    op1 = op2 ∧ f1 = f2 ∧ s1 = s2 := by
  have hs : s1 = s2 :=
    scan_of_key { op := op1, ns := [], filter := f1, scan := s1, index := [], milli := 0, str := [] }
      { op := op2, ns := [], filter := f2, scan := s2, index := [], milli := 0, str := [] }
      hs1 hs2 hk
  subst hs
  have hk2 : op1 ++ '.' :: (f1 ++ ".".data ++ s1) = op2 ++ '.' :: (f2 ++ ".".data ++ s1) := by
    simpa [List.append_assoc] using hk
  obtain ⟨e1, e2⟩ := append_dot_cancel _ _ _ _ h1 h2 hk2
  refine ⟨e1, ?_, rfl⟩
  have e3 := List.append_cancel_right e2
  exact List.append_cancel_right e3

/-- C21. The key `op + "." + filter + "." + scan` is injective on operations without
`.`, filters and scan kinds among the empty string and `COLLSCAN`; the operation of an
accepted line has no `.` and its scan kind is one of these two, so two accepted lines
with the same key have the same operation, canonical filter and scan kind. -/
theorem C21_key_injective :
    (∀ op1 op2 f1 f2 s1 s2 : GoString, '.' ∉ op1 → '.' ∉ op2 →
        (s1 = [] ∨ s1 = COLLSCAN) → (s2 = [] ∨ s2 = COLLSCAN) →
        op1 ++ ".".data ++ f1 ++ ".".data ++ s1 = op2 ++ ".".data ++ f2 ++ ".".data ++ s2 →
        op1 = op2 ∧ f1 = f2 ∧ s1 = s2) ∧
      (∀ c1 c2 str1 str2 l1 l2, parseLine c1 str1 = some l1 → parseLine c2 str2 = some l2 →
        l1.key = l2.key → l1.op = l2.op ∧ l1.filter = l2.filter ∧ l1.scan = l2.scan) := by
  refine ⟨key_injective, ?_⟩
  intro c1 c2 str1 str2 l1 l2 h1 h2 hk
  exact key_injective _ _ _ _ _ _
    (hasFilter_no_dot _ (parseLine_hasFilter c1 str1 l1 h1))
    (hasFilter_no_dot _ (parseLine_hasFilter c2 str2 l2 h2))
    (parseLine_scan c1 str1 l1 h1) (parseLine_scan c2 str2 l2 h2) hk

/-! ## `GetDocByField` on braces that do not balance -/

/-- C22. On `filter: { a: 1`, whose brace is not closed, `GetDocByField` with the field
`filter: ` returns ` a: 1`, which is not a prefix of the text `{ a: 1` that follows the
field: the counter of open braces, 1 at the end of the loop, is the start of the slice.
On the line `truncatedPlanLine` the index label is ` id: 1, name: 1 ... 50ms`. When
the field does not occur the result is empty, and when the counter of open braces is 0
at the end of the loop the result is a prefix of the trimmed text. -/
theorem C22_getDocByField_unbalanced :
    GetDocByField "filter: \x7b a: 1".data "filter: ".data = " a: 1".data ∧
      TrimSpaces ("filter: \x7b a: 1".data.drop "filter: ".data.length) = "\x7b a: 1".data ∧
      ¬ (" a: 1".data <+: "\x7b a: 1".data) ∧
      (parseLine false truncatedPlanLine).map (·.index) =
        some " id: 1, name: 1 ... 50ms".data ∧
      (∀ s f, Index s f = none → GetDocByField s f = []) ∧
      (∀ s f i, Index s f = some i →
        (braceLoop (runes (TrimSpaces (s.drop (i + f.length)))) false 0 0).1 = 0 →
        GetDocByField s f <+: TrimSpaces (s.drop (i + f.length))) := by
  refine ⟨by decide, by decide, by decide, by set_option maxRecDepth 100000 in decide, ?_, ?_⟩
  · intro s f h
    simp [GetDocByField, h]
  · intro s f i h h0
    simp only [GetDocByField, h, slice]
    rw [h0, List.drop_zero]
    exact List.take_prefix _ _

/-! ## `printLogsSummary` -/

theorem isPrefixOf_singleton_drop (c : Char) (s : GoString) (i : Nat) :
    [c].isPrefixOf (s.drop i) = true ↔ s[i]? = some c := by
  induction s generalizing i with
  | nil => simp [List.isPrefixOf]
  | cons x xs ih =>
    cases i with
    | zero =>
      simp only [List.drop_zero, List.isPrefixOf, Bool.and_true, beq_iff_eq,
        List.getElem?_cons_zero, Option.some.injEq]
      exact eq_comm
    | succ i => simpa using ih i

/-- No occurrence of a byte: `LastIndex` is `-1` exactly when the byte is not in the
text. -/
theorem LastIndex_eq_none (s : GoString) (c : Char) : LastIndex s [c] = none ↔ c ∉ s := by
  unfold LastIndex
  rw [List.find?_eq_none]
  constructor
  · intro h hc
    obtain ⟨i, hi, e⟩ := List.getElem_of_mem hc
    have hm : i ∈ (List.range (s.length + 1)).reverse := by
      simp only [List.mem_reverse, List.mem_range]
      omega
    apply h i hm
    rw [isPrefixOf_singleton_drop, List.getElem?_eq_getElem hi, e]
  · intro h i _ hp
    rw [isPrefixOf_singleton_drop] at hp
    exact h (List.getElem?_mem hp)

/-- The body of the loop panics exactly on a filter of more than 60 bytes without a
space among its first 60 bytes. -/
theorem printEntry_eq_none (avgstr : Int → Int → GoString) (value : OpPerformanceDoc) :
    printEntry avgstr value = none ↔
      value.Filter.length > 60 ∧ ' ' ∉ value.Filter.take 60 := by
  unfold printEntry
  by_cases hlen : value.Filter.length > 60
  · simp only [hlen, if_true, true_and]
    cases hl : LastIndex (value.Filter.take 60) " ".data with
    | none =>
      simp only [true_iff]
      exact (LastIndex_eq_none _ ' ').mp hl
    | some idx =>
      refine ⟨fun h => (by cases h), fun hn => ?_⟩
      have := (LastIndex_eq_none _ ' ').mpr hn
      rw [this] at hl
      cases hl
  · simp [hlen]

theorem printEntries_eq_none (avgstr : Int → Int → GoString) (arr : List OpPerformanceDoc) :
    printEntries avgstr arr = none ↔ ∃ value ∈ arr, printEntry avgstr value = none := by
  induction arr with
  | nil => simp [printEntries]
  | cons v vs ih =>
    unfold printEntries
    cases hv : printEntry avgstr v with
    | none => simp [hv]
    | some out =>
      cases hr : printEntries avgstr vs with
      | none =>
        simp only [true_iff]
        obtain ⟨w, hw, e⟩ := ih.mp hr
        exact ⟨w, List.mem_cons_of_mem _ hw, e⟩
      | some rest =>
        refine ⟨fun h => (by cases h), ?_⟩
        rintro ⟨w, hw, e⟩
        rcases List.mem_cons.mp hw with e2 | e2
        · subst e2; rw [hv] at e; cases e
        · have := ih.mpr ⟨w, e2, e⟩
          rw [hr] at this
          cases this

/-- The index moves forward by at least one byte at each step of the inner loop. -/
theorem remainingStep_progress (remaining : GoString) (i : Int) :
    i + 1 ≤ (remainingStep remaining i).2 + 60 := by
  unfold remainingStep
  simp only
  split
  · simp only; omega
  · split
    · split
      · simp only; omega
      · simp only; omega
    · simp only; omega

/-- The fuel `len(remaining) + 1` is enough for the inner loop: more fuel gives the
same text. -/
theorem printRemaining_fuel (scan remaining : GoString) (fuel : Nat) (i : Int)
    (h : (remaining.length : Int) < i + fuel) :
    printRemaining scan remaining (fuel + 1) i = printRemaining scan remaining fuel i := by
  induction fuel generalizing i with
  | zero =>
    unfold printRemaining
    have : ¬ i < (remaining.length : Int) := by omega
    simp only [this, if_false]
  | succ fuel ih =>
    rw [printRemaining]
    conv => rhs; rw [printRemaining]
    by_cases hi : i < (remaining.length : Int)
    · simp only [hi, if_true]
      have hp := remainingStep_progress remaining i
      rw [ih ((remainingStep remaining i).2 + 60) (by push_cast at h ⊢; omega)]
    · simp only [hi, if_false]

/-! ## A directory without a file to read -/

/-- The paths that `readDiagnosticDir` selects: the entries whose name begins with
`metrics.` or `keyhole_stats.`, in the order of the listing, each after the name of the
directory and `/`. -/
theorem readDiagnosticDirNames_eq (dirname : GoString) (names : List GoString) :
    readDiagnosticDirNames dirname names =
      (names.filter (fun name =>
        "metrics.".data.isPrefixOf name || "keyhole_stats.".data.isPrefixOf name)).map
        (fun name => dirname ++ "/".data ++ name) := by
  unfold readDiagnosticDirNames
  congr 1
  apply List.filter_congr
  intro name _
  have h1 := startsWith_iff name "metrics.".data
  have h2 := startsWith_iff name "keyhole_stats.".data
  cases ha : startsWith name "metrics.".data <;>
    cases hb : startsWith name "keyhole_stats.".data <;>
    cases hc : "metrics.".data.isPrefixOf name <;>
    cases hd : "keyhole_stats.".data.isPrefixOf name <;>
    simp_all

/-- C24. `readDiagnosticDir` selects the entries whose name begins with `metrics.` or
`keyhole_stats.`, in the order of the listing, each after the name of the directory and
`/`. When no entry is selected, `filenames[0]` in `readDiagnosticFiles` panics, and so
do `readDiagnosticDir` and `PrintDiagnosticData` on this directory: the text
`No FTDC data found.` is not returned. It is returned for the directory `quiet`,
whose file gives no sample. -/
theorem C24_empty_directory_panics :
    (∀ dirname names, readDiagnosticDirNames dirname names =
        (names.filter (fun name =>
          "metrics.".data.isPrefixOf name || "keyhole_stats.".data.isPrefixOf name)).map
          (fun name => dirname ++ "/".data ++ name)) ∧
      (∀ (Doc SS RS SM : Type) (env : DiagEnv Doc SS RS SM) dirname names rest isWeb d,
        env.stat dirname = some FileMode.dir → env.readDir dirname = some names →
        (∀ name ∈ names, "metrics.".data.isPrefixOf name = false ∧
          "keyhole_stats.".data.isPrefixOf name = false) →
        readDiagnosticDir env dirname d = Outcome.panic ∧
          PrintDiagnosticData env (dirname :: rest) isWeb d = Outcome.panic) ∧
      PrintDiagnosticData quietEnv ["empty".data] false DiagnosticData.zero = Outcome.panic ∧
      PrintDiagnosticData quietEnv ["quiet".data] false DiagnosticData.zero =
        Outcome.ok "No FTDC data found.".data := by
  refine ⟨readDiagnosticDirNames_eq, ?_, by decide, by decide⟩
  intro Doc SS RS SM env dirname names rest isWeb d hs hr hn
  have he : readDiagnosticDirNames dirname names = [] := by
    rw [readDiagnosticDirNames_eq]
    simp only [List.map_eq_nil_iff, List.filter_eq_nil_iff]
    intro name hm
    simp [(hn name hm).1, (hn name hm).2]
  have hd : readDiagnosticDir env dirname d = Outcome.panic := by
    simp [readDiagnosticDir, hr, he, readDiagnosticFiles, readDiagnosticFilesRoute]
  refine ⟨hd, ?_⟩
  simp [PrintDiagnosticData, ingest, hs, hd]

/-- C23. `printLogsSummary` panics exactly when some entry has a filter of more than 60
bytes without a space among its first 60 bytes: `strings.LastIndex` gives -1 and
`value.Filter[:idx]` is out of range. It panics on the entry `longFilterEntry`, which
is the entry that `Parse` makes of the line `longFieldLine`; it returns a text for an
entry whose namespace has 40 bytes. -/
theorem C23_printLogsSummary_panics :
    (∀ avgstr arr, printLogsSummary avgstr arr = none ↔
        ∃ value ∈ arr, value.Filter.length > 60 ∧ ' ' ∉ value.Filter.take 60) ∧
      printLogsSummary avgText [longFilterEntry] = none ∧
      (Parse ratOps NewLogInfo [longFieldLine]).OpsPatterns.map (·.Filter) =
        [longFilterEntry.Filter] ∧
      printLogsSummary avgText (Parse ratOps NewLogInfo [longFieldLine]).OpsPatterns = none ∧
      (printLogsSummary avgText [longNamespaceEntry]).isSome = true := by
  have hgen : ∀ avgstr arr, printLogsSummary avgstr arr = none ↔
      ∃ value ∈ arr, value.Filter.length > 60 ∧ ' ' ∉ value.Filter.take 60 := by
    intro avgstr arr
    have h1 : printLogsSummary avgstr arr = none ↔ printEntries avgstr arr = none := by
      unfold printLogsSummary
      cases printEntries avgstr arr with
      | none => simp
      | some body => exact ⟨fun h => (by cases h), fun h => (by cases h)⟩
    rw [h1, printEntries_eq_none]
    constructor
    · rintro ⟨v, hv, e⟩
      exact ⟨v, hv, (printEntry_eq_none avgstr v).mp e⟩
    · rintro ⟨v, hv, e⟩
      exact ⟨v, hv, (printEntry_eq_none avgstr v).mpr e⟩
  have hp : (Parse ratOps NewLogInfo [longFieldLine]).OpsPatterns.map (·.Filter) =
      [longFilterEntry.Filter] := by
    set_option maxRecDepth 100000 in decide
  refine ⟨hgen, by decide, hp, ?_, by set_option maxRecDepth 100000 in decide⟩
  rw [hgen]
  have hm : longFilterEntry.Filter ∈
      (Parse ratOps NewLogInfo [longFieldLine]).OpsPatterns.map (·.Filter) := by
    rw [hp]; exact List.mem_singleton.mpr rfl
  obtain ⟨v, hv, e⟩ := List.mem_map.mp hm
  refine ⟨v, hv, ?_⟩
  rw [e]
  decide

/-- The index label follows the order IXSCAN, EOF, IDHACK, COUNT_SCAN, the first
candidate that is not empty, on every accepted line but those with an empty scan kind
that contain `planSummary: COUNT_SCAN` together with an earlier candidate. -/
theorem indexLabel_priority (collscan : Bool) (str : GoString) (l : OpLine)
    (hl : parseLine collscan str = some l)
    (h : ¬ (l.scan = [] ∧ contains str "planSummary: COUNT_SCAN".data = true ∧
      (GetDocByField str "planSummary: IXSCAN".data ≠ [] ∨
        contains str "planSummary: EOF".data = true ∨
        contains str "planSummary: IDHACK".data = true))) :
    l.index =
      if GetDocByField str "planSummary: IXSCAN".data ≠ [] then
        GetDocByField str "planSummary: IXSCAN".data
      else if contains str "planSummary: EOF".data = true then "EOF".data
      else if contains str "planSummary: IDHACK".data = true then "IDHACK".data
      else if contains str "planSummary: COUNT_SCAN".data = true ∧ l.scan = [] then
        "COUNT_SCAN".data
      else [] := by
  rw [indexLabel_spec collscan str l hl]
  by_cases h1 : l.scan = [] ∧ contains str "planSummary: COUNT_SCAN".data = true
  · rw [if_pos h1]
    have h2 : GetDocByField str "planSummary: IXSCAN".data = [] := by
      by_contra hc
      exact h ⟨h1.1, h1.2, Or.inl hc⟩
    have h3 : ¬ contains str "planSummary: EOF".data = true :=
      fun hc => h ⟨h1.1, h1.2, Or.inr (Or.inl hc)⟩
    have h4 : ¬ contains str "planSummary: IDHACK".data = true :=
      fun hc => h ⟨h1.1, h1.2, Or.inr (Or.inr hc)⟩
    rw [if_neg (not_not.mpr h2), if_neg h3, if_neg h4, if_pos ⟨h1.2, h1.1⟩]
  · rw [if_neg h1]
    have h5 : ¬ (contains str "planSummary: COUNT_SCAN".data = true ∧ l.scan = []) :=
      fun hc => h1 ⟨hc.2, hc.1⟩
    simp only [h5, if_false]

/-! ## The order of `OpsPatterns` in `float64` -/

theorem insertRev_congr {α : Type} (less less2 : α → α → Bool) (x : α) (l : List α)
    (h : ∀ y ∈ l, less x y = less2 x y) : insertRev less x l = insertRev less2 x l := by
  induction l with
  | nil => rfl
  | cons y ys ih =>
    unfold insertRev
    rw [h y (List.mem_cons_self _ _), ih (fun z hz => h z (List.mem_cons_of_mem _ hz))]

theorem foldl_insertBy_congr {α : Type} (less less2 : α → α → Bool) (l acc : List α)
    (h : ∀ a ∈ acc ++ l, ∀ b ∈ acc ++ l, less a b = less2 a b) :
    l.foldl (fun sorted x => insertBy less x sorted) acc =
      l.foldl (fun sorted x => insertBy less2 x sorted) acc := by
  induction l generalizing acc with
  | nil => rfl
  | cons x xs ih =>
    rw [List.foldl_cons, List.foldl_cons]
    have e : insertBy less x acc = insertBy less2 x acc := by
      unfold insertBy
      rw [insertRev_congr less less2 x acc.reverse]
      intro y hy
      exact h x (by simp) y (by simp [List.mem_reverse.mp hy])
    rw [e]
    apply ih
    have hp : ∀ c, c ∈ insertBy less2 x acc ++ xs → c ∈ acc ++ x :: xs := by
      intro c hc
      rcases List.mem_append.mp hc with hc | hc
      · have := (insertBy_perm less2 x acc).mem_iff.mp hc
        rcases List.mem_cons.mp this with e | e
        · simp [e]
        · simp [e]
      · simp [hc]
    intro a ha b hb
    exact h a (hp a ha) b (hp b hb)

theorem sortSlice_congr {α : Type} (less less2 : α → α → Bool) (l : List α)
    (h : ∀ a ∈ l, ∀ b ∈ l, less a b = less2 a b) : sortSlice less l = sortSlice less2 l := by
  unfold sortSlice
  exact foldl_insertBy_congr less less2 l [] (by simpa using h)

theorem gt_finite (s t : Bool) (x y : Float64) :
    GoFloat64.gt (.finite s x) (.finite t y) =
      decide ((GoFloat64.finite t y).toRat < (GoFloat64.finite s x).toRat) := by
  simp only [GoFloat64.gt, GoFloat64.toRat]
  congr 1
  apply propext
  have hx : (0 : Rat) < 2 ^ x.exp := by positivity
  have hy : (0 : Rat) < 2 ^ y.exp := by positivity
  rw [div_lt_div_iff hy hx]
  constructor
  · intro h
    exact_mod_cast h
  · intro h
    exact_mod_cast h

theorem ofNat_num_ne_zero (m : Nat) (h : m ≠ 0) : (Float64.ofNat m).num ≠ 0 := by
  by_cases hm : m < 2 ^ 53
  · obtain ⟨s, hs⟩ := ofNat_exact m hm
    rw [hs]
    exact Nat.mul_ne_zero h (Nat.pos_iff_ne_zero.mp (Nat.pos_pow_of_pos _ (by decide)))
  · obtain ⟨n, hn, h52⟩ := ofNat_large m (by omega)
    rw [hn]
    intro e
    simp only at e
    rw [e] at h52
    exact absurd h52 (by decide)

theorem avgFloat64_finite (total count : Int) (hc : count ≠ 0) :
    ∃ s m, avgFloat64 total count = .finite s m := by
  have h : (Float64.ofNat count.natAbs).num ≠ 0 :=
    ofNat_num_ne_zero _ (Int.natAbs_ne_zero.mpr hc)
  unfold avgFloat64 GoFloat64.ofInt GoFloat64.div
  simp only [h, if_false]
  exact ⟨_, _, rfl⟩

theorem opsFold_count (ls : List OpLine) (hlen : ls.length < 2 ^ 63) (k : GoString) :
    match OpsMap.get (opsFold [] ls) k with
    | none => linesOf k ls = []
    | some d => d.Count = ((linesOf k ls).length : Int) ∧ 1 ≤ d.Count := by
  induction ls using List.reverseRecOn with
  | nil => simp [opsFold, OpsMap.get, linesOf]
  | append_singleton ls l ih =>
    have hlen1 : ls.length < 2 ^ 63 := by
      rw [List.length_append] at hlen
      omega
    have ih := ih hlen1
    rw [opsFold_snoc, linesOf_snoc]
    by_cases hk : l.key = k
    · subst hk
      rw [if_pos rfl]
      unfold updateOps
      cases hg : OpsMap.get (opsFold [] ls) l.key with
      | none =>
        rw [hg] at ih
        simp only [OpsMap.get_set, if_true]
        simp only at ih
        rw [ih]
        simp
      | some old =>
        rw [hg] at ih
        simp only [OpsMap.get_set, if_true]
        simp only at ih
        have hle : (linesOf l.key ls).length ≤ ls.length := List.length_filter_le _ _
        rw [List.length_append] at hlen
        simp only [List.length_singleton] at hlen
        have hw : wrapInt (old.Count + 1) = old.Count + 1 := by
          apply wrapInt_eq
          · norm_num
            omega
          · rw [ih.1]
            have : ((linesOf l.key ls).length : Int) + 1 < 2 ^ 63 := by
              have : (linesOf l.key ls).length + 1 < 2 ^ 63 := by omega
              exact_mod_cast this
            exact this
        rw [hw, ih.1]
        refine ⟨by simp, by omega⟩
    · rw [if_neg hk]
      have hk2 : ¬ k = l.key := fun e => hk e.symm
      have : OpsMap.get (updateOps (opsFold [] ls) l) k = OpsMap.get (opsFold [] ls) k := by
        unfold updateOps
        split <;> simp [OpsMap.get_set, hk2]
      rw [this]
      exact ih

theorem parseLoop_count (li : LogInfo) (lines : List GoString) (hlen : lines.length < 2 ^ 63)
    (d : OpPerformanceDoc) (hd : d ∈ (parseLoop li lines).opsMap.map (·.2)) : 1 ≤ d.Count := by
  rw [parseLoop_eq] at hd
  obtain ⟨p, hp, rfl⟩ := List.mem_map.mp hd
  obtain ⟨k, d⟩ := p
  have hg := OpsMap.get_of_mem _ k d (opsFold_keys_nodup _) hp
  have hle : (acceptedLines li.collscan lines).length ≤ lines.length := by
    unfold acceptedLines
    exact List.length_filterMap_le _ _
  have hc := opsFold_count (acceptedLines li.collscan lines) (by omega) k
  rw [hg] at hc
  exact hc.2

theorem float64_sorted (li : LogInfo) (lines : List GoString) (hlen : lines.length < 2 ^ 63) :
    (Parse float64Ops li lines).OpsPatterns.Pairwise (fun a b =>
      GoFloat64.gt (avgFloat64 b.TotalMilli b.Count) (avgFloat64 a.TotalMilli a.Count) = false) := by
  simp only [Parse]
  generalize hl : (parseLoop li lines).opsMap.map (·.2) = l
  have hfin : ∀ d ∈ l, ∃ s m, avgFloat64 d.TotalMilli d.Count = .finite s m := by
    intro d hd
    rw [← hl] at hd
    have := parseLoop_count li lines hlen d hd
    exact avgFloat64_finite _ _ (by omega)
  have hagree : ∀ a ∈ l, ∀ b ∈ l, avgLess float64Ops a b =
      decide ((avgFloat64 b.TotalMilli b.Count).toRat < (avgFloat64 a.TotalMilli a.Count).toRat) := by
    intro a ha b hb
    obtain ⟨s, x, ea⟩ := hfin a ha
    obtain ⟨t, y, eb⟩ := hfin b hb
    show GoFloat64.gt (avgFloat64 a.TotalMilli a.Count) (avgFloat64 b.TotalMilli b.Count) = _
    rw [ea, eb]
    exact gt_finite s t x y
  rw [sortSlice_congr _ _ l hagree]
  have hs := sortSlice_pairwise (fun a b : OpPerformanceDoc =>
      decide ((avgFloat64 b.TotalMilli b.Count).toRat < (avgFloat64 a.TotalMilli a.Count).toRat))
    (by
      intro a b h
      simp only [decide_eq_true_eq, decide_eq_false_iff_not, not_lt] at h ⊢
      exact le_of_lt h)
    (by
      intro a b c h1 h2
      simp only [decide_eq_false_iff_not, not_lt] at h1 h2 ⊢
      exact le_trans h1 h2) l
  refine hs.imp_of_mem ?_
  intro a b ha hb h
  have ha2 := (sortSlice_perm _ l).mem_iff.mp ha
  have hb2 := (sortSlice_perm _ l).mem_iff.mp hb
  have := hagree b hb2 a ha2
  unfold avgLess at this
  exact this.trans h

theorem nearest_near (a b : Nat) (hb : 0 < b) (hlt : a < b * 2 ^ 53) :
    (2 ^ 53 - 1) * (a * 2 ^ (Float64.nearest a b).exp) ≤ 2 ^ 53 * (b * (Float64.nearest a b).num) ∧
      2 ^ 53 * (b * (Float64.nearest a b).num) ≤ (2 ^ 53 + 1) * (a * 2 ^ (Float64.nearest a b).exp) := by
  by_cases ha : a = 0
  · subst ha
    simp [Float64.nearest]
  · obtain ⟨s, hs, h52⟩ := nearest_spec a b (Nat.pos_of_ne_zero ha) hlt
    rw [hs]
    simp only
    have hn := roundHalfEven_near (a * 2 ^ s) b hb
    generalize roundHalfEven (a * 2 ^ s) b = n at hn
    generalize a * 2 ^ s = X at hn h52
    generalize b * n = Y at hn
    norm_num at h52 ⊢
    omega

theorem avgFloat64_near (T C : Int) (hT : 0 ≤ T) (hT2 : T < 2 ^ 53) (hC : 1 ≤ C)
    (hC2 : C < 2 ^ 53) :
    ∃ m, avgFloat64 T C = .finite false m ∧
      (2 ^ 53 - 1) * (T * 2 ^ m.exp) ≤ 2 ^ 53 * (C * (m.num : Int)) ∧
      2 ^ 53 * (C * (m.num : Int)) ≤ (2 ^ 53 + 1) * (T * 2 ^ m.exp) := by
  obtain ⟨t, rfl⟩ := Int.eq_ofNat_of_zero_le hT
  obtain ⟨c, rfl⟩ := Int.eq_ofNat_of_zero_le (by omega : (0 : Int) ≤ C)
  have ht : t < 2 ^ 53 := by exact_mod_cast hT2
  have hc : c < 2 ^ 53 := by exact_mod_cast hC2
  have hc1 : 1 ≤ c := by exact_mod_cast hC
  obtain ⟨s0, e0⟩ := ofNat_exact t ht
  obtain ⟨s1, e1⟩ := ofNat_exact c hc
  have hp0 : 0 < 2 ^ s0 := Nat.pos_pow_of_pos _ (by decide)
  have hp1 : 0 < 2 ^ s1 := Nat.pos_pow_of_pos _ (by decide)
  have hK : 0 < 2 ^ s0 * 2 ^ s1 := Nat.mul_pos hp0 hp1
  have hy : c * 2 ^ s1 ≠ 0 := Nat.pos_iff_ne_zero.mp (Nat.mul_pos (by omega) hp1)
  have hlt : t * 2 ^ s0 * 2 ^ s1 < c * 2 ^ s1 * 2 ^ s0 * 2 ^ 53 := by
    have h1 : t * (2 ^ s0 * 2 ^ s1) < (c * 2 ^ 53) * (2 ^ s0 * 2 ^ s1) :=
      Nat.mul_lt_mul_of_pos_right (by omega) hK
    calc t * 2 ^ s0 * 2 ^ s1 = t * (2 ^ s0 * 2 ^ s1) := by ring
      _ < (c * 2 ^ 53) * (2 ^ s0 * 2 ^ s1) := h1
      _ = c * 2 ^ s1 * 2 ^ s0 * 2 ^ 53 := by ring
  have hb : 0 < c * 2 ^ s1 * 2 ^ s0 := Nat.mul_pos (Nat.mul_pos (by omega) hp1) hp0
  have hn := nearest_near (t * 2 ^ s0 * 2 ^ s1) (c * 2 ^ s1 * 2 ^ s0) hb hlt
  refine ⟨Float64.nearest (t * 2 ^ s0 * 2 ^ s1) (c * 2 ^ s1 * 2 ^ s0), ?_, ?_, ?_⟩
  · unfold avgFloat64 GoFloat64.ofInt GoFloat64.div
    simp only [Int.natAbs_ofNat, e0, e1, hy, if_false, Float64.div]
    have h1 : decide ((t : Int) < 0) = false := by simp
    have h2 : decide ((c : Int) < 0) = false := by simp
    rw [h1, h2]
    rfl
  · generalize Float64.nearest (t * 2 ^ s0 * 2 ^ s1) (c * 2 ^ s1 * 2 ^ s0) = m at hn
    have h := hn.1
    have e : (2 ^ 53 - 1) * (t * 2 ^ s0 * 2 ^ s1 * 2 ^ m.exp) =
        ((2 ^ 53 - 1) * (t * 2 ^ m.exp)) * (2 ^ s0 * 2 ^ s1) := by ring
    have e2 : 2 ^ 53 * (c * 2 ^ s1 * 2 ^ s0 * m.num) =
        (2 ^ 53 * (c * m.num)) * (2 ^ s0 * 2 ^ s1) := by ring
    rw [e, e2] at h
    have h3 := Nat.le_of_mul_le_mul_right h hK
    have h4 : (((2 ^ 53 - 1) * (t * 2 ^ m.exp) : Nat) : Int) ≤ ((2 ^ 53 * (c * m.num) : Nat) : Int) :=
      Int.ofNat_le.mpr h3
    push_cast at h4
    exact h4
  · generalize Float64.nearest (t * 2 ^ s0 * 2 ^ s1) (c * 2 ^ s1 * 2 ^ s0) = m at hn
    have h := hn.2
    have e : (2 ^ 53 + 1) * (t * 2 ^ s0 * 2 ^ s1 * 2 ^ m.exp) =
        ((2 ^ 53 + 1) * (t * 2 ^ m.exp)) * (2 ^ s0 * 2 ^ s1) := by ring
    have e2 : 2 ^ 53 * (c * 2 ^ s1 * 2 ^ s0 * m.num) =
        (2 ^ 53 * (c * m.num)) * (2 ^ s0 * 2 ^ s1) := by ring
    rw [e, e2] at h
    have h3 := Nat.le_of_mul_le_mul_right h hK
    have h4 : ((2 ^ 53 * (c * m.num) : Nat) : Int) ≤ (((2 ^ 53 + 1) * (t * 2 ^ m.exp) : Nat) : Int) :=
      Int.ofNat_le.mpr h3
    push_cast at h4
    exact h4

theorem avgFloat64_order (Ta Ca Tb Cb : Int) (hTa : 0 ≤ Ta) (hTa2 : Ta < 2 ^ 53) (hCa : 1 ≤ Ca)
    (hCa2 : Ca < 2 ^ 53) (hTb : 0 ≤ Tb) (hTb2 : Tb < 2 ^ 53) (hCb : 1 ≤ Cb)
    (hCb2 : Cb < 2 ^ 53)
    (h : GoFloat64.gt (avgFloat64 Tb Cb) (avgFloat64 Ta Ca) = false) :
    (2 ^ 53 - 1) * (Tb * Ca) ≤ (2 ^ 53 + 1) * (Ta * Cb) := by
  obtain ⟨ma, ea, _, ha⟩ := avgFloat64_near Ta Ca hTa hTa2 hCa hCa2
  obtain ⟨mb, eb, hb, _⟩ := avgFloat64_near Tb Cb hTb hTb2 hCb hCb2
  rw [ea, eb] at h
  simp only [GoFloat64.gt, signedNum, decide_eq_false_iff_not, not_lt, Bool.false_eq_true,
    if_false] at h
  have hP : (0 : Int) < 2 ^ ma.exp := by positivity
  have hQ : (0 : Int) < 2 ^ mb.exp := by positivity
  generalize (2 : Int) ^ ma.exp = P at *
  generalize (2 : Int) ^ mb.exp = Q at *
  generalize (ma.num : Int) = na at *
  generalize (mb.num : Int) = nb at *
  have s1 : (2 ^ 53 - 1) * (Tb * Q) * (Ca * P) ≤ 2 ^ 53 * (Cb * nb) * (Ca * P) :=
    mul_le_mul_of_nonneg_right hb (by positivity)
  have s2 : 2 ^ 53 * Cb * Ca * (nb * P) ≤ 2 ^ 53 * Cb * Ca * (na * Q) :=
    mul_le_mul_of_nonneg_left h (by positivity)
  have s3 : 2 ^ 53 * (Ca * na) * (Cb * Q) ≤ (2 ^ 53 + 1) * (Ta * P) * (Cb * Q) :=
    mul_le_mul_of_nonneg_right ha (by positivity)
  have hPQ : (0 : Int) < P * Q := mul_pos hP hQ
  have s4 : (2 ^ 53 - 1) * (Tb * Ca) * (P * Q) ≤ (2 ^ 53 + 1) * (Ta * Cb) * (P * Q) := by
    nlinarith [s1, s2, s3]
  exact le_of_mul_le_mul_right s4 hPQ

theorem sum_linesOf_le (k : GoString) (ls : List OpLine) (hnn : ∀ l ∈ ls, 0 ≤ l.milli) :
    ((linesOf k ls).map (·.milli)).sum ≤ (ls.map (·.milli)).sum := by
  induction ls with
  | nil => simp [linesOf]
  | cons l ls ih =>
    have ih := ih (fun x hx => hnn x (List.mem_cons_of_mem _ hx))
    have hl := hnn l (List.mem_cons_self _ _)
    unfold linesOf at ih ⊢
    rw [List.filter_cons]
    split
    · simp only [List.map_cons, List.sum_cons]
      omega
    · simp only [List.map_cons, List.sum_cons]
      omega

theorem parseLoop_small (li : LogInfo) (lines : List GoString) (hlen : lines.length < 2 ^ 53)
    (hsum : ((acceptedLines li.collscan lines).map (·.milli)).sum < 2 ^ 53)
    (d : OpPerformanceDoc) (hd : d ∈ (parseLoop li lines).opsMap.map (·.2)) :
    0 ≤ d.TotalMilli ∧ d.TotalMilli < 2 ^ 53 ∧ 1 ≤ d.Count ∧ d.Count < 2 ^ 53 := by
  rw [parseLoop_eq] at hd
  obtain ⟨p, hp, rfl⟩ := List.mem_map.mp hd
  obtain ⟨k, d⟩ := p
  have hg := OpsMap.get_of_mem _ k d (opsFold_keys_nodup _) hp
  have hnn := acceptedLines_nonneg li.collscan lines
  have hle : (acceptedLines li.collscan lines).length ≤ lines.length := by
    unfold acceptedLines
    exact List.length_filterMap_le _ _
  have hspec := opsFold_spec (acceptedLines li.collscan lines) hnn k
  rw [hg] at hspec
  obtain ⟨hne, _, _, hcnt⟩ := hspec
  have hfl : (linesOf k (acceptedLines li.collscan lines)).length ≤
      (acceptedLines li.collscan lines).length := List.length_filter_le _ _
  have hs := sum_linesOf_le k _ hnn
  have hs0 := sum_milli_nonneg (linesOf k (acceptedLines li.collscan lines))
    (fun x hx => hnn x (List.mem_of_mem_filter hx))
  have hpos : 0 < (linesOf k (acceptedLines li.collscan lines)).length :=
    List.length_pos.mpr hne
  have hl53 : ((linesOf k (acceptedLines li.collscan lines)).length : Int) < 2 ^ 53 := by
    have : (linesOf k (acceptedLines li.collscan lines)).length < 2 ^ 53 := by omega
    exact_mod_cast this
  have hc := hcnt (by omega) (by omega)
  simp only
  rw [hc.1, hc.2]
  refine ⟨hs0, by omega, ?_, hl53⟩
  exact_mod_cast hpos

/-- C4, amended. For every sequence of fewer than `2 ^ 53` log lines, after `Parse`
`OpsPatterns` is a rearrangement of the values of the per-pattern map, the map has one
entry per distinct key of the accepted lines, every entry has a positive `Count`, and
`OpsPatterns` is in descending order of the `float64` quotient
`float64(TotalMilli) / float64(Count)`: no entry has a quotient greater, in `float64`,
than that of an entry before it. When the durations of the accepted lines sum to less
than `2 ^ 53`, the exact quotients are in descending order up to the rounding of the
division: for an entry `a` before an entry `b`,
`(2 ^ 53 - 1) * (b.TotalMilli / b.Count) ≤ (2 ^ 53 + 1) * (a.TotalMilli / a.Count)`. -/
theorem C4_opsPatterns_sorted_float64 (li : LogInfo) (lines : List GoString)
    (hlen : lines.length < 2 ^ 53) :
    (Parse float64Ops li lines).OpsPatterns.Perm ((parseLoop li lines).opsMap.map (·.2)) ∧
    ((parseLoop li lines).opsMap.map (·.1)).Nodup ∧
    (∀ k, k ∈ (parseLoop li lines).opsMap.map (·.1) ↔
      ∃ l ∈ acceptedLines li.collscan lines, l.key = k) ∧
    (∀ d ∈ (Parse float64Ops li lines).OpsPatterns, 1 ≤ d.Count) ∧
    (Parse float64Ops li lines).OpsPatterns.Pairwise (fun a b =>
      GoFloat64.gt (avgFloat64 b.TotalMilli b.Count) (avgFloat64 a.TotalMilli a.Count) = false) ∧
    (((acceptedLines li.collscan lines).map (·.milli)).sum < 2 ^ 53 →
      (Parse float64Ops li lines).OpsPatterns.Pairwise (fun a b =>
        (2 ^ 53 - 1) * (b.TotalMilli * a.Count) ≤ (2 ^ 53 + 1) * (a.TotalMilli * b.Count))) := by
  have hlen63 : lines.length < 2 ^ 63 := Nat.lt_of_lt_of_le hlen (by decide)
  have hperm := parse_opsPatterns_perm float64Ops li lines
  have hsorted := float64_sorted li lines hlen63
  obtain ⟨_, h2, h3, _⟩ := opsPatterns_sorted_of_order ratOps
    (by
      intro a b h
      simp only [ratOps, gt_iff_lt, decide_eq_true_eq, decide_eq_false_iff_not, not_lt] at h ⊢
      exact le_of_lt h)
    (by
      intro a b c h1 h2
      simp only [ratOps, gt_iff_lt, decide_eq_false_iff_not, not_lt] at h1 h2 ⊢
      exact le_trans h1 h2)
    li lines
  refine ⟨hperm, h2, h3, ?_, hsorted, ?_⟩
  · intro d hd
    exact parseLoop_count li lines hlen63 d (hperm.mem_iff.mp hd)
  · intro hsum
    refine hsorted.imp_of_mem ?_
    intro a b ha hb h
    obtain ⟨a1, a2, a3, a4⟩ := parseLoop_small li lines hlen hsum a (hperm.mem_iff.mp ha)
    obtain ⟨b1, b2, b3, b4⟩ := parseLoop_small li lines hlen hsum b (hperm.mem_iff.mp hb)
    exact avgFloat64_order _ _ _ _ a1 a2 a3 a4 b1 b2 b3 b4 h

/-! ## Runes of more than one byte -/

theorem isCont_not_ascii (b : Char) (h : isCont b = true) : ¬ b.toNat < 0x80 := by
  simp only [isCont, Bool.and_eq_true, decide_eq_true_eq] at h
  omega

theorem runeWidth_of_cont (b : Char) (t : GoString) (h : isCont b = true) :
    runeWidth (b :: t) = 1 := by
  simp only [isCont, Bool.and_eq_true, decide_eq_true_eq] at h
  unfold runeWidth
  simp only
  rw [if_neg (by omega), if_neg (by simp; omega), if_neg (by simp; omega), if_neg (by simp; omega)]

theorem isCont_of_range (b1 : Char) (lo hi : Nat) (hlo : 0x80 ≤ lo) (hhi : hi ≤ 0xBF)
    (h1 : lo ≤ b1.toNat) (h2 : b1.toNat ≤ hi) : isCont b1 = true := by
  simp only [isCont, Bool.and_eq_true, decide_eq_true_eq]
  omega

/-- The bytes of the first rune after its first byte are continuation bytes. -/
theorem runeWidth_cont (b : Char) (t : GoString) :
    ∃ u v, t = u ++ v ∧ u.length + 1 = runeWidth (b :: t) ∧ ∀ x ∈ u, isCont x = true := by
  have h1 : ∀ t : GoString, ∃ u v, t = u ++ v ∧ u.length + 1 = 1 ∧ ∀ x ∈ u, isCont x = true :=
    fun t => ⟨[], t, rfl, rfl, by simp⟩
  by_cases hw : runeWidth (b :: t) = 1
  · rw [hw]; exact h1 t
  · unfold runeWidth at hw ⊢
    simp only at hw ⊢
    by_cases c1 : b.toNat < 0x80
    · rw [if_pos c1] at hw; exact absurd rfl hw
    · rw [if_neg c1] at hw ⊢
      by_cases c2 : (decide (0xC2 ≤ b.toNat) && decide (b.toNat ≤ 0xDF)) = true
      · rw [if_pos c2] at hw ⊢
        cases t with
        | nil => exact absurd rfl hw
        | cons b1 t1 =>
          simp only at hw ⊢
          by_cases c : isCont b1 = true
          · rw [if_pos c]
            exact ⟨[b1], t1, rfl, rfl, by simpa using c⟩
          · rw [if_neg c] at hw; exact absurd rfl hw
      · rw [if_neg c2] at hw ⊢
        by_cases c3 : (decide (0xE0 ≤ b.toNat) && decide (b.toNat ≤ 0xEF)) = true
        · rw [if_pos c3] at hw ⊢
          match t, hw with
          | [], hw => exact absurd rfl hw
          | [_], hw => exact absurd rfl hw
          | b1 :: b2 :: t1, hw =>
            simp only at hw ⊢
            generalize hlo : (if b.toNat = 0xE0 then 0xA0 else 0x80) = lo at hw ⊢
            generalize hhi : (if b.toNat = 0xED then 0x9F else 0xBF) = hi at hw ⊢
            have hlo2 : 0x80 ≤ lo := by rw [← hlo]; split <;> omega
            have hhi2 : hi ≤ 0xBF := by rw [← hhi]; split <;> omega
            by_cases c : (decide (lo ≤ b1.toNat) && decide (b1.toNat ≤ hi) && isCont b2) = true
            · rw [if_pos c]
              simp only [Bool.and_eq_true, decide_eq_true_eq] at c
              refine ⟨[b1, b2], t1, rfl, rfl, ?_⟩
              intro x hx
              simp only [List.mem_cons, List.mem_singleton, List.not_mem_nil, or_false] at hx
              rcases hx with rfl | rfl
              · exact isCont_of_range _ lo hi hlo2 hhi2 c.1.1 c.1.2
              · exact c.2
            · rw [if_neg c] at hw; exact absurd rfl hw
        · rw [if_neg c3] at hw ⊢
          by_cases c4 : (decide (0xF0 ≤ b.toNat) && decide (b.toNat ≤ 0xF4)) = true
          · rw [if_pos c4] at hw ⊢
            match t, hw with
            | [], hw => exact absurd rfl hw
            | [_], hw => exact absurd rfl hw
            | [_, _], hw => exact absurd rfl hw
            | b1 :: b2 :: b3 :: t1, hw =>
              simp only at hw ⊢
              generalize hlo : (if b.toNat = 0xF0 then 0x90 else 0x80) = lo at hw ⊢
              generalize hhi : (if b.toNat = 0xF4 then 0x8F else 0xBF) = hi at hw ⊢
              have hlo2 : 0x80 ≤ lo := by rw [← hlo]; split <;> omega
              have hhi2 : hi ≤ 0xBF := by rw [← hhi]; split <;> omega
              by_cases c : (decide (lo ≤ b1.toNat) && decide (b1.toNat ≤ hi) && isCont b2 &&
                  isCont b3) = true
              · rw [if_pos c]
                simp only [Bool.and_eq_true, decide_eq_true_eq] at c
                refine ⟨[b1, b2, b3], t1, rfl, rfl, ?_⟩
                intro x hx
                simp only [List.mem_cons, List.mem_singleton, List.not_mem_nil, or_false] at hx
                rcases hx with rfl | rfl | rfl
                · exact isCont_of_range _ lo hi hlo2 hhi2 c.1.1.1 c.1.1.2
                · exact c.1.2
                · exact c.2
              · rw [if_neg c] at hw; exact absurd rfl hw
          · rw [if_neg c4] at hw; exact absurd rfl hw

/-! ## `ReplaceAllString` over a byte where the pattern does not match -/

theorem ReplaceAllString_cons_width1 (re : Re) (repl : Caps → GoString) (c : Char)
    (cs : GoString) (hw : runeWidth (c :: cs) = 1) (h : matchAt re (c :: cs) = none) :
    ReplaceAllString re repl (c :: cs) = c :: ReplaceAllString re repl cs := by
  unfold ReplaceAllString
  simp only [List.length_cons, replaceAllAux, h, hw, List.take_succ_cons,
    List.take_zero, List.drop_succ_cons, List.drop_zero, List.singleton_append]

theorem ReplaceAllString_conts (re : Re) (repl : Caps → GoString)
    (hcont : ∀ b t, isCont b = true → matchAt re (b :: t) = none) (u v : GoString)
    (hu : ∀ x ∈ u, isCont x = true) :
    ReplaceAllString re repl (u ++ v) = u ++ ReplaceAllString re repl v := by
  induction u with
  | nil => rfl
  | cons x u ih =>
    have hx := hu x (List.mem_cons_self _ _)
    rw [List.cons_append, ReplaceAllString_cons_width1 re repl x _ (runeWidth_of_cont x _ hx)
      (hcont x _ hx), ih (fun y hy => hu y (List.mem_cons_of_mem _ hy))]
    rfl

/-- A byte at which the pattern does not match is copied, whether or not it starts a
rune of several bytes, when the pattern matches at no continuation byte. -/
theorem ReplaceAllString_cons_byte (re : Re) (repl : Caps → GoString)
    (hcont : ∀ b t, isCont b = true → matchAt re (b :: t) = none) (c : Char) (cs : GoString)
    (h : matchAt re (c :: cs) = none) :
    ReplaceAllString re repl (c :: cs) = c :: ReplaceAllString re repl cs := by
  obtain ⟨u, v, e, hlen, hu⟩ := runeWidth_cont c cs
  subst e
  rw [ReplaceAllString_conts re repl hcont u v hu]
  unfold ReplaceAllString
  simp only [List.length_cons, replaceAllAux, h, ← hlen, List.take_succ_cons,
    List.drop_succ_cons, List.take_left, List.drop_left, List.cons_append]
  rw [replaceAllAux_fuel re repl (u ++ v).length v.length v (by simp) (le_refl _)]

theorem matchAt_reLiteral_cont (b : Char) (t : GoString) (h : isCont b = true) :
    matchAt reLiteral (b :: t) = none := by
  apply matchAt_reLiteral_of_ne_colon
  intro e
  subst e
  revert h
  decide

theorem replaceLiteral_byte (repl : Caps → GoString) (c : Char) (cs : GoString) (hc : c ≠ ':') :
    ReplaceAllString reLiteral repl (c :: cs) = c :: ReplaceAllString reLiteral repl cs :=
  ReplaceAllString_cons_byte reLiteral repl matchAt_reLiteral_cont c cs
    (matchAt_reLiteral_of_ne_colon c cs (fun e => hc e.symm))

theorem replaceLiteral_colon (repl : Caps → GoString) (cs : GoString)
    (h : matchAt reLiteral (':' :: cs) = none) :
    ReplaceAllString reLiteral repl (':' :: cs) = ':' :: ReplaceAllString reLiteral repl cs :=
  ReplaceAllString_cons_none reLiteral repl ':' cs (by decide) h

/-! ## Where the literal pattern does not match -/

theorem run_lits_none {R : Type} (p s : GoString) (c : Caps) (k : GoString → Caps → Option R)
    (h : p.isPrefixOf s = false) : (Re.lits p).run s c k = none := by
  induction p generalizing s with
  | nil => simp [List.isPrefixOf] at h
  | cons a p ih =>
    cases s with
    | nil => rfl
    | cons b t =>
      show (if a = b then (Re.lits p).run t c k else none) = none
      by_cases hab : a = b
      · rw [if_pos hab]
        apply ih
        subst hab
        simpa [List.isPrefixOf] using h
      · rw [if_neg hab]

theorem run_cls_digit_none_of_head {R : Type} (s : GoString) (c : Caps)
    (k : GoString → Caps → Option R) (h : digitHead s = false) :
    (Re.cls isDigitRune).run s c k = none := by
  cases s with
  | nil => rfl
  | cons b t => exact run_cls_digit_none b t c k h

theorem run_plus_digit_none {R : Type} (s : GoString) (c : Caps)
    (k : GoString → Caps → Option R) (h : digitHead s = false) :
    (Re.plus (.cls isDigitRune)).run s c k = none := by
  rw [run_plus]
  exact run_cls_digit_none_of_head s c _ h

/-- The literal pattern does not match at a `:` after which no literal can start. -/
theorem matchAt_reLiteral_none (x : GoString) (h : literalAhead x = false) :
    matchAt reLiteral (':' :: x) = none := by
  unfold matchAt reLiteral
  rw [Re.run]
  cases x with
  | nil => rfl
  | cons b r =>
    by_cases hb : b = ' '
    · subst hb
      simp only [literalAhead, beq_self_eq_true, Bool.true_and, Bool.or_eq_false_iff,
        Bool.and_eq_false_iff] at h
      obtain ⟨⟨⟨⟨⟨hq, hd⟩, hm⟩, hn⟩, ht⟩, hf⟩ := h
      rw [run_alt_of_none, run_alt_of_none, run_alt_of_none, run_alt_of_none]
      · exact run_lits_none _ _ _ _ (by simpa [List.isPrefixOf] using hf)
      · exact run_lits_none _ _ _ _ (by simpa [List.isPrefixOf] using ht)
      · rw [run_cat_cons]
        exact run_lits_none _ _ _ _ (by simpa [List.isPrefixOf] using hn)
      · rw [run_cat_cons]
        show (Re.cat [Re.opt (.chr '-'), Re.plus (.cls isDigitRune),
          Re.opt (.grp 2 (Re.cat [.chr '.', Re.plus (.cls isDigitRune)]))]).run r [] _ = none
        rw [run_cat_cons]
        unfold Re.opt
        have h2 : ∀ k : GoString → Caps → Option (GoString × Caps),
            (Re.cat [Re.plus (.cls isDigitRune),
              Re.alt (.grp 2 (Re.cat [.chr '.', Re.plus (.cls isDigitRune)])) .eps]).run r [] k =
              none := by
          intro k
          rw [run_cat_cons]
          exact run_plus_digit_none r [] _ hd
        cases r with
        | nil => rfl
        | cons m t =>
          by_cases hmm : '-' = m
          · subst hmm
            have hdt : digitHead t = false := by
              rcases hm with hm | hm
              · simp [List.isPrefixOf] at hm
              · simpa using hm
            have e1 : (Re.chr '-').run ('-' :: t) []
                (fun s1 c1 => (Re.cat [Re.plus (.cls isDigitRune),
                  Re.alt (.grp 2 (Re.cat [.chr '.', Re.plus (.cls isDigitRune)])) .eps]).run s1 c1
                    (fun s1 c1 => some (s1, (1, (':' :: ' ' :: '-' :: t).take
                      ((':' :: ' ' :: '-' :: t).length - s1.length)) :: c1))) = none := by
              show (if '-' = '-' then _ else none) = none
              rw [if_pos rfl]
              show (Re.cat _).run t [] _ = none
              rw [run_cat_cons]
              exact run_plus_digit_none t [] _ hdt
            rw [run_alt_of_none _ _ _ _ _ e1]
            rw [Re.run]
            exact h2 _
          · have e1 : (Re.chr '-').run (m :: t) []
                (fun s1 c1 => (Re.cat [Re.plus (.cls isDigitRune),
                  Re.alt (.grp 2 (Re.cat [.chr '.', Re.plus (.cls isDigitRune)])) .eps]).run s1 c1
                    (fun s1 c1 => some (s1, (1, (':' :: ' ' :: m :: t).take
                      ((':' :: ' ' :: m :: t).length - s1.length)) :: c1))) = none := by
              show (if '-' = m then _ else none) = none
              rw [if_neg hmm]
            rw [run_alt_of_none _ _ _ _ _ e1]
            rw [Re.run]
            exact h2 _
      · rw [run_cat_cons]
        exact run_lits_none _ _ _ _ (by simpa [List.isPrefixOf] using hq)
    · simp [Re.run, Re.cat, Re.lits, hb, Ne.symm hb]

/-! ## The literal pattern on a literal leaf -/

theorem cont_split (q : Char) (hq : isCont q = false) (t rest u v : GoString)
    (e : t ++ q :: rest = u ++ v) (hu : ∀ x ∈ u, isCont x = true) :
    ∃ t2, t = u ++ t2 ∧ v = t2 ++ q :: rest := by
  induction u generalizing t with
  | nil => exact ⟨t, rfl, e.symm⟩
  | cons a u ih =>
    cases t with
    | nil =>
      simp only [List.nil_append, List.cons_append, List.cons.injEq] at e
      have := hu a (List.mem_cons_self _ _)
      rw [← e.1, hq] at this
      cases this
    | cons b t =>
      simp only [List.cons_append, List.cons.injEq] at e
      obtain ⟨t2, h1, h2⟩ := ih t e.2 (fun x hx => hu x (List.mem_cons_of_mem _ hx))
      exact ⟨t2, by rw [e.1, h1]; rfl, h2⟩

theorem isNotQuoteRune_firstRune (b : Char) (t : GoString) (hb : b ≠ '"') :
    isNotQuoteRune (firstRune (b :: t)) = true := by
  simp only [firstRune, isNotQuoteRune]
  split
  · simpa using hb
  · rfl

/-- The greedy loop `[^"]*` takes all the bytes in front of the next `"`, when the
continuation accepts at this `"`. -/
theorem starLoop_notQuote {R : Type} (n : Nat) (s rest : GoString) (c : Caps)
    (K : GoString → Caps → Option R) (r : R) (hs : '"' ∉ s) (hn : s.length ≤ n)
    (hK : K ('"' :: rest) c = some r) :
    starLoop (fun s1 c1 k1 => (Re.cls isNotQuoteRune).run s1 c1 k1) n (s ++ '"' :: rest) c K =
      some r := by
  induction n generalizing s with
  | zero =>
    have : s = [] := List.length_eq_zero.mp (by omega)
    subst this
    exact hK
  | succ n ih =>
    cases s with
    | nil =>
      simp only [List.nil_append, starLoop]
      have : (Re.cls isNotQuoteRune).run ('"' :: rest) c
          (fun s1 c1 => if s1.length < ('"' :: rest).length then
            starLoop (fun s1 c1 k1 => (Re.cls isNotQuoteRune).run s1 c1 k1) n s1 c1 K else none) =
          none := run_cls_none _ _ _ _ _ (by decide) (by decide)
      rw [this]
      exact hK
    | cons b t =>
      have hb : b ≠ '"' := fun e => hs (e ▸ List.mem_cons_self _ _)
      have ht : '"' ∉ t := fun h => hs (List.mem_cons_of_mem _ h)
      obtain ⟨u, v, e, hw, hu⟩ := runeWidth_cont b (t ++ '"' :: rest)
      obtain ⟨t2, h1, h2⟩ := cont_split '"' (by decide) t rest u v e hu
      have hdrop : (b :: (t ++ '"' :: rest)).drop (runeWidth (b :: (t ++ '"' :: rest))) =
          t2 ++ '"' :: rest := by
        rw [← hw, e, h2]
        simp
      have hlen : (t2 ++ '"' :: rest).length < (b :: (t ++ '"' :: rest)).length := by
        rw [h1]
        simp only [List.length_append, List.length_cons]
        omega
      have ht2 : '"' ∉ t2 := fun h => ht (by rw [h1]; exact List.mem_append_right _ h)
      have hn2 : t2.length ≤ n := by
        rw [h1] at hn
        simp only [List.length_cons, List.length_append] at hn
        omega
      simp only [List.cons_append, starLoop]
      have hrun : (Re.cls isNotQuoteRune).run (b :: (t ++ '"' :: rest)) c
          (fun s1 c1 => if s1.length < (b :: (t ++ '"' :: rest)).length then
            starLoop (fun s1 c1 k1 => (Re.cls isNotQuoteRune).run s1 c1 k1) n s1 c1 K else none) =
          some r := by
        rw [Re.run, if_pos (isNotQuoteRune_firstRune b _ hb), hdrop]
        rw [if_pos hlen]
        exact ih t2 ht2 hn2
      rw [hrun]

theorem matchAt_reLiteral_quoted_at (s x : GoString) (hs : '"' ∉ s) :
    ∃ caps, matchAt reLiteral (':' :: ' ' :: ('"' :: (s ++ "\"".data) ++ x)) =
      some (x, caps) := by
  have e : ':' :: ' ' :: ('"' :: (s ++ "\"".data) ++ x) =
      ':' :: ' ' :: '"' :: (s ++ '"' :: x) := by simp
  rw [e]
  refine ⟨[(1, List.take ((':' :: ' ' :: '"' :: (s ++ '"' :: x)).length - x.length)
    (':' :: ' ' :: '"' :: (s ++ '"' :: x)))], ?_⟩
  unfold matchAt reLiteral
  rw [Re.run]
  apply run_alt_of_some
  show starLoop (fun s1 c1 k1 => (Re.cls isNotQuoteRune).run s1 c1 k1)
    (s ++ '"' :: x).length (s ++ '"' :: x) [] _ = _
  apply starLoop_notQuote _ s x [] _ _ hs (by simp)
  show (if '"' = '"' then _ else none) = _
  rw [if_pos rfl]
  rfl

theorem digitHead_of_intEnds (x : GoString) (h : intEnds x = true) : digitHead x = false := by
  cases x with
  | nil => rfl
  | cons c t =>
    simp only [intEnds, Bool.and_eq_true, Bool.not_eq_true'] at h
    exact h.1

/-- The optional fraction `(\.\d+)?` takes nothing where the text does not continue a
number. -/
theorem run_optFrac_none {R : Type} (x : GoString) (c : Caps)
    (k : GoString → Caps → Option R) (hx : intEnds x = true) :
    (Re.opt (.grp 2 (Re.cat [.chr '.', Re.plus (.cls isDigitRune)]))).run x c k = k x c := by
  unfold Re.opt
  rw [run_alt_of_none]
  · rfl
  · rw [Re.run, run_cat_cons]
    cases x with
    | nil => rfl
    | cons c0 t =>
      show (if '.' = c0 then _ else none) = none
      by_cases h0 : '.' = c0
      · subst h0
        rw [if_pos rfl]
        show (Re.cat [Re.plus (.cls isDigitRune)]).run t c _ = none
        rw [run_cat_cons]
        apply run_plus_digit_none
        simp only [intEnds, Bool.and_eq_true, Bool.not_eq_true', beq_self_eq_true,
          Bool.true_and] at hx
        exact hx.2
      · rw [if_neg h0]

/-- The alternative `: -?\d+(\.\d+)?` of the literal pattern matches `: `, an optional
`-` and all the digits of a decimal integer, before a text that does not continue the
number. -/
theorem run_intLiteral_at {R : Type} (neg : Bool) (d : Char) (ds x : GoString) (c : Caps)
    (k : GoString → Caps → Option R) (r : R)
    (hd : d.isDigit = true) (hds : ∀ y ∈ ds, y.isDigit = true) (hx : intEnds x = true)
    (hk : k x c = some r) :
    (Re.cat [Re.lits ": ".data, Re.opt (.chr '-'), Re.plus (.cls isDigitRune),
        Re.opt (.grp 2 (Re.cat [.chr '.', Re.plus (.cls isDigitRune)]))]).run
      (": ".data ++ (if neg then "-".data else []) ++ d :: (ds ++ x)) c k = some r := by
  have hm : ¬ '-' = d := digit_ne_of_not_digit d '-' hd (by decide)
  have hrest : ∀ k2 : GoString → Caps → Option R,
      (Re.cls isDigitRune).run x c k2 = none :=
    fun k2 => run_cls_digit_none_of_head x c k2 (digitHead_of_intEnds x hx)
  have htail : (Re.plus (.cls isDigitRune)).run (d :: (ds ++ x)) c
      (fun s2 c2 => (Re.opt (.grp 2 (Re.cat [.chr '.', Re.plus (.cls isDigitRune)]))).run s2 c2
        (fun s3 c3 => Re.eps.run s3 c3 k)) = some r := by
    apply run_plus_digits d ds _ c _ r hd hds hrest
    rw [run_optFrac_none x c _ hx]
    exact hk
  have e : ∀ t : GoString,
      (Re.cat [Re.lits ": ".data, Re.opt (.chr '-'), Re.plus (.cls isDigitRune),
        Re.opt (.grp 2 (Re.cat [.chr '.', Re.plus (.cls isDigitRune)]))]).run
        (':' :: ' ' :: t) c k =
      (Re.alt (.chr '-') .eps).run t c (fun s1 c1 => (Re.plus (.cls isDigitRune)).run s1 c1
        (fun s2 c2 => (Re.opt (.grp 2 (Re.cat [.chr '.', Re.plus (.cls isDigitRune)]))).run s2 c2
          (fun s3 c3 => Re.eps.run s3 c3 k))) := fun t => rfl
  cases neg with
  | false =>
    show (Re.cat _).run (':' :: ' ' :: d :: (ds ++ x)) c k = some r
    rw [e, run_alt_of_none _ _ _ _ _ (by rw [Re.run, if_neg hm])]
    exact htail
  | true =>
    show (Re.cat _).run (':' :: ' ' :: '-' :: d :: (ds ++ x)) c k = some r
    rw [e]
    apply run_alt_of_some
    exact htail

theorem matchAt_reLiteral_int_at (neg : Bool) (d : Char) (ds x : GoString)
    (hd : d.isDigit = true) (hds : ∀ y ∈ ds, y.isDigit = true) (hx : intEnds x = true) :
    ∃ caps, matchAt reLiteral
      (": ".data ++ (if neg then "-".data else []) ++ d :: (ds ++ x)) = some (x, caps) := by
  have hq : ¬ '"' = d := digit_ne_of_not_digit d '"' hd (by decide)
  refine ⟨[(1, List.take
    ((": ".data ++ (if neg then "-".data else []) ++ d :: (ds ++ x)).length - x.length)
    (": ".data ++ (if neg then "-".data else []) ++ d :: (ds ++ x)))], ?_⟩
  unfold matchAt reLiteral
  rw [Re.run]
  rw [run_alt_of_none]
  · apply run_alt_of_some
    apply run_intLiteral_at neg d ds x [] _ _ hd hds hx
    rfl
  · cases neg
    · show (if ':' = ':' then (if ' ' = ' ' then (if '"' = d then _ else none) else none)
        else none) = none
      rw [if_pos rfl, if_pos rfl, if_neg hq]
    · rfl

/-- The alternative `: -?\d+(\.\d+)?` of the literal pattern matches `: `, an optional
`-`, the digits and the fraction of a decimal number, before a text that does not start
with a digit. -/
theorem run_decimalLiteral_at (neg : Bool) (d f : Char) (ds fs x : GoString) (c : Caps)
    (k : GoString → Caps → Option (GoString × Caps))
    (hd : d.isDigit = true) (hds : ∀ y ∈ ds, y.isDigit = true)
    (hf : f.isDigit = true) (hfs : ∀ y ∈ fs, y.isDigit = true) (hx : digitHead x = false)
    (hk : ∀ c1, ∃ caps, k x c1 = some (x, caps)) :
    ∃ caps, (Re.cat [Re.lits ": ".data, Re.opt (.chr '-'), Re.plus (.cls isDigitRune),
        Re.opt (.grp 2 (Re.cat [.chr '.', Re.plus (.cls isDigitRune)]))]).run
      (": ".data ++ ((if neg then "-".data else []) ++
        d :: (ds ++ '.' :: f :: (fs ++ x)))) c k = some (x, caps) := by
  have hm : ¬ '-' = d := digit_ne_of_not_digit d '-' hd (by decide)
  obtain ⟨caps, hk2⟩ := hk ((2, List.take (('.' :: f :: (fs ++ x)).length -
    x.length) ('.' :: f :: (fs ++ x))) :: c)
  refine ⟨caps, ?_⟩
  have hfrac : (Re.grp 2 (Re.cat [.chr '.', Re.plus (.cls isDigitRune)])).run
      ('.' :: f :: (fs ++ x)) c
      (fun s3 c3 => (Re.cat []).run s3 c3 k) = some (x, caps) := by
    rw [Re.run, run_cat_cons]
    show (Re.cat [Re.plus (.cls isDigitRune)]).run (f :: (fs ++ x)) c _ = _
    rw [run_cat_cons]
    exact run_plus_digits f fs _ c _ _ hf hfs
      (fun k2 => run_cls_digit_none_of_head x c k2 hx) hk2
  have htail : (Re.cat [Re.plus (.cls isDigitRune),
      Re.opt (.grp 2 (Re.cat [.chr '.', Re.plus (.cls isDigitRune)]))]).run
      (d :: (ds ++ '.' :: f :: (fs ++ x))) c k = some (x, caps) := by
    rw [run_cat_cons]
    apply run_plus_digits d ds _ c _ _ hd hds
      (fun k2 => run_cls_none _ _ _ _ _ (by decide) (by decide))
    rw [run_cat_cons]
    unfold Re.opt
    exact run_alt_of_some _ _ _ _ _ _ hfrac
  rw [run_cat_cons, run_lits, run_cat_cons]
  unfold Re.opt
  cases neg with
  | false =>
    rw [run_alt_of_none _ _ _ _ _ (by
      show (if '-' = d then _ else none) = none
      rw [if_neg hm])]
    exact htail
  | true =>
    apply run_alt_of_some
    exact htail

theorem matchAt_reLiteral_decimal_at (neg : Bool) (d f : Char) (ds fs x : GoString)
    (hd : d.isDigit = true) (hds : ∀ y ∈ ds, y.isDigit = true)
    (hf : f.isDigit = true) (hfs : ∀ y ∈ fs, y.isDigit = true) (hx : digitHead x = false) :
    ∃ caps, matchAt reLiteral
      (':' :: ' ' :: (((if neg then "-".data else []) ++ (d :: ds) ++ ".".data ++ (f :: fs)) ++
        x)) = some (x, caps) := by
  have hq : ¬ '"' = d := digit_ne_of_not_digit d '"' hd (by decide)
  have e : ':' :: ' ' :: (((if neg then "-".data else []) ++ (d :: ds) ++ ".".data ++ (f :: fs)) ++
        x) =
      ": ".data ++ ((if neg then "-".data else []) ++
        d :: (ds ++ '.' :: f :: (fs ++ x))) := by
    cases neg <;> simp
  rw [e]
  obtain ⟨caps, h⟩ := run_decimalLiteral_at neg d f ds fs x []
    (fun s1 c1 => (fun (rest : GoString) (caps : Caps) => some (rest, caps)) s1
      ((1, (": ".data ++ ((if neg then "-".data else []) ++
        d :: (ds ++ '.' :: f :: (fs ++ x)))).take
          ((": ".data ++ ((if neg then "-".data else []) ++
            d :: (ds ++ '.' :: f :: (fs ++ x)))).length - s1.length)) :: c1))
    hd hds hf hfs hx (fun c1 => ⟨_, rfl⟩)
  refine ⟨caps, ?_⟩
  unfold matchAt reLiteral
  rw [Re.run, run_alt_of_none]
  · exact run_alt_of_some _ _ _ _ _ _ h
  · cases neg
    · show (if ':' = ':' then (if ' ' = ' ' then (if '"' = d then _ else none) else none)
        else none) = none
      rw [if_pos rfl, if_pos rfl, if_neg hq]
    · rfl

theorem matchAt_reLiteral_date_at (d : Char) (ds x : GoString)
    (hd : d.isDigit = true) (hds : ∀ y ∈ ds, y.isDigit = true) :
    ∃ caps, matchAt reLiteral
      (':' :: ' ' :: (("new Date(".data ++ (d :: ds) ++ ")".data) ++ x)) = some (x, caps) := by
  refine ⟨[(1, List.take
    ((':' :: ' ' :: (("new Date(".data ++ (d :: ds) ++ ")".data) ++ x)).length - x.length)
    (':' :: ' ' :: (("new Date(".data ++ (d :: ds) ++ ")".data) ++ x)))], ?_⟩
  have e : ':' :: ' ' :: (("new Date(".data ++ (d :: ds) ++ ")".data) ++ x) =
      ": new Date(".data ++ d :: (ds ++ ')' :: x) := by simp
  rw [e]
  unfold matchAt reLiteral
  rw [Re.run]
  rw [run_alt_of_none]
  · rw [run_alt_of_none]
    · apply run_alt_of_some
      rw [run_cat_cons, run_lits, run_cat_cons, run_lazyPlus, run_cls_digit d _ _ _ hd]
      apply lazyLoop_class isDigitRune ds _ [] _ _ _ (digits_class ds hds)
      · intro y hy t
        have hne : ¬ ')' = y := digit_ne_of_not_digit y ')' (hds y hy) (by decide)
        show (if ')' = y then _ else none) = none
        rw [if_neg hne]
      · simp
      · show (if ')' = ')' then _ else none) = _
        rw [if_pos rfl]
        rfl
    · rfl
  · rfl

theorem matchAt_reLiteral_true_at (x : GoString) :
    ∃ caps, matchAt reLiteral (':' :: ' ' :: ("true".data ++ x)) = some (x, caps) := by
  refine ⟨[(1, List.take ((':' :: ' ' :: ("true".data ++ x)).length - x.length)
    (':' :: ' ' :: ("true".data ++ x)))], ?_⟩
  unfold matchAt reLiteral
  rw [Re.run]
  rw [run_alt_of_none, run_alt_of_none, run_alt_of_none]
  · apply run_alt_of_some
    exact run_lits ": true".data x [] _
  · rfl
  · rfl
  · rfl

theorem matchAt_reLiteral_false_at (x : GoString) :
    ∃ caps, matchAt reLiteral (':' :: ' ' :: ("false".data ++ x)) = some (x, caps) := by
  refine ⟨[(1, List.take ((':' :: ' ' :: ("false".data ++ x)).length - x.length)
    (':' :: ' ' :: ("false".data ++ x)))], ?_⟩
  unfold matchAt reLiteral
  rw [Re.run]
  rw [run_alt_of_none, run_alt_of_none, run_alt_of_none, run_alt_of_none]
  · exact run_lits ": false".data x [] _
  · rfl
  · rfl
  · rfl
  · rfl

/-- The literal pattern matches exactly `: ` and the literal leaf. -/
theorem matchAt_reLiteral_leafAt (u x : GoString) (h : LeafAt u x) :
    ∃ caps, matchAt reLiteral (':' :: ' ' :: (u ++ x)) = some (x, caps) := by
  cases h with
  | quoted s x hs => exact matchAt_reLiteral_quoted_at s x hs
  | int neg digits x hne hd hx =>
    cases digits with
    | nil => exact absurd rfl hne
    | cons d ds =>
      obtain ⟨caps, h⟩ := matchAt_reLiteral_int_at neg d ds x (hd d (List.mem_cons_self _ _))
        (fun y hy => hd y (List.mem_cons_of_mem _ hy)) hx
      refine ⟨caps, ?_⟩
      rw [← h]
      congr 1
      cases neg <;> simp
  | decimal neg digits frac x hne hfne hd hf hx =>
    cases digits with
    | nil => exact absurd rfl hne
    | cons d ds =>
      cases frac with
      | nil => exact absurd rfl hfne
      | cons f fs =>
        exact matchAt_reLiteral_decimal_at neg d f ds fs x (hd d (List.mem_cons_self _ _))
          (fun y hy => hd y (List.mem_cons_of_mem _ hy)) (hf f (List.mem_cons_self _ _))
          (fun y hy => hf y (List.mem_cons_of_mem _ hy)) hx
  | date digits x hne hd =>
    cases digits with
    | nil => exact absurd rfl hne
    | cons d ds =>
      exact matchAt_reLiteral_date_at d ds x (hd d (List.mem_cons_self _ _))
        (fun y hy => hd y (List.mem_cons_of_mem _ hy))
  | true x => exact matchAt_reLiteral_true_at x
  | false x => exact matchAt_reLiteral_false_at x

theorem replaceLiteral_leaf (repl : Caps → GoString) (u x : GoString) (h : LeafAt u x) :
    ∃ caps, ReplaceAllString reLiteral repl (": ".data ++ u ++ x) =
      repl caps ++ ReplaceAllString reLiteral repl x := by
  obtain ⟨caps, hm⟩ := matchAt_reLiteral_leafAt u x h
  refine ⟨caps, ?_⟩
  have e : ": ".data ++ u ++ x = ':' :: ' ' :: (u ++ x) := by simp
  rw [e]
  exact ReplaceAllString_match _ _ _ _ _ _ hm
    (by simp only [List.length_cons, List.length_append]; omega)

/-- Two filters that differ only in the values of their literal leaves have the same
text after the literal step of the cascade. -/
theorem replaceLiteral_sameShape (x y : GoString) (h : SameShape x y) :
    ReplaceAllString reLiteral (fun _ => ":1".data) x =
      ReplaceAllString reLiteral (fun _ => ":1".data) y := by
  induction h with
  | nil => rfl
  | byte c x y hc _ ih => rw [replaceLiteral_byte _ c x hc, replaceLiteral_byte _ c y hc, ih]
  | colon x y hx hy _ ih =>
    rw [replaceLiteral_colon _ x (matchAt_reLiteral_none x hx),
      replaceLiteral_colon _ y (matchAt_reLiteral_none y hy), ih]
  | leaf u v x y hu hv _ ih =>
    obtain ⟨_, h1⟩ := replaceLiteral_leaf (fun _ => ":1".data) u x hu
    obtain ⟨_, h2⟩ := replaceLiteral_leaf (fun _ => ":1".data) v y hv
    rw [h1, h2, ih]

/-! ## The cascade on filters of the same shape -/

theorem canonicalize_of_literal_eq (x y : GoString)
    (h : ReplaceAllString reLiteral (fun _ => ":1".data) (elideLists x) =
      ReplaceAllString reLiteral (fun _ => ":1".data) (elideLists y)) :
    canonicalize x = canonicalize y := by
  unfold canonicalize
  unfold elideLists at h
  simp only at h ⊢
  rw [h]

theorem elideLists_of_no_marker (x : GoString) (h1 : contains x "$in: [ ".data = false)
    (h2 : contains x "$nin: [ ".data = false) (h3 : contains x "\x7b $regex: ".data = false) :
    elideLists x = x := by
  unfold elideLists
  simp only [removeInElements_of_none x _ (Index_of_not_contains _ _ h1),
    removeInElements_of_none x _ (Index_of_not_contains _ _ h2),
    collapseRegex_of_none x (Index_of_not_contains _ _ h3)]

/-- The filter of an accepted line is the canonical form of its extracted filter. -/
theorem parseLine_extracted (collscan : Bool) (str : GoString) (l : OpLine)
    (h : parseLine collscan str = some l) :
    ∃ f, extractedFilter str = some f ∧ l.filter = canonicalize f := by
  obtain ⟨result, op, filter, f, h1, _, h3, _, h5, h6⟩ := parseLine_some collscan str l h
  refine ⟨f, ?_, ?_⟩
  · unfold extractedFilter
    rw [h1]
    simp only [h3]
    rw [← h5, h6]
  · rw [h6]

theorem mem_acceptedLines (collscan : Bool) (lines : List GoString) (str : GoString)
    (l : OpLine) (hs : str ∈ lines) (h : parseLine collscan str = some l) :
    l ∈ acceptedLines collscan lines := by
  unfold acceptedLines
  exact List.mem_filterMap.mpr ⟨str, hs, h⟩

/-- The entry of the key of an accepted line. -/
theorem parse_entry_of_line (fl : FloatOps) (li : LogInfo) (lines : List GoString)
    (l : OpLine) (hl : l ∈ acceptedLines li.collscan lines) :
    ∃ d ∈ (Parse fl li lines).OpsPatterns,
      OpsMap.get (parseLoop li lines).opsMap l.key = some d := by
  have hspec := opsFold_spec (acceptedLines li.collscan lines)
    (acceptedLines_nonneg li.collscan lines) l.key
  have hmem : l ∈ linesOf l.key (acceptedLines li.collscan lines) := by
    unfold linesOf
    exact List.mem_filter.mpr ⟨hl, by simp⟩
  rw [parseLoop_eq]
  cases hg : OpsMap.get (opsFold [] (acceptedLines li.collscan lines)) l.key with
  | none =>
    rw [hg] at hspec
    simp only at hspec
    rw [hspec] at hmem
    simp at hmem
  | some d =>
    refine ⟨d, ?_, rfl⟩
    apply (parse_opsPatterns_perm fl li lines).mem_iff.mpr
    rw [parseLoop_eq]
    exact List.mem_map.mpr ⟨(l.key, d), OpsMap.mem_of_get _ _ _ hg, rfl⟩

theorem dollar_not_mem_digits (ds : GoString) (h : ∀ c ∈ ds, c.isDigit = true) : '$' ∉ ds := by
  intro hm
  have := h _ hm
  revert this
  decide

theorem intEnds_closing : intEnds " \x7d".data = true := by decide

/-- C6, amended. For every two extracted filters `x` and `y` that, after the `$in`/`$nin`
elision and the `$regex` collapse, differ only in the values of their literal leaves
(a leaf is a quoted string without `"`, a signed decimal, `new Date(n)`, `true` or
`false`, written after `: `), the value-elision cascade yields the same canonical
filter; so two accepted lines with the same op and scan kind whose extracted filters
are `x` and `y` have the same key, and the two lines are aggregated in one entry of
`OpsPatterns`. The first five steps leave a filter without `$in: [ `, `$nin: [ ` and
`{ $regex: ` as it is. In particular, for all decimal integers `m` and `n`, `{ id: m }`
and `{ id: n }` both canonicalize to `{id:1}`. -/
theorem C6_same_shape_same_pattern (x y : GoString)
    (h : SameShape (elideLists x) (elideLists y)) :
    canonicalize x = canonicalize y ∧
    (∀ (fl : FloatOps) (li : LogInfo) (lines : List GoString) (s t : GoString) (l m : OpLine),
      s ∈ lines → t ∈ lines →
      parseLine li.collscan s = some l → parseLine li.collscan t = some m →
      extractedFilter s = some x → extractedFilter t = some y →
      l.op = m.op → l.scan = m.scan →
      l.key = m.key ∧
      ∃ d ∈ (Parse fl li lines).OpsPatterns,
        OpsMap.get (parseLoop li lines).opsMap l.key = some d ∧
        l ∈ linesOf l.key (acceptedLines li.collscan lines) ∧
        m ∈ linesOf l.key (acceptedLines li.collscan lines)) ∧
    (∀ z : GoString, contains z "$in: [ ".data = false → contains z "$nin: [ ".data = false →
      contains z "\x7b $regex: ".data = false → elideLists z = z) ∧
    (∀ (neg : Bool) (digits : GoString), digits ≠ [] → (∀ c ∈ digits, c.isDigit = true) →
      canonicalize (leafFilter ((if neg then "-".data else []) ++ digits)) =
        "\x7bid:1\x7d".data) := by
  have hc : canonicalize x = canonicalize y :=
    canonicalize_of_literal_eq x y (replaceLiteral_sameShape _ _ h)
  refine ⟨hc, ?_, elideLists_of_no_marker, ?_⟩
  · intro fl li lines s t l m hs ht hl hm hx hy hop hscan
    obtain ⟨f, hf1, hf2⟩ := parseLine_extracted _ _ _ hl
    obtain ⟨g, hg1, hg2⟩ := parseLine_extracted _ _ _ hm
    rw [hx] at hf1
    rw [hy] at hg1
    cases hf1
    cases hg1
    have hkey : l.key = m.key := by
      unfold OpLine.key
      rw [hop, hscan, hf2, hg2, hc]
    refine ⟨hkey, ?_⟩
    have hla := mem_acceptedLines _ _ _ _ hs hl
    have hma := mem_acceptedLines _ _ _ _ ht hm
    obtain ⟨d, hd, hget⟩ := parse_entry_of_line fl li lines l hla
    refine ⟨d, hd, hget, ?_, ?_⟩
    · unfold linesOf
      exact List.mem_filter.mpr ⟨hla, by simp⟩
    · unfold linesOf
      exact List.mem_filter.mpr ⟨hma, by simp [hkey]⟩
  · intro neg digits hne hd
    have hleaf : LeafAt ((if neg then "-".data else []) ++ digits) " \x7d".data :=
      LeafAt.int neg digits _ hne hd intEnds_closing
    apply canonicalize_leafFilter _ _ (matchAt_reLiteral_leafAt _ _ hleaf)
    intro hm
    rcases List.mem_append.mp hm with hm | hm
    · cases neg
      · simp at hm
      · revert hm; decide
    · exact dollar_not_mem_digits _ hd hm

theorem sameShape_shapeFilters : SameShape firstShapeFilter secondShapeFilter := by
  show SameShape ('{' :: ' ' :: 'n' :: 'a' :: 'm' :: 'e' ::
      (": ".data ++ "\"alice\"".data ++ ", age: 30, tags: \x7b $exists: true \x7d \x7d".data))
    ('{' :: ' ' :: 'n' :: 'a' :: 'm' :: 'e' ::
      (": ".data ++ "\"bob\"".data ++ ", age: -4.5, tags: \x7b $exists: false \x7d \x7d".data))
  iterate 6 apply SameShape.byte _ _ _ (by decide)
  refine SameShape.leaf _ _ _ _ (LeafAt.quoted "alice".data _ (by decide))
    (LeafAt.quoted "bob".data _ (by decide)) ?_
  show SameShape (',' :: ' ' :: 'a' :: 'g' :: 'e' ::
      (": ".data ++ "30".data ++ ", tags: \x7b $exists: true \x7d \x7d".data))
    (',' :: ' ' :: 'a' :: 'g' :: 'e' ::
      (": ".data ++ "-4.5".data ++ ", tags: \x7b $exists: false \x7d \x7d".data))
  iterate 5 apply SameShape.byte _ _ _ (by decide)
  refine SameShape.leaf _ _ _ _ (LeafAt.int false "30".data _ (by decide) (by decide) (by decide))
    (LeafAt.decimal true "4".data "5".data _ (by decide) (by decide) (by decide) (by decide)
      (by decide)) ?_
  show SameShape (',' :: ' ' :: 't' :: 'a' :: 'g' :: 's' :: ':' :: ' ' :: '{' :: ' ' :: '$' ::
      'e' :: 'x' :: 'i' :: 's' :: 't' :: 's' :: (": ".data ++ "true".data ++ " \x7d \x7d".data))
    (',' :: ' ' :: 't' :: 'a' :: 'g' :: 's' :: ':' :: ' ' :: '{' :: ' ' :: '$' ::
      'e' :: 'x' :: 'i' :: 's' :: 't' :: 's' :: (": ".data ++ "false".data ++ " \x7d \x7d".data))
  iterate 6 apply SameShape.byte _ _ _ (by decide)
  apply SameShape.colon _ _ (by decide) (by decide)
  iterate 10 apply SameShape.byte _ _ _ (by decide)
  refine SameShape.leaf _ _ _ _ (LeafAt.true _) (LeafAt.false _) ?_
  show SameShape [' ', '}', ' ', '}'] [' ', '}', ' ', '}']
  iterate 4 apply SameShape.byte _ _ _ (by decide)
  exact SameShape.nil

/-! ## The pattern of `ObjectId` and `Timestamp` -/

theorem starLoop_cls_stop {R : Type} (p : Rune → Bool) (s : GoString) (c : Caps)
    (K : GoString → Caps → Option R) (hK : K s c = none)
    (hb : ∀ k : GoString → Caps → Option R, (Re.cls p).run s c k = none) (n : Nat) :
    starLoop (fun s1 c1 k1 => (Re.cls p).run s1 c1 k1) n s c K = none := by
  cases n with
  | zero => exact hK
  | succ n =>
    simp only [starLoop]
    rw [hb]
    exact hK

theorem starLoop_cls_step {R : Type} (p : Rune → Bool) (a : Char) (t : GoString) (c : Caps)
    (K : GoString → Caps → Option R) (ha : a.toNat < 0x80) (hp : p (some a) = true)
    (hrest : ∀ m, starLoop (fun s1 c1 k1 => (Re.cls p).run s1 c1 k1) m t c K = none) (n : Nat) :
    starLoop (fun s1 c1 k1 => (Re.cls p).run s1 c1 k1) n (a :: t) c K = K (a :: t) c := by
  cases n with
  | zero => rfl
  | succ n =>
    simp only [starLoop]
    rw [run_cls_ascii p a t c _ ha hp]
    simp only [List.length_cons, Nat.lt_succ_self, if_true]
    rw [hrest]

/-- The greedy loop over a class runs through the ASCII characters of the class in `s`
when it gives the result from the end of `s` on. -/
theorem starLoop_cls_append {R : Type} (p : Rune → Bool) (s rest : GoString) (c : Caps)
    (K : GoString → Caps → Option R) (r : R) (n : Nat)
    (hs : ∀ a ∈ s, a.toNat < 0x80 ∧ p (some a) = true)
    (hrest : ∀ m, starLoop (fun s1 c1 k1 => (Re.cls p).run s1 c1 k1) m rest c K = some r)
    (hn : s.length ≤ n) :
    starLoop (fun s1 c1 k1 => (Re.cls p).run s1 c1 k1) n (s ++ rest) c K = some r := by
  induction s generalizing n with
  | nil => exact hrest n
  | cons a s ih =>
    cases n with
    | zero => simp at hn
    | succ n =>
      obtain ⟨h1, h2⟩ := hs a (List.mem_cons_self _ _)
      have ih := ih n (fun x hx => hs x (List.mem_cons_of_mem _ hx)) (by simpa using hn)
      simp only [List.cons_append, starLoop]
      rw [run_cls_ascii p a _ c _ h1 h2]
      simp only [List.length_cons, Nat.lt_succ_self, if_true]
      rw [ih]

/-- After the end of a value, the greedy loop over `\S` finds no text on which a
continuation that asks for `')` succeeds. -/
theorem starLoop_nonSpace_valueEnds {R : Type} (x : GoString) (c : Caps)
    (K : GoString → Caps → Option R) (hx : valueEnds x = true)
    (hK : ∀ t, "')".data.isPrefixOf t = false → K t c = none) (n : Nat) :
    starLoop (fun s1 c1 k1 => (Re.cls isNonSpaceRune).run s1 c1 k1) n x c K = none := by
  have hnil : ∀ m, starLoop (fun s1 c1 k1 => (Re.cls isNonSpaceRune).run s1 c1 k1) m [] c K =
      none := starLoop_cls_stop _ [] c K (hK [] rfl) (fun _ => rfl)
  have hsp : ∀ t m, starLoop (fun s1 c1 k1 => (Re.cls isNonSpaceRune).run s1 c1 k1) m
      (' ' :: t) c K = none := fun t =>
    starLoop_cls_stop _ (' ' :: t) c K (hK _ rfl)
      (fun k => run_cls_none _ ' ' t c k (by decide) (by decide))
  cases x with
  | nil => exact hnil n
  | cons a r =>
    simp only [valueEnds, Bool.or_eq_true, beq_iff_eq, Bool.and_eq_true] at hx
    rcases hx with e | ⟨e, h2⟩
    · subst e
      exact hsp r n
    · subst e
      rw [starLoop_cls_step isNonSpaceRune ',' r c K (by decide) (by decide) _ n]
      · exact hK _ rfl
      · cases r with
        | nil => exact hnil
        | cons b r =>
          rcases h2 with h2 | h2
          · simp at h2
          · simp only [List.head?_cons, Option.some.injEq] at h2
            subst h2
            exact hsp r

theorem matchAt_reObjectId_objectId (a : Char) (s x : GoString)
    (hs : ∀ c ∈ a :: s, isNonSpaceByte c = true) (hx : valueEnds x = true) :
    ∃ caps, matchAt reObjectId (' ' :: ("ObjectId('".data ++ (a :: s) ++ "')".data ++ x)) =
      some (x, caps) := by
  refine ⟨[(1, List.take
    ((' ' :: ("ObjectId('".data ++ (a :: s) ++ "')".data ++ x)).length - x.length)
    (' ' :: ("ObjectId('".data ++ (a :: s) ++ "')".data ++ x)))], ?_⟩
  have e : ' ' :: ("ObjectId('".data ++ (a :: s) ++ "')".data ++ x) =
      " ObjectId('".data ++ a :: (s ++ '\'' :: ')' :: x) := by simp
  rw [e]
  have hs2 : ∀ c ∈ a :: s, c.toNat < 0x80 ∧ isNonSpaceRune (some c) = true := by
    intro c hc
    have := hs c hc
    simpa [isNonSpaceByte] using this
  obtain ⟨ha1, ha2⟩ := hs2 a (List.mem_cons_self _ _)
  unfold matchAt reObjectId
  apply run_alt_of_some
  rw [Re.run, run_cat_cons, run_lits, run_cat_cons, run_plus, run_cls_ascii _ a _ _ _ ha1 ha2]
  apply starLoop_cls_append isNonSpaceRune s _ _ _ _ _
    (fun c hc => hs2 c (List.mem_cons_of_mem _ hc))
  · have hK : ∀ t : GoString, "')".data.isPrefixOf t = false →
        (Re.cat [Re.lits "')".data]).run t []
          (fun s1 c1 => some (s1, (1, List.take
            ((" ObjectId('".data ++ a :: (s ++ '\'' :: ')' :: x)).length - s1.length)
            (" ObjectId('".data ++ a :: (s ++ '\'' :: ')' :: x))) :: c1)) = none := by
      intro t ht
      rw [run_cat_cons]
      exact run_lits_none _ _ _ _ ht
    intro m
    rw [starLoop_cls_step isNonSpaceRune '\'' _ _ _ (by decide) (by decide) _ m]
    · rw [run_cat_cons]
      exact run_lits "')".data x _ _
    · intro m2
      rw [starLoop_cls_step isNonSpaceRune ')' _ _ _ (by decide) (by decide) _ m2]
      · exact hK _ rfl
      · exact starLoop_nonSpace_valueEnds x [] _ hx hK
  · simp

theorem matchAt_reObjectId_timestamp (d e : Char) (a b x : GoString)
    (hd : d.isDigit = true) (he : e.isDigit = true)
    (ha : ∀ c ∈ a, c.isDigit = true) (hb : ∀ c ∈ b, c.isDigit = true) :
    ∃ caps, matchAt reObjectId
      (' ' :: ("Timestamp(".data ++ (d :: a) ++ ", ".data ++ (e :: b) ++ ")".data ++ x)) =
      some (x, caps) := by
  refine ⟨[(3, List.take
    ((' ' :: ("Timestamp(".data ++ (d :: a) ++ ", ".data ++ (e :: b) ++ ")".data ++ x)).length -
      x.length)
    (' ' :: ("Timestamp(".data ++ (d :: a) ++ ", ".data ++ (e :: b) ++ ")".data ++ x)))], ?_⟩
  have e1 : ' ' :: ("Timestamp(".data ++ (d :: a) ++ ", ".data ++ (e :: b) ++ ")".data ++ x) =
      " Timestamp(".data ++ d :: (a ++ (", ".data ++ e :: (b ++ ')' :: x))) := by simp
  rw [e1]
  unfold matchAt reObjectId
  rw [run_alt_of_none, run_alt_of_none]
  · apply run_alt_of_some
    rw [Re.run, run_cat_cons, run_lits, run_cat_cons]
    apply run_plus_digits d a _ _ _ _ hd ha
    · intro k
      exact run_cls_digit_none ',' _ _ k (by decide)
    · rw [run_cat_cons, run_lits, run_cat_cons]
      apply run_plus_digits e b _ _ _ _ he hb
      · intro k
        exact run_cls_digit_none ')' _ _ k (by decide)
      · show (if ')' = ')' then _ else none) = _
        rw [if_pos rfl]
        rfl
  · rw [Re.run, run_cat_cons]
    exact run_lits_none _ _ _ _ rfl
  · rw [Re.run, run_cat_cons]
    exact run_lits_none _ _ _ _ rfl

/-! ## The images of a filter in canonical form -/

theorem canonForm_head (x z o y w : GoString) (h : CanonForm x z o y w) :
    z.head? = x.head? ∧ o.head? = x.head? ∧ y.head? = x.head? ∧
      (x.head? ≠ some ' ' → w.head? = x.head?) := by
  cases h <;> simp

theorem isPrefixOf_cons_cons (c d : Char) (m s : GoString) :
    (c :: m).isPrefixOf (d :: s) = (c == d && m.isPrefixOf s) := rfl

theorem rigid_cons (c : Char) (m : GoString) (h : rigid (c :: m) = true) :
    c ≠ '{' ∧ c ≠ '}' ∧ (c = ':' → m = [] ∨ m.head? = some ' ') ∧ rigid m = true := by
  simp only [rigid, Bool.and_eq_true, bne_iff_ne, ne_eq, Bool.or_eq_true,
    List.isEmpty_iff, beq_iff_eq] at h
  obtain ⟨⟨⟨h1, h2⟩, h3⟩, h4⟩ := h
  refine ⟨h1, h2, ?_, h4⟩
  intro hc
  rcases h3 with (h3 | h3) | h3
  · exact absurd hc h3
  · exact Or.inl h3
  · exact Or.inr h3

theorem rigid_tail (c : Char) (m : GoString) (h : rigid (c :: m) = true) : rigid m = true :=
  (rigid_cons c m h).2.2.2

/-- A rigid text at the head of `a ++ s` is at the head of `a ++ t` when every rigid
text at the head of `s` is at the head of `t`. -/
theorem sync_append (a s t : GoString)
    (h : ∀ m, rigid m = true → m.isPrefixOf s = true → m.isPrefixOf t = true) :
    ∀ m, rigid m = true → m.isPrefixOf (a ++ s) = true → m.isPrefixOf (a ++ t) = true := by
  induction a with
  | nil => exact h
  | cons c a ih =>
    intro m hm hp
    cases m with
    | nil => rfl
    | cons b m =>
      simp only [List.cons_append, isPrefixOf_cons_cons, Bool.and_eq_true] at hp ⊢
      exact ⟨hp.1, ih m (rigid_tail b m hm) hp.2⟩

/-- A rigid text at the head of `:1...` is at the head of every text that starts with
`: `. -/
theorem sync_one (m s t : GoString) (hm : rigid m = true)
    (hp : m.isPrefixOf (":1".data ++ s) = true) : m.isPrefixOf (':' :: ' ' :: t) = true := by
  cases m with
  | nil => rfl
  | cons a m =>
    obtain ⟨_, _, h3, _⟩ := rigid_cons a m hm
    have hp : (a :: m).isPrefixOf (':' :: '1' :: s) = true := hp
    simp only [isPrefixOf_cons_cons, Bool.and_eq_true, beq_iff_eq] at hp
    obtain ⟨ha, hp2⟩ := hp
    rcases h3 ha with e | e
    · subst e
      subst ha
      rfl
    · cases m with
      | nil => simp at e
      | cons b m =>
        simp only [List.head?_cons, Option.some.injEq] at e
        simp only [isPrefixOf_cons_cons, Bool.and_eq_true, beq_iff_eq] at hp2
        rw [e] at hp2
        exact absurd hp2.1 (by decide)

theorem sync_cons (c : Char) (s t : GoString)
    (h : ∀ m, rigid m = true → m.isPrefixOf s = true → m.isPrefixOf t = true) :
    ∀ m, rigid m = true → m.isPrefixOf (c :: s) = true → m.isPrefixOf (c :: t) = true :=
  sync_append [c] s t h

theorem sync_brace (c : Char) (hc : c = '{' ∨ c = '}') (s t : GoString) :
    ∀ m, rigid m = true → m.isPrefixOf (c :: s) = true → m.isPrefixOf t = true := by
  intro m hm hp
  cases m with
  | nil => simp [List.isPrefixOf]
  | cons a m =>
    obtain ⟨h1, h2, _, _⟩ := rigid_cons a m hm
    simp only [isPrefixOf_cons_cons, Bool.and_eq_true, beq_iff_eq] at hp
    rcases hc with e | e
    · exact absurd (hp.1.trans e) h1
    · exact absurd (hp.1.trans e) h2

/-- A rigid text at the head of an image of `x` is at the head of `x`. -/
theorem canonForm_sync (x z o y w : GoString) (h : CanonForm x z o y w) :
    (∀ m, rigid m = true → m.isPrefixOf w = true → m.isPrefixOf x = true) ∧
    (∀ m, rigid m = true → m.isPrefixOf z = true → m.isPrefixOf x = true) ∧
    (∀ m, rigid m = true → m.isPrefixOf o = true → m.isPrefixOf x = true) := by
  induction h with
  | nil => exact ⟨fun _ _ h => h, fun _ _ h => h, fun _ _ h => h⟩
  | byte c x z o y w hc h ih =>
    exact ⟨sync_cons c w x ih.1, sync_cons c z x ih.2.1, sync_cons c o x ih.2.2⟩
  | space x z o y w hx hs h ih =>
    exact ⟨sync_cons _ w x ih.1, sync_cons _ z x ih.2.1, sync_cons _ o x ih.2.2⟩
  | colon x z o y w hx h ih =>
    exact ⟨sync_cons _ w x ih.1, sync_cons _ z x ih.2.1, sync_cons _ o x ih.2.2⟩
  | spaceBrace x z o y w h ih =>
    exact ⟨sync_brace '}' (Or.inr rfl) w _, sync_append [' ', '}'] z x ih.2.1,
      sync_append [' ', '}'] o x ih.2.2⟩
  | brace x z o y w hx h ih =>
    exact ⟨sync_brace '{' (Or.inl rfl) w _, sync_brace '{' (Or.inl rfl) z _,
      sync_brace '{' (Or.inl rfl) o _⟩
  | braceSpace x z o y w hx hs h ih =>
    exact ⟨sync_brace '{' (Or.inl rfl) w _, sync_brace '{' (Or.inl rfl) _ _,
      sync_brace '{' (Or.inl rfl) _ _⟩
  | leaf u x z o y w hu h ih =>
    exact ⟨fun m hm hp => sync_one m w (u ++ x) hm hp,
      fun m hm hp => sync_one m z (u ++ x) hm hp,
      fun m hm hp => sync_one m o (u ++ x) hm hp⟩
  | objectId s x z o y w hne hs hx h ih =>
    refine ⟨fun m hm hp => sync_one m w _ hm hp, ?_, fun m hm hp => sync_one m o _ hm hp⟩
    have := sync_append (':' :: (" ObjectId('".data ++ s ++ "')".data)) z x ih.2.1
    simpa using this
  | timestamp a b x z o y w hane hbne ha hb h ih =>
    refine ⟨fun m hm hp => sync_one m w _ hm hp, ?_, fun m hm hp => sync_one m o _ hm hp⟩
    have := sync_append (':' :: (" Timestamp(".data ++ a ++ ", ".data ++ b ++ ")".data)) z x
      ih.2.1
    simpa using this

/-! ## Texts that occur in no image -/

theorem Index_none_iff (s m : GoString) (hne : m ≠ []) :
    Index s m = none ↔ ∀ t, t <:+ s → m.isPrefixOf t = false := by
  induction s with
  | nil =>
    constructor
    · intro _ t ht
      have : t = [] := List.eq_nil_of_suffix_nil ht
      subst this
      cases m with
      | nil => exact absurd rfl hne
      | cons a m => rfl
    · intro _
      unfold Index
      cases m with
      | nil => exact absurd rfl hne
      | cons a m => rfl
  | cons c cs ih =>
    constructor
    · intro h t ht
      obtain ⟨h1, h2⟩ := Index_cons_none c cs m h
      rcases List.suffix_cons_iff.mp ht with e | e
      · rw [e]; exact h1
      · exact ih.mp h2 t e
    · intro h
      have h1 := h (c :: cs) (List.suffix_refl _)
      have h2 := ih.mpr (fun t ht => h t (List.suffix_cons_iff.mpr (Or.inr ht)))
      unfold Index
      simp only [h1, Bool.false_eq_true, if_false, h2]
      rfl

theorem not_prefix_of_head (m s : GoString) (c : Char) (hne : m ≠ [])
    (hm : m.head? ≠ some c) : m.isPrefixOf (c :: s) = false := by
  cases m with
  | nil => exact absurd rfl hne
  | cons a m =>
    simp only [List.head?_cons, ne_eq, Option.some.injEq] at hm
    simp [isPrefixOf_cons_cons, hm]

theorem rigid_head (m : GoString) (hm : rigid m = true) :
    m.head? ≠ some '{' ∧ m.head? ≠ some '}' := by
  cases m with
  | nil => simp
  | cons a m =>
    obtain ⟨h1, h2, _, _⟩ := rigid_cons a m hm
    simp [h1, h2]

theorem bool_false_of_imp {a b : Bool} (h : a = true → b = true) (hb : b = false) :
    a = false := by
  cases a
  · rfl
  · rw [h rfl] at hb; cases hb

theorem suffix_cases {P : GoString → Prop} (c : Char) (s : GoString)
    (h0 : P (c :: s)) (h : ∀ t, t <:+ s → P t) : ∀ t, t <:+ c :: s → P t := by
  intro t ht
  rcases List.suffix_cons_iff.mp ht with e | e
  · rw [e]; exact h0
  · exact h t e

/-- A rigid text that occurs nowhere in `a ++ t` occurs nowhere in `a ++ s` when it
occurs nowhere in `s` and is at the head of `t` wherever it is at the head of `s`. -/
theorem absent_append (m a s t : GoString) (hm : rigid m = true)
    (hsync : ∀ m, rigid m = true → m.isPrefixOf s = true → m.isPrefixOf t = true)
    (hs : ∀ u, u <:+ s → m.isPrefixOf u = false)
    (ht : ∀ u, u <:+ a ++ t → m.isPrefixOf u = false) :
    ∀ u, u <:+ a ++ s → m.isPrefixOf u = false := by
  induction a with
  | nil => exact hs
  | cons c a ih =>
    intro u hu
    have hu : u <:+ c :: (a ++ s) := hu
    rcases List.suffix_cons_iff.mp hu with e | e
    · rw [e]
      exact bool_false_of_imp (sync_append (c :: a) s t hsync m hm) (ht _ (List.suffix_refl _))
    · exact ih (fun u hu => ht u (List.suffix_cons_iff.mpr (Or.inr hu))) u e

/-- A rigid text that does not start with `1` and occurs nowhere in `x` occurs nowhere in
the images of `x`. -/
theorem canonForm_absent (x z o y w : GoString) (h : CanonForm x z o y w) (m : GoString)
    (hm : rigid m = true) (hne : m ≠ []) (h1 : m.head? ≠ some '1')
    (hx : ∀ t, t <:+ x → m.isPrefixOf t = false) :
    (∀ t, t <:+ w → m.isPrefixOf t = false) ∧ (∀ t, t <:+ z → m.isPrefixOf t = false) ∧
      (∀ t, t <:+ o → m.isPrefixOf t = false) := by
  induction h with
  | nil => exact ⟨hx, hx, hx⟩
  | byte c x z o y w hc h ih =>
    have P := canonForm_sync _ _ _ _ _ (CanonForm.byte c x z o y w hc h)
    have hself := hx _ (List.suffix_refl _)
    have ih := ih (fun t ht => hx t (List.suffix_cons_iff.mpr (Or.inr ht)))
    exact ⟨suffix_cases _ _ (bool_false_of_imp (P.1 m hm) hself) ih.1,
      suffix_cases _ _ (bool_false_of_imp (P.2.1 m hm) hself) ih.2.1,
      suffix_cases _ _ (bool_false_of_imp (P.2.2 m hm) hself) ih.2.2⟩
  | space x z o y w hc hs h ih =>
    have P := canonForm_sync _ _ _ _ _ (CanonForm.space x z o y w hc hs h)
    have hself := hx _ (List.suffix_refl _)
    have ih := ih (fun t ht => hx t (List.suffix_cons_iff.mpr (Or.inr ht)))
    exact ⟨suffix_cases _ _ (bool_false_of_imp (P.1 m hm) hself) ih.1,
      suffix_cases _ _ (bool_false_of_imp (P.2.1 m hm) hself) ih.2.1,
      suffix_cases _ _ (bool_false_of_imp (P.2.2 m hm) hself) ih.2.2⟩
  | colon x z o y w hc h ih =>
    have P := canonForm_sync _ _ _ _ _ (CanonForm.colon x z o y w hc h)
    have hself := hx _ (List.suffix_refl _)
    have ih := ih (fun t ht => hx t (List.suffix_cons_iff.mpr (Or.inr ht)))
    exact ⟨suffix_cases _ _ (bool_false_of_imp (P.1 m hm) hself) ih.1,
      suffix_cases _ _ (bool_false_of_imp (P.2.1 m hm) hself) ih.2.1,
      suffix_cases _ _ (bool_false_of_imp (P.2.2 m hm) hself) ih.2.2⟩
  | brace x z o y w hc h ih =>
    have P := canonForm_sync _ _ _ _ _ (CanonForm.brace x z o y w hc h)
    have hself := hx _ (List.suffix_refl _)
    have ih := ih (fun t ht => hx t (List.suffix_cons_iff.mpr (Or.inr ht)))
    exact ⟨suffix_cases _ _ (bool_false_of_imp (P.1 m hm) hself) ih.1,
      suffix_cases _ _ (bool_false_of_imp (P.2.1 m hm) hself) ih.2.1,
      suffix_cases _ _ (bool_false_of_imp (P.2.2 m hm) hself) ih.2.2⟩
  | spaceBrace x z o y w h ih =>
    have P := canonForm_sync _ _ _ _ _ (CanonForm.spaceBrace x z o y w h)
    have hself := hx _ (List.suffix_refl _)
    have ih := ih (fun t ht => hx t
      (List.suffix_cons_iff.mpr (Or.inr (List.suffix_cons_iff.mpr (Or.inr ht)))))
    exact ⟨suffix_cases _ _ (bool_false_of_imp (P.1 m hm) hself) ih.1,
      suffix_cases _ _ (bool_false_of_imp (P.2.1 m hm) hself)
        (suffix_cases _ _ (not_prefix_of_head m z '}' hne (rigid_head m hm).2) ih.2.1),
      suffix_cases _ _ (bool_false_of_imp (P.2.2 m hm) hself)
        (suffix_cases _ _ (not_prefix_of_head m o '}' hne (rigid_head m hm).2) ih.2.2)⟩
  | braceSpace x z o y w hc hs h ih =>
    have P := canonForm_sync _ _ _ _ _ (CanonForm.braceSpace x z o y w hc hs h)
    have P2 := canonForm_sync _ _ _ _ _ h
    have hself := hx _ (List.suffix_refl _)
    have hsp := hx (' ' :: x) (List.suffix_cons_iff.mpr (Or.inr (List.suffix_refl _)))
    have ih := ih (fun t ht => hx t
      (List.suffix_cons_iff.mpr (Or.inr (List.suffix_cons_iff.mpr (Or.inr ht)))))
    exact ⟨suffix_cases _ _ (bool_false_of_imp (P.1 m hm) hself) ih.1,
      suffix_cases _ _ (bool_false_of_imp (P.2.1 m hm) hself)
        (suffix_cases _ _ (bool_false_of_imp (sync_cons ' ' z x P2.2.1 m hm) hsp) ih.2.1),
      suffix_cases _ _ (bool_false_of_imp (P.2.2 m hm) hself)
        (suffix_cases _ _ (bool_false_of_imp (sync_cons ' ' o x P2.2.2 m hm) hsp) ih.2.2)⟩
  | leaf u x z o y w hu h ih =>
    have P := canonForm_sync _ _ _ _ _ (CanonForm.leaf u x z o y w hu h)
    have hself := hx _ (List.suffix_refl _)
    have ih := ih (fun t ht => hx t (ht.trans (List.suffix_append _ _)))
    exact ⟨suffix_cases _ _ (bool_false_of_imp (P.1 m hm) hself)
        (suffix_cases _ _ (not_prefix_of_head m w '1' hne h1) ih.1),
      suffix_cases _ _ (bool_false_of_imp (P.2.1 m hm) hself)
        (suffix_cases _ _ (not_prefix_of_head m z '1' hne h1) ih.2.1),
      suffix_cases _ _ (bool_false_of_imp (P.2.2 m hm) hself)
        (suffix_cases _ _ (not_prefix_of_head m o '1' hne h1) ih.2.2)⟩
  | objectId s x z o y w hne2 hs hv h ih =>
    have P := canonForm_sync _ _ _ _ _ (CanonForm.objectId s x z o y w hne2 hs hv h)
    have P2 := canonForm_sync _ _ _ _ _ h
    have hself := hx _ (List.suffix_refl _)
    have e : ∀ r : GoString, ':' :: (" ObjectId('".data ++ s ++ "')".data ++ r) =
        (':' :: (" ObjectId('".data ++ s ++ "')".data)) ++ r := by intro r; simp
    have ih := ih (fun t ht => hx t (by rw [e]; exact ht.trans (List.suffix_append _ _)))
    refine ⟨suffix_cases _ _ (bool_false_of_imp (P.1 m hm) hself)
        (suffix_cases _ _ (not_prefix_of_head m w '1' hne h1) ih.1), ?_,
      suffix_cases _ _ (bool_false_of_imp (P.2.2 m hm) hself)
        (suffix_cases _ _ (not_prefix_of_head m o '1' hne h1) ih.2.2)⟩
    rw [e]
    apply absent_append m _ z x hm P2.2.1 ih.2.1
    rw [← e]
    exact hx
  | timestamp a b x z o y w hane hbne ha hb h ih =>
    have P := canonForm_sync _ _ _ _ _ (CanonForm.timestamp a b x z o y w hane hbne ha hb h)
    have P2 := canonForm_sync _ _ _ _ _ h
    have hself := hx _ (List.suffix_refl _)
    have e : ∀ r : GoString,
        ':' :: (" Timestamp(".data ++ a ++ ", ".data ++ b ++ ")".data ++ r) =
        (':' :: (" Timestamp(".data ++ a ++ ", ".data ++ b ++ ")".data)) ++ r := by
      intro r; simp
    have ih := ih (fun t ht => hx t (by rw [e]; exact ht.trans (List.suffix_append _ _)))
    refine ⟨suffix_cases _ _ (bool_false_of_imp (P.1 m hm) hself)
        (suffix_cases _ _ (not_prefix_of_head m w '1' hne h1) ih.1), ?_,
      suffix_cases _ _ (bool_false_of_imp (P.2.2 m hm) hself)
        (suffix_cases _ _ (not_prefix_of_head m o '1' hne h1) ih.2.2)⟩
    rw [e]
    apply absent_append m _ z x hm P2.2.1 ih.2.1
    rw [← e]
    exact hx

/-! ## The steps of the cascade on a filter in canonical form -/

theorem replaceLiteral_bytes (repl : Caps → GoString) (a x : GoString) (ha : ':' ∉ a) :
    ReplaceAllString reLiteral repl (a ++ x) = a ++ ReplaceAllString reLiteral repl x := by
  induction a with
  | nil => rfl
  | cons c a ih =>
    have hc : c ≠ ':' := fun e => ha (e ▸ List.mem_cons_self _ _)
    rw [List.cons_append, replaceLiteral_byte _ c _ hc,
      ih (fun h => ha (List.mem_cons_of_mem _ h))]
    rfl

theorem digits_no_colon (a : GoString) (ha : ∀ c ∈ a, c.isDigit = true) : ':' ∉ a :=
  fun h => absurd (ha _ h) (by decide)

/-- The literal step turns `x` into `z`. -/
theorem canonForm_literal (x z o y w : GoString) (h : CanonForm x z o y w) :
    ReplaceAllString reLiteral (fun _ => ":1".data) x = z := by
  induction h with
  | nil => rfl
  | byte c x z o y w hc h ih => rw [replaceLiteral_byte _ c x hc.1, ih]
  | space x z o y w hx hs h ih => rw [replaceLiteral_byte _ ' ' x (by decide), ih]
  | spaceBrace x z o y w h ih =>
    rw [replaceLiteral_byte _ ' ' _ (by decide), replaceLiteral_byte _ '}' x (by decide), ih]
  | brace x z o y w hx h ih => rw [replaceLiteral_byte _ '{' x (by decide), ih]
  | braceSpace x z o y w hx hs h ih =>
    rw [replaceLiteral_byte _ '{' _ (by decide), replaceLiteral_byte _ ' ' x (by decide), ih]
  | colon x z o y w hx h ih => rw [replaceLiteral_colon _ x (matchAt_reLiteral_none x hx), ih]
  | leaf u x z o y w hu h ih =>
    obtain ⟨_, h1⟩ := replaceLiteral_leaf (fun _ => ":1".data) u x hu
    rw [h1, ih]
  | objectId s x z o y w hne hs hx h ih =>
    have hl : literalAhead (" ObjectId('".data ++ s ++ "')".data ++ x) = false := rfl
    rw [replaceLiteral_colon _ _ (matchAt_reLiteral_none _ hl)]
    have hc : ':' ∉ " ObjectId('".data ++ s ++ "')".data := by
      simp only [List.mem_append, not_or]
      exact ⟨⟨by decide, fun hm => (hs _ hm).2 rfl⟩, by decide⟩
    rw [replaceLiteral_bytes _ _ x hc, ih]
  | timestamp a b x z o y w hane hbne ha hb h ih =>
    have hl : literalAhead (" Timestamp(".data ++ a ++ ", ".data ++ b ++ ")".data ++ x) =
        false := rfl
    rw [replaceLiteral_colon _ _ (matchAt_reLiteral_none _ hl)]
    have hc : ':' ∉ " Timestamp(".data ++ a ++ ", ".data ++ b ++ ")".data := by
      simp only [List.mem_append, not_or]
      exact ⟨⟨⟨⟨by decide, digits_no_colon a ha⟩, by decide⟩, digits_no_colon b hb⟩, by decide⟩
    rw [replaceLiteral_bytes _ _ x hc, ih]

theorem matchAt_reShardVersion_none (t : GoString)
    (h : ", shardVersion: [".data.isPrefixOf t = false) : matchAt reShardVersion t = none := by
  unfold matchAt reShardVersion
  rw [run_cat_cons]
  exact run_lits_none _ _ _ _ h

theorem matchAt_reObjectId_none (t : GoString)
    (h1 : " ObjectId('".data.isPrefixOf t = false) (h2 : "UUID(\"".data.isPrefixOf t = false)
    (h3 : " Timestamp(".data.isPrefixOf t = false) (h4 : "BinData(".data.isPrefixOf t = false) :
    matchAt reObjectId t = none := by
  unfold matchAt reObjectId
  rw [run_alt_of_none, run_alt_of_none, run_alt_of_none]
  · rw [Re.run, run_cat_cons]
    exact run_lits_none _ _ _ _ h4
  · rw [Re.run, run_cat_cons]
    exact run_lits_none _ _ _ _ h3
  · rw [Re.run, run_cat_cons]
    exact run_lits_none _ _ _ _ h2
  · rw [Re.run, run_cat_cons]
    exact run_lits_none _ _ _ _ h1

theorem matchAt_reRegexLiteral_none (t : GoString)
    (h : ": /".data.isPrefixOf t = false) : matchAt reRegexLiteral t = none := by
  unfold matchAt reRegexLiteral
  rw [Re.run, run_cat_cons]
  exact run_lits_none _ _ _ _ h

theorem matchAt_reObjectId_cont (b : Char) (t : GoString) (h : isCont b = true) :
    matchAt reObjectId (b :: t) = none := by
  have h1 : b ≠ ' ' := fun e => by subst e; revert h; decide
  have h2 : b ≠ 'U' := fun e => by subst e; revert h; decide
  have h3 : b ≠ 'B' := fun e => by subst e; revert h; decide
  apply matchAt_reObjectId_none
  · exact not_prefix_of_head _ t b (by decide) (by simpa using fun e => h1 e.symm)
  · exact not_prefix_of_head _ t b (by decide) (by simpa using fun e => h2 e.symm)
  · exact not_prefix_of_head _ t b (by decide) (by simpa using fun e => h1 e.symm)
  · exact not_prefix_of_head _ t b (by decide) (by simpa using fun e => h3 e.symm)

/-- The pattern of `ObjectId` does not match at a byte that is not a space and at which
neither `UUID("` nor `BinData(` starts. -/
theorem replaceObjectId_byte (repl : Caps → GoString) (c : Char) (cs : GoString)
    (hc : c ≠ ' ') (h2 : "UUID(\"".data.isPrefixOf (c :: cs) = false)
    (h4 : "BinData(".data.isPrefixOf (c :: cs) = false) :
    ReplaceAllString reObjectId repl (c :: cs) = c :: ReplaceAllString reObjectId repl cs := by
  apply ReplaceAllString_cons_byte reObjectId repl matchAt_reObjectId_cont c cs
  apply matchAt_reObjectId_none _ _ h2 _ h4
  · exact not_prefix_of_head _ cs c (by decide) (by simpa using fun e => hc e.symm)
  · exact not_prefix_of_head _ cs c (by decide) (by simpa using fun e => hc e.symm)

/-- The pattern of `ObjectId` does not match at a space after which neither `ObjectId('`
nor `Timestamp(` starts. -/
theorem replaceObjectId_space (repl : Caps → GoString) (cs : GoString)
    (h : noSpecialAhead cs = true) :
    ReplaceAllString reObjectId repl (' ' :: cs) =
      ' ' :: ReplaceAllString reObjectId repl cs := by
  simp only [noSpecialAhead, Bool.and_eq_true, Bool.not_eq_true'] at h
  apply ReplaceAllString_cons_byte reObjectId repl matchAt_reObjectId_cont ' ' cs
  apply matchAt_reObjectId_none
  · show (' ' == ' ' && "ObjectId('".data.isPrefixOf cs) = false
    rw [h.1]; rfl
  · rfl
  · show (' ' == ' ' && "Timestamp(".data.isPrefixOf cs) = false
    rw [h.2]; rfl
  · rfl

theorem noSpecialAhead_of_sync (x z : GoString)
    (hsync : ∀ m, rigid m = true → m.isPrefixOf z = true → m.isPrefixOf x = true)
    (h : noSpecialAhead x = true) : noSpecialAhead z = true := by
  simp only [noSpecialAhead, Bool.and_eq_true, Bool.not_eq_true'] at h ⊢
  exact ⟨bool_false_of_imp (hsync _ (by decide)) h.1, bool_false_of_imp (hsync _ (by decide)) h.2⟩

theorem canonForm_valueEnds (x z o y w : GoString) (h : CanonForm x z o y w)
    (hx : valueEnds x = true) : valueEnds z = true := by
  cases h with
  | nil => rfl
  | byte c x z o y w hc h =>
    have := (canonForm_head _ _ _ _ _ h).1
    simp only [valueEnds] at hx ⊢
    rw [this]
    exact hx
  | space x z o y w hx2 hs h => rfl
  | spaceBrace x z o y w h => rfl
  | brace x z o y w hx2 h => simp [valueEnds] at hx
  | braceSpace x z o y w hx2 hs h => simp [valueEnds] at hx
  | colon x z o y w hx2 h => simp [valueEnds] at hx
  | leaf u x z o y w hu h => simp [valueEnds] at hx
  | objectId s x z o y w hne hs hx2 h => simp [valueEnds] at hx
  | timestamp a b x z o y w hane hbne ha hb h => simp [valueEnds] at hx

theorem suffix_tail (P : GoString → Prop) (c : Char) (s : GoString)
    (h : ∀ t, t <:+ c :: s → P t) : ∀ t, t <:+ s → P t :=
  fun t ht => h t (List.suffix_cons_iff.mpr (Or.inr ht))

theorem suffix_right (P : GoString → Prop) (a s : GoString)
    (h : ∀ t, t <:+ a ++ s → P t) : ∀ t, t <:+ s → P t :=
  fun t ht => h t (ht.trans (List.suffix_append _ _))

/-- The step of `ObjectId` and `Timestamp` turns `z` into `o` when `z` holds neither
`UUID("` nor `BinData(`. -/
theorem canonForm_objectId (x z o y w : GoString) (h : CanonForm x z o y w)
    (hU : ∀ t, t <:+ z → "UUID(\"".data.isPrefixOf t = false)
    (hB : ∀ t, t <:+ z → "BinData(".data.isPrefixOf t = false) :
    ReplaceAllString reObjectId (fun _ => "1".data) z = o := by
  induction h with
  | nil => rfl
  | byte c x z o y w hc h ih =>
    rw [replaceObjectId_byte _ c z hc.2.1 (hU _ (List.suffix_refl _))
      (hB _ (List.suffix_refl _)), ih (suffix_tail _ c z hU) (suffix_tail _ c z hB)]
  | space x z o y w hx hs h ih =>
    rw [replaceObjectId_space _ z
      (noSpecialAhead_of_sync x z (canonForm_sync _ _ _ _ _ h).2.1 hs),
      ih (suffix_tail _ _ z hU) (suffix_tail _ _ z hB)]
  | spaceBrace x z o y w h ih =>
    have hn : noSpecialAhead ('}' :: z) = true := rfl
    rw [replaceObjectId_space _ _ hn, replaceObjectId_byte _ '}' z (by decide) rfl rfl,
      ih (suffix_tail _ _ z (suffix_tail _ _ _ hU)) (suffix_tail _ _ z (suffix_tail _ _ _ hB))]
  | brace x z o y w hx h ih =>
    rw [replaceObjectId_byte _ '{' z (by decide) rfl rfl,
      ih (suffix_tail _ _ z hU) (suffix_tail _ _ z hB)]
  | braceSpace x z o y w hx hs h ih =>
    rw [replaceObjectId_byte _ '{' _ (by decide) rfl rfl, replaceObjectId_space _ z
      (noSpecialAhead_of_sync x z (canonForm_sync _ _ _ _ _ h).2.1 hs),
      ih (suffix_tail _ _ z (suffix_tail _ _ _ hU)) (suffix_tail _ _ z (suffix_tail _ _ _ hB))]
  | colon x z o y w hx h ih =>
    rw [replaceObjectId_byte _ ':' z (by decide) rfl rfl,
      ih (suffix_tail _ _ z hU) (suffix_tail _ _ z hB)]
  | leaf u x z o y w hu h ih =>
    show ReplaceAllString reObjectId _ (':' :: '1' :: z) = ':' :: '1' :: o
    rw [replaceObjectId_byte _ ':' _ (by decide) rfl rfl,
      replaceObjectId_byte _ '1' z (by decide) rfl rfl,
      ih (suffix_tail _ _ z (suffix_tail _ _ _ hU)) (suffix_tail _ _ z (suffix_tail _ _ _ hB))]
  | objectId s x z o y w hne hs hx h ih =>
    cases s with
    | nil => exact absurd rfl hne
    | cons a s =>
      obtain ⟨caps, hm⟩ := matchAt_reObjectId_objectId a s z (fun c hc => (hs c hc).1)
        (canonForm_valueEnds _ _ _ _ _ h hx)
      have e : ':' :: (" ObjectId('".data ++ (a :: s) ++ "')".data ++ z) =
          (':' :: (" ObjectId('".data ++ (a :: s) ++ "')".data)) ++ z := by simp
      have hU2 := suffix_right _ _ z (e ▸ hU)
      have hB2 := suffix_right _ _ z (e ▸ hB)
      rw [replaceObjectId_byte _ ':' _ (by decide) rfl rfl]
      show ':' :: ReplaceAllString reObjectId _
        (' ' :: ("ObjectId('".data ++ (a :: s) ++ "')".data ++ z)) = _
      rw [ReplaceAllString_match _ _ _ _ _ _ hm
        (by simp only [List.length_cons, List.length_append]; omega), ih hU2 hB2]
      rfl
  | timestamp a b x z o y w hane hbne ha hb h ih =>
    cases a with
    | nil => exact absurd rfl hane
    | cons d a =>
      cases b with
      | nil => exact absurd rfl hbne
      | cons e b =>
        obtain ⟨caps, hm⟩ := matchAt_reObjectId_timestamp d e a b z
          (ha d (List.mem_cons_self _ _)) (hb e (List.mem_cons_self _ _))
          (fun c hc => ha c (List.mem_cons_of_mem _ hc))
          (fun c hc => hb c (List.mem_cons_of_mem _ hc))
        have e2 : ':' :: (" Timestamp(".data ++ (d :: a) ++ ", ".data ++ (e :: b) ++ ")".data
            ++ z) =
            (':' :: (" Timestamp(".data ++ (d :: a) ++ ", ".data ++ (e :: b) ++ ")".data))
              ++ z := by simp
        have hU2 := suffix_right _ _ z (e2 ▸ hU)
        have hB2 := suffix_right _ _ z (e2 ▸ hB)
        rw [replaceObjectId_byte _ ':' _ (by decide) rfl rfl]
        show ':' :: ReplaceAllString reObjectId _
          (' ' :: ("Timestamp(".data ++ (d :: a) ++ ", ".data ++ (e :: b) ++ ")".data ++ z)) = _
        rw [ReplaceAllString_match _ _ _ _ _ _ hm
          (by simp only [List.length_cons, List.length_append]; omega), ih hU2 hB2]
        rfl

theorem Replace_cons_other (old new : GoString) (c : Char) (cs : GoString)
    (h : old.isPrefixOf (c :: cs) = false) :
    Replace (c :: cs) old new = c :: Replace cs old new := by
  unfold Replace
  rw [ReplaceAux]
  simp only [h, Bool.false_eq_true, if_false]

theorem Replace_pair (a b : Char) (new cs : GoString) :
    Replace (a :: b :: cs) [a, b] new = new ++ Replace cs [a, b] new := by
  unfold Replace
  rw [ReplaceAux]
  simp only [List.isPrefixOf, beq_self_eq_true, Bool.and_self, if_true, List.length_cons,
    List.length_nil, Nat.reduceAdd, Nat.add_one_sub_one, Bool.true_and]
  rw [ReplaceAux]

theorem pair_not_at_head (a b : Char) (s : GoString) (h : s.head? ≠ some b) :
    [a, b].isPrefixOf (a :: s) = false := by
  cases s with
  | nil => simp [List.isPrefixOf]
  | cons c s =>
    simp only [List.head?_cons, ne_eq, Option.some.injEq] at h
    have : (b == c) = false := by simpa using fun e => h e.symm
    simp [List.isPrefixOf, this]

theorem pair_not_at_first (a b c : Char) (s : GoString) (h : a ≠ c) :
    [a, b].isPrefixOf (c :: s) = false := by
  have : (a == c) = false := by simpa using h
  simp [List.isPrefixOf, this]

/-- The replacement of `{ ` by `{` turns `o` into `y`. -/
theorem canonForm_replaceOpen (x z o y w : GoString) (h : CanonForm x z o y w) :
    Replace o "\x7b ".data "\x7b".data = y := by
  have one : ∀ o y : GoString, Replace o "\x7b ".data "\x7b".data = y →
      Replace (":1".data ++ o) "\x7b ".data "\x7b".data = ":1".data ++ y := by
    intro o y ih
    show Replace (':' :: '1' :: o) _ _ = ':' :: '1' :: y
    rw [Replace_cons_other _ _ _ _ (pair_not_at_first '{' ' ' ':' _ (by decide)),
      Replace_cons_other _ _ _ _ (pair_not_at_first '{' ' ' '1' o (by decide)), ih]
  induction h with
  | nil => rfl
  | byte c x z o y w hc h ih =>
    rw [Replace_cons_other _ _ _ _ (pair_not_at_first '{' ' ' c o (Ne.symm hc.2.2)), ih]
  | space x z o y w hx hs h ih =>
    rw [Replace_cons_other _ _ _ _ (pair_not_at_first '{' ' ' ' ' o (by decide)), ih]
  | spaceBrace x z o y w h ih =>
    rw [Replace_cons_other _ _ _ _ (pair_not_at_first '{' ' ' ' ' _ (by decide)),
      Replace_cons_other _ _ _ _ (pair_not_at_first '{' ' ' '}' o (by decide)), ih]
  | brace x z o y w hx h ih =>
    have hz : o.head? ≠ some ' ' := by rw [(canonForm_head _ _ _ _ _ h).2.1]; exact hx
    rw [Replace_cons_other _ _ _ _ (pair_not_at_head '{' ' ' o hz), ih]
  | braceSpace x z o y w hx hs h ih =>
    show Replace ('{' :: ' ' :: o) ['{', ' '] ['{'] = '{' :: y
    rw [Replace_pair, ih]
    rfl
  | colon x z o y w hx h ih =>
    rw [Replace_cons_other _ _ _ _ (pair_not_at_first '{' ' ' ':' o (by decide)), ih]
  | leaf u x z o y w hu h ih => exact one o y ih
  | objectId s x z o y w hne hs hx h ih => exact one o y ih
  | timestamp a b x z o y w hane hbne ha hb h ih => exact one o y ih

/-- The replacement of ` }` by `}` turns `y` into `w`. -/
theorem canonForm_replaceClose (x z o y w : GoString) (h : CanonForm x z o y w) :
    Replace y " \x7d".data "\x7d".data = w := by
  have one : ∀ y w : GoString, Replace y " \x7d".data "\x7d".data = w →
      Replace (":1".data ++ y) " \x7d".data "\x7d".data = ":1".data ++ w := by
    intro y w ih
    show Replace (':' :: '1' :: y) _ _ = ':' :: '1' :: w
    rw [Replace_cons_other _ _ _ _ (pair_not_at_first ' ' '}' ':' _ (by decide)),
      Replace_cons_other _ _ _ _ (pair_not_at_first ' ' '}' '1' y (by decide)), ih]
  induction h with
  | nil => rfl
  | byte c x z o y w hc h ih =>
    rw [Replace_cons_other _ _ _ _ (pair_not_at_first ' ' '}' c y (Ne.symm hc.2.1)), ih]
  | space x z o y w hx hs h ih =>
    have hy : y.head? ≠ some '}' := by rw [(canonForm_head _ _ _ _ _ h).2.2.1]; exact hx.2
    rw [Replace_cons_other _ _ _ _ (pair_not_at_head ' ' '}' y hy), ih]
  | spaceBrace x z o y w h ih =>
    show Replace (' ' :: '}' :: y) [' ', '}'] ['}'] = '}' :: w
    rw [Replace_pair, ih]
    rfl
  | brace x z o y w hx h ih =>
    rw [Replace_cons_other _ _ _ _ (pair_not_at_first ' ' '}' '{' y (by decide)), ih]
  | braceSpace x z o y w hx hs h ih =>
    rw [Replace_cons_other _ _ _ _ (pair_not_at_first ' ' '}' '{' y (by decide)), ih]
  | colon x z o y w hx h ih =>
    rw [Replace_cons_other _ _ _ _ (pair_not_at_first ' ' '}' ':' y (by decide)), ih]
  | leaf u x z o y w hu h ih => exact one y w ih
  | objectId s x z o y w hne hs hx h ih => exact one y w ih
  | timestamp a b x z o y w hane hbne ha hb h ih => exact one y w ih

/-! ## The canonical form is settled -/

theorem literalAhead_iff (s : GoString) :
    literalAhead s = true ↔
      (" \"".data.isPrefixOf s = true ∨
        (∃ d : Char, d.isDigit = true ∧ [' ', d].isPrefixOf s = true) ∨
        (∃ d : Char, d.isDigit = true ∧ [' ', '-', d].isPrefixOf s = true) ∨
        " new Date(".data.isPrefixOf s = true ∨ " true".data.isPrefixOf s = true ∨
        " false".data.isPrefixOf s = true) := by
  cases s with
  | nil => simp [literalAhead, List.isPrefixOf]
  | cons c r =>
    by_cases hc : c = ' '
    · subst hc
      have e1 : digitHead r = true ↔ ∃ d : Char, d.isDigit = true ∧ [' ', d].isPrefixOf (' ' :: r) = true := by
        cases r with
        | nil => simp [digitHead, List.isPrefixOf]
        | cons a r =>
          simp only [digitHead, isPrefixOf_cons_cons, beq_self_eq_true, Bool.true_and,
            Bool.and_eq_true, beq_iff_eq]
          constructor
          · intro h; exact ⟨a, h, rfl, by simp [List.isPrefixOf]⟩
          · rintro ⟨d, hd, e, _⟩; rw [← e]; exact hd
      have e2 : ("-".data.isPrefixOf r && digitHead (r.drop 1)) = true ↔
          ∃ d : Char, d.isDigit = true ∧ [' ', '-', d].isPrefixOf (' ' :: r) = true := by
        cases r with
        | nil => simp [List.isPrefixOf]
        | cons a r =>
          cases r with
          | nil => simp [List.isPrefixOf, digitHead]
          | cons b r =>
            simp only [isPrefixOf_cons_cons, List.drop_succ_cons, List.drop_zero, digitHead,
              beq_self_eq_true, Bool.true_and, Bool.and_eq_true, beq_iff_eq]
            constructor
            · rintro ⟨⟨h1, _⟩, h2⟩; exact ⟨b, h2, h1, rfl, by simp [List.isPrefixOf]⟩
            · rintro ⟨d, hd, h1, e, _⟩; rw [← e]; exact ⟨⟨h1, by simp [List.isPrefixOf]⟩, hd⟩
      simp only [literalAhead, beq_self_eq_true, Bool.true_and, Bool.or_eq_true]
      rw [e1, e2]
      simp only [isPrefixOf_cons_cons, beq_self_eq_true, Bool.true_and, or_assoc]
    · have hb : (c == ' ') = false := by simpa using hc
      have hb2 : (' ' == c) = false := by simpa using fun e => hc e.symm
      simp [literalAhead, hb, isPrefixOf_cons_cons, hb2]

theorem rigid_space_digit (d : Char) (hd : d.isDigit = true) :
    rigid [' ', d] = true ∧ rigid [' ', '-', d] = true := by
  have h1 : d ≠ '{' := fun e => by rw [e] at hd; revert hd; decide
  have h2 : d ≠ '}' := fun e => by rw [e] at hd; revert hd; decide
  simp [rigid, h1, h2]

/-- No literal can start at the head of the last image when none can at the head of
`x`. -/
theorem canonForm_literalAhead (x z o y w : GoString) (h : CanonForm x z o y w)
    (hx : literalAhead x = false) : literalAhead w = false := by
  have P := (canonForm_sync x z o y w h).1
  cases hw : literalAhead w with
  | false => rfl
  | true =>
    have hxt : literalAhead x = true := by
      rw [literalAhead_iff] at hw ⊢
      rcases hw with hw | ⟨d, hd, hw⟩ | ⟨d, hd, hw⟩ | hw | hw | hw
      · exact Or.inl (P _ (by decide) hw)
      · exact Or.inr (Or.inl ⟨d, hd, P _ (rigid_space_digit d hd).1 hw⟩)
      · exact Or.inr (Or.inr (Or.inl ⟨d, hd, P _ (rigid_space_digit d hd).2 hw⟩))
      · exact Or.inr (Or.inr (Or.inr (Or.inl (P _ (by decide) hw))))
      · exact Or.inr (Or.inr (Or.inr (Or.inr (Or.inl (P _ (by decide) hw)))))
      · exact Or.inr (Or.inr (Or.inr (Or.inr (Or.inr (P _ (by decide) hw)))))
    rw [hx] at hxt
    cases hxt

theorem special_not_at_first (c : Char) (s : GoString) (hc : c ≠ ' ') :
    " ObjectId('".data.isPrefixOf (c :: s) = false ∧
      " Timestamp(".data.isPrefixOf (c :: s) = false :=
  ⟨not_prefix_of_head _ s c (by decide) (by simpa using fun e => hc e.symm),
    not_prefix_of_head _ s c (by decide) (by simpa using fun e => hc e.symm)⟩

theorem special_not_after_space (s : GoString) (h : noSpecialAhead s = true) :
    " ObjectId('".data.isPrefixOf (' ' :: s) = false ∧
      " Timestamp(".data.isPrefixOf (' ' :: s) = false := by
  simp only [noSpecialAhead, Bool.and_eq_true, Bool.not_eq_true'] at h
  constructor
  · show (' ' == ' ' && "ObjectId('".data.isPrefixOf s) = false
    rw [h.1]; rfl
  · show (' ' == ' ' && "Timestamp(".data.isPrefixOf s) = false
    rw [h.2]; rfl

/-- The literal pattern matches nowhere in the last image, which holds neither `{ `
nor ` }`, and neither ` ObjectId('` nor ` Timestamp(`. -/
theorem canonForm_settled (x z o y w : GoString) (h : CanonForm x z o y w) :
    (∀ t, t <:+ w → matchAt reLiteral t = none) ∧
    (∀ t, t <:+ w → "\x7b ".data.isPrefixOf t = false) ∧
    (∀ t, t <:+ w → " \x7d".data.isPrefixOf t = false) ∧
    (∀ t, t <:+ w → " ObjectId('".data.isPrefixOf t = false ∧
      " Timestamp(".data.isPrefixOf t = false) := by
  have one : ∀ w : GoString,
      ((∀ t, t <:+ w → matchAt reLiteral t = none) ∧
      (∀ t, t <:+ w → "\x7b ".data.isPrefixOf t = false) ∧
      (∀ t, t <:+ w → " \x7d".data.isPrefixOf t = false) ∧
      (∀ t, t <:+ w → " ObjectId('".data.isPrefixOf t = false ∧
        " Timestamp(".data.isPrefixOf t = false)) →
      ((∀ t, t <:+ ":1".data ++ w → matchAt reLiteral t = none) ∧
      (∀ t, t <:+ ":1".data ++ w → "\x7b ".data.isPrefixOf t = false) ∧
      (∀ t, t <:+ ":1".data ++ w → " \x7d".data.isPrefixOf t = false) ∧
      (∀ t, t <:+ ":1".data ++ w → " ObjectId('".data.isPrefixOf t = false ∧
        " Timestamp(".data.isPrefixOf t = false)) := by
    intro w ih
    refine ⟨suffix_cases ':' ('1' :: w) ?_ (suffix_cases '1' w ?_ ih.1),
      suffix_cases ':' ('1' :: w) ?_ (suffix_cases '1' w ?_ ih.2.1),
      suffix_cases ':' ('1' :: w) ?_ (suffix_cases '1' w ?_ ih.2.2.1),
      suffix_cases ':' ('1' :: w) ?_ (suffix_cases '1' w ?_ ih.2.2.2)⟩
    · exact matchAt_reLiteral_none _ (by simp [literalAhead])
    · exact matchAt_reLiteral_of_ne_colon '1' w (by decide)
    · exact pair_not_at_first '{' ' ' ':' _ (by decide)
    · exact pair_not_at_first '{' ' ' '1' w (by decide)
    · exact pair_not_at_first ' ' '}' ':' _ (by decide)
    · exact pair_not_at_first ' ' '}' '1' w (by decide)
    · exact special_not_at_first ':' _ (by decide)
    · exact special_not_at_first '1' w (by decide)
  induction h with
  | nil =>
    refine ⟨?_, ?_, ?_, ?_⟩ <;>
    · intro t ht
      have : t = [] := List.eq_nil_of_suffix_nil ht
      subst this
      first | rfl | exact ⟨rfl, rfl⟩
  | byte c x z o y w hc h ih =>
    refine ⟨suffix_cases c w ?_ ih.1, suffix_cases c w ?_ ih.2.1, suffix_cases c w ?_ ih.2.2.1,
      suffix_cases c w ?_ ih.2.2.2⟩
    · exact matchAt_reLiteral_of_ne_colon c w (Ne.symm hc.1)
    · exact pair_not_at_first '{' ' ' c w (Ne.symm hc.2.2)
    · exact pair_not_at_first ' ' '}' c w (Ne.symm hc.2.1)
    · exact special_not_at_first c w hc.2.1
  | space x z o y w hx hs h ih =>
    refine ⟨suffix_cases _ w ?_ ih.1, suffix_cases _ w ?_ ih.2.1, suffix_cases _ w ?_ ih.2.2.1,
      suffix_cases _ w ?_ ih.2.2.2⟩
    · exact matchAt_reLiteral_of_ne_colon ' ' w (by decide)
    · exact pair_not_at_first '{' ' ' ' ' w (by decide)
    · apply pair_not_at_head
      rw [(canonForm_head _ _ _ _ _ h).2.2.2 hx.1]
      exact hx.2
    · exact special_not_after_space w
        (noSpecialAhead_of_sync x w (canonForm_sync _ _ _ _ _ h).1 hs)
  | spaceBrace x z o y w h ih =>
    refine ⟨suffix_cases _ w ?_ ih.1, suffix_cases _ w ?_ ih.2.1, suffix_cases _ w ?_ ih.2.2.1,
      suffix_cases _ w ?_ ih.2.2.2⟩
    · exact matchAt_reLiteral_of_ne_colon '}' w (by decide)
    · exact pair_not_at_first '{' ' ' '}' w (by decide)
    · exact pair_not_at_first ' ' '}' '}' w (by decide)
    · exact special_not_at_first '}' w (by decide)
  | brace x z o y w hx h ih =>
    refine ⟨suffix_cases _ w ?_ ih.1, suffix_cases _ w ?_ ih.2.1, suffix_cases _ w ?_ ih.2.2.1,
      suffix_cases _ w ?_ ih.2.2.2⟩
    · exact matchAt_reLiteral_of_ne_colon '{' w (by decide)
    · apply pair_not_at_head
      rw [(canonForm_head _ _ _ _ _ h).2.2.2 hx]
      exact hx
    · exact pair_not_at_first ' ' '}' '{' w (by decide)
    · exact special_not_at_first '{' w (by decide)
  | braceSpace x z o y w hx hs h ih =>
    refine ⟨suffix_cases _ w ?_ ih.1, suffix_cases _ w ?_ ih.2.1, suffix_cases _ w ?_ ih.2.2.1,
      suffix_cases _ w ?_ ih.2.2.2⟩
    · exact matchAt_reLiteral_of_ne_colon '{' w (by decide)
    · apply pair_not_at_head
      rw [(canonForm_head _ _ _ _ _ h).2.2.2 hx]
      exact hx
    · exact pair_not_at_first ' ' '}' '{' w (by decide)
    · exact special_not_at_first '{' w (by decide)
  | colon x z o y w hx h ih =>
    refine ⟨suffix_cases _ w ?_ ih.1, suffix_cases _ w ?_ ih.2.1, suffix_cases _ w ?_ ih.2.2.1,
      suffix_cases _ w ?_ ih.2.2.2⟩
    · exact matchAt_reLiteral_none w (canonForm_literalAhead _ _ _ _ _ h hx)
    · exact pair_not_at_first '{' ' ' ':' w (by decide)
    · exact pair_not_at_first ' ' '}' ':' w (by decide)
    · exact special_not_at_first ':' w (by decide)
  | leaf u x z o y w hu h ih => exact one w ih
  | objectId s x z o y w hne hs hx h ih => exact one w ih
  | timestamp a b x z o y w hane hbne ha hb h ih => exact one w ih

theorem isPrefixOf_append_false (p q t : GoString) (h : p.isPrefixOf t = false) :
    (p ++ q).isPrefixOf t = false := by
  cases hq : (p ++ q).isPrefixOf t with
  | false => rfl
  | true =>
    have h1 := List.isPrefixOf_iff_prefix.mp hq
    have h2 : p <+: t := (List.prefix_append p q).trans h1
    rw [List.isPrefixOf_iff_prefix.mpr h2] at h
    cases h

theorem specialTexts_rigid :
    ∀ m ∈ specialTexts, rigid m = true ∧ m ≠ [] ∧ m.head? ≠ some '1' := by
  decide

/-- The cascade on a filter in canonical form: the result is the last image, and the
cascade leaves the last image as it is. -/
theorem canonForm_canonicalize (x z o y w : GoString) (h : CanonForm x z o y w)
    (hre : contains x "\x7b $regex: ".data = false)
    (hsp : ∀ m ∈ specialTexts, contains x m = false) :
    canonicalize x = w ∧ canonicalize w = w := by
  have habs : ∀ m ∈ specialTexts,
      (∀ t, t <:+ w → m.isPrefixOf t = false) ∧ (∀ t, t <:+ z → m.isPrefixOf t = false) ∧
        (∀ t, t <:+ o → m.isPrefixOf t = false) := by
    intro m hm
    obtain ⟨h1, h2, h3⟩ := specialTexts_rigid m hm
    exact canonForm_absent x z o y w h m h1 h2 h3
      ((Index_none_iff x m h2).mp (Index_of_not_contains _ _ (hsp m hm)))
  obtain ⟨s1, s2, s3, s4⟩ := canonForm_settled x z o y w h
  have hzS : ReplaceAllString reShardVersion (fun _ => []) z = z :=
    replaceAllAux_of_noMatch _ _ _ _ (fun t ht =>
      matchAt_reShardVersion_none t ((habs _ (by simp [specialTexts])).2.1 t ht))
  have hzO := canonForm_objectId x z o y w h (habs _ (by simp [specialTexts])).2.1
    (habs _ (by simp [specialTexts])).2.1
  have hoR : ReplaceAllString reRegexLiteral
      (fun caps => ": /regex/".data ++ group caps 2 ++ "\x7d".data) o = o :=
    replaceAllAux_of_noMatch _ _ _ _ (fun t ht =>
      matchAt_reRegexLiteral_none t ((habs _ (by simp [specialTexts])).2.2 t ht))
  have hwS : ReplaceAllString reShardVersion (fun _ => []) w = w :=
    replaceAllAux_of_noMatch _ _ _ _ (fun t ht =>
      matchAt_reShardVersion_none t ((habs _ (by simp [specialTexts])).1 t ht))
  have hwO : ReplaceAllString reObjectId (fun _ => "1".data) w = w :=
    replaceAllAux_of_noMatch _ _ _ _ (fun t ht =>
      matchAt_reObjectId_none t (s4 t ht).1 ((habs _ (by simp [specialTexts])).1 t ht)
        (s4 t ht).2 ((habs _ (by simp [specialTexts])).1 t ht))
  have hwR : ReplaceAllString reRegexLiteral
      (fun caps => ": /regex/".data ++ group caps 2 ++ "\x7d".data) w = w :=
    replaceAllAux_of_noMatch _ _ _ _ (fun t ht =>
      matchAt_reRegexLiteral_none t ((habs _ (by simp [specialTexts])).1 t ht))
  have hx1 : Index x "$in: [ ".data = none :=
    Index_of_not_contains _ _ (hsp _ (by simp [specialTexts]))
  have hx2 : Index x "$nin: [ ".data = none :=
    Index_of_not_contains _ _ (hsp _ (by simp [specialTexts]))
  have hx3 : Index x "\x7b $regex: ".data = none := Index_of_not_contains _ _ hre
  have hw1 : Index w "$in: [ ".data = none :=
    (Index_none_iff w _ (by decide)).mpr (habs _ (by simp [specialTexts])).1
  have hw2 : Index w "$nin: [ ".data = none :=
    (Index_none_iff w _ (by decide)).mpr (habs _ (by simp [specialTexts])).1
  have hw3 : Index w "\x7b $regex: ".data = none :=
    (Index_none_iff w _ (by decide)).mpr
      (fun t ht => isPrefixOf_append_false "\x7b ".data "$regex: ".data t (s2 t ht))
  have hw4 : Index w "\x7b ".data = none := (Index_none_iff w _ (by decide)).mpr s2
  have hw5 : Index w " \x7d".data = none := (Index_none_iff w _ (by decide)).mpr s3
  have hwl : ReplaceAllString reLiteral (fun _ => ":1".data) w = w :=
    replaceAllAux_of_noMatch _ _ _ _ s1
  constructor
  · unfold canonicalize
    simp only [removeInElements_of_none x _ hx1, removeInElements_of_none x _ hx2,
      collapseRegex_of_none x hx3, canonForm_literal x z o y w h, hzS, hzO, hoR,
      canonForm_replaceOpen x z o y w h, canonForm_replaceClose x z o y w h]
  · unfold canonicalize
    simp only [removeInElements_of_none w _ hw1, removeInElements_of_none w _ hw2,
      collapseRegex_of_none w hw3, hwl, hwS, hwO, hwR,
      Replace_of_none w _ _ hw4, Replace_of_none w _ _ hw5]

/-- C5, amended. `canonicalize(canonicalize(x)) = canonicalize(x)` for every filter `x` in
canonical form (a space is followed by neither a space nor, unless the two go together, a
`}`; a `{` is followed by at most one space; after each `: ` comes a literal leaf, an
`ObjectId('...')`, a `Timestamp(n, n)`, or a text that cannot start a literal; and
`ObjectId('` and `Timestamp(` follow a space only there) that contains neither
`{ $regex: ` nor one of the special texts `$in: [ `, `$nin: [ `, `, shardVersion: [`,
`UUID("`, `BinData(`, `: /`: the cascade turns `x` into its last image `w`, and `w` into
itself. -/
theorem C5_idempotent_canonForm (x z o y w : GoString) (h : CanonForm x z o y w)
    (hre : contains x "\x7b $regex: ".data = false)
    (hsp : ∀ m ∈ specialTexts, contains x m = false) :
    canonicalize x = w ∧ canonicalize (canonicalize x) = canonicalize x := by
  obtain ⟨h1, h2⟩ := canonForm_canonicalize x z o y w h hre hsp
  refine ⟨h1, ?_⟩
  rw [h1, h2]

theorem canonForm_objectIdFilter :
    CanonForm objectIdFilter
      "\x7b _id: ObjectId('5f1a'), ts: Timestamp(1, 2), name:1 \x7d".data
      "\x7b _id:1, ts:1, name:1 \x7d".data
      "\x7b_id:1, ts:1, name:1 \x7d".data
      "\x7b_id:1, ts:1, name:1\x7d".data := by
  show CanonForm ('{' :: ' ' :: '_' :: 'i' :: 'd' ::
      (':' :: (" ObjectId('".data ++ "5f1a".data ++ "')".data ++
        ", ts: Timestamp(1, 2), name: \"alice\" \x7d".data)))
    ('{' :: ' ' :: '_' :: 'i' :: 'd' ::
      (':' :: (" ObjectId('".data ++ "5f1a".data ++ "')".data ++
        ", ts: Timestamp(1, 2), name:1 \x7d".data)))
    ('{' :: ' ' :: '_' :: 'i' :: 'd' :: (":1".data ++ ", ts:1, name:1 \x7d".data))
    ('{' :: '_' :: 'i' :: 'd' :: (":1".data ++ ", ts:1, name:1 \x7d".data))
    ('{' :: '_' :: 'i' :: 'd' :: (":1".data ++ ", ts:1, name:1\x7d".data))
  apply CanonForm.braceSpace _ _ _ _ _ (by decide) (by decide)
  iterate 3 apply CanonForm.byte _ _ _ _ _ _ (by decide)
  refine CanonForm.objectId "5f1a".data _ _ _ _ _ (by decide) (by decide) (by decide) ?_
  show CanonForm (',' :: ' ' :: 't' :: 's' ::
      (':' :: (" Timestamp(".data ++ "1".data ++ ", ".data ++ "2".data ++ ")".data ++
        ", name: \"alice\" \x7d".data)))
    (',' :: ' ' :: 't' :: 's' ::
      (':' :: (" Timestamp(".data ++ "1".data ++ ", ".data ++ "2".data ++ ")".data ++
        ", name:1 \x7d".data)))
    (',' :: ' ' :: 't' :: 's' :: (":1".data ++ ", name:1 \x7d".data))
    (',' :: ' ' :: 't' :: 's' :: (":1".data ++ ", name:1 \x7d".data))
    (',' :: ' ' :: 't' :: 's' :: (":1".data ++ ", name:1\x7d".data))
  apply CanonForm.byte _ _ _ _ _ _ (by decide)
  apply CanonForm.space _ _ _ _ _ (by decide) (by decide)
  iterate 2 apply CanonForm.byte _ _ _ _ _ _ (by decide)
  refine CanonForm.timestamp "1".data "2".data _ _ _ _ _ (by decide) (by decide) (by decide)
    (by decide) ?_
  show CanonForm (',' :: ' ' :: 'n' :: 'a' :: 'm' :: 'e' ::
      (": ".data ++ "\"alice\"".data ++ " \x7d".data))
    (',' :: ' ' :: 'n' :: 'a' :: 'm' :: 'e' :: (":1".data ++ " \x7d".data))
    (',' :: ' ' :: 'n' :: 'a' :: 'm' :: 'e' :: (":1".data ++ " \x7d".data))
    (',' :: ' ' :: 'n' :: 'a' :: 'm' :: 'e' :: (":1".data ++ " \x7d".data))
    (',' :: ' ' :: 'n' :: 'a' :: 'm' :: 'e' :: (":1".data ++ "\x7d".data))
  apply CanonForm.byte _ _ _ _ _ _ (by decide)
  apply CanonForm.space _ _ _ _ _ (by decide) (by decide)
  iterate 4 apply CanonForm.byte _ _ _ _ _ _ (by decide)
  refine CanonForm.leaf _ _ _ _ _ _ (LeafAt.quoted "alice".data _ (by decide)) ?_
  show CanonForm [' ', '}'] [' ', '}'] [' ', '}'] [' ', '}'] ['}']
  apply CanonForm.spaceBrace
  exact CanonForm.nil

/-- C1, counterexample. Two accepted lines of one pattern, each of 9223372036854775807
ms: the entry has `Count = 2` and `TotalMilli = -2`, and the durations sum to
18446744073709551614. -/
theorem C1_counterexample :
    (Parse ratOps NewLogInfo overflowLines).OpsPatterns.map (fun d => (d.Count, d.TotalMilli)) =
        [(2, -2)] ∧
      ((acceptedLines false overflowLines).map (·.milli)).sum = 18446744073709551614 := by
  set_option maxRecDepth 100000 in decide

/-- C1, amended, at the two `find` lines of 50 ms and 150 ms: their entry has
`Count = 2`, `TotalMilli = 200` and `MaxMilli = 150`, and it is in `OpsPatterns`. -/
theorem C1_aggregate_witness :
    twoFindEntry ∈ (Parse ratOps NewLogInfo twoFindLines).OpsPatterns ∧
    ∃ k, OpsMap.get (parseLoop NewLogInfo twoFindLines).opsMap k = some twoFindEntry ∧
      linesOf k (acceptedLines NewLogInfo.collscan twoFindLines) ≠ [] ∧
      twoFindEntry.MaxMilli ∈
        (linesOf k (acceptedLines NewLogInfo.collscan twoFindLines)).map (·.milli) ∧
      (∀ x ∈ (linesOf k (acceptedLines NewLogInfo.collscan twoFindLines)).map (·.milli),
        x ≤ twoFindEntry.MaxMilli) ∧
      (((linesOf k (acceptedLines NewLogInfo.collscan twoFindLines)).length : Int) < 2 ^ 63 →
        ((linesOf k (acceptedLines NewLogInfo.collscan twoFindLines)).map (·.milli)).sum
          < 2 ^ 63 →
        twoFindEntry.Count = (linesOf k (acceptedLines NewLogInfo.collscan twoFindLines)).length ∧
        twoFindEntry.TotalMilli =
          ((linesOf k (acceptedLines NewLogInfo.collscan twoFindLines)).map (·.milli)).sum) := by
  have hd : twoFindEntry ∈ (Parse ratOps NewLogInfo twoFindLines).OpsPatterns := by
    set_option maxRecDepth 100000 in decide
  exact ⟨hd, C1_aggregate ratOps NewLogInfo twoFindLines twoFindEntry hd⟩

/-- C4, counterexample. Two `find` lines of two patterns, of 9007199254740992 ms and
9007199254740993 ms: the two quotients are the same `float64`, the sort leaves the two
entries in the order in which it receives them, whichever it is, and `OpsPatterns` has
the entry of 9007199254740992 ms before the entry of 9007199254740993 ms, whose
average is larger. -/
theorem C4_counterexample :
    (parseLoop NewLogInfo roundedLines).opsMap.map (·.2) = roundedEntries ∧
    (Parse float64Ops NewLogInfo roundedLines).OpsPatterns = roundedEntries ∧
    sortSlice (avgLess float64Ops) roundedEntries.reverse = roundedEntries.reverse ∧
    avgFloat64 9007199254740992 1 = avgFloat64 9007199254740993 1 ∧
    ¬ (Parse float64Ops NewLogInfo roundedLines).OpsPatterns.Pairwise (fun a b =>
        (a.TotalMilli : Rat) / (a.Count : Rat) ≥ (b.TotalMilli : Rat) / (b.Count : Rat)) := by
  have e : (Parse float64Ops NewLogInfo roundedLines).OpsPatterns = roundedEntries := by
    set_option maxRecDepth 100000 in decide
  refine ⟨by set_option maxRecDepth 100000 in decide, e,
    by set_option maxRecDepth 100000 in decide, by decide, ?_⟩
  rw [e]
  simp only [roundedEntries, List.pairwise_cons, List.mem_singleton, forall_eq]
  norm_num

/-- C4, amended, at two `find` lines of two patterns, of 50 ms and 150 ms: the entry of
150 ms comes first. -/
theorem C4_opsPatterns_sorted_float64_witness :
    twoPatternLines.length < 2 ^ 53 ∧
    ((acceptedLines NewLogInfo.collscan twoPatternLines).map (·.milli)).sum < 2 ^ 53 ∧
    (parseLoop NewLogInfo twoPatternLines).opsMap.map (·.2.TotalMilli) = [50, 150] ∧
    (Parse float64Ops NewLogInfo twoPatternLines).OpsPatterns.map (·.TotalMilli) = [150, 50] ∧
    ((Parse float64Ops NewLogInfo twoPatternLines).OpsPatterns.Perm
        ((parseLoop NewLogInfo twoPatternLines).opsMap.map (·.2)) ∧
      ((parseLoop NewLogInfo twoPatternLines).opsMap.map (·.1)).Nodup ∧
      (∀ k, k ∈ (parseLoop NewLogInfo twoPatternLines).opsMap.map (·.1) ↔
        ∃ l ∈ acceptedLines NewLogInfo.collscan twoPatternLines, l.key = k) ∧
      (∀ d ∈ (Parse float64Ops NewLogInfo twoPatternLines).OpsPatterns, 1 ≤ d.Count) ∧
      (Parse float64Ops NewLogInfo twoPatternLines).OpsPatterns.Pairwise (fun a b =>
        GoFloat64.gt (avgFloat64 b.TotalMilli b.Count) (avgFloat64 a.TotalMilli a.Count) =
          false) ∧
      (((acceptedLines NewLogInfo.collscan twoPatternLines).map (·.milli)).sum < 2 ^ 53 →
        (Parse float64Ops NewLogInfo twoPatternLines).OpsPatterns.Pairwise (fun a b =>
          (2 ^ 53 - 1) * (b.TotalMilli * a.Count) ≤ (2 ^ 53 + 1) * (a.TotalMilli * b.Count)))) :=
  ⟨by decide, by set_option maxRecDepth 100000 in decide,
    by set_option maxRecDepth 100000 in decide, by set_option maxRecDepth 100000 in decide,
    C4_opsPatterns_sorted_float64 NewLogInfo twoPatternLines (by decide)⟩

/-- C3, counterexample. Two accepted lines of 11000 ms and 12000 ms, in this order,
leave `SlowOps` in the order of the lines, which is not descending. -/
theorem C3_counterexample :
    ¬ List.Pairwise (fun a b : SlowOps => a.Milli ≥ b.Milli)
      (Parse ratOps NewLogInfo twoSlowLines).SlowOps := by
  set_option maxRecDepth 100000 in decide

/-- C3, the scenario of the twelve lines of 11000, 12000, ..., 22000 ms: `SlowOps`
holds 22000, 21000, ..., 13000. -/
theorem C3_slowOps_order_witness :
    (Parse ratOps (NewLogInfo.SetCollscan false) twelveSlowLines).SlowOps.map (·.Milli) =
      [22000, 21000, 20000, 19000, 18000, 17000, 16000, 15000, 14000, 13000] := by
  have hm : slowMillis (acceptedLines false twelveSlowLines) =
      [11000, 12000, 13000, 14000, 15000, 16000, 17000, 18000, 19000, 20000, 21000, 22000] := by
    set_option maxRecDepth 100000 in decide
  have h := (C3_slowOps_order ratOps false twelveSlowLines).1 (by rw [hm]; decide)
  rw [h.1, hm]
  decide

/-- C5, counterexample. Five filters whose canonical form is not canonical. `{ a:
UUID("x") }` gives `{a: 1}`, which gives `{a:1}`: the literal step runs before the step
that turns `UUID("x")` into `1`, and the pattern of `UUID` has no space in front, as
that of `ObjectId` has; `BinData` likewise. `{ a: - ObjectId('b') }` gives `{a: -1}`,
which gives `{a:1}`: the space in front of `ObjectId` goes with it. `{  a: 1 }`, with
two spaces after the brace, gives `{ a:1}`, which gives `{a:1}`: one replacement of `{ `
leaves a space. A filter with three `$in` lists has two of them elided at the first pass
and the third one at the second. -/
theorem C5_counterexample :
    canonicalize "\x7b a: UUID(\"x\") \x7d".data = "\x7ba: 1\x7d".data ∧
    canonicalize (canonicalize "\x7b a: UUID(\"x\") \x7d".data) = "\x7ba:1\x7d".data ∧
    canonicalize (canonicalize "\x7b a: UUID(\"x\") \x7d".data) ≠
      canonicalize "\x7b a: UUID(\"x\") \x7d".data ∧
    canonicalize "\x7b a: BinData(0, AAAA) \x7d".data = "\x7ba: 1\x7d".data ∧
    canonicalize "\x7b a: - ObjectId('b') \x7d".data = "\x7ba: -1\x7d".data ∧
    canonicalize "\x7ba: -1\x7d".data = "\x7ba:1\x7d".data ∧
    canonicalize "\x7b  a: 1 \x7d".data = "\x7b a:1\x7d".data ∧
    canonicalize "\x7b a:1\x7d".data = "\x7ba:1\x7d".data ∧
    canonicalize "\x7b $or: [ \x7b a: \x7b $in: [ 1 ] \x7d \x7d, \x7b b: \x7b $in: [ 2 ] \x7d \x7d, \x7b c: \x7b $in: [ 3 ] \x7d \x7d ] \x7d".data =
      "\x7b$or: [ \x7ba: \x7b$in: [... ]\x7d\x7d, \x7bb: \x7b$in: [... ]\x7d\x7d, \x7bc: \x7b$in: [ 3 ]\x7d\x7d ]\x7d".data ∧
    canonicalize "\x7b$or: [ \x7ba: \x7b$in: [... ]\x7d\x7d, \x7bb: \x7b$in: [... ]\x7d\x7d, \x7bc: \x7b$in: [ 3 ]\x7d\x7d ]\x7d".data =
      "\x7b$or: [ \x7ba: \x7b$in: [... ]\x7d\x7d, \x7bb: \x7b$in: [... ]\x7d\x7d, \x7bc: \x7b$in: [... ]\x7d\x7d ]\x7d".data := by
  refine ⟨?_, ?_, ?_, ?_, ?_, ?_, ?_, ?_, ?_, ?_⟩ <;> set_option maxRecDepth 100000 in decide

/-- C5, amended, at the filter `objectIdFilter`, `{ _id: ObjectId('5f1a'), ts:
Timestamp(1, 2), name: "alice" }`, whose canonical form is `{_id:1, ts:1, name:1}`. -/
theorem C5_idempotent_canonForm_witness :
    CanonForm objectIdFilter
      "\x7b _id: ObjectId('5f1a'), ts: Timestamp(1, 2), name:1 \x7d".data
      "\x7b _id:1, ts:1, name:1 \x7d".data
      "\x7b_id:1, ts:1, name:1 \x7d".data
      "\x7b_id:1, ts:1, name:1\x7d".data ∧
    contains objectIdFilter "\x7b $regex: ".data = false ∧
    (∀ m ∈ specialTexts, contains objectIdFilter m = false) ∧
    (canonicalize objectIdFilter = "\x7b_id:1, ts:1, name:1\x7d".data ∧
      canonicalize (canonicalize objectIdFilter) = canonicalize objectIdFilter) :=
  ⟨canonForm_objectIdFilter, by decide, by decide,
    C5_idempotent_canonForm _ _ _ _ _ canonForm_objectIdFilter (by decide) (by decide)⟩

/-- C6, counterexample. Four pairs of filters that differ only in the values of literal
leaves and are not merged. `{ a: "$in: [ " }` and `{ a: "" }`: the first step of the
cascade cuts the first one at the marker inside the string. `{ a: [ 1, 2 ] }` and
`{ a: [ 3, 4 ] }`: the elements of an array do not follow `: ` and stay. `{ a: "é", b: {
$in: [ 1, 2 ] } }` and `{ a: "e", b: { $in: [ 1, 2 ] } }`: the elision of the `$in` list
counts bytes in one place and runes in the other, and keeps the `2` after the rune of
two bytes. The `find` lines with `{ id: "\x7d" }` and `{ id: "x" }`: the extraction stops
at the brace inside the string, and `Parse` makes two entries. -/
theorem C6_counterexample :
    canonicalize "\x7b a: \"$in: [ \" \x7d".data = "\x7ba: \"$in: [...]".data ∧
    canonicalize "\x7b a: \"\" \x7d".data = "\x7ba:1\x7d".data ∧
    canonicalize "\x7b a: \"$in: [ \" \x7d".data ≠ canonicalize "\x7b a: \"\" \x7d".data ∧
    canonicalize "\x7b a: [ 1, 2 ] \x7d".data = "\x7ba: [ 1, 2 ]\x7d".data ∧
    canonicalize "\x7b a: [ 3, 4 ] \x7d".data = "\x7ba: [ 3, 4 ]\x7d".data ∧
    canonicalize "\x7b a: \"\xc3\xa9\", b: \x7b $in: [ 1, 2 ] \x7d \x7d".data =
      "\x7ba:1, b: \x7b$in: [...2 ]\x7d\x7d".data ∧
    canonicalize "\x7b a: \"e\", b: \x7b $in: [ 1, 2 ] \x7d \x7d".data =
      "\x7ba:1, b: \x7b$in: [... ]\x7d\x7d".data ∧
    extractedFilter (findFilterLine "\x7b id: \"\x7d\" \x7d".data "50".data) =
      some "\x7b id: \"\x7d".data ∧
    (Parse float64Ops NewLogInfo [findFilterLine "\x7b id: \"\x7d\" \x7d".data "50".data,
        findFilterLine "\x7b id: \"x\" \x7d".data "150".data]).OpsPatterns.map
      (fun d => (d.Filter, d.Count)) =
        [("\x7bid:1\x7d".data, 1), ("\x7bid: \"\x7d".data, 1)] := by
  refine ⟨?_, ?_, ?_, ?_, ?_, ?_, ?_, ?_, ?_⟩ <;> set_option maxRecDepth 100000 in decide

/-- C6, amended, at the filters `firstShapeFilter` and `secondShapeFilter`, which differ
in the values of three literal leaves: the two `find` lines with these filters make
one entry with `Count = 2`. -/
theorem C6_same_shape_same_pattern_witness :
    SameShape (elideLists firstShapeFilter) (elideLists secondShapeFilter) ∧
    extractedFilter (findFilterLine firstShapeFilter "50".data) = some firstShapeFilter ∧
    extractedFilter (findFilterLine secondShapeFilter "150".data) = some secondShapeFilter ∧
    (Parse ratOps NewLogInfo [findFilterLine firstShapeFilter "50".data,
        findFilterLine secondShapeFilter "150".data]).OpsPatterns.map
      (fun d => (d.Filter, d.Count)) =
        [("\x7bname:1, age:1, tags: \x7b$exists:1\x7d\x7d".data, 2)] ∧
    (canonicalize firstShapeFilter = canonicalize secondShapeFilter ∧
    (∀ (fl : FloatOps) (li : LogInfo) (lines : List GoString) (s t : GoString) (l m : OpLine),
      s ∈ lines → t ∈ lines →
      parseLine li.collscan s = some l → parseLine li.collscan t = some m →
      extractedFilter s = some firstShapeFilter → extractedFilter t = some secondShapeFilter →
      l.op = m.op → l.scan = m.scan →
      l.key = m.key ∧
      ∃ d ∈ (Parse fl li lines).OpsPatterns,
        OpsMap.get (parseLoop li lines).opsMap l.key = some d ∧
        l ∈ linesOf l.key (acceptedLines li.collscan lines) ∧
        m ∈ linesOf l.key (acceptedLines li.collscan lines)) ∧
    (∀ z : GoString, contains z "$in: [ ".data = false → contains z "$nin: [ ".data = false →
      contains z "\x7b $regex: ".data = false → elideLists z = z) ∧
    (∀ (neg : Bool) (digits : GoString), digits ≠ [] → (∀ c ∈ digits, c.isDigit = true) →
      canonicalize (leafFilter ((if neg then "-".data else []) ++ digits)) =
        "\x7bid:1\x7d".data)) :=
  have e1 : elideLists firstShapeFilter = firstShapeFilter := by
    set_option maxRecDepth 100000 in decide
  have e2 : elideLists secondShapeFilter = secondShapeFilter := by
    set_option maxRecDepth 100000 in decide
  have h : SameShape (elideLists firstShapeFilter) (elideLists secondShapeFilter) := by
    rw [e1, e2]
    exact sameShape_shapeFilters
  ⟨h, by set_option maxRecDepth 100000 in decide, by set_option maxRecDepth 100000 in decide,
    by set_option maxRecDepth 100000 in decide,
    C6_same_shape_same_pattern firstShapeFilter secondShapeFilter h⟩

/-- C12, counterexample. Two `find` lines with the same filter, the first on `db.a` and
the second on `db.b`: the second line is a hit on the entry of the first (`Count` is 2)
and the `Namespace` of the entry goes from `db.a` to `db.b`. -/
theorem C12_counterexample :
    (Parse ratOps NewLogInfo (twoNamespaceLines.take 1)).OpsPatterns.map
        (fun d => (d.Namespace, d.Count)) = [("db.a".data, 1)] ∧
      (Parse ratOps NewLogInfo twoNamespaceLines).OpsPatterns.map
        (fun d => (d.Namespace, d.Count)) = [("db.b".data, 2)] := by
  set_option maxRecDepth 100000 in decide

/-- C12, amended, at the two lines of `twoNamespaceLines`: the second line is a hit, the
entry becomes `find` on `db.b` with `Count = 2`, `TotalMilli = 200`, `MaxMilli = 150`. -/
theorem C12_hit_update_witness :
    parseLine NewLogInfo.collscan (findLineOn "b".data "2".data "150".data) =
        some secondNamespaceLine ∧
      OpsMap.get (parseLoop NewLogInfo [findLineOn "a".data "1".data "50".data]).opsMap
        secondNamespaceLine.key = some firstNamespaceEntry ∧
      OpsMap.get (parseLoop NewLogInfo ([findLineOn "a".data "1".data "50".data] ++
          [findLineOn "b".data "2".data "150".data])).opsMap secondNamespaceLine.key =
        some { Command := "find".data, Namespace := "db.b".data,
               Filter := "\x7bid:1\x7d".data, MaxMilli := 150, TotalMilli := 200, Count := 2,
               Scan := COLLSCAN, Index := [] } := by
  have h1 : parseLine NewLogInfo.collscan (findLineOn "b".data "2".data "150".data) =
      some secondNamespaceLine := by
    set_option maxRecDepth 100000 in decide
  have h2 : OpsMap.get (parseLoop NewLogInfo [findLineOn "a".data "1".data "50".data]).opsMap
      secondNamespaceLine.key = some firstNamespaceEntry := by
    set_option maxRecDepth 100000 in decide
  exact ⟨h1, h2, (C12_hit_update NewLogInfo [findLineOn "a".data "1".data "50".data]
    (findLineOn "b".data "2".data "150".data) secondNamespaceLine firstNamespaceEntry h1 h2).1⟩

/-- C13. The line `bothPlansLine` is accepted with an empty scan kind, the text after
its `planSummary: IXSCAN` is `{ msg: 1 }`, and its index label is `COUNT_SCAN`: the
statement for `COUNT_SCAN` tests `scan == ""` and not `index == ""`, as the statements
for `EOF` and `IDHACK` do, and takes the place of the label found before. On every
accepted line that has no such clash the index label is the first candidate that is not
empty in the order IXSCAN, EOF, IDHACK, COUNT_SCAN. -/
theorem C13_count_scan_overrides :
    (parseLine false bothPlansLine).map (fun l => (l.scan, l.index)) =
        some ([], "COUNT_SCAN".data) ∧
      GetDocByField bothPlansLine "planSummary: IXSCAN".data = "\x7b msg: 1 \x7d".data ∧
      (Parse ratOps NewLogInfo [bothPlansLine]).OpsPatterns.map (·.Index) =
        ["COUNT_SCAN".data] ∧
      (∀ collscan str l, parseLine collscan str = some l →
        ¬ (l.scan = [] ∧ contains str "planSummary: COUNT_SCAN".data = true ∧
          (GetDocByField str "planSummary: IXSCAN".data ≠ [] ∨
            contains str "planSummary: EOF".data = true ∨
            contains str "planSummary: IDHACK".data = true)) →
        l.index =
          if GetDocByField str "planSummary: IXSCAN".data ≠ [] then
            GetDocByField str "planSummary: IXSCAN".data
          else if contains str "planSummary: EOF".data = true then "EOF".data
          else if contains str "planSummary: IDHACK".data = true then "IDHACK".data
          else if contains str "planSummary: COUNT_SCAN".data = true ∧ l.scan = [] then
            "COUNT_SCAN".data
          else []) := by
  refine ⟨?_, ?_, ?_, indexLabel_priority⟩
  · set_option maxRecDepth 100000 in decide
  · set_option maxRecDepth 100000 in decide
  · set_option maxRecDepth 100000 in decide

/-- The index label of the line `ixscanLine` is `{ id: 1 }`. -/
theorem indexLabel_ixscanLine :
    parseLine false ixscanLine = some ixscanOpLine ∧
      ixscanOpLine.index = "\x7b id: 1 \x7d".data ∧
      ixscanOpLine.index =
        if ixscanOpLine.scan = [] ∧ contains ixscanLine "planSummary: COUNT_SCAN".data = true then
          "COUNT_SCAN".data
        else if GetDocByField ixscanLine "planSummary: IXSCAN".data ≠ [] then
          GetDocByField ixscanLine "planSummary: IXSCAN".data
        else if contains ixscanLine "planSummary: EOF".data = true then "EOF".data
        else if contains ixscanLine "planSummary: IDHACK".data = true then "IDHACK".data
        else [] := by
  have h : parseLine false ixscanLine = some ixscanOpLine := by
    set_option maxRecDepth 100000 in decide
  exact ⟨h, rfl, indexLabel_spec false ixscanLine ixscanOpLine h⟩

/-- C15, counterexample. The line `deleteConcernAfterLine` is a `delete` that contains
`writeConcern:` after the closing brace of its document: it gives a pattern entry and,
with its 10050 ms, a record in `SlowOps`. -/
theorem C15_counterexample :
    contains deleteConcernAfterLine "writeConcern:".data = true ∧
      (lineOp deleteConcernAfterLine).map (·.1) = some "delete".data ∧
      (Parse ratOps NewLogInfo [deleteConcernAfterLine]).OpsPatterns.map
        (fun d => (d.Command, d.Filter, d.Count)) =
          [("delete".data, "\x7ba:1\x7d".data, 1)] ∧
      (Parse ratOps NewLogInfo [deleteConcernAfterLine]).SlowOps.map (·.Milli) = [10050] := by
  set_option maxRecDepth 100000 in decide

/-- C15, amended, at the line `deleteConcernLine`, a `delete` with
`writeConcern: { w: 1 }` in its document: the line is skipped. -/
theorem C15_delete_writeConcern_witness :
    lineOp deleteConcernLine = some ("delete".data,
        "\x7b delete: \"c\", deletes: [ \x7b q: \x7b a: 1 \x7d, limit: 0 \x7d ], writeConcern: \x7b w: 1 \x7d \x7d".data) ∧
      contains "\x7b delete: \"c\", deletes: [ \x7b q: \x7b a: 1 \x7d, limit: 0 \x7d ], writeConcern: \x7b w: 1 \x7d \x7d".data
        "writeConcern:".data = true ∧
      parseLine false deleteConcernLine = none ∧
      parseStep false (ParseState.mk [] []) deleteConcernLine = ParseState.mk [] [] := by
  have h1 : lineOp deleteConcernLine = some ("delete".data,
      "\x7b delete: \"c\", deletes: [ \x7b q: \x7b a: 1 \x7d, limit: 0 \x7d ], writeConcern: \x7b w: 1 \x7d \x7d".data) := by
    set_option maxRecDepth 100000 in decide
  have h2 : contains "\x7b delete: \"c\", deletes: [ \x7b q: \x7b a: 1 \x7d, limit: 0 \x7d ], writeConcern: \x7b w: 1 \x7d \x7d".data
      "writeConcern:".data = true := by
    set_option maxRecDepth 100000 in decide
  exact ⟨h1, h2, C15_delete_writeConcern false (ParseState.mk [] []) deleteConcernLine _ h1 h2⟩

/-- C16, at the line `cmdNamespaceLine`, a `find` of 10050 ms on `db.$cmd`: the line
leaves the per-pattern map and `SlowOps` empty, and `Parse` on this line alone gives no
entry and no slow operation. -/
theorem C16_namespace_discarded_witness :
    hasDiscardedNs cmdNamespaceLine = true ∧
      parseStep NewLogInfo.collscan (ParseState.mk [] []) cmdNamespaceLine =
        ParseState.mk [] [] ∧
      (Parse ratOps NewLogInfo [cmdNamespaceLine]).OpsPatterns = [] ∧
      (Parse ratOps NewLogInfo [cmdNamespaceLine]).SlowOps = [] := by
  have h : hasDiscardedNs cmdNamespaceLine = true := by
    set_option maxRecDepth 100000 in decide
  have h2 := (C16_namespace_discarded ratOps NewLogInfo [cmdNamespaceLine]).2.2
  have e : [cmdNamespaceLine].filter (fun str => !hasDiscardedNs str) = [] := by
    simp [h]
  rw [e] at h2
  refine ⟨h, (C16_namespace_discarded ratOps NewLogInfo []).2.1 _ _ h, ?_, ?_⟩
  · rw [h2]; rfl
  · rw [h2]; rfl

/-- C21, at the two lines of `twoNamespaceLines`, which `Parse` accepts with the same
key: they have the same operation, canonical filter and scan kind. -/
theorem C21_key_injective_witness :
    parseLine false (findLineOn "a".data "1".data "50".data) = some firstNamespaceLine ∧
      parseLine false (findLineOn "b".data "2".data "150".data) = some secondNamespaceLine ∧
      firstNamespaceLine.key = secondNamespaceLine.key ∧
      firstNamespaceLine.op = secondNamespaceLine.op ∧
      firstNamespaceLine.filter = secondNamespaceLine.filter ∧
      firstNamespaceLine.scan = secondNamespaceLine.scan := by
  have h1 : parseLine false (findLineOn "a".data "1".data "50".data) =
      some firstNamespaceLine := by
    set_option maxRecDepth 100000 in decide
  have h2 : parseLine false (findLineOn "b".data "2".data "150".data) =
      some secondNamespaceLine := by
    set_option maxRecDepth 100000 in decide
  exact ⟨h1, h2, rfl, C21_key_injective.2 _ _ _ _ _ _ h1 h2 rfl⟩

end Keyhole
